import Mathlib

/-!
A first-fit allocator over a growable heap (`hw3/mm_alloc.c`).

Shallow embedding of `mm_malloc`, `mm_free`, `mm_realloc` and their helpers
`find_free_block`, `append`, `split_block`.

* Memory is a flat, byte-addressed map `Nat → Nat`. Header fields are stored
  little-endian at the LP64 offsets of `struct block_metadata`
  (`size` at 0, 8 bytes; `free` at 8, 4 bytes; `next` at 16, 8 bytes;
  `prev` at 24, 8 bytes; `sizeof = 32`).
* `size_t` arithmetic is taken modulo `2 ^ 64`; pointer arithmetic is left
  unreduced (an out-of-range pointer has no defined behaviour in C).
* `sbrk` is the external grow-heap primitive. Its parameter is an `intptr_t`:
  a byte count up to `INTPTR_MAX` extends the break by exactly that amount, a
  larger one is a negative increment and lowers the break. The call returns
  the previous break, or fails with `(void*)-1` and changes nothing. Every
  call is logged in `State.calls`.
* The `while` loop of `find_free_block` is driven by a fuel argument.
* Two workloads of `hw3/mm_test.c`, `mm_malloc_small_reuse` and
  `mm_realloc_small_reuse`, are embedded as loops over these functions; a
  failed `assert` is a fault.
-/

namespace MM

/-! ## Byte-addressed memory -/

abbrev Mem := Nat → Nat

/-- Little-endian load of `n` bytes starting at address `a`. -/
def load (m : Mem) : Nat → Nat → Nat
  | _, 0 => 0
  | a, n + 1 => m a % 256 + 256 * load m (a + 1) n

/-- Little-endian store of the low `n` bytes of `v` at address `a`. -/
def store (m : Mem) (a n v : Nat) : Mem :=
  fun x => if a ≤ x ∧ x < a + n then v / 256 ^ (x - a) % 256 else m x

/-- The libc `memset(dst, c, n)`. -/
def memset (m : Mem) (dst c n : Nat) : Mem :=
  fun x => if dst ≤ x ∧ x < dst + n then c % 256 else m x

/-- The libc `memcpy(dst, buf, n)` from a staged buffer (`buf i` is byte `i`). -/
def memcpy (m : Mem) (dst : Nat) (buf : Nat → Nat) (n : Nat) : Mem :=
  fun x => if dst ≤ x ∧ x < dst + n then buf (x - dst) else m x

/-! ## `struct block_metadata` -/

/-- Value of `sizeof(struct block_metadata)`, the macro `BLOCK_SIZE`. -/
def BLOCK_SIZE : Nat := 32

/-- Number of values of `size_t`. -/
def WORD : Nat := 2 ^ 64

/-- The failure sentinel `(void*)-1` of `sbrk`. -/
def SBRK_FAIL : Nat := 2 ^ 64 - 1

/-- Unsigned subtraction of `size_t` values. -/
def usub (x y : Nat) : Nat := (x + (WORD - y % WORD)) % WORD

def get_size (m : Mem) (b : Nat) : Nat := load m b 8
def get_free (m : Mem) (b : Nat) : Nat := load m (b + 8) 4
def get_next (m : Mem) (b : Nat) : Nat := load m (b + 16) 8
def get_prev (m : Mem) (b : Nat) : Nat := load m (b + 24) 8

def set_size (m : Mem) (b v : Nat) : Mem := store m b 8 v
def set_free (m : Mem) (b v : Nat) : Mem := store m (b + 8) 4 v
def set_next (m : Mem) (b v : Nat) : Mem := store m (b + 16) 8 v
def set_prev (m : Mem) (b v : Nat) : Mem := store m (b + 24) 8 v

/-! ## Allocator state -/

/-- The globals `head` and `tail`, the heap bytes, and the environment of
`sbrk`: the current break `brk`, the largest break `limit` the system grants,
and the log `calls` of the byte counts passed to `sbrk`. -/
structure State where
  mem : Mem
  head : Nat
  tail : Nat
  brk : Nat
  limit : Nat
  calls : List Nat

/-- Largest value of `intptr_t`, the parameter type of `sbrk`. -/
def INTPTR_MAX : Nat := 2 ^ 63 - 1

/-- The grow-heap primitive `sbrk(inc)`, called with the 64-bit pattern `inc`.
Read as an `intptr_t`, a pattern up to `INTPTR_MAX` is the increment `inc`, and
the call fails when the break would exceed `limit`; a larger pattern is the
negative increment `inc - 2 ^ 64`, which lowers the break by `WORD - inc`, and
the call fails only when the break would fall below address 0. -/
def sbrk (s : State) (inc : Nat) : State × Nat :=
  if inc ≤ INTPTR_MAX then
    if s.brk + inc ≤ s.limit then
      ({ s with brk := s.brk + inc, calls := s.calls ++ [inc] }, s.brk)
    else
      ({ s with calls := s.calls ++ [inc] }, SBRK_FAIL)
  else
    if WORD - inc ≤ s.brk then
      ({ s with brk := s.brk - (WORD - inc), calls := s.calls ++ [inc] }, s.brk)
    else
      ({ s with calls := s.calls ++ [inc] }, SBRK_FAIL)

/-- Ways a run can fail to return: the scan ran out of fuel, the program wrote
through a null pointer, or an `assert` of a test did not hold. -/
inductive Fault where
  | fuel
  | nullWrite
  | assertion
  deriving DecidableEq, Repr

/-! ## The functions of `mm_alloc.c` -/

/-- The scan `find_free_block(size)` started at `block`; `none` when the fuel
is exhausted before the loop exits. -/
def find_free_block : Nat → Mem → Nat → Nat → Option Nat
  | 0, _, _, _ => none
  | fuel + 1, m, block, size =>
    if block ≠ 0 ∧ (get_free m block = 0 ∨ get_size m block < size) then
      find_free_block fuel m (get_next m block) size
    else
      some block

/-- The helper `append(dest, src)`: `dest` absorbs `src`. -/
def append (s : State) (dest src : Nat) : State :=
  let m1 := set_next s.mem dest (get_next s.mem src)
  let m2 := if get_next m1 src ≠ 0 then set_prev m1 (get_next m1 src) dest else m1
  let tail1 := if src = s.tail then dest else s.tail
  let m3 := set_size m2 dest ((get_size m2 dest + (get_size m2 src + BLOCK_SIZE) % WORD) % WORD)
  let m4 := memset m3 src 0 ((BLOCK_SIZE + get_size m3 src) % WORD)
  { s with mem := m4, tail := tail1 }

/-- The helper `split_block(block, needed_size)`. -/
def split_block (s : State) (block needed_size : Nat) : State :=
  if get_size s.mem block > (needed_size + BLOCK_SIZE) % WORD then
    let new_free_block := block + BLOCK_SIZE + needed_size
    let m1 := set_free s.mem new_free_block 1
    let m2 := set_size m1 new_free_block (usub (usub (get_size m1 block) needed_size) BLOCK_SIZE)
    let tail1 := if block = s.tail then new_free_block else s.tail
    let m3 := set_next m2 new_free_block (get_next m2 block)
    let m4 := set_prev m3 new_free_block block
    let m5 := if get_next m4 block ≠ 0 then set_prev m4 (get_next m4 block) new_free_block else m4
    let m6 := set_next m5 block new_free_block
    let m7 := set_size m6 block needed_size
    { s with mem := m7, tail := tail1 }
  else s

/-- The growth branch of `mm_malloc` (lines 31-49): no fitting block was found. -/
def grow (s : State) (size : Nat) : State × Nat :=
  let r := sbrk s ((BLOCK_SIZE + size) % WORD)
  let s1 := r.1
  let new_block := r.2
  if new_block = SBRK_FAIL then (s1, 0)
  else
    let m1 := if s1.head = 0 then set_prev s1.mem new_block 0 else s1.mem
    let head1 := if s1.head = 0 then new_block else s1.head
    let m2 := set_free m1 new_block 0
    let m3 := set_size m2 new_block size
    let m4 := if s1.tail ≠ 0 then set_prev (set_next m3 s1.tail new_block) new_block s1.tail else m3
    let m5 := set_next m4 new_block 0
    ({ s1 with mem := m5, head := head1, tail := new_block }, new_block + BLOCK_SIZE)

/-- The reuse branch of `mm_malloc` (lines 51-54): `block` was found. -/
def reuse (s : State) (block size : Nat) : State × Nat :=
  let s1 := split_block s block size
  ({ s1 with mem := set_free s1.mem block 0 }, block + BLOCK_SIZE)

/-- The entry point `mm_malloc(size)`; the result pointer `0` is `NULL`. -/
def mm_malloc (fuel : Nat) (s : State) (size : Nat) : Except Fault (State × Nat) :=
  if size = 0 then .ok (s, 0)
  else
    match find_free_block fuel s.mem s.head size with
    | none => .error .fuel
    | some block => if block = 0 then .ok (grow s size) else .ok (reuse s block size)

/-- The entry point `mm_free(ptr)`. -/
def mm_free (s : State) (ptr : Nat) : State :=
  if ptr = 0 then s
  else
    let block := ptr - BLOCK_SIZE
    let s1 := { s with mem := set_free s.mem block 1 }
    let s2 :=
      if get_next s1.mem block ≠ 0 ∧ get_free s1.mem (get_next s1.mem block) ≠ 0 then
        append s1 block (get_next s1.mem block)
      else s1
    if get_prev s2.mem block ≠ 0 ∧ get_free s2.mem (get_prev s2.mem block) ≠ 0 then
      append s2 (get_prev s2.mem block) block
    else s2

/-- The entry point `mm_realloc(ptr, size)`. Copying a positive number of
staged bytes through a null result is a fault. -/
def mm_realloc (fuel : Nat) (s : State) (ptr size : Nat) : Except Fault (State × Nat) :=
  if ptr ≠ 0 then
    let prev_block := ptr - BLOCK_SIZE
    let size_to_copy :=
      if size < get_size s.mem prev_block then size else get_size s.mem prev_block
    let buffer : Nat → Nat := fun i => s.mem (ptr + i)
    let s1 := mm_free s ptr
    if size = 0 then .ok (s1, 0)
    else
      match mm_malloc fuel s1 size with
      | .error e => .error e
      | .ok (s2, res) =>
        if res = 0 ∧ 0 < size_to_copy then .error .nullWrite
        else .ok ({ s2 with mem := memcpy s2.mem res buffer size_to_copy }, res)
  else mm_malloc fuel s size

/-! ## The workloads of `mm_test.c` -/

/-- Value of `sizeof(int)`. -/
def INT_SIZE : Nat := 4

/-- The allocation loop of the tests, rounds `0 .. k - 1`:
`arrays[i] = mm_malloc(sizeof(int)); assert(arrays[i] != NULL); arrays[i][0] = i;`.
Returns the state after the loop and the array of pointers (`arrays i` is
`arrays[i]`). -/
def alloc_ints (fuel : Nat) : Nat → State → Except Fault (State × (Nat → Nat))
  | 0, s => .ok (s, fun _ => 0)
  | i + 1, s =>
    match alloc_ints fuel i s with
    | .error e => .error e
    | .ok (s1, arrays) =>
      match mm_malloc fuel s1 INT_SIZE with
      | .error e => .error e
      | .ok (s2, p) =>
        if p = 0 then .error .assertion
        else .ok ({ s2 with mem := store s2.mem p INT_SIZE i },
          fun x => if x = i then p else arrays x)

/-- The test `mm_malloc_small_reuse` for `size` integers, up to the end of its
allocation loop (lines 139-151): hog a big block, release it, allocate `size`
single integers. -/
def mm_malloc_small_reuse (fuel size : Nat) (s : State) :
    Except Fault (State × (Nat → Nat)) :=
  match mm_malloc fuel s (INT_SIZE * size % WORD) with
  | .error e => .error e
  | .ok (s1, big_array) => alloc_ints fuel size (mm_free s1 big_array)

/-- The release loop of `mm_realloc_small_reuse`, rounds `0 .. j - 1`:
`for (i = 1; i < size; i += 2) mm_free(arrays[i]);`. -/
def free_odd (arrays : Nat → Nat) : Nat → State → State
  | 0, s => s
  | j + 1, s => mm_free (free_odd arrays j s) (arrays (2 * j + 1))

/-- The resize loop of `mm_realloc_small_reuse`, rounds `0 .. j - 1`:
`for (i = 0; i < size; i += 2) arrays[i] = mm_realloc(arrays[i], 2 * sizeof(int));`. -/
def realloc_even (fuel : Nat) :
    Nat → State → (Nat → Nat) → Except Fault (State × (Nat → Nat))
  | 0, s, arrays => .ok (s, arrays)
  | j + 1, s, arrays =>
    match realloc_even fuel j s arrays with
    | .error e => .error e
    | .ok (s1, arrays1) =>
      match mm_realloc fuel s1 (arrays1 (2 * j)) (2 * INT_SIZE) with
      | .error e => .error e
      | .ok (s2, r) => .ok (s2, fun x => if x = 2 * j then r else arrays1 x)

/-- The test `mm_realloc_small_reuse` for `size` integers, up to its assertion
on the break (lines 107-129): allocate and fill `size` integers, read the
break, release the odd-indexed blocks, resize the even-indexed ones to two
integers, and compare the break. -/
def mm_realloc_small_reuse (fuel size : Nat) (s : State) :
    Except Fault (State × (Nat → Nat)) :=
  match alloc_ints fuel size s with
  | .error e => .error e
  | .ok (s1, arrays) =>
    let break_limit := s1.brk
    match realloc_even fuel ((size + 1) / 2) (free_odd arrays (size / 2) s1) arrays with
    | .error e => .error e
    | .ok (s3, arrays3) =>
      if break_limit = s3.brk then .ok (s3, arrays3) else .error .assertion

/-! ## Reading the block directory out of memory -/

/-- The list `l` is the chain of block addresses reached from `a` by following
`next` until `NULL`. -/
def Chain (m : Mem) : Nat → List Nat → Prop
  | a, [] => a = 0
  | a, b :: l => a ≠ 0 ∧ a = b ∧ Chain m (get_next m b) l

/-- Whether a list is the chain from `a` can be checked by reading memory. -/
def Chain.decide (m : Mem) : (a : Nat) → (l : List Nat) → Decidable (Chain m a l)
  | a, [] => inferInstanceAs (Decidable (a = 0))
  | a, b :: l =>
    @instDecidableAnd (a ≠ 0) (a = b ∧ Chain m (get_next m b) l) _
      (@instDecidableAnd (a = b) (Chain m (get_next m b) l) _ (Chain.decide m (get_next m b) l))

instance (m : Mem) (a : Nat) (l : List Nat) : Decidable (Chain m a l) := Chain.decide m a l

/-- The block directory of a state: the chain that starts at `head`. -/
def Directory (s : State) (l : List Nat) : Prop := Chain s.mem s.head l

instance (s : State) (l : List Nat) : Decidable (Directory s l) :=
  inferInstanceAs (Decidable (Chain s.mem s.head l))

/-- A payload pointer is live when it is `block + BLOCK_SIZE` for a block of
the directory that is marked used. -/
def Live (s : State) (p : Nat) : Prop :=
  ∃ l, Directory s l ∧ ∃ b ∈ l, p = b + BLOCK_SIZE ∧ get_free s.mem b = 0

/-- A caller's write of one byte into memory. -/
def poke (s : State) (x v : Nat) : State := { s with mem := store s.mem x 1 v }

/-- States reachable from an empty directory by calls with valid arguments
whose byte count `BLOCK_SIZE + size` is at most `INTPTR_MAX`, so that it
neither wraps nor reaches `sbrk` as a negative increment: pointers are live (or
null), and between calls the caller may write into live payloads. -/
inductive Reachable : State → Prop where
  | init (m : Mem) (brk0 limit : Nat) (h0 : 0 < brk0) (h1 : brk0 ≤ limit) (h2 : limit < SBRK_FAIL) :
      Reachable ⟨m, 0, 0, brk0, limit, []⟩
  | malloc (s s1 : State) (fuel size p : Nat) (hs : Reachable s)
      (hsize : BLOCK_SIZE + size ≤ INTPTR_MAX) (h : mm_malloc fuel s size = .ok (s1, p)) :
      Reachable s1
  | free (s : State) (p : Nat) (hs : Reachable s) (hp : p = 0 ∨ Live s p) :
      Reachable (mm_free s p)
  | realloc (s s1 : State) (fuel p size r : Nat) (hs : Reachable s)
      (hp : p = 0 ∨ Live s p) (hsize : BLOCK_SIZE + size ≤ INTPTR_MAX)
      (h : mm_realloc fuel s p size = .ok (s1, r)) :
      Reachable s1
  | write (s : State) (p x v : Nat) (hs : Reachable s) (hp : Live s p)
      (hx1 : p ≤ x) (hx2 : x < p + get_size s.mem (p - BLOCK_SIZE)) :
      Reachable (poke s x v)

/-- A block is free when its `free` field is non-zero. -/
abbrev is_free (m : Mem) (b : Nat) : Prop := get_free m b ≠ 0

/-- No block of the directory is free together with its `next` block. -/
def NoAdjacentFree (s : State) : Prop :=
  ∀ l, Directory s l → ∀ b ∈ l, get_next s.mem b ≠ 0 →
    ¬ (is_free s.mem b ∧ is_free s.mem (get_next s.mem b))

/-- The structure invariant of the directory: the chain from `head` is laid
out contiguously in strictly increasing address order, `prev` inverts `next`,
`tail` is the last block of the chain and the last block ends at the break. -/
def DirectoryInvariant (s : State) : Prop :=
  ∃ l, Directory s l ∧
    (∀ b ∈ l, get_next s.mem b ≠ 0 →
      get_next s.mem b = b + BLOCK_SIZE + get_size s.mem b ∧
        b < get_next s.mem b ∧ get_prev s.mem (get_next s.mem b) = b) ∧
    l.Pairwise (fun a b => a < b) ∧
    (s.head ≠ 0 → get_prev s.mem s.head = 0) ∧
    l.getLast? = (if s.tail = 0 then none else some s.tail) ∧
    (s.tail ≠ 0 → get_next s.mem s.tail = 0 ∧
      s.tail + BLOCK_SIZE + get_size s.mem s.tail = s.brk) ∧
    (s.head = 0 ↔ s.tail = 0)

/-- Sum of `BLOCK_SIZE + size` over the blocks at the addresses `l`. -/
def footprint (s : State) (l : List Nat) : Nat :=
  (l.map (fun b => BLOCK_SIZE + get_size s.mem b)).sum

/-- The block after `b` exists and is free. -/
abbrev nextFree (s : State) (b : Nat) : Prop :=
  get_next s.mem b ≠ 0 ∧ get_free s.mem (get_next s.mem b) ≠ 0

/-- The block before `b` exists and is free. -/
abbrev prevFree (s : State) (b : Nat) : Prop :=
  get_prev s.mem b ≠ 0 ∧ get_free s.mem (get_prev s.mem b) ≠ 0

/-- The block that survives the release of `b`: its free predecessor, else `b`. -/
def survivor (s : State) (b : Nat) : Nat :=
  if prevFree s b then get_prev s.mem b else b

/-- The size the surviving block is expected to have after the release of `b`. -/
def mergedSize (s : State) (b : Nat) : Nat :=
  get_size s.mem b +
    (if nextFree s b then get_size s.mem (get_next s.mem b) + BLOCK_SIZE else 0) +
    (if prevFree s b then get_size s.mem (get_prev s.mem b) + BLOCK_SIZE else 0)

/-- Block `c` is absorbed by the release of `b`: it is `b` itself merged into a
free predecessor, or the free successor of `b`. -/
abbrev absorbed (s : State) (b c : Nat) : Prop :=
  (c = b ∧ prevFree s b) ∨ (c = get_next s.mem b ∧ nextFree s b)

/-! ## Abstract view of the directory -/

/-- Abstract block: payload size and free flag. -/
structure Blk where
  size : Nat
  free : Bool
  deriving DecidableEq, Repr

/-- The stored value of the `free` field. -/
def flag (b : Bool) : Nat := if b then 1 else 0

/-- Total footprint of a list of blocks, headers included. -/
def span : List Blk → Nat
  | [] => 0
  | b :: l => BLOCK_SIZE + b.size + span l

/-- The four fields of the header at address `a`. -/
def Hdr (m : Mem) (a sz fr nx pv : Nat) : Prop :=
  get_size m a = sz ∧ get_free m a = fr ∧ get_next m a = nx ∧ get_prev m a = pv

/-- Value of a block's `next`: `a` when blocks follow, else `e`. -/
def nxt (e a : Nat) : List Blk → Nat
  | [] => e
  | _ :: _ => a

/-- Address of the last block of `l` laid out from `a`; `pv` when `l` is empty. -/
def lastAddr : Nat → Nat → List Blk → Nat
  | pv, _, [] => pv
  | _, a, b :: l => lastAddr a (a + BLOCK_SIZE + b.size) l

/-- Addresses of the blocks of `l` laid out contiguously from `a`. -/
def addrs : Nat → List Blk → List Nat
  | _, [] => []
  | a, b :: l => a :: addrs (a + BLOCK_SIZE + b.size) l

/-- Memory holds the blocks `l` contiguously from address `a`; the first block's
`prev` is `pv` and the last block's `next` is `e`. -/
def Lay (m : Mem) : Nat → Nat → Nat → List Blk → Prop
  | _, _, _, [] => True
  | a, pv, e, b :: l =>
    Hdr m a b.size (flag b.free) (nxt e (a + BLOCK_SIZE + b.size) l) pv ∧
      Lay m (a + BLOCK_SIZE + b.size) a e l

/-- The state represents the abstract directory `bs`. -/
def Repr (s : State) (bs : List Blk) : Prop :=
  Lay s.mem s.head 0 0 bs ∧ s.tail = lastAddr 0 s.head bs ∧
    (bs = [] → s.head = 0) ∧ (bs ≠ [] → s.head ≠ 0 ∧ s.head + span bs = s.brk) ∧
    0 < s.brk ∧ s.brk ≤ s.limit ∧ s.limit < SBRK_FAIL

/-- No two neighbours of the abstract directory are both free. -/
def NoAdj : List Blk → Prop
  | [] => True
  | [_] => True
  | b :: c :: l => ¬ (b.free = true ∧ c.free = true) ∧ NoAdj (c :: l)

/-- A block fits a request of `n` bytes. -/
def Fits (n : Nat) (b : Blk) : Prop := b.free = true ∧ n ≤ b.size

/-- Release step 1 on the abstract directory: the released block absorbs a free
right neighbour. Returns the resulting block and what remains to its right. -/
def mergeNext (b : Blk) : List Blk → Blk × List Blk
  | [] => (⟨b.size, true⟩, [])
  | c :: l2 =>
    if c.free then (⟨b.size + c.size + BLOCK_SIZE, true⟩, l2) else (⟨b.size, true⟩, c :: l2)

/-- Release step 2 on the abstract directory: a free left neighbour (the last
block of `l1`) absorbs the block `b1`. -/
def mergePrev (l1 : List Blk) (b1 : Blk) (r : List Blk) : List Blk :=
  match l1.getLast? with
  | none => b1 :: r
  | some p =>
    if p.free then l1.dropLast ++ ⟨p.size + b1.size + BLOCK_SIZE, true⟩ :: r
    else l1 ++ b1 :: r

/-- The blocks left of a released block that survive the second coalescing step. -/
def leftKeep (l1 : List Blk) : List Blk :=
  match l1.getLast? with
  | none => l1
  | some p => if p.free then l1.dropLast else l1

/-- The block that results from the second coalescing step. -/
def mergedBlk (l1 : List Blk) (b1 : Blk) : Blk :=
  match l1.getLast? with
  | none => b1
  | some p => if p.free then ⟨p.size + b1.size + BLOCK_SIZE, true⟩ else b1

/-- Abstract effect of releasing the block `b` that sits between `l1` and `l2`. -/
def afree (l1 : List Blk) (b : Blk) (l2 : List Blk) : List Blk :=
  mergePrev l1 (mergeNext b l2).1 (mergeNext b l2).2

/-- Abstract effect of a request for `n` bytes served by the free block `b`. -/
def asplit (n : Nat) (b : Blk) : List Blk :=
  if n + BLOCK_SIZE < b.size then [⟨n, false⟩, ⟨b.size - n - BLOCK_SIZE, true⟩]
  else [⟨b.size, false⟩]

/-- Abstract effect of `mm_malloc n` on the directory when a block fits: the
first fitting block is split or handed over whole. -/
def aalloc (n : Nat) : List Blk → List Blk
  | [] => []
  | b :: l => if b.free = true ∧ n ≤ b.size then asplit n b ++ l else b :: aalloc n l

/-- The first coalescing step of `mm_free` (lines 97-99). -/
def free_next (s : State) (block : Nat) : State :=
  if get_next s.mem block ≠ 0 ∧ get_free s.mem (get_next s.mem block) ≠ 0 then
    append s block (get_next s.mem block)
  else s

/-- The second coalescing step of `mm_free` (lines 101-103). -/
def free_prev (s : State) (block : Nat) : State :=
  if get_prev s.mem block ≠ 0 ∧ get_free s.mem (get_prev s.mem block) ≠ 0 then
    append s (get_prev s.mem block) block
  else s

/-- The state of `mm_free(ptr)` after its first coalescing step (lines 93-99):
the block is marked free and has absorbed a free successor. -/
def mm_free_step1 (s : State) (ptr : Nat) : State :=
  free_next { s with mem := set_free s.mem (ptr - BLOCK_SIZE) 1 } (ptr - BLOCK_SIZE)

/-- Block `c` of the list sits at address `x` when the list is laid out from `a`. -/
def At : Nat → List Blk → Nat → Blk → Prop
  | _, [], _, _ => False
  | a, b :: l, x, c => (x = a ∧ c = b) ∨ At (a + BLOCK_SIZE + b.size) l x c

/-- A state whose memory holds a well-formed directory: some list of blocks is
laid out contiguously from `head` up to the break, doubly linked, with `tail`
its last block. -/
def WellFormed (s : State) : Prop := ∃ bs, Repr s bs

/-- Memory holds the directory `bs` from `head`, without any statement about
the break or `tail`. -/
def Rep0 (s : State) (bs : List Blk) : Prop :=
  Lay s.mem s.head 0 0 bs ∧ (bs = [] → s.head = 0) ∧ (bs ≠ [] → s.head ≠ 0)

/-- The live block behind the payload pointer `p` is kept from `s` to `s1`: the
pointer is still live, and the block's size, used status and payload bytes are
the same. -/
def Kept (s s1 : State) (p : Nat) : Prop :=
  Live s1 p ∧ get_size s1.mem (p - BLOCK_SIZE) = get_size s.mem (p - BLOCK_SIZE) ∧
    get_free s1.mem (p - BLOCK_SIZE) = 0 ∧
    ∀ x, p ≤ x → x < p + get_size s.mem (p - BLOCK_SIZE) → s1.mem x = s.mem x

/-- The block at address `b` fits a request of `n` bytes. -/
abbrev fits (m : Mem) (n b : Nat) : Prop := is_free m b ∧ n ≤ get_size m b

/-- The allocator invariant: the state represents a directory without two
neighbouring free blocks and without empty blocks. -/
def Inv (s : State) : Prop :=
  ∃ bs, Repr s bs ∧ NoAdj bs ∧ ∀ b ∈ bs, 0 < b.size

/-- The used block of one integer. -/
def intBlk : Blk := ⟨INT_SIZE, false⟩

/-- The directory of `mm_malloc_small_reuse` after `k` rounds of its loop: the
rounds carve blocks of one integer off the released block of 40000 bytes, 36
bytes each; round 1112 takes the remaining 4 bytes whole, and from then on the
directory holds used blocks only. -/
def small_reuse_dir (k : Nat) : List Blk :=
  if k ≤ 1111 then List.replicate k intBlk ++ [⟨40000 - 36 * k, true⟩]
  else List.replicate k intBlk

/-- Concatenation of the `n` chunks `f i, f (i + 1), ...` of a directory. -/
def chunksFrom (f : Nat → List Blk) : Nat → Nat → List Blk
  | _, 0 => []
  | i, n + 1 => f i ++ chunksFrom f (i + 1) n

/-- The free block of one integer. -/
def intFree : Blk := ⟨INT_SIZE, true⟩

/-- The used block made of two neighbouring blocks of one integer. -/
def pairBlk : Blk := ⟨INT_SIZE + INT_SIZE + BLOCK_SIZE, false⟩

/-- The pairs of blocks of `mm_realloc_small_reuse` after `j` rounds of its
release loop: in the first `j` pairs the odd-indexed block is free. -/
def released_dir (j : Nat) : Nat → List Blk :=
  fun i => if i < j then [intBlk, intFree] else [intBlk, intBlk]

/-- The pairs of blocks of `mm_realloc_small_reuse` after `j` rounds of its
resize loop: the first `j` pairs have become one used block each. -/
def resized_dir (j : Nat) : Nat → List Blk :=
  fun i => if i < j then [pairBlk] else [intBlk, intFree]

/-! ## Concrete states used to instantiate the theorems -/

/-- An empty directory with break 4096 and limit 65536. -/
def w0 : State := ⟨fun _ => 0, 0, 0, 4096, 65536, []⟩

/-- After `mm_malloc(100)` on `w0`: one used block at 4096. -/
def w1 : State := (grow w0 100).1

/-- After `mm_malloc(50)` on `w1`: used blocks at 4096 and 4228. -/
def w2 : State := (grow w1 50).1

/-- After `mm_free(4128)` on `w2`: the block at 4096 is free. -/
def w3 : State := mm_free w2 4128

/-- After `mm_malloc(2 ^ 64 - 1)` on `w0`, the largest value of `size_t`. -/
def wmax : State := (grow w0 (2 ^ 64 - 1)).1

/-- After `mm_malloc(16)` on `w3`: the block at 4096 is split at 4144. -/
def w4 : State := (reuse w3 4096 16).1

/-- The state `w2` after the caller wrote the byte 7 into the payload at 4130. -/
def w6 : State := poke w2 4130 7

/-- An empty directory whose break can grow by 132 bytes only. -/
def wlim : State := ⟨fun _ => 0, 0, 0, 4096, 4228, []⟩

/-- After `mm_malloc(100)` on `wlim`: the break has reached the limit. -/
def wlim1 : State := (grow wlim 100).1

/-- After `mm_free(4128)` on `w1`: one free block of 100 bytes at 4096. -/
def wr1 : State := mm_free w1 4128

/-- After `mm_malloc(2 ^ 64 - 1)` on `wr1`. -/
def wr2 : State := (grow wr1 (2 ^ 64 - 1)).1

/-- After `mm_free(4260)` on `wr2`. -/
def wr3 : State := mm_free wr2 4260

/-- After `mm_malloc(1000)` on `wr3`. -/
def wr4 : State := (grow wr3 1000).1

/-- After `mm_free(4260)` on `w3`: one free block of 182 bytes at 4096. -/
def w8 : State := mm_free w3 4260

/-- After `mm_malloc(182)` on `w8`: the block at 4096 is taken whole. -/
def w9 : State := (reuse w8 4096 182).1

/-- The state `w3` after the caller wrote the byte 9 into the payload at 4262. -/
def w10 : State := poke w3 4262 9

/-- An empty directory with break 4096 whose break may grow up to `2 ^ 32`. -/
def wbig : State := ⟨fun _ => 0, 0, 0, 4096, 2 ^ 32, []⟩

/-! ### States behind a request whose byte count exceeds `INTPTR_MAX` -/

/-- After `mm_malloc(2 ^ 64 - 100)` on `w2`: `sbrk` received `-68`, the break is
down at 4242, and a block of `2 ^ 64 - 100` bytes is recorded at 4310. -/
def wneg1 : State := (grow w2 (2 ^ 64 - 100)).1

/-- After `mm_malloc(10)` on `wneg1`: the new block sits at 4242, on top of the
block at 4228. -/
def wneg2 : State := (grow wneg1 10).1

/-- After `mm_realloc(4342, 5)` on `wneg2`: the released block is not found,
a new block at 4284 receives the 5 staged bytes. -/
def wneg5 : State :=
  { (grow (mm_free wneg2 4342) 5).1 with
    mem := memcpy (grow (mm_free wneg2 4342) 5).1.mem 4316 (fun i => wneg2.mem (4342 + i)) 5 }

/-- After `mm_malloc(2 ^ 64 - 130)` on `w2`: `sbrk` received `-98`, the break is
down at 4212. -/
def wzero1 : State := (grow w2 (2 ^ 64 - 130)).1

/-- After `mm_malloc(10)` on `wzero1`: the new header at 4212 reaches into the
header of the block at 4228. -/
def wzero2 : State := (grow wzero1 10).1

/-- After `mm_malloc(2 ^ 64 - 16)` on `w0`: `sbrk` received 16, the break is at
4112, inside the header of the block at 4096. -/
def wclob1 : State := (grow w0 (2 ^ 64 - 16)).1

/-- After `mm_malloc(10)` on `wclob1`: the new block sits at 4112. -/
def wclob2 : State := (grow wclob1 10).1

/-- After `mm_free(4144)` and `mm_free(4128)` on `wclob2`. -/
def wclob3 : State := mm_free (mm_free wclob2 4144) 4128

/-- After `mm_malloc(8)` on `w0`: one used block of 8 bytes at 4096. -/
def wcopy1 : State := (grow w0 8).1

/-- After `mm_malloc(2 ^ 64 - 24)` on `wcopy1`: `sbrk` received 8, the break is
at 4144, inside the header of the new block at 4136. -/
def wcopy2 : State := (grow wcopy1 (2 ^ 64 - 24)).1

/-- After `mm_realloc(4128, 20)` on `wcopy2`: a new block at 4144 receives the 8
staged bytes. -/
def wcopy3 : State :=
  { (grow (mm_free wcopy2 4128) 20).1 with
    mem := memcpy (grow (mm_free wcopy2 4128) 20).1.mem 4176 (fun i => wcopy2.mem (4128 + i)) 8 }

/-- The state `wr2` after the caller wrote the byte 7 at the start of the
payload at 4260. -/
def wpay : State := poke wr2 4260 7

/-- After `mm_free(4128)` on `wmax`: one free block of `2 ^ 64 - 1` bytes. -/
def wmaxf : State := mm_free wmax 4128

/-- After `mm_malloc(10)` on `wmax`: the new block sits at 4127, on the last
byte of the header of the block at 4096. -/
def wmax2 : State := (grow wmax 10).1

/-! # Theorems -/

theorem load_congr (m m1 : Mem) (n : Nat) : ∀ a : Nat,
    (∀ x, a ≤ x → x < a + n → m1 x = m x) → load m1 a n = load m a n := by
  induction n with
  | zero => intro a _; rfl
  | succ k ih =>
    intro a h
    simp only [load]
    rw [h a (Nat.le_refl a) (by omega), ih (a + 1) (fun x h1 h2 => h x (by omega) (by omega))]

theorem store_out (m : Mem) (a n v x : Nat) (h : x < a ∨ a + n ≤ x) :
    store m a n v x = m x := by
  unfold store
  rw [if_neg (by omega)]

theorem load_store_disj (m : Mem) (a n v b k : Nat) (h : b + k ≤ a ∨ a + n ≤ b) :
    load (store m a n v) b k = load m b k :=
  load_congr m _ k b (fun x h1 h2 => store_out m a n v x (by omega))

theorem load_store_same (m : Mem) (n : Nat) : ∀ a v : Nat,
    load (store m a n v) a n = v % 256 ^ n := by
  induction n with
  | zero => intro a v; simp [load, Nat.mod_one]
  | succ k ih =>
    intro a v
    have h1 : load (store m a (k + 1) v) (a + 1) k = load (store m (a + 1) k (v / 256)) (a + 1) k := by
      apply load_congr
      intro x hx1 hx2
      unfold store
      rw [if_pos (by omega), if_pos (by omega)]
      have : x - a = (x - (a + 1)) + 1 := by omega
      rw [this, pow_succ, Nat.mul_comm, Nat.div_div_eq_div_mul]
    simp only [load]
    rw [h1, ih]
    have h2 : store m a (k + 1) v a = v % 256 := by
      unfold store
      rw [if_pos (by omega)]
      simp
    rw [h2, Nat.mod_mod, pow_succ, Nat.mul_comm (256 ^ k) 256, Nat.mod_mul]

theorem load_lt (m : Mem) (n : Nat) : ∀ a, load m a n < 256 ^ n := by
  induction n with
  | zero => intro a; simp [load]
  | succ k ih =>
    intro a
    simp only [load]
    have := ih (a + 1)
    have h2 : m a % 256 < 256 := Nat.mod_lt _ (by decide)
    rw [pow_succ]
    nlinarith

/-! From here on `load` is only used through the lemmas above. -/
attribute [irreducible] load

theorem memset_out (m : Mem) (d c n x : Nat) (h : x < d ∨ d + n ≤ x) :
    memset m d c n x = m x := by
  unfold memset
  rw [if_neg (by omega)]

theorem memcpy_out (m : Mem) (d : Nat) (buf : Nat → Nat) (n x : Nat) (h : x < d ∨ d + n ≤ x) :
    memcpy m d buf n x = m x := by
  unfold memcpy
  rw [if_neg (by omega)]

/-! ### Header fields -/

theorem pow8 : (256 : Nat) ^ 8 = 2 ^ 64 := by norm_num
theorem pow4 : (256 : Nat) ^ 4 = 2 ^ 32 := by norm_num

theorem get_size_lt (m : Mem) (a : Nat) : get_size m a < 2 ^ 64 := by
  have := load_lt m 8 a; rw [pow8] at this; exact this
theorem get_next_lt (m : Mem) (a : Nat) : get_next m a < 2 ^ 64 := by
  have := load_lt m 8 (a + 16); rw [pow8] at this; exact this
theorem get_prev_lt (m : Mem) (a : Nat) : get_prev m a < 2 ^ 64 := by
  have := load_lt m 8 (a + 24); rw [pow8] at this; exact this

theorem hdr_congr (m m1 : Mem) (a : Nat) (h : ∀ x, a ≤ x → x < a + 32 → m1 x = m x) :
    get_size m1 a = get_size m a ∧ get_free m1 a = get_free m a ∧
      get_next m1 a = get_next m a ∧ get_prev m1 a = get_prev m a := by
  refine ⟨?_, ?_, ?_, ?_⟩ <;> apply load_congr <;> intro x h1 h2 <;> apply h <;> omega

theorem Hdr_frame (m m1 : Mem) (a sz fr nx pv : Nat)
    (h : ∀ x, a ≤ x → x < a + 32 → m1 x = m x) (hh : Hdr m a sz fr nx pv) :
    Hdr m1 a sz fr nx pv := by
  obtain ⟨h1, h2, h3, h4⟩ := hdr_congr m m1 a h
  unfold Hdr at *
  rw [h1, h2, h3, h4]; exact hh

theorem set_size_out (m : Mem) (a v x : Nat) (h : x < a ∨ a + 8 ≤ x) : set_size m a v x = m x :=
  store_out m a 8 v x h
theorem set_free_out (m : Mem) (a v x : Nat) (h : x < a + 8 ∨ a + 12 ≤ x) :
    set_free m a v x = m x :=
  store_out m (a + 8) 4 v x (by omega)
theorem set_next_out (m : Mem) (a v x : Nat) (h : x < a + 16 ∨ a + 24 ≤ x) :
    set_next m a v x = m x :=
  store_out m (a + 16) 8 v x (by omega)
theorem set_prev_out (m : Mem) (a v x : Nat) (h : x < a + 24 ∨ a + 32 ≤ x) :
    set_prev m a v x = m x :=
  store_out m (a + 24) 8 v x (by omega)

/-- Effect of `set_size` on the header it writes. -/
theorem Hdr_set_size (m : Mem) (a sz fr nx pv v : Nat) (hv : v < 2 ^ 64)
    (hh : Hdr m a sz fr nx pv) : Hdr (set_size m a v) a v fr nx pv := by
  obtain ⟨_, h2, h3, h4⟩ := hh
  refine ⟨?_, ?_, ?_, ?_⟩
  · unfold get_size set_size; rw [load_store_same, pow8]; exact Nat.mod_eq_of_lt hv
  · unfold get_free set_size; rw [load_store_disj _ _ _ _ _ _ (by omega)]; exact h2
  · unfold get_next set_size; rw [load_store_disj _ _ _ _ _ _ (by omega)]; exact h3
  · unfold get_prev set_size; rw [load_store_disj _ _ _ _ _ _ (by omega)]; exact h4

theorem Hdr_set_free (m : Mem) (a sz fr nx pv v : Nat) (hv : v < 2 ^ 32)
    (hh : Hdr m a sz fr nx pv) : Hdr (set_free m a v) a sz v nx pv := by
  obtain ⟨h1, _, h3, h4⟩ := hh
  refine ⟨?_, ?_, ?_, ?_⟩
  · unfold get_size set_free; rw [load_store_disj _ _ _ _ _ _ (by omega)]; exact h1
  · unfold get_free set_free; rw [load_store_same, pow4]; exact Nat.mod_eq_of_lt hv
  · unfold get_next set_free; rw [load_store_disj _ _ _ _ _ _ (by omega)]; exact h3
  · unfold get_prev set_free; rw [load_store_disj _ _ _ _ _ _ (by omega)]; exact h4

theorem Hdr_set_next (m : Mem) (a sz fr nx pv v : Nat) (hv : v < 2 ^ 64)
    (hh : Hdr m a sz fr nx pv) : Hdr (set_next m a v) a sz fr v pv := by
  obtain ⟨h1, h2, _, h4⟩ := hh
  refine ⟨?_, ?_, ?_, ?_⟩
  · unfold get_size set_next; rw [load_store_disj _ _ _ _ _ _ (by omega)]; exact h1
  · unfold get_free set_next; rw [load_store_disj _ _ _ _ _ _ (by omega)]; exact h2
  · unfold get_next set_next; rw [load_store_same, pow8]; exact Nat.mod_eq_of_lt hv
  · unfold get_prev set_next; rw [load_store_disj _ _ _ _ _ _ (by omega)]; exact h4

theorem Hdr_set_prev (m : Mem) (a sz fr nx pv v : Nat) (hv : v < 2 ^ 64)
    (hh : Hdr m a sz fr nx pv) : Hdr (set_prev m a v) a sz fr nx v := by
  obtain ⟨h1, h2, h3, _⟩ := hh
  refine ⟨?_, ?_, ?_, ?_⟩
  · unfold get_size set_prev; rw [load_store_disj _ _ _ _ _ _ (by omega)]; exact h1
  · unfold get_free set_prev; rw [load_store_disj _ _ _ _ _ _ (by omega)]; exact h2
  · unfold get_next set_prev; rw [load_store_disj _ _ _ _ _ _ (by omega)]; exact h3
  · unfold get_prev set_prev; rw [load_store_same, pow8]; exact Nat.mod_eq_of_lt hv

/-- Any four values are the header of *some* memory after the four setters: used
for a header written from scratch. -/
theorem Hdr_exists (m : Mem) (a : Nat) :
    Hdr m a (get_size m a) (get_free m a) (get_next m a) (get_prev m a) :=
  ⟨rfl, rfl, rfl, rfl⟩

/-! ### Layout lemmas -/

theorem Lay_frame (m m1 : Mem) (l : List Blk) : ∀ a pv e : Nat,
    (∀ x, a ≤ x → x < a + span l → m1 x = m x) → Lay m a pv e l → Lay m1 a pv e l := by
  induction l with
  | nil => intro a pv e _ _; trivial
  | cons b l ih =>
    intro a pv e h hl
    simp only [Lay, span, BLOCK_SIZE] at *
    refine ⟨Hdr_frame m m1 a _ _ _ _ (fun x h1 h2 => h x h1 (by omega)) hl.1, ?_⟩
    exact ih _ _ _ (fun x h1 h2 => h x (by omega) (by omega)) hl.2

theorem span_append (l1 l2 : List Blk) : span (l1 ++ l2) = span l1 + span l2 := by
  induction l1 with
  | nil => simp [span]
  | cons b l ih => simp [span, ih]; omega

theorem nxt_append (e a : Nat) (l1 l2 : List Blk) (b : Blk) :
    nxt e a (l1 ++ b :: l2) = a := by
  cases l1 <;> rfl

theorem Lay_cons (m : Mem) (a pv e : Nat) (b : Blk) (l : List Blk) :
    Lay m a pv e (b :: l) ↔
      (Hdr m a b.size (flag b.free) (nxt e (a + BLOCK_SIZE + b.size) l) pv ∧
        Lay m (a + BLOCK_SIZE + b.size) a e l) := Iff.rfl

theorem lastAddr_cons (pv a : Nat) (b : Blk) (l : List Blk) :
    lastAddr pv a (b :: l) = lastAddr a (a + BLOCK_SIZE + b.size) l := rfl

theorem span_cons (b : Blk) (l : List Blk) : span (b :: l) = BLOCK_SIZE + b.size + span l := rfl

theorem lastAddr_append (l1 l2 : List Blk) : ∀ pv a : Nat,
    lastAddr pv a (l1 ++ l2) = lastAddr (lastAddr pv a l1) (a + span l1) l2 := by
  induction l1 with
  | nil => intro pv a; simp [lastAddr, span]
  | cons b l ih =>
    intro pv a
    rw [List.cons_append, lastAddr_cons, lastAddr_cons, span_cons, ih]
    have h1 : a + BLOCK_SIZE + b.size + span l = a + (BLOCK_SIZE + b.size + span l) := by omega
    rw [h1]

theorem Lay_append (m : Mem) (l1 l2 : List Blk) : ∀ a pv e : Nat,
    Lay m a pv e (l1 ++ l2) ↔
      (Lay m a pv (nxt e (a + span l1) l2) l1 ∧ Lay m (a + span l1) (lastAddr pv a l1) e l2) := by
  induction l1 with
  | nil => intro a pv e; simp [Lay, span, lastAddr]
  | cons b l ih =>
    intro a pv e
    rw [List.cons_append, Lay_cons, Lay_cons, lastAddr_cons, span_cons, ih]
    have h1 : a + BLOCK_SIZE + b.size + span l = a + (BLOCK_SIZE + b.size + span l) := by omega
    rw [h1]
    cases l with
    | nil =>
      cases l2 with
      | nil => simp [nxt, Lay, span]
      | cons c l2 => simp [nxt, Lay, span, Nat.add_assoc]
    | cons c l => simp only [nxt, List.cons_append]; tauto

theorem flag_eq_zero (b : Bool) : flag b = 0 ↔ b = false := by
  cases b <;> simp [flag]

theorem flag_lt (b : Bool) : flag b < 2 ^ 32 := by
  cases b <;> simp [flag]

theorem find_mono (f : Nat) : ∀ (m : Mem) (a n r : Nat),
    find_free_block f m a n = some r → find_free_block (f + 1) m a n = some r := by
  induction f with
  | zero => intro m a n r h; simp [find_free_block] at h
  | succ k ih =>
    intro m a n r h
    rw [find_free_block] at h ⊢
    split
    · rename_i hc; rw [if_pos hc] at h; exact ih _ _ _ _ h
    · rename_i hc; rw [if_neg hc] at h; exact h

theorem find_mono_le (f g : Nat) (m : Mem) (a n r : Nat) (hfg : f ≤ g)
    (h : find_free_block f m a n = some r) : find_free_block g m a n = some r := by
  induction g with
  | zero => have : f = 0 := by omega
            subst this; exact h
  | succ k ih =>
    by_cases hk : f ≤ k
    · exact find_mono _ _ _ _ _ (ih hk)
    · have : f = k + 1 := by omega
      subst this; exact h

theorem not_fits_iff (m : Mem) (a n : Nat) (b : Blk) (nx pv : Nat)
    (h : Hdr m a b.size (flag b.free) nx pv) :
    (get_free m a = 0 ∨ get_size m a < n) ↔ ¬ Fits n b := by
  obtain ⟨h1, h2, _, _⟩ := h
  rw [h1, h2, flag_eq_zero]
  unfold Fits
  cases b.free <;> simp

theorem find_none (m : Mem) (n : Nat) (bs : List Blk) : ∀ a pv : Nat,
    Lay m a pv 0 bs → (bs = [] → a = 0) → (∀ b ∈ bs, ¬ Fits n b) →
      find_free_block (bs.length + 1) m a n = some 0 := by
  induction bs with
  | nil =>
    intro a pv _ h0 _
    simp [find_free_block, h0 rfl]
  | cons b l ih =>
    intro a pv hl _ hf
    rw [Lay_cons] at hl
    rw [List.length_cons, find_free_block]
    by_cases ha : a = 0
    · rw [if_neg (by simp [ha]), ha]
    · rw [if_pos ⟨ha, (not_fits_iff m a n b _ _ hl.1).2 (hf b (List.mem_cons_self _ _))⟩]
      rw [hl.1.2.2.1]
      cases l with
      | nil => simp [nxt, find_free_block]
      | cons c l2 =>
        exact ih _ _ hl.2 (by simp) (fun x hx => hf x (List.mem_cons_of_mem _ hx))

theorem find_some (m : Mem) (n : Nat) (b : Blk) (l2 : List Blk) (l1 : List Blk) :
    ∀ a pv e : Nat, Lay m a pv e (l1 ++ b :: l2) → a ≠ 0 → (∀ c ∈ l1, ¬ Fits n c) → Fits n b →
      find_free_block (l1.length + 1) m a n = some (a + span l1) := by
  induction l1 with
  | nil =>
    intro a pv e hl _ _ hb
    rw [List.nil_append, Lay_cons] at hl
    rw [List.length_nil, find_free_block]
    have := (not_fits_iff m a n b _ _ hl.1).not.2 (not_not.2 hb)
    rw [if_neg (fun hc => this hc.2)]
    simp [span]
  | cons c l ih =>
    intro a pv e hl ha hf hb
    rw [List.cons_append, Lay_cons] at hl
    rw [List.length_cons, find_free_block]
    rw [if_pos ⟨ha, (not_fits_iff m a n c _ _ hl.1).2 (hf c (List.mem_cons_self _ _))⟩]
    rw [hl.1.2.2.1, nxt_append]
    rw [ih _ _ _ hl.2 (by unfold BLOCK_SIZE; omega) (fun x hx => hf x (List.mem_cons_of_mem _ hx)) hb]
    rw [span_cons]
    congr 1; omega

/-! ### The chain read from memory -/

theorem Chain_unique (m : Mem) (l1 : List Nat) : ∀ (a : Nat) (l2 : List Nat),
    Chain m a l1 → Chain m a l2 → l1 = l2 := by
  induction l1 with
  | nil =>
    intro a l2 h1 h2
    cases l2 with
    | nil => rfl
    | cons b l => exact absurd h1 h2.1
  | cons b l ih =>
    intro a l2 h1 h2
    cases l2 with
    | nil => exact absurd h2 h1.1
    | cons c l2 =>
      obtain ⟨_, hb, h1⟩ := h1
      obtain ⟨_, hc, h2⟩ := h2
      have : b = c := by omega
      subst this
      rw [ih _ _ h1 h2]

theorem Lay_chain (m : Mem) (bs : List Blk) : ∀ a pv : Nat,
    Lay m a pv 0 bs → (bs = [] → a = 0) → (bs ≠ [] → a ≠ 0) → Chain m a (addrs a bs) := by
  induction bs with
  | nil => intro a pv _ h0 _; exact h0 rfl
  | cons b l ih =>
    intro a pv hl _ h1
    rw [Lay_cons] at hl
    refine ⟨h1 (by simp), rfl, ?_⟩
    rw [hl.1.2.2.1]
    cases l with
    | nil => rfl
    | cons c l2 =>
      have hne : a + BLOCK_SIZE + b.size ≠ 0 := by unfold BLOCK_SIZE; omega
      exact ih _ _ hl.2 (by simp) (fun _ => hne)

theorem Repr_directory (s : State) (bs : List Blk) (h : Repr s bs) :
    Directory s (addrs s.head bs) :=
  Lay_chain s.mem bs s.head 0 h.1 h.2.2.1 (fun hne => (h.2.2.2.1 hne).1)

theorem mem_addrs (bs : List Blk) : ∀ (a x : Nat),
    x ∈ addrs a bs ↔ ∃ l1 b l2, bs = l1 ++ b :: l2 ∧ x = a + span l1 := by
  induction bs with
  | nil => intro a x; simp [addrs]
  | cons c l ih =>
    intro a x
    simp only [addrs, List.mem_cons, ih]
    constructor
    · rintro (h | ⟨l1, b, l2, h1, h2⟩)
      · exact ⟨[], c, l, rfl, by simp [span, h]⟩
      · exact ⟨c :: l1, b, l2, by simp [h1], by rw [h2, span_cons]; omega⟩
    · rintro ⟨l1, b, l2, h1, h2⟩
      cases l1 with
      | nil => left; simpa [span] using h2
      | cons d l1 =>
        right
        simp only [List.cons_append, List.cons.injEq] at h1
        refine ⟨l1, b, l2, h1.2, ?_⟩
        rw [h2, span_cons, h1.1]; omega

theorem Hdr_store (m : Mem) (c sz fr nx pv w k v : Nat) (h : w + k ≤ c ∨ c + 32 ≤ w)
    (hh : Hdr m c sz fr nx pv) : Hdr (store m w k v) c sz fr nx pv :=
  Hdr_frame m _ c sz fr nx pv (fun x h1 h2 => store_out m w k v x (by omega)) hh

theorem Lay_store (m : Mem) (l : List Blk) (a pv e w k v : Nat)
    (h : w + k ≤ a ∨ a + span l ≤ w) (hl : Lay m a pv e l) : Lay (store m w k v) a pv e l :=
  Lay_frame m _ l a pv e (fun x h1 h2 => store_out m w k v x (by omega)) hl

theorem Hdr_set_size_o (m : Mem) (c sz fr nx pv w v : Nat) (h : w + 8 ≤ c ∨ c + 32 ≤ w)
    (hh : Hdr m c sz fr nx pv) : Hdr (set_size m w v) c sz fr nx pv :=
  Hdr_store m c sz fr nx pv w 8 v h hh
theorem Hdr_set_free_o (m : Mem) (c sz fr nx pv w v : Nat) (h : w + 12 ≤ c ∨ c + 24 ≤ w)
    (hh : Hdr m c sz fr nx pv) : Hdr (set_free m w v) c sz fr nx pv :=
  Hdr_store m c sz fr nx pv (w + 8) 4 v (by omega) hh
theorem Hdr_set_next_o (m : Mem) (c sz fr nx pv w v : Nat) (h : w + 24 ≤ c ∨ c + 16 ≤ w)
    (hh : Hdr m c sz fr nx pv) : Hdr (set_next m w v) c sz fr nx pv :=
  Hdr_store m c sz fr nx pv (w + 16) 8 v (by omega) hh
theorem Hdr_set_prev_o (m : Mem) (c sz fr nx pv w v : Nat) (h : w + 32 ≤ c ∨ c + 8 ≤ w)
    (hh : Hdr m c sz fr nx pv) : Hdr (set_prev m w v) c sz fr nx pv :=
  Hdr_store m c sz fr nx pv (w + 24) 8 v (by omega) hh

theorem Lay_set_size_o (m : Mem) (l : List Blk) (a pv e w v : Nat)
    (h : w + 8 ≤ a ∨ a + span l ≤ w) (hl : Lay m a pv e l) : Lay (set_size m w v) a pv e l :=
  Lay_store m l a pv e w 8 v h hl
theorem Lay_set_free_o (m : Mem) (l : List Blk) (a pv e w v : Nat)
    (h : w + 12 ≤ a ∨ a + span l ≤ w + 8) (hl : Lay m a pv e l) : Lay (set_free m w v) a pv e l :=
  Lay_store m l a pv e (w + 8) 4 v (by omega) hl
theorem Lay_set_next_o (m : Mem) (l : List Blk) (a pv e w v : Nat)
    (h : w + 24 ≤ a ∨ a + span l ≤ w + 16) (hl : Lay m a pv e l) : Lay (set_next m w v) a pv e l :=
  Lay_store m l a pv e (w + 16) 8 v (by omega) hl
theorem Lay_set_prev_o (m : Mem) (l : List Blk) (a pv e w v : Nat)
    (h : w + 32 ≤ a ∨ a + span l ≤ w + 24) (hl : Lay m a pv e l) : Lay (set_prev m w v) a pv e l :=
  Lay_store m l a pv e (w + 24) 8 v (by omega) hl

/-- Reading one header out of a layout. -/
theorem Lay_hdr (m : Mem) (a pv e : Nat) (l1 : List Blk) (b : Blk) (l2 : List Blk)
    (h : Lay m a pv e (l1 ++ b :: l2)) :
    Hdr m (a + span l1) b.size (flag b.free) (nxt e (a + span l1 + BLOCK_SIZE + b.size) l2)
      (lastAddr pv a l1) :=
  (((Lay_append m l1 (b :: l2) a pv e).1 h).2).1

theorem lastAddr_le (l : List Blk) : ∀ pv a : Nat, l ≠ [] → a ≤ lastAddr pv a l ∧
    lastAddr pv a l + BLOCK_SIZE ≤ a + span l := by
  induction l with
  | nil => intro pv a h; exact absurd rfl h
  | cons b l ih =>
    intro pv a _
    rw [lastAddr_cons, span_cons]
    cases l with
    | nil => simp [lastAddr, span]
    | cons c l2 =>
      have := ih a (a + BLOCK_SIZE + b.size) (by simp)
      omega

theorem lastAddr_concat (l : List Blk) (b : Blk) (pv a : Nat) :
    lastAddr pv a (l ++ [b]) = a + span l := by
  rw [lastAddr_append]; rfl

theorem le_INTPTR_MAX_lt (x : Nat) (h : x ≤ INTPTR_MAX) : x < WORD := by
  have hI : INTPTR_MAX = 2 ^ 63 - 1 := rfl
  have hW : WORD = 2 ^ 64 := rfl
  omega

theorem mod_le_INTPTR_MAX (x : Nat) (h : x ≤ INTPTR_MAX) : x % WORD ≤ INTPTR_MAX := by
  rw [Nat.mod_eq_of_lt (le_INTPTR_MAX_lt x h)]; exact h

/-- A non-negative increment within the limit extends the break. -/
theorem sbrk_ok (s : State) (inc : Nat) (h : s.brk + inc ≤ s.limit) (hi : inc ≤ INTPTR_MAX) :
    sbrk s inc = ({ s with brk := s.brk + inc, calls := s.calls ++ [inc] }, s.brk) := by
  unfold sbrk; rw [if_pos hi, if_pos h]

/-- A non-negative increment beyond the limit fails. -/
theorem sbrk_fail (s : State) (inc : Nat) (h : ¬ s.brk + inc ≤ s.limit) (hi : inc ≤ INTPTR_MAX) :
    sbrk s inc = ({ s with calls := s.calls ++ [inc] }, SBRK_FAIL) := by
  unfold sbrk; rw [if_pos hi, if_neg h]

/-- A negative increment lowers the break. -/
theorem sbrk_lower (s : State) (inc : Nat) (hi : ¬ inc ≤ INTPTR_MAX) (h : WORD - inc ≤ s.brk) :
    sbrk s inc =
      ({ s with brk := s.brk - (WORD - inc), calls := s.calls ++ [inc] }, s.brk) := by
  unfold sbrk; rw [if_neg hi, if_pos h]

/-- A negative increment below address 0 fails. -/
theorem sbrk_lower_fail (s : State) (inc : Nat) (hi : ¬ inc ≤ INTPTR_MAX)
    (h : ¬ WORD - inc ≤ s.brk) :
    sbrk s inc = ({ s with calls := s.calls ++ [inc] }, SBRK_FAIL) := by
  unfold sbrk; rw [if_neg hi, if_neg h]

/-- The two outcomes of `sbrk`: failure, which only logs the call, or success,
which returns the previous break and moves the break up by a non-negative
increment or down by a negative one. -/
theorem sbrk_cases (s : State) (inc : Nat) :
    sbrk s inc = ({ s with calls := s.calls ++ [inc] }, SBRK_FAIL) ∨
    ∃ b, sbrk s inc = ({ s with brk := b, calls := s.calls ++ [inc] }, s.brk) ∧
      ((inc ≤ INTPTR_MAX ∧ s.brk + inc ≤ s.limit ∧ b = s.brk + inc) ∨
        (¬ inc ≤ INTPTR_MAX ∧ WORD - inc ≤ s.brk ∧ b = s.brk - (WORD - inc))) := by
  by_cases hi : inc ≤ INTPTR_MAX
  · by_cases h : s.brk + inc ≤ s.limit
    · exact Or.inr ⟨_, sbrk_ok s inc h hi, Or.inl ⟨hi, h, rfl⟩⟩
    · exact Or.inl (sbrk_fail s inc h hi)
  · by_cases h : WORD - inc ≤ s.brk
    · exact Or.inr ⟨_, sbrk_lower s inc hi h, Or.inr ⟨hi, h, rfl⟩⟩
    · exact Or.inl (sbrk_lower_fail s inc hi h)

/-- The state produced by the growth branch on an empty directory when `sbrk`
succeeds and leaves the break at `b`. -/
theorem grow_empty_at (s : State) (n b : Nat) (hh : s.head = 0) (ht : s.tail = 0)
    (hs : sbrk s ((BLOCK_SIZE + n) % WORD) =
      ({ s with brk := b, calls := s.calls ++ [(BLOCK_SIZE + n) % WORD] }, s.brk))
    (hne : s.brk ≠ SBRK_FAIL) :
    grow s n =
      ({ mem := set_next (set_size (set_free (set_prev s.mem s.brk 0) s.brk 0) s.brk n) s.brk 0,
         head := s.brk, tail := s.brk, brk := b,
         limit := s.limit, calls := s.calls ++ [(BLOCK_SIZE + n) % WORD] }, s.brk + BLOCK_SIZE) := by
  unfold grow
  rw [hs]
  simp [hne, hh, ht]

/-- The state produced by the growth branch on a non-empty directory when
`sbrk` succeeds and leaves the break at `b`. -/
theorem grow_nonempty_at (s : State) (n b : Nat) (hh : s.head ≠ 0) (ht : s.tail ≠ 0)
    (hs : sbrk s ((BLOCK_SIZE + n) % WORD) =
      ({ s with brk := b, calls := s.calls ++ [(BLOCK_SIZE + n) % WORD] }, s.brk))
    (hne : s.brk ≠ SBRK_FAIL) :
    grow s n =
      ({ mem := set_next (set_prev (set_next (set_size (set_free s.mem s.brk 0) s.brk n)
            s.tail s.brk) s.brk s.tail) s.brk 0,
         head := s.head, tail := s.brk, brk := b,
         limit := s.limit, calls := s.calls ++ [(BLOCK_SIZE + n) % WORD] }, s.brk + BLOCK_SIZE) := by
  unfold grow
  rw [hs]
  simp [hne, hh, ht]

/-- The growth branch when `sbrk` fails: the call is logged, nothing else changes. -/
theorem grow_fail_at (s : State) (n : Nat)
    (hs : sbrk s ((BLOCK_SIZE + n) % WORD) =
      ({ s with calls := s.calls ++ [(BLOCK_SIZE + n) % WORD] }, SBRK_FAIL)) :
    grow s n = ({ s with calls := s.calls ++ [(BLOCK_SIZE + n) % WORD] }, 0) := by
  unfold grow
  rw [hs]
  simp

/-- The state produced by the growth branch when the directory is empty. -/
theorem grow_empty (s : State) (n : Nat) (hh : s.head = 0) (ht : s.tail = 0)
    (hf : s.brk + (BLOCK_SIZE + n) % WORD ≤ s.limit) (hl : s.limit < SBRK_FAIL)
    (hi : (BLOCK_SIZE + n) % WORD ≤ INTPTR_MAX) :
    grow s n =
      ({ mem := set_next (set_size (set_free (set_prev s.mem s.brk 0) s.brk 0) s.brk n) s.brk 0,
         head := s.brk, tail := s.brk, brk := s.brk + (BLOCK_SIZE + n) % WORD,
         limit := s.limit, calls := s.calls ++ [(BLOCK_SIZE + n) % WORD] }, s.brk + BLOCK_SIZE) := by
  have hne : s.brk ≠ SBRK_FAIL := by omega
  unfold grow
  rw [sbrk_ok s _ hf hi]
  simp [hne, hh, ht]

/-- The state produced by the growth branch when the directory is non-empty. -/
theorem grow_nonempty (s : State) (n : Nat) (hh : s.head ≠ 0) (ht : s.tail ≠ 0)
    (hf : s.brk + (BLOCK_SIZE + n) % WORD ≤ s.limit) (hl : s.limit < SBRK_FAIL)
    (hi : (BLOCK_SIZE + n) % WORD ≤ INTPTR_MAX) :
    grow s n =
      ({ mem := set_next (set_prev (set_next (set_size (set_free s.mem s.brk 0) s.brk n)
            s.tail s.brk) s.brk s.tail) s.brk 0,
         head := s.head, tail := s.brk, brk := s.brk + (BLOCK_SIZE + n) % WORD,
         limit := s.limit, calls := s.calls ++ [(BLOCK_SIZE + n) % WORD] }, s.brk + BLOCK_SIZE) := by
  have hne : s.brk ≠ SBRK_FAIL := by omega
  unfold grow
  rw [sbrk_ok s _ hf hi]
  simp [hne, hh, ht]

theorem grow_fail (s : State) (n : Nat) (hf : ¬ s.brk + (BLOCK_SIZE + n) % WORD ≤ s.limit)
    (hi : (BLOCK_SIZE + n) % WORD ≤ INTPTR_MAX) :
    grow s n = ({ s with calls := s.calls ++ [(BLOCK_SIZE + n) % WORD] }, 0) := by
  unfold grow
  rw [sbrk_fail s _ hf hi]
  simp

theorem Repr_brk_ne (s : State) (bs : List Blk) (h : Repr s bs) : s.brk ≠ SBRK_FAIL := by
  obtain ⟨_, _, _, _, _, h6, h7⟩ := h
  omega

theorem Repr_tail_ne (s : State) (bs : List Blk) (h : Repr s bs) (hne : bs ≠ []) :
    s.tail ≠ 0 ∧ s.head ≤ s.tail ∧ s.tail + BLOCK_SIZE ≤ s.brk := by
  obtain ⟨_, h2, _, h4, _⟩ := h
  have := lastAddr_le bs 0 s.head hne
  have := h4 hne
  omega

theorem grow_repr (s : State) (bs : List Blk) (n : Nat) (hr : Repr s bs)
    (hn : BLOCK_SIZE + n ≤ INTPTR_MAX) (hf : s.brk + (BLOCK_SIZE + n) ≤ s.limit) :
    Repr (grow s n).1 (bs ++ [⟨n, false⟩]) := by
  have hmod : (BLOCK_SIZE + n) % WORD = BLOCK_SIZE + n :=
    Nat.mod_eq_of_lt (le_INTPTR_MAX_lt _ hn)
  have hi : (BLOCK_SIZE + n) % WORD ≤ INTPTR_MAX := mod_le_INTPTR_MAX _ hn
  have hr0 := hr
  obtain ⟨h1, h2, h3, h4, h5, h6, h7⟩ := hr
  have hW : WORD = 2 ^ 64 := rfl
  have hS : SBRK_FAIL = 2 ^ 64 - 1 := rfl
  have hB : BLOCK_SIZE = 32 := rfl
  rcases List.eq_nil_or_concat bs with hbs | ⟨l, t, hbs⟩ <;> try rw [List.concat_eq_append] at hbs
  · subst hbs
    have hh := h3 rfl
    have ht : s.tail = 0 := h2
    rw [grow_empty s n hh ht (by rw [hmod]; exact hf) h7 hi]
    refine ⟨?_, ?_, ?_, ?_, ?_, ?_, ?_⟩
    · simp only [List.nil_append, Lay, nxt, and_true]
      apply Hdr_set_next _ _ _ _ _ _ _ (by omega)
      apply Hdr_set_size _ _ _ _ _ _ _ (by omega)
      apply Hdr_set_free _ _ _ _ _ _ _ (by simp [flag])
      apply Hdr_set_prev _ _ _ _ _ _ _ (by omega)
      exact Hdr_exists _ _
    · simp [lastAddr]
    · simp
    · intro _; simp [span]; omega
    · simp; omega
    · simp; omega
    · exact h7
  · have hne : bs ≠ [] := by rw [hbs]; simp
    obtain ⟨hh, hbrk⟩ := h4 hne
    obtain ⟨ht, ht1, ht2⟩ := Repr_tail_ne s bs hr0 hne
    rw [grow_nonempty s n hh ht (by rw [hmod]; exact hf) h7 hi]
    subst hbs
    rw [lastAddr_concat] at h2
    rw [span_append] at hbrk
    simp only [span] at hbrk
    rw [Lay_append] at h1
    obtain ⟨h1a, h1b⟩ := h1
    simp only [Lay, nxt, and_true] at h1b
    simp only [nxt] at h1a
    refine ⟨?_, ?_, ?_, ?_, ?_, ?_, ?_⟩
    · rw [List.append_assoc, Lay_append]
      simp only [List.singleton_append, Lay, nxt, and_true]
      rw [h2]
      refine ⟨?_, ?_, ?_⟩
      · apply Lay_set_next_o _ _ _ _ _ _ _ (by omega)
        apply Lay_set_prev_o _ _ _ _ _ _ _ (by omega)
        apply Lay_set_next_o _ _ _ _ _ _ _ (by omega)
        apply Lay_set_size_o _ _ _ _ _ _ _ (by omega)
        apply Lay_set_free_o _ _ _ _ _ _ _ (by omega)
        exact h1a
      · apply Hdr_set_next_o _ _ _ _ _ _ _ _ (by omega)
        apply Hdr_set_prev_o _ _ _ _ _ _ _ _ (by omega)
        have hb : s.head + span l + BLOCK_SIZE + t.size = s.brk := by omega
        rw [hb]
        apply Hdr_set_next _ _ _ _ _ _ _ (by omega)
        apply Hdr_set_size_o _ _ _ _ _ _ _ _ (by omega)
        apply Hdr_set_free_o _ _ _ _ _ _ _ _ (by omega)
        exact h1b
      · have hb : s.head + span l + BLOCK_SIZE + t.size = s.brk := by omega
        rw [hb]
        apply Hdr_set_next _ _ _ _ _ _ _ (by omega)
        apply Hdr_set_prev _ _ _ _ _ _ _ (by omega)
        apply Hdr_set_next_o _ _ _ _ _ _ _ _ (by omega)
        apply Hdr_set_size _ _ _ _ _ _ _ (by omega)
        apply Hdr_set_free _ _ _ _ _ _ _ (by simp [flag])
        exact Hdr_exists _ _
    · rw [List.append_assoc, lastAddr_append]
      simp only [List.singleton_append, lastAddr]
      omega
    · simp
    · intro _
      refine ⟨hh, ?_⟩
      simp only [span_append, span]
      omega
    · simp; omega
    · simp; omega
    · exact h7

theorem usub_eq (x y : Nat) (hx : x < WORD) (hy : y ≤ x) : usub x y = x - y := by
  unfold usub WORD at *
  omega

/-- Explicit form of a split, given the header of the block that is split. -/
theorem split_block_eq (s : State) (A n sz fr nx pv : Nat) (hh : Hdr s.mem A sz fr nx pv)
    (hgt : n + BLOCK_SIZE < sz) (hsz : sz < WORD) :
    split_block s A n =
      { s with
        mem := set_size (set_next
          (if nx ≠ 0 then
            set_prev (set_prev (set_next (set_size (set_free s.mem (A + BLOCK_SIZE + n) 1)
              (A + BLOCK_SIZE + n) (sz - n - BLOCK_SIZE)) (A + BLOCK_SIZE + n) nx)
              (A + BLOCK_SIZE + n) A) nx (A + BLOCK_SIZE + n)
           else
            set_prev (set_next (set_size (set_free s.mem (A + BLOCK_SIZE + n) 1)
              (A + BLOCK_SIZE + n) (sz - n - BLOCK_SIZE)) (A + BLOCK_SIZE + n) nx)
              (A + BLOCK_SIZE + n) A)
          A (A + BLOCK_SIZE + n)) A n,
        tail := if A = s.tail then A + BLOCK_SIZE + n else s.tail } := by
  have hB : BLOCK_SIZE = 32 := rfl
  have hmod : (n + BLOCK_SIZE) % WORD = n + BLOCK_SIZE := Nat.mod_eq_of_lt (by omega)
  have e1 : get_size s.mem A = sz := hh.1
  have h1 := Hdr_set_free_o s.mem A sz fr nx pv (A + BLOCK_SIZE + n) 1 (by omega) hh
  have h2 := Hdr_set_size_o _ A sz fr nx pv (A + BLOCK_SIZE + n)
    (usub (usub sz n) BLOCK_SIZE) (by omega) h1
  have e2 : usub (usub sz n) BLOCK_SIZE = sz - n - BLOCK_SIZE := by
    rw [usub_eq sz n hsz (by omega), usub_eq _ _ (by omega) (by omega)]
  rw [e2] at h2
  have h3 := Hdr_set_next_o _ A sz fr nx pv (A + BLOCK_SIZE + n) nx (by omega) h2
  have h4 := Hdr_set_prev_o _ A sz fr nx pv (A + BLOCK_SIZE + n) A (by omega) h3
  unfold split_block
  rw [if_pos (by rw [e1, hmod]; exact hgt)]
  simp only []
  rw [h1.1, e2, h2.2.2.1, h4.2.2.1]


theorem split_block_id (s : State) (A n sz fr nx pv : Nat) (hh : Hdr s.mem A sz fr nx pv)
    (hle : sz ≤ n + BLOCK_SIZE) (hn : n + BLOCK_SIZE < WORD) : split_block s A n = s := by
  unfold split_block
  rw [if_neg]
  rw [hh.1, Nat.mod_eq_of_lt hn]; omega

theorem load_store_eq (m : Mem) (a n v b : Nat) (h : b = a) :
    load (store m a n v) b n = v % 256 ^ n := by
  subst h; exact load_store_same m n b v

theorem Lay_store_iff (m : Mem) (l : List Blk) (a pv e w k v : Nat)
    (h : w + k ≤ a ∨ a + span l ≤ w) : Lay (store m w k v) a pv e l ↔ Lay m a pv e l :=
  ⟨fun hl => Lay_frame _ m l a pv e (fun x h1 h2 => (store_out m w k v x (by omega)).symm) hl,
   Lay_store m l a pv e w k v h⟩

theorem lastAddr_pv (pv1 pv2 a : Nat) (l : List Blk) (h : l ≠ []) :
    lastAddr pv1 a l = lastAddr pv2 a l := by
  cases l with
  | nil => exact absurd rfl h
  | cons b l => rfl

/-- Everything a representation says about one block and its two sides. -/
theorem Repr_parts (s : State) (l1 : List Blk) (b : Blk) (l2 : List Blk)
    (h : Repr s (l1 ++ b :: l2)) :
    Lay s.mem s.head 0 (s.head + span l1) l1 ∧
    Hdr s.mem (s.head + span l1) b.size (flag b.free)
      (nxt 0 (s.head + span l1 + BLOCK_SIZE + b.size) l2) (lastAddr 0 s.head l1) ∧
    Lay s.mem (s.head + span l1 + BLOCK_SIZE + b.size) (s.head + span l1) 0 l2 ∧
    s.head ≠ 0 ∧ s.head + span l1 + BLOCK_SIZE + b.size + span l2 = s.brk ∧
    s.tail = lastAddr (s.head + span l1) (s.head + span l1 + BLOCK_SIZE + b.size) l2 ∧
    s.brk ≤ s.limit ∧ s.limit < SBRK_FAIL := by
  obtain ⟨h1, h2, _, h4, _, h6, h7⟩ := h
  obtain ⟨hh, hb⟩ := h4 (by simp)
  rw [Lay_append, Lay_cons] at h1
  rw [lastAddr_append, lastAddr_cons] at h2
  rw [span_append, span_cons] at hb
  refine ⟨h1.1, h1.2.1, h1.2.2, hh, by omega, h2, h6, h7⟩

/-- Rebuilding a representation from a block and its two sides. -/
theorem Repr_build (m : Mem) (hd tl bk lim : Nat) (cs : List Nat)
    (l1 : List Blk) (b : Blk) (l2 : List Blk)
    (h1 : Lay m hd 0 (hd + span l1) l1)
    (h2 : Hdr m (hd + span l1) b.size (flag b.free)
      (nxt 0 (hd + span l1 + BLOCK_SIZE + b.size) l2) (lastAddr 0 hd l1))
    (h3 : Lay m (hd + span l1 + BLOCK_SIZE + b.size) (hd + span l1) 0 l2)
    (h4 : hd ≠ 0) (h5 : hd + span l1 + BLOCK_SIZE + b.size + span l2 = bk)
    (h6 : tl = lastAddr (hd + span l1) (hd + span l1 + BLOCK_SIZE + b.size) l2)
    (h7 : bk ≤ lim) (h8 : lim < SBRK_FAIL) : Repr ⟨m, hd, tl, bk, lim, cs⟩ (l1 ++ b :: l2) := by
  refine ⟨?_, ?_, by simp, ?_, ?_, h7, h8⟩
  · rw [Lay_append, Lay_cons]; exact ⟨h1, h2, h3⟩
  · rw [lastAddr_append, lastAddr_cons]; exact h6
  · intro _; rw [span_append, span_cons]; exact ⟨h4, by dsimp only; omega⟩
  · dsimp only; omega

theorem reuse_split_repr (s : State) (l1 : List Blk) (b : Blk) (l2 : List Blk) (n : Nat)
    (hr : Repr s (l1 ++ b :: l2)) (hgt : n + BLOCK_SIZE < b.size) :
    Repr (reuse s (s.head + span l1) n).1
      (l1 ++ ⟨n, false⟩ :: ⟨b.size - n - BLOCK_SIZE, true⟩ :: l2) := by
  obtain ⟨h1, h2, h3, h4, h5, h6, h7, h8⟩ := Repr_parts s l1 b l2 hr
  have hB : BLOCK_SIZE = 32 := rfl
  have hS : SBRK_FAIL = 2 ^ 64 - 1 := rfl
  have hW : WORD = 2 ^ 64 := rfl
  have hf : ∀ x : Bool, flag x % 2 ^ 32 = flag x := fun x => Nat.mod_eq_of_lt (flag_lt x)
  unfold reuse
  rw [split_block_eq s _ n _ _ _ _ h2 hgt (by omega)]
  have hN : s.head + span l1 + BLOCK_SIZE + n + BLOCK_SIZE + (b.size - n - BLOCK_SIZE) =
      s.head + span l1 + BLOCK_SIZE + b.size := by omega
  dsimp only
  simp only [Hdr, get_size, get_free, get_next, get_prev] at h2
  obtain ⟨h2a, h2b, h2c, h2d⟩ := h2
  cases l2 with
  | nil =>
    simp only [nxt, lastAddr, Lay] at h2c h3 h6 ⊢
    simp only [ne_eq, not_true_eq_false, if_false]
    apply Repr_build
    · simp (disch := omega) only [set_size, set_free, set_next, set_prev, Lay_store_iff]
      exact h1
    · simp (disch := omega) only [Hdr, get_size, get_free, get_next, get_prev,
        set_size, set_free, set_next, set_prev, load_store_disj, load_store_eq, nxt, pow8, pow4]
      refine ⟨?_, ?_, ?_, h2d⟩
      · exact Nat.mod_eq_of_lt (by omega)
      · rfl
      · exact Nat.mod_eq_of_lt (by omega)
    · simp (disch := omega) only [Lay, Hdr, get_size, get_free, get_next, get_prev,
        set_size, set_free, set_next, set_prev, load_store_disj, load_store_eq, nxt, pow8, pow4]
      refine ⟨⟨?_, ?_, ?_, ?_⟩, trivial⟩
      · exact Nat.mod_eq_of_lt (by omega)
      · rfl
      · rfl
      · exact Nat.mod_eq_of_lt (by omega)
    · exact h4
    · simp only [span] at h5 ⊢; omega
    · simp only [lastAddr]; rw [h6]; simp
    · exact h7
    · exact h8
  | cons c l2 =>
    simp only [nxt] at h2c ⊢
    rw [Lay_cons] at h3
    have hne : s.head + span l1 + BLOCK_SIZE + b.size ≠ 0 := by omega
    have htl : s.head + span l1 ≠ s.tail := by
      rw [h6]
      have := (lastAddr_le (c :: l2) (s.head + span l1)
        (s.head + span l1 + BLOCK_SIZE + b.size) (by simp)).1
      omega
    rw [if_pos hne, if_neg htl]
    obtain ⟨h3h, h3l⟩ := h3
    simp only [Hdr, get_size, get_free, get_next, get_prev] at h3h
    obtain ⟨h3a, h3b, h3c, h3d⟩ := h3h
    apply Repr_build
    · simp (disch := omega) only [set_size, set_free, set_next, set_prev, Lay_store_iff]
      exact h1
    · simp (disch := omega) only [Hdr, get_size, get_free, get_next, get_prev,
        set_size, set_free, set_next, set_prev, load_store_disj, load_store_eq, nxt, pow8, pow4]
      refine ⟨?_, ?_, ?_, h2d⟩
      · exact Nat.mod_eq_of_lt (by omega)
      · rfl
      · exact Nat.mod_eq_of_lt (by omega)
    · rw [Lay_cons, Lay_cons, hN]
      simp (disch := omega) only [Hdr, get_size, get_free, get_next, get_prev,
        set_size, set_free, set_next, set_prev, load_store_disj, load_store_eq, nxt, pow8, pow4,
        Lay_store_iff]
      refine ⟨⟨?_, ?_, ?_, ?_⟩, ⟨h3a, h3b, h3c, ?_⟩, h3l⟩
      · exact Nat.mod_eq_of_lt (by omega)
      · rfl
      · exact Nat.mod_eq_of_lt (by omega)
      · exact Nat.mod_eq_of_lt (by omega)
      · exact Nat.mod_eq_of_lt (by omega)
    · exact h4
    · simp only [span] at h5 ⊢; omega
    · rw [lastAddr_cons, hN, h6]; rfl
    · exact h7
    · exact h8

theorem reuse_nosplit_repr (s : State) (l1 : List Blk) (b : Blk) (l2 : List Blk) (n : Nat)
    (hr : Repr s (l1 ++ b :: l2)) (hle : b.size ≤ n + BLOCK_SIZE) (hn : n ≤ b.size) :
    Repr (reuse s (s.head + span l1) n).1 (l1 ++ ⟨b.size, false⟩ :: l2) := by
  obtain ⟨h1, h2, h3, h4, h5, h6, h7, h8⟩ := Repr_parts s l1 b l2 hr
  have hB : BLOCK_SIZE = 32 := rfl
  have hS : SBRK_FAIL = 2 ^ 64 - 1 := rfl
  have hW : WORD = 2 ^ 64 := rfl
  unfold reuse
  rw [split_block_id s _ n _ _ _ _ h2 hle (by omega)]
  dsimp only
  apply Repr_build
  · exact Lay_set_free_o _ _ _ _ _ _ _ (by omega) h1
  · exact Hdr_set_free _ _ _ _ _ _ _ (by simp [flag]) h2
  · exact Lay_set_free_o _ _ _ _ _ _ _ (by omega) h3
  · exact h4
  · exact h5
  · exact h6
  · exact h7
  · exact h8

/-- Marking a block free or used keeps the layout. -/
theorem mark_repr (s : State) (l1 : List Blk) (b : Blk) (l2 : List Blk) (f : Bool)
    (hr : Repr s (l1 ++ b :: l2)) :
    Repr { s with mem := set_free s.mem (s.head + span l1) (flag f) }
      (l1 ++ ⟨b.size, f⟩ :: l2) := by
  obtain ⟨h1, h2, h3, h4, h5, h6, h7, h8⟩ := Repr_parts s l1 b l2 hr
  have hB : BLOCK_SIZE = 32 := rfl
  apply Repr_build
  · exact Lay_set_free_o _ _ _ _ _ _ _ (by omega) h1
  · exact Hdr_set_free _ _ _ _ _ _ _ (flag_lt f) h2
  · exact Lay_set_free_o _ _ _ _ _ _ _ (by omega) h3
  · exact h4
  · exact h5
  · exact h6
  · exact h7
  · exact h8

theorem load_memset_disj (m : Mem) (d c n b k : Nat) (h : b + k ≤ d ∨ d + n ≤ b) :
    load (memset m d c n) b k = load m b k :=
  load_congr m _ k b (fun x h1 h2 => memset_out m d c n x (by omega))

theorem Lay_memset_iff (m : Mem) (l : List Blk) (a pv e d c n : Nat)
    (h : d + n ≤ a ∨ a + span l ≤ d) : Lay (memset m d c n) a pv e l ↔ Lay m a pv e l :=
  ⟨fun hl => Lay_frame _ m l a pv e (fun x h1 h2 => (memset_out m d c n x (by omega)).symm) hl,
   fun hl => Lay_frame m _ l a pv e (fun x h1 h2 => memset_out m d c n x (by omega)) hl⟩

/-- Explicit form of `append`, given the headers of both blocks. -/
theorem append_eq (s : State) (D C szd frd pvd szc frc nxc : Nat)
    (hd : Hdr s.mem D szd frd C pvd) (hc : Hdr s.mem C szc frc nxc D)
    (hDC : D + BLOCK_SIZE ≤ C) (hnx : nxc = 0 ∨ C + BLOCK_SIZE ≤ nxc)
    (hsz : szd + szc + BLOCK_SIZE < WORD) :
    append s D C =
      { s with
        mem := memset (set_size
          (if nxc ≠ 0 then set_prev (set_next s.mem D nxc) nxc D else set_next s.mem D nxc)
          D (szd + szc + BLOCK_SIZE)) C 0 (BLOCK_SIZE + szc),
        tail := if C = s.tail then D else s.tail } := by
  have hB : BLOCK_SIZE = 32 := rfl
  have hW : WORD = 2 ^ 64 := rfl
  simp only [Hdr, get_size, get_free, get_next, get_prev] at hd hc
  obtain ⟨hd1, hd2, hd3, hd4⟩ := hd
  obtain ⟨hc1, hc2, hc3, hc4⟩ := hc
  have e1 : (szd + (szc + BLOCK_SIZE) % WORD) % WORD = szd + szc + BLOCK_SIZE := by
    rw [Nat.mod_eq_of_lt (a := szc + BLOCK_SIZE) (by omega), Nat.mod_eq_of_lt (by omega)]
    omega
  have e2 : (BLOCK_SIZE + szc) % WORD = BLOCK_SIZE + szc := Nat.mod_eq_of_lt (by omega)
  unfold append
  by_cases h0 : nxc = 0
  · simp (disch := omega) only [get_size, get_free, get_next, get_prev,
      set_size, set_free, set_next, set_prev, load_store_disj, load_store_eq, hc3, h0, hd1, hc1,
      ne_eq, not_true_eq_false, if_false, e1, e2]
  · simp (disch := omega) only [get_size, get_free, get_next, get_prev,
      set_size, set_free, set_next, set_prev, load_store_disj, load_store_eq, hc3, h0, hd1, hc1,
      ne_eq, not_false_eq_true, if_true, e1, e2]

theorem append_repr (s : State) (l1 : List Blk) (d c : Blk) (l2 : List Blk)
    (hr : Repr s (l1 ++ d :: c :: l2)) :
    Repr (append s (s.head + span l1) (s.head + span l1 + BLOCK_SIZE + d.size))
      (l1 ++ ⟨d.size + c.size + BLOCK_SIZE, d.free⟩ :: l2) := by
  obtain ⟨h1, h2, h3, h4, h5, h6, h7, h8⟩ := Repr_parts s l1 d (c :: l2) hr
  have hB : BLOCK_SIZE = 32 := rfl
  have hS : SBRK_FAIL = 2 ^ 64 - 1 := rfl
  have hW : WORD = 2 ^ 64 := rfl
  rw [Lay_cons] at h3
  obtain ⟨h3h, h3l⟩ := h3
  simp only [nxt] at h2
  simp only [span_cons] at h5
  have hnx : nxt 0 (s.head + span l1 + BLOCK_SIZE + d.size + BLOCK_SIZE + c.size) l2 = 0 ∨
      s.head + span l1 + BLOCK_SIZE + d.size + BLOCK_SIZE ≤
        nxt 0 (s.head + span l1 + BLOCK_SIZE + d.size + BLOCK_SIZE + c.size) l2 := by
    cases l2 with
    | nil => left; rfl
    | cons e l2 => right; simp only [nxt]; omega
  rw [append_eq s _ _ _ _ _ _ _ _ h2 h3h (by omega) hnx (by omega)]
  have hN : s.head + span l1 + BLOCK_SIZE + (d.size + c.size + BLOCK_SIZE) =
      s.head + span l1 + BLOCK_SIZE + d.size + BLOCK_SIZE + c.size := by omega
  simp only [Hdr, get_size, get_free, get_next, get_prev] at h2 h3h
  obtain ⟨h2a, h2b, h2c, h2d⟩ := h2
  obtain ⟨h3a, h3b, h3c, h3d⟩ := h3h
  cases l2 with
  | nil =>
    simp only [nxt, lastAddr, Lay] at h3c h6 ⊢
    simp only [ne_eq, not_true_eq_false, if_false]
    rw [if_pos h6.symm]
    apply Repr_build
    · simp (disch := omega) only [set_size, set_free, set_next, set_prev, Lay_store_iff,
        Lay_memset_iff]
      exact h1
    · simp (disch := omega) only [Hdr, get_size, get_free, get_next, get_prev,
        set_size, set_free, set_next, set_prev, load_store_disj, load_store_eq, nxt, pow8, pow4,
        load_memset_disj]
      refine ⟨?_, h2b, ?_, h2d⟩
      · exact Nat.mod_eq_of_lt (by omega)
      · rfl
    · trivial
    · exact h4
    · simp only [span] at h5 ⊢; omega
    · rfl
    · exact h7
    · exact h8
  | cons e l2 =>
    simp only [nxt] at h3c ⊢
    rw [Lay_cons] at h3l
    obtain ⟨h4h, h4l⟩ := h3l
    simp only [Hdr, get_size, get_free, get_next, get_prev] at h4h
    obtain ⟨h4a, h4b, h4c, h4d⟩ := h4h
    have hne : s.head + span l1 + BLOCK_SIZE + d.size + BLOCK_SIZE + c.size ≠ 0 := by omega
    have htl : s.head + span l1 + BLOCK_SIZE + d.size ≠ s.tail := by
      rw [h6]
      have := (lastAddr_le (e :: l2) (s.head + span l1 + BLOCK_SIZE + d.size)
        (s.head + span l1 + BLOCK_SIZE + d.size + BLOCK_SIZE + c.size) (by simp)).1
      rw [lastAddr_cons]
      rw [lastAddr_pv _ (s.head + span l1 + BLOCK_SIZE + d.size) _ (e :: l2) (by simp)]
      omega
    rw [if_pos hne, if_neg htl]
    simp only [span_cons] at h5
    apply Repr_build
    · simp (disch := omega) only [set_size, set_free, set_next, set_prev, Lay_store_iff,
        Lay_memset_iff]
      exact h1
    · simp (disch := omega) only [Hdr, get_size, get_free, get_next, get_prev,
        set_size, set_free, set_next, set_prev, load_store_disj, load_store_eq, nxt, pow8, pow4,
        load_memset_disj]
      refine ⟨?_, h2b, ?_, h2d⟩
      · exact Nat.mod_eq_of_lt (by omega)
      · rw [Nat.mod_eq_of_lt (by omega)]; omega
    · rw [Lay_cons, hN]
      simp (disch := omega) only [Hdr, get_size, get_free, get_next, get_prev,
        set_size, set_free, set_next, set_prev, load_store_disj, load_store_eq, nxt, pow8, pow4,
        Lay_store_iff, load_memset_disj, Lay_memset_iff]
      refine ⟨⟨h4a, h4b, h4c, ?_⟩, h4l⟩
      exact Nat.mod_eq_of_lt (by omega)
    · exact h4
    · simp only [span] at h5 ⊢; omega
    · rw [hN, h6]; rfl
    · exact h7
    · exact h8

theorem mm_free_eq (s : State) (p : Nat) (hp : p ≠ 0) :
    mm_free s p =
      free_prev (free_next { s with mem := set_free s.mem (p - BLOCK_SIZE) 1 } (p - BLOCK_SIZE))
        (p - BLOCK_SIZE) := by
  unfold mm_free free_prev free_next
  rw [if_neg hp]

theorem flag_ne_zero (b : Bool) : flag b ≠ 0 ↔ b = true := by
  cases b <;> simp [flag]

theorem free_next_repr (s : State) (l1 : List Blk) (b : Blk) (l2 : List Blk)
    (hr : Repr s (l1 ++ b :: l2)) :
    Repr (free_next s (s.head + span l1))
      (l1 ++ (if b.free then (mergeNext b l2).1 else
          ⟨(mergeNext b l2).1.size, false⟩) :: (mergeNext b l2).2) := by
  obtain ⟨h1, h2, h3, h4, h5, h6, h7, h8⟩ := Repr_parts s l1 b l2 hr
  have hB : BLOCK_SIZE = 32 := rfl
  unfold free_next
  rw [h2.2.2.1]
  cases l2 with
  | nil =>
    simp only [nxt, ne_eq, not_true_eq_false, false_and, if_false, mergeNext]
    cases hb : b.free
    · simp only [Bool.false_eq_true, if_false]
      have : b = ⟨b.size, false⟩ := by cases b; simp_all
      rw [← this]; exact hr
    · simp only [if_true]
      have : b = ⟨b.size, true⟩ := by cases b; simp_all
      rw [← this]; exact hr
  | cons c l2 =>
    rw [Lay_cons] at h3
    simp only [nxt]
    rw [h3.1.2.1]
    have hne : s.head + span l1 + BLOCK_SIZE + b.size ≠ 0 := by omega
    by_cases hc : c.free = true
    · rw [if_pos ⟨hne, (flag_ne_zero _).2 hc⟩]
      simp only [mergeNext, hc, if_true]
      have := append_repr s l1 b c l2 hr
      cases hb : b.free
      · simp only [Bool.false_eq_true, if_false]; rw [hb] at this; exact this
      · simp only [if_true]; rw [hb] at this; exact this
    · rw [if_neg (fun h => hc ((flag_ne_zero _).1 h.2))]
      simp only [mergeNext, hc, if_false]
      cases hb : b.free
      · simp only [Bool.false_eq_true, if_false]
        have : b = ⟨b.size, false⟩ := by cases b; simp_all
        rw [← this]; exact hr
      · simp only [if_true]
        have : b = ⟨b.size, true⟩ := by cases b; simp_all
        rw [← this]; exact hr

theorem mergePrev_concat (l0 : List Blk) (p b : Blk) (r : List Blk) :
    mergePrev (l0 ++ [p]) b r =
      if p.free then l0 ++ ⟨p.size + b.size + BLOCK_SIZE, true⟩ :: r else (l0 ++ [p]) ++ b :: r := by
  simp [mergePrev, List.getLast?_append, List.dropLast_concat]

theorem mergePrev_nil (b : Blk) (r : List Blk) : mergePrev [] b r = b :: r := rfl

theorem free_prev_repr (s : State) (l1 : List Blk) (b : Blk) (l2 : List Blk)
    (hr : Repr s (l1 ++ b :: l2)) :
    Repr (free_prev s (s.head + span l1)) (mergePrev l1 b l2) := by
  obtain ⟨h1, h2, h3, h4, h5, h6, h7, h8⟩ := Repr_parts s l1 b l2 hr
  have hB : BLOCK_SIZE = 32 := rfl
  unfold free_prev
  rw [h2.2.2.2]
  rcases List.eq_nil_or_concat l1 with hl | ⟨l0, p, hl⟩
  · subst hl
    simp only [lastAddr, ne_eq, not_true_eq_false, false_and, if_false, mergePrev_nil]
    exact hr
  · rw [List.concat_eq_append] at hl
    subst hl
    rw [lastAddr_concat]
    have hr1 : Repr s (l0 ++ p :: b :: l2) := by
      rw [List.append_assoc] at hr; exact hr
    obtain ⟨g1, g2, g3, g4, g5, g6, g7, g8⟩ := Repr_parts s l0 p (b :: l2) hr1
    rw [g2.2.1]
    have hne : s.head + span l0 ≠ 0 := by omega
    have hsp : s.head + span (l0 ++ [p]) = s.head + span l0 + BLOCK_SIZE + p.size := by
      rw [span_append]; simp only [span]; omega
    rw [mergePrev_concat]
    by_cases hp : p.free = true
    · rw [if_pos ⟨hne, (flag_ne_zero _).2 hp⟩]
      simp only [hp, if_true]
      have := append_repr s l0 p b l2 hr1
      rw [hp] at this
      rw [hsp]
      exact this
    · rw [if_neg (fun h => hp ((flag_ne_zero _).1 h.2))]
      simp only [hp, if_false]
      rw [List.append_assoc]
      exact hr1

theorem mergeNext_free (b : Blk) (l2 : List Blk) : (mergeNext b l2).1.free = true := by
  cases l2 with
  | nil => rfl
  | cons c l2 => simp only [mergeNext]; split <;> rfl

theorem free_next_head (s : State) (b : Nat) : (free_next s b).head = s.head := by
  unfold free_next append; split <;> rfl

/-- Releasing a block of the directory yields the abstract release. -/
theorem free_repr (s : State) (l1 : List Blk) (b : Blk) (l2 : List Blk)
    (hr : Repr s (l1 ++ b :: l2)) :
    Repr (mm_free s (s.head + span l1 + BLOCK_SIZE)) (afree l1 b l2) := by
  have hB : BLOCK_SIZE = 32 := rfl
  rw [mm_free_eq s _ (by omega)]
  have e : s.head + span l1 + BLOCK_SIZE - BLOCK_SIZE = s.head + span l1 := by omega
  rw [e]
  have h1 := mark_repr s l1 b l2 true hr
  have h2 := free_next_repr _ l1 ⟨b.size, true⟩ l2 h1
  simp only [if_true] at h2
  have e2 : mergeNext ⟨b.size, true⟩ l2 = mergeNext b l2 := by
    cases l2 <;> rfl
  rw [e2] at h2
  have h3 := free_prev_repr _ l1 _ _ h2
  rw [free_next_head] at h3
  exact h3

/-- Either no block fits, or there is a first block that fits. -/
theorem first_fit_cases (n : Nat) (bs : List Blk) :
    (∀ b ∈ bs, ¬ Fits n b) ∨
      ∃ l1 b l2, bs = l1 ++ b :: l2 ∧ (∀ c ∈ l1, ¬ Fits n c) ∧ Fits n b := by
  induction bs with
  | nil => left; simp
  | cons c l ih =>
    by_cases hc : Fits n c
    · right; exact ⟨[], c, l, rfl, by simp, hc⟩
    · rcases ih with h | ⟨l1, b, l2, h1, h2, h3⟩
      · left; intro b hb
        rcases List.mem_cons.1 hb with h0 | h0
        · rw [h0]; exact hc
        · exact h b h0
      · right
        refine ⟨c :: l1, b, l2, by rw [h1]; rfl, ?_, h3⟩
        intro d hd
        rcases List.mem_cons.1 hd with h0 | h0
        · rw [h0]; exact hc
        · exact h2 d h0

theorem find_unique (f g : Nat) (m : Mem) (a n x y : Nat)
    (h1 : find_free_block f m a n = some x) (h2 : find_free_block g m a n = some y) : x = y := by
  have e1 := find_mono_le f (max f g) m a n x (le_max_left _ _) h1
  have e2 := find_mono_le g (max f g) m a n y (le_max_right _ _) h2
  rw [e1] at e2
  exact Option.some.inj e2

/-- The scan of a represented directory finds the first fitting block. -/
theorem find_repr_some (s : State) (n : Nat) (l1 : List Blk) (b : Blk) (l2 : List Blk)
    (hr : Repr s (l1 ++ b :: l2)) (h1 : ∀ c ∈ l1, ¬ Fits n c) (h2 : Fits n b)
    (fuel : Nat) (hf : l1.length + 1 ≤ fuel) :
    find_free_block fuel s.mem s.head n = some (s.head + span l1) :=
  find_mono_le _ _ _ _ _ _ hf
    (find_some s.mem n b l2 l1 s.head 0 0 hr.1 (hr.2.2.2.1 (by simp)).1 h1 h2)

theorem find_repr_none (s : State) (n : Nat) (bs : List Blk)
    (hr : Repr s bs) (h1 : ∀ c ∈ bs, ¬ Fits n c)
    (fuel : Nat) (hf : bs.length + 1 ≤ fuel) :
    find_free_block fuel s.mem s.head n = some 0 :=
  find_mono_le _ _ _ _ _ _ hf (find_none s.mem n bs s.head 0 hr.1 hr.2.2.1 h1)

theorem malloc_found (s : State) (n : Nat) (l1 : List Blk) (b : Blk) (l2 : List Blk)
    (hr : Repr s (l1 ++ b :: l2)) (h1 : ∀ c ∈ l1, ¬ Fits n c) (h2 : Fits n b) (hn : n ≠ 0)
    (fuel : Nat) (hf : l1.length + 1 ≤ fuel) :
    mm_malloc fuel s n = .ok (reuse s (s.head + span l1) n) := by
  unfold mm_malloc
  rw [if_neg hn, find_repr_some s n l1 b l2 hr h1 h2 fuel hf]
  have : s.head + span l1 ≠ 0 := by
    have := (hr.2.2.2.1 (by simp)).1
    omega
  simp only [this, if_false]

theorem malloc_notfound (s : State) (n : Nat) (bs : List Blk)
    (hr : Repr s bs) (h1 : ∀ c ∈ bs, ¬ Fits n c) (hn : n ≠ 0)
    (fuel : Nat) (hf : bs.length + 1 ≤ fuel) :
    mm_malloc fuel s n = .ok (grow s n) := by
  unfold mm_malloc
  rw [if_neg hn, find_repr_none s n bs hr h1 fuel hf]
  simp only [if_true]

/-- Whatever the fuel, a returning `mm_malloc` agrees with the run on ample fuel. -/
theorem malloc_fuel (s : State) (n f g : Nat) (r1 r2 : State × Nat)
    (h1 : mm_malloc f s n = .ok r1) (h2 : mm_malloc g s n = .ok r2) : r1 = r2 := by
  unfold mm_malloc at h1 h2
  by_cases hn : n = 0
  · simp only [hn, if_true, Except.ok.injEq] at h1 h2; rw [← h1, ← h2]
  · rw [if_neg hn] at h1 h2
    cases e1 : find_free_block f s.mem s.head n with
    | none => rw [e1] at h1; simp at h1
    | some x =>
      cases e2 : find_free_block g s.mem s.head n with
      | none => rw [e2] at h2; simp at h2
      | some y =>
        have := find_unique f g _ _ _ x y e1 e2
        subst this
        rw [e1] at h1; rw [e2] at h2
        simp only at h1 h2
        split at h1 <;> split at h2 <;> simp_all

/-! ### The abstract invariant -/

theorem NoAdj_cons (b : Blk) (l : List Blk) :
    NoAdj (b :: l) ↔ (∀ c, l.head? = some c → ¬ (b.free = true ∧ c.free = true)) ∧ NoAdj l := by
  cases l with
  | nil => simp [NoAdj]
  | cons c l => simp [NoAdj]

theorem NoAdj_tail (b : Blk) (l : List Blk) (h : NoAdj (b :: l)) : NoAdj l :=
  ((NoAdj_cons b l).1 h).2

theorem NoAdj_append (l1 l2 : List Blk) :
    NoAdj (l1 ++ l2) ↔ NoAdj l1 ∧ NoAdj l2 ∧
      ∀ p c, l1.getLast? = some p → l2.head? = some c → ¬ (p.free = true ∧ c.free = true) := by
  induction l1 with
  | nil => simp [NoAdj]
  | cons b l ih =>
    cases l with
    | nil =>
      simp only [List.singleton_append, List.getLast?_singleton, Option.some.injEq]
      rw [NoAdj_cons]
      simp only [NoAdj, true_and]
      constructor
      · rintro ⟨h1, h2⟩; exact ⟨h2, fun p c hp hc => by subst hp; exact h1 c hc⟩
      · rintro ⟨h1, h2⟩; exact ⟨fun c hc => h2 b c rfl hc, h1⟩
    | cons c l =>
      have e : (b :: c :: l).getLast? = (c :: l).getLast? := by simp [List.getLast?_cons_cons]
      rw [e]
      simp only [List.cons_append] at ih ⊢
      simp only [NoAdj]
      rw [ih]
      tauto

theorem NoAdj_mid (l1 : List Blk) (b c : Blk) (l2 : List Blk)
    (h : NoAdj (l1 ++ b :: c :: l2)) : ¬ (b.free = true ∧ c.free = true) := by
  rw [NoAdj_append] at h
  exact h.2.1.1

theorem NoAdj_insert (l1 : List Blk) (x : Blk) (r : List Blk)
    (h1 : NoAdj l1) (h2 : NoAdj r)
    (hl : ∀ p, l1.getLast? = some p → ¬ (p.free = true ∧ x.free = true))
    (hr : ∀ c, r.head? = some c → ¬ (x.free = true ∧ c.free = true)) :
    NoAdj (l1 ++ x :: r) := by
  rw [NoAdj_append]
  refine ⟨h1, (NoAdj_cons x r).2 ⟨hr, h2⟩, ?_⟩
  intro p c hp hc
  simp only [List.head?_cons, Option.some.injEq] at hc
  subst hc
  exact hl p hp

theorem NoAdj_parts (l1 : List Blk) (b : Blk) (l2 : List Blk) (h : NoAdj (l1 ++ b :: l2)) :
    NoAdj l1 ∧ NoAdj l2 ∧
      (∀ p, l1.getLast? = some p → ¬ (p.free = true ∧ b.free = true)) ∧
      (∀ c, l2.head? = some c → ¬ (b.free = true ∧ c.free = true)) := by
  rw [NoAdj_append, NoAdj_cons] at h
  refine ⟨h.1, h.2.1.2, fun p hp => h.2.2 p b hp rfl, h.2.1.1⟩

theorem NoAdj_used (l1 : List Blk) (b : Blk) (l2 : List Blk) (sz : Nat)
    (h : NoAdj (l1 ++ b :: l2)) : NoAdj (l1 ++ ⟨sz, false⟩ :: l2) := by
  obtain ⟨h1, h2, _, _⟩ := NoAdj_parts l1 b l2 h
  exact NoAdj_insert l1 _ l2 h1 h2 (by simp) (by simp)

theorem NoAdj_asplit (l1 : List Blk) (b : Blk) (l2 : List Blk) (n : Nat)
    (h : NoAdj (l1 ++ b :: l2)) (hb : b.free = true) : NoAdj (l1 ++ (asplit n b ++ l2)) := by
  obtain ⟨h1, h2, _, h4⟩ := NoAdj_parts l1 b l2 h
  unfold asplit
  split
  · simp only [List.cons_append, List.nil_append]
    apply NoAdj_insert l1 _ _ h1 _ (by simp) (by simp)
    rw [NoAdj_cons]
    refine ⟨fun c hc hh => h4 c hc ⟨hb, hh.2⟩, h2⟩
  · exact NoAdj_insert l1 _ l2 h1 h2 (by simp) (by simp)

theorem NoAdj_grow (bs : List Blk) (n : Nat) (h : NoAdj bs) : NoAdj (bs ++ [⟨n, false⟩]) :=
  NoAdj_insert bs _ [] h trivial (by simp) (by simp)

theorem mergeNext_rest (b : Blk) (l2 : List Blk) (h : NoAdj l2) :
    NoAdj (mergeNext b l2).2 ∧ ∀ c, (mergeNext b l2).2.head? = some c → c.free = false := by
  cases l2 with
  | nil => simp [mergeNext, NoAdj]
  | cons c l2 =>
    simp only [mergeNext]
    by_cases hc : c.free = true
    · rw [if_pos hc]
      rw [NoAdj_cons] at h
      refine ⟨h.2, fun d hd => ?_⟩
      have := h.1 d hd
      simp only [hc, true_and] at this
      simpa using this
    · rw [if_neg hc]
      refine ⟨h, fun d hd => ?_⟩
      simp only [List.head?_cons, Option.some.injEq] at hd
      subst hd
      simpa using hc

theorem NoAdj_dropLast (l0 : List Blk) (p : Blk) (h : NoAdj (l0 ++ [p])) (hp : p.free = true) :
    NoAdj l0 ∧ ∀ q, l0.getLast? = some q → q.free = false := by
  rw [NoAdj_append] at h
  refine ⟨h.1, fun q hq => ?_⟩
  have := h.2.2 q p hq rfl
  simp only [hp, and_true] at this
  simpa using this

theorem NoAdj_afree (l1 : List Blk) (b : Blk) (l2 : List Blk) (h : NoAdj (l1 ++ b :: l2)) :
    NoAdj (afree l1 b l2) := by
  obtain ⟨h1, h2, _, _⟩ := NoAdj_parts l1 b l2 h
  obtain ⟨g1, g2⟩ := mergeNext_rest b l2 h2
  unfold afree
  rcases List.eq_nil_or_concat l1 with hl | ⟨l0, p, hl⟩
  · subst hl
    rw [mergePrev_nil, NoAdj_cons]
    exact ⟨fun c hc hh => by have := g2 c hc; simp_all, g1⟩
  · rw [List.concat_eq_append] at hl
    subst hl
    rw [mergePrev_concat]
    by_cases hp : p.free = true
    · rw [if_pos hp]
      obtain ⟨k1, k2⟩ := NoAdj_dropLast l0 p h1 hp
      apply NoAdj_insert l0 _ _ k1 g1
      · intro q hq hh; have := k2 q hq; simp_all
      · intro c hc hh; have := g2 c hc; simp_all
    · rw [if_neg hp]
      apply NoAdj_insert _ _ _ h1 g1
      · intro q hq hh
        simp only [List.getLast?_append, List.getLast?_singleton] at hq
        simp at hq
        subst hq
        exact hp hh.1
      · intro c hc hh; have := g2 c hc; simp_all

/-! ### Sizes stay positive -/

theorem pos_asplit (l1 : List Blk) (b : Blk) (l2 : List Blk) (n : Nat) (hn : 0 < n)
    (h : ∀ x ∈ l1 ++ b :: l2, 0 < x.size) : ∀ x ∈ l1 ++ (asplit n b ++ l2), 0 < x.size := by
  intro x hx
  simp only [List.mem_append, List.mem_cons] at h hx
  rcases hx with hx | hx | hx
  · exact h x (Or.inl hx)
  · unfold asplit at hx
    split at hx
    · simp only [List.mem_cons, List.mem_singleton, List.not_mem_nil, or_false] at hx
      rcases hx with hx | hx <;> subst hx <;> simp <;> omega
    · simp only [List.mem_singleton] at hx
      subst hx
      exact h b (Or.inr (Or.inl rfl))
  · exact h x (Or.inr (Or.inr hx))

theorem pos_afree (l1 : List Blk) (b : Blk) (l2 : List Blk)
    (h : ∀ x ∈ l1 ++ b :: l2, 0 < x.size) : ∀ x ∈ afree l1 b l2, 0 < x.size := by
  have hb : 0 < b.size := h b (by simp)
  have h1 : ∀ x ∈ l1, 0 < x.size := fun x hx => h x (by simp [hx])
  have h2 : ∀ x ∈ l2, 0 < x.size := fun x hx => h x (by simp [hx])
  have g1 : 0 < (mergeNext b l2).1.size ∧ ∀ x ∈ (mergeNext b l2).2, 0 < x.size := by
    cases l2 with
    | nil => simp [mergeNext, hb]
    | cons c l2 =>
      simp only [mergeNext]
      split
      · exact ⟨by simp; omega, fun x hx => h2 x (by simp [hx])⟩
      · exact ⟨hb, h2⟩
  unfold afree
  rcases List.eq_nil_or_concat l1 with hl | ⟨l0, p, hl⟩
  · subst hl
    rw [mergePrev_nil]
    intro x hx
    rcases List.mem_cons.1 hx with hx | hx
    · rw [hx]; exact g1.1
    · exact g1.2 x hx
  · rw [List.concat_eq_append] at hl
    subst hl
    rw [mergePrev_concat]
    intro x hx
    split at hx
    · simp only [List.mem_append, List.mem_cons] at hx
      rcases hx with hx | hx | hx
      · exact h1 x (by simp [hx])
      · rw [hx]; simp; omega
      · exact g1.2 x hx
    · simp only [List.mem_append, List.mem_cons, List.mem_singleton, List.not_mem_nil,
        or_false] at hx
      rcases hx with (hx | hx) | hx | hx
      · exact h1 x (by simp [hx])
      · exact h1 x (by simp [hx])
      · rw [hx]; exact g1.1
      · exact g1.2 x hx

theorem reuse_repr (s : State) (l1 : List Blk) (b : Blk) (l2 : List Blk) (n : Nat)
    (hr : Repr s (l1 ++ b :: l2)) (hn : n ≤ b.size) :
    Repr (reuse s (s.head + span l1) n).1 (l1 ++ (asplit n b ++ l2)) := by
  unfold asplit
  by_cases h : n + BLOCK_SIZE < b.size
  · rw [if_pos h]; exact reuse_split_repr s l1 b l2 n hr h
  · rw [if_neg h]; exact reuse_nosplit_repr s l1 b l2 n hr (by omega) hn

theorem Repr_calls (s : State) (bs : List Blk) (cs : List Nat) (h : Repr s bs) :
    Repr { s with calls := cs } bs := h

/-- Bytes outside the headers may change freely. -/
theorem Repr_payload (s : State) (l1 : List Blk) (b : Blk) (l2 : List Blk) (m1 : Mem)
    (hr : Repr s (l1 ++ b :: l2))
    (hm : ∀ x, x < s.head + span l1 + BLOCK_SIZE ∨
      s.head + span l1 + BLOCK_SIZE + b.size ≤ x → m1 x = s.mem x) :
    Repr { s with mem := m1 } (l1 ++ b :: l2) := by
  obtain ⟨h1, h2, h3, h4, h5, h6, h7, h8⟩ := Repr_parts s l1 b l2 hr
  have hB : BLOCK_SIZE = 32 := rfl
  apply Repr_build
  · exact Lay_frame s.mem m1 l1 _ _ _ (fun x _ _ => hm x (by omega)) h1
  · exact Hdr_frame s.mem m1 _ _ _ _ _ (fun x _ _ => hm x (by omega)) h2
  · exact Lay_frame s.mem m1 l2 _ _ _ (fun x _ _ => hm x (by omega)) h3
  · exact h4
  · exact h5
  · exact h6
  · exact h7
  · exact h8

/-- A live pointer names a used block of the represented directory. -/
theorem Live_block (s : State) (bs : List Blk) (p : Nat) (hr : Repr s bs) (hp : Live s p) :
    ∃ l1 b l2, bs = l1 ++ b :: l2 ∧ p = s.head + span l1 + BLOCK_SIZE ∧ b.free = false := by
  obtain ⟨l, hl, a, ha, hpa, hf⟩ := hp
  have := Chain_unique _ _ _ _ hl (Repr_directory s bs hr)
  subst this
  obtain ⟨l1, b, l2, h1, h2⟩ := (mem_addrs bs s.head a).1 ha
  refine ⟨l1, b, l2, h1, by rw [hpa, h2], ?_⟩
  subst h1
  have := (Repr_parts s l1 b l2 hr).2.1.2.1
  rw [← h2, hf] at this
  exact (flag_eq_zero _).1 this.symm

theorem block_Live (s : State) (l1 : List Blk) (b : Blk) (l2 : List Blk)
    (hr : Repr s (l1 ++ b :: l2)) (hb : b.free = false) :
    Live s (s.head + span l1 + BLOCK_SIZE) := by
  refine ⟨_, Repr_directory s _ hr, s.head + span l1, ?_, rfl, ?_⟩
  · exact (mem_addrs _ _ _).2 ⟨l1, b, l2, rfl, rfl⟩
  · rw [(Repr_parts s l1 b l2 hr).2.1.2.1, hb]; rfl

theorem Inv_init (m : Mem) (brk0 limit : Nat) (h0 : 0 < brk0) (h1 : brk0 ≤ limit)
    (h2 : limit < SBRK_FAIL) : Inv ⟨m, 0, 0, brk0, limit, []⟩ :=
  ⟨[], ⟨trivial, rfl, fun _ => rfl, fun h => absurd rfl h, h0, h1, h2⟩, trivial, by simp⟩

theorem Inv_malloc (s s1 : State) (fuel n p : Nat) (hi : Inv s) (hw : BLOCK_SIZE + n ≤ INTPTR_MAX)
    (h : mm_malloc fuel s n = .ok (s1, p)) : Inv s1 := by
  obtain ⟨bs, hr, ha, hp⟩ := hi
  by_cases hn : n = 0
  · unfold mm_malloc at h
    rw [if_pos hn] at h
    simp only [Except.ok.injEq, Prod.mk.injEq] at h
    rw [← h.1]
    exact ⟨bs, hr, ha, hp⟩
  · rcases first_fit_cases n bs with hno | ⟨l1, b, l2, e, h1, h2⟩
    · have := malloc_fuel s n _ _ _ _ h (malloc_notfound s n bs hr hno hn _ (Nat.le_refl _))
      by_cases hf : s.brk + (BLOCK_SIZE + n) ≤ s.limit
      · have g := grow_repr s bs n hr hw hf
        rw [← this] at g
        refine ⟨_, g, NoAdj_grow bs n ha, ?_⟩
        intro x hx
        rcases List.mem_append.1 hx with hx | hx
        · exact hp x hx
        · simp only [List.mem_singleton] at hx; subst hx; exact Nat.pos_of_ne_zero hn
      · rw [grow_fail s n (by rw [Nat.mod_eq_of_lt (le_INTPTR_MAX_lt _ hw)]; exact hf)
          (mod_le_INTPTR_MAX _ hw)] at this
        simp only [Prod.mk.injEq] at this
        rw [this.1]
        exact ⟨bs, Repr_calls s bs _ hr, ha, hp⟩
    · subst e
      have := malloc_fuel s n _ _ _ _ h (malloc_found s n l1 b l2 hr h1 h2 hn _ (Nat.le_refl _))
      have g := reuse_repr s l1 b l2 n hr h2.2
      rw [← this] at g
      exact ⟨_, g, NoAdj_asplit l1 b l2 n ha h2.1, pos_asplit l1 b l2 n (Nat.pos_of_ne_zero hn) hp⟩

theorem mm_free_null (s : State) : mm_free s 0 = s := by
  unfold mm_free; rw [if_pos rfl]

theorem Inv_free (s : State) (p : Nat) (hi : Inv s) (hp : p = 0 ∨ Live s p) :
    Inv (mm_free s p) := by
  rcases hp with hp | hp
  · rw [hp, mm_free_null]; exact hi
  · obtain ⟨bs, hr, ha, hpos⟩ := hi
    obtain ⟨l1, b, l2, e, hpp, _⟩ := Live_block s bs p hr hp
    subst e
    rw [hpp]
    exact ⟨_, free_repr s l1 b l2 hr, NoAdj_afree l1 b l2 ha, pos_afree l1 b l2 hpos⟩

theorem reuse_fields (s : State) (A n : Nat) :
    (reuse s A n).1.head = s.head ∧ (reuse s A n).1.brk = s.brk ∧
      (reuse s A n).1.limit = s.limit ∧ (reuse s A n).1.calls = s.calls ∧
      (reuse s A n).2 = A + BLOCK_SIZE := by
  unfold reuse split_block
  split <;> exact ⟨rfl, rfl, rfl, rfl, rfl⟩

/-- The fields of the state after a growth whose `sbrk` call succeeded and left
the break at `b`. -/
theorem grow_fields_at (s : State) (n b : Nat)
    (hs : sbrk s ((BLOCK_SIZE + n) % WORD) =
      ({ s with brk := b, calls := s.calls ++ [(BLOCK_SIZE + n) % WORD] }, s.brk))
    (hne : s.brk ≠ SBRK_FAIL) :
    (grow s n).1.head = (if s.head = 0 then s.brk else s.head) ∧
      (grow s n).1.brk = b ∧
      (grow s n).1.limit = s.limit ∧
      (grow s n).1.calls = s.calls ++ [(BLOCK_SIZE + n) % WORD] ∧
      (grow s n).1.tail = s.brk ∧
      (grow s n).2 = s.brk + BLOCK_SIZE := by
  unfold grow
  rw [hs]
  simp [hne]

theorem grow_fields (s : State) (n : Nat) (hf : s.brk + (BLOCK_SIZE + n) % WORD ≤ s.limit)
    (hl : s.limit < SBRK_FAIL) (hi : (BLOCK_SIZE + n) % WORD ≤ INTPTR_MAX) :
    (grow s n).1.head = (if s.head = 0 then s.brk else s.head) ∧
      (grow s n).1.brk = s.brk + (BLOCK_SIZE + n) % WORD ∧
      (grow s n).1.limit = s.limit ∧
      (grow s n).1.calls = s.calls ++ [(BLOCK_SIZE + n) % WORD] ∧
      (grow s n).1.tail = s.brk ∧
      (grow s n).2 = s.brk + BLOCK_SIZE :=
  grow_fields_at s n _ (sbrk_ok s _ hf hi) (by omega)

/-- The three ways a request of positive size can end. -/
theorem malloc_cases (s s1 : State) (fuel n p : Nat) (bs : List Blk) (hr : Repr s bs)
    (hn : n ≠ 0) (h : mm_malloc fuel s n = .ok (s1, p)) :
    (∃ l1 b l2, bs = l1 ++ b :: l2 ∧ (∀ c ∈ l1, ¬ Fits n c) ∧ Fits n b ∧
        (s1, p) = reuse s (s.head + span l1) n) ∨
    ((∀ c ∈ bs, ¬ Fits n c) ∧ (s1, p) = grow s n) := by
  rcases first_fit_cases n bs with hno | ⟨l1, b, l2, e, h1, h2⟩
  · right
    exact ⟨hno, malloc_fuel s n _ _ _ _ h (malloc_notfound s n bs hr hno hn _ (Nat.le_refl _))⟩
  · left
    subst e
    exact ⟨l1, b, l2, rfl, h1, h2,
      malloc_fuel s n _ _ _ _ h (malloc_found s n l1 b l2 hr h1 h2 hn _ (Nat.le_refl _))⟩

theorem asplit_head (n : Nat) (b : Blk) (hn : n ≤ b.size) :
    ∃ u r, asplit n b = u :: r ∧ u.free = false ∧ n ≤ u.size ∧ u.size ≤ b.size ∧
      span (asplit n b) = span [b] := by
  unfold asplit
  have hB : BLOCK_SIZE = 32 := rfl
  split
  · exact ⟨_, _, rfl, rfl, Nat.le_refl _, hn, by simp only [span]; omega⟩
  · exact ⟨_, _, rfl, rfl, hn, Nat.le_refl _, rfl⟩

/-- A successful request returns the payload of a used block that is large enough. -/
theorem malloc_block (s s1 : State) (fuel n p : Nat) (hi : Inv s) (hw : BLOCK_SIZE + n ≤ INTPTR_MAX)
    (hn : n ≠ 0) (h : mm_malloc fuel s n = .ok (s1, p)) (hp : p ≠ 0) :
    ∃ l1 b l2, Repr s1 (l1 ++ b :: l2) ∧ NoAdj (l1 ++ b :: l2) ∧
      (∀ x ∈ l1 ++ b :: l2, 0 < x.size) ∧
      p = s1.head + span l1 + BLOCK_SIZE ∧ b.free = false ∧ n ≤ b.size := by
  obtain ⟨bs, hr, ha, hpos⟩ := hi
  rcases malloc_cases s s1 fuel n p bs hr hn h with ⟨l1, b, l2, e, h1, h2, h3⟩ | ⟨hno, h3⟩
  · subst e
    have g := reuse_repr s l1 b l2 n hr h2.2
    obtain ⟨f1, _, _, _, f5⟩ := reuse_fields s (s.head + span l1) n
    have hs1 : s1 = (reuse s (s.head + span l1) n).1 := congrArg Prod.fst h3
    have hp1 : p = (reuse s (s.head + span l1) n).2 := congrArg Prod.snd h3
    rw [← hs1] at g f1
    rw [← hp1] at f5
    obtain ⟨u, r, e1, e2, e3, _, _⟩ := asplit_head n b h2.2
    have hA := NoAdj_asplit l1 b l2 n ha h2.1
    have hP := pos_asplit l1 b l2 n (Nat.pos_of_ne_zero hn) hpos
    rw [e1] at g hA hP
    exact ⟨l1, u, r ++ l2, g, hA, hP, by rw [f5, f1], e2, e3⟩
  · by_cases hf : s.brk + (BLOCK_SIZE + n) ≤ s.limit
    · have g := grow_repr s bs n hr hw hf
      have hmod : (BLOCK_SIZE + n) % WORD = BLOCK_SIZE + n :=
        Nat.mod_eq_of_lt (le_INTPTR_MAX_lt _ hw)
      obtain ⟨f1, _, _, _, _, f6⟩ := grow_fields s n (by rw [hmod]; exact hf) hr.2.2.2.2.2.2
        (mod_le_INTPTR_MAX _ hw)
      have hs1 : s1 = (grow s n).1 := congrArg Prod.fst h3
      have hp1 : p = (grow s n).2 := congrArg Prod.snd h3
      rw [← hs1] at g f1
      rw [← hp1] at f6
      refine ⟨bs, ⟨n, false⟩, [], g, NoAdj_grow bs n ha, ?_, ?_, rfl, Nat.le_refl _⟩
      · intro x hx
        rcases List.mem_append.1 hx with hx | hx
        · exact hpos x hx
        · simp only [List.mem_singleton] at hx; subst hx; exact Nat.pos_of_ne_zero hn
      · rw [f6, f1]
        by_cases hb : bs = []
        · rw [if_pos (hr.2.2.1 hb), hb]; simp [span]
        · rw [if_neg (hr.2.2.2.1 hb).1, (hr.2.2.2.1 hb).2]
    · rw [grow_fail s n (by rw [Nat.mod_eq_of_lt (le_INTPTR_MAX_lt _ hw)]; exact hf)
        (mod_le_INTPTR_MAX _ hw)] at h3
      simp only [Prod.mk.injEq] at h3
      exact absurd h3.2 hp

theorem memcpy_zero (m : Mem) (d : Nat) (buf : Nat → Nat) : memcpy m d buf 0 = m := by
  funext x
  unfold memcpy
  rw [if_neg (by omega)]

theorem Inv_payload (s : State) (l1 : List Blk) (b : Blk) (l2 : List Blk) (m1 : Mem)
    (hr : Repr s (l1 ++ b :: l2)) (ha : NoAdj (l1 ++ b :: l2))
    (hpos : ∀ x ∈ l1 ++ b :: l2, 0 < x.size)
    (hm : ∀ x, x < s.head + span l1 + BLOCK_SIZE ∨
      s.head + span l1 + BLOCK_SIZE + b.size ≤ x → m1 x = s.mem x) :
    Inv { s with mem := m1 } :=
  ⟨_, Repr_payload s l1 b l2 m1 hr hm, ha, hpos⟩

theorem Inv_poke (s : State) (p x v : Nat) (hi : Inv s) (hp : Live s p) (hx1 : p ≤ x)
    (hx2 : x < p + get_size s.mem (p - BLOCK_SIZE)) : Inv (poke s x v) := by
  obtain ⟨bs, hr, ha, hpos⟩ := hi
  obtain ⟨l1, b, l2, e, hpp, _⟩ := Live_block s bs p hr hp
  subst e
  have hB : BLOCK_SIZE = 32 := rfl
  have hsz : get_size s.mem (p - BLOCK_SIZE) = b.size := by
    have := (Repr_parts s l1 b l2 hr).2.1.1
    rw [hpp]
    have e : s.head + span l1 + BLOCK_SIZE - BLOCK_SIZE = s.head + span l1 := by omega
    rw [e]; exact this
  rw [hsz] at hx2
  unfold poke
  exact Inv_payload s l1 b l2 _ hr ha hpos (fun y hy => store_out _ _ _ _ _ (by omega))

theorem Inv_realloc (s s1 : State) (fuel p n r : Nat) (hi : Inv s) (hp : p = 0 ∨ Live s p)
    (hw : BLOCK_SIZE + n ≤ INTPTR_MAX) (h : mm_realloc fuel s p n = .ok (s1, r)) : Inv s1 := by
  unfold mm_realloc at h
  by_cases hp0 : p = 0
  · rw [if_neg (by simp [hp0])] at h
    exact Inv_malloc s s1 fuel n r hi hw h
  · rw [if_pos hp0] at h
    have hif := Inv_free s p hi hp
    simp only at h
    by_cases hn : n = 0
    · rw [if_pos hn] at h
      simp only [Except.ok.injEq, Prod.mk.injEq] at h
      rw [← h.1]; exact hif
    · rw [if_neg hn] at h
      cases hm : mm_malloc fuel (mm_free s p) n with
      | error e => rw [hm] at h; simp at h
      | ok q =>
        obtain ⟨s2, res⟩ := q
        rw [hm] at h
        simp only at h
        have hkn : (if n < get_size s.mem (p - BLOCK_SIZE) then n
            else get_size s.mem (p - BLOCK_SIZE)) ≤ n := by split <;> omega
        generalize (if n < get_size s.mem (p - BLOCK_SIZE) then n
            else get_size s.mem (p - BLOCK_SIZE)) = k at h hkn
        by_cases hc : res = 0 ∧ 0 < k
        · rw [if_pos hc] at h; simp at h
        · rw [if_neg hc] at h
          simp only [Except.ok.injEq, Prod.mk.injEq] at h
          rw [← h.1]
          by_cases hres : res = 0
          · have hk0 : k = 0 := by
              by_contra hk
              exact hc ⟨hres, Nat.pos_of_ne_zero hk⟩
            rw [hk0, memcpy_zero]
            exact Inv_malloc _ s2 fuel n res hif hw hm
          · obtain ⟨l1, b, l2, g, gA, gP, e1, _, e3⟩ :=
              malloc_block _ s2 fuel n res hif hw hn hm hres
            apply Inv_payload s2 l1 b l2 _ g gA gP
            intro x hx
            apply memcpy_out
            omega

/-- Every reachable state satisfies the allocator invariant. -/
theorem Reachable_Inv (s : State) (h : Reachable s) : Inv s := by
  induction h with
  | init m brk0 limit h0 h1 h2 => exact Inv_init m brk0 limit h0 h1 h2
  | malloc s s1 fuel size p _ hsize h ih => exact Inv_malloc s s1 fuel size p ih hsize h
  | free s p _ hp ih => exact Inv_free s p ih hp
  | realloc s s1 fuel p size r _ hp hsize h ih => exact Inv_realloc s s1 fuel p size r ih hp hsize h
  | write s p x v _ hp hx1 hx2 ih => exact Inv_poke s p x v ih hp hx1 hx2

theorem NoAdjacentFree_of_Inv (s : State) (hi : Inv s) : NoAdjacentFree s := by
  obtain ⟨bs, hr, ha, _⟩ := hi
  intro l hl a ha1 hnx hboth
  have := Chain_unique _ _ _ _ hl (Repr_directory s bs hr)
  subst this
  obtain ⟨l1, b, l2, e, e2⟩ := (mem_addrs bs s.head a).1 ha1
  subst e
  obtain ⟨_, h2, h3, _⟩ := Repr_parts s l1 b l2 hr
  rw [← e2] at h2 h3
  cases l2 with
  | nil => exact hnx h2.2.2.1
  | cons c l2 =>
    rw [Lay_cons] at h3
    unfold is_free at hboth
    have e3 : get_next s.mem a = a + BLOCK_SIZE + b.size := h2.2.2.1
    rw [e3, h2.2.1, h3.1.2.1, flag_ne_zero, flag_ne_zero] at hboth
    exact NoAdj_mid l1 b c l2 ha hboth

/-- No two neighbours are free while every byte count stays within
`INTPTR_MAX`: in every state reachable from the empty directory by such calls
with valid arguments, the directory read from memory exists and no block of it
is free together with its `next` block. -/
theorem no_adjacent_free (s : State) (h : Reachable s) :
    (∃ l, Directory s l) ∧ NoAdjacentFree s := by
  have hi := Reachable_Inv s h
  obtain ⟨bs, hr, _, _⟩ := hi
  exact ⟨⟨_, Repr_directory s bs hr⟩, NoAdjacentFree_of_Inv s (Reachable_Inv s h)⟩

/-- C10: a request of size zero returns null and leaves the whole state
(memory, `head`, `tail`, break and the log of grow-heap calls) unchanged. -/
theorem C10_malloc_zero (fuel : Nat) (s : State) : mm_malloc fuel s 0 = .ok (s, 0) := by
  unfold mm_malloc
  rw [if_pos rfl]

theorem addrs_ge (bs : List Blk) : ∀ a x : Nat, x ∈ addrs a bs → a ≤ x := by
  induction bs with
  | nil => intro a x h; simp [addrs] at h
  | cons b l ih =>
    intro a x h
    simp only [addrs, List.mem_cons] at h
    rcases h with h | h
    · omega
    · have := ih _ _ h; omega

theorem addrs_pairwise (bs : List Blk) : ∀ a : Nat, (addrs a bs).Pairwise (fun x y => x < y) := by
  induction bs with
  | nil => intro a; simp [addrs]
  | cons b l ih =>
    intro a
    simp only [addrs, List.pairwise_cons]
    refine ⟨fun x hx => ?_, ih _⟩
    have := addrs_ge l _ x hx
    unfold BLOCK_SIZE at this
    omega

theorem addrs_getLast (bs : List Blk) : ∀ pv a : Nat, bs ≠ [] →
    (addrs a bs).getLast? = some (lastAddr pv a bs) := by
  induction bs with
  | nil => intro pv a h; exact absurd rfl h
  | cons b l ih =>
    intro pv a _
    cases l with
    | nil => simp [addrs, lastAddr]
    | cons c l =>
      have := ih a (a + BLOCK_SIZE + b.size) (by simp)
      simp only [addrs, lastAddr] at this ⊢
      rw [List.getLast?_cons_cons]
      exact this

theorem footprint_span (m : Mem) (bs : List Blk) : ∀ a pv e : Nat, Lay m a pv e bs →
    ((addrs a bs).map (fun b => BLOCK_SIZE + get_size m b)).sum = span bs := by
  induction bs with
  | nil => intro a pv e _; rfl
  | cons b l ih =>
    intro a pv e h
    rw [Lay_cons] at h
    simp only [addrs, List.map_cons, List.sum_cons, span]
    rw [ih _ _ _ h.2, h.1.1]

theorem Repr_footprint (s : State) (bs : List Blk) (l : List Nat) (hr : Repr s bs)
    (hl : Directory s l) : footprint s l = span bs := by
  have := Chain_unique _ _ _ _ hl (Repr_directory s bs hr)
  subst this
  exact footprint_span s.mem bs s.head 0 0 hr.1

theorem DirectoryInvariant_of_Repr (s : State) (bs : List Blk) (hr : Repr s bs) :
    DirectoryInvariant s := by
  have hB : BLOCK_SIZE = 32 := rfl
  refine ⟨addrs s.head bs, Repr_directory s bs hr, ?_, addrs_pairwise bs s.head, ?_, ?_, ?_, ?_⟩
  · intro a ha hnx
    obtain ⟨l1, b, l2, e, e2⟩ := (mem_addrs bs s.head a).1 ha
    subst e
    obtain ⟨_, h2, h3, _⟩ := Repr_parts s l1 b l2 hr
    rw [← e2] at h2 h3
    cases l2 with
    | nil => exact absurd h2.2.2.1 hnx
    | cons c l2 =>
      rw [Lay_cons] at h3
      have e3 : get_next s.mem a = a + BLOCK_SIZE + b.size := h2.2.2.1
      rw [e3, h2.1]
      exact ⟨rfl, by omega, h3.1.2.2.2⟩
  · intro hh
    cases bs with
    | nil => exact absurd (hr.2.2.1 rfl) hh
    | cons b l => exact hr.1.1.2.2.2
  · by_cases hb : bs = []
    · subst hb
      have : s.tail = 0 := hr.2.1
      simp [addrs, this]
    · have ht := (Repr_tail_ne s bs hr hb).1
      rw [if_neg ht, hr.2.1]
      exact addrs_getLast bs 0 s.head hb
  · intro ht
    rcases List.eq_nil_or_concat bs with hb | ⟨l0, t, hb⟩
    · subst hb; exact absurd hr.2.1 ht
    · rw [List.concat_eq_append] at hb
      subst hb
      obtain ⟨_, h2, _, _, h5, h6, _⟩ := Repr_parts s l0 t [] hr
      simp only [lastAddr] at h6
      rw [← h6] at h2 h5
      simp only [span] at h5
      rw [h2.1]
      exact ⟨h2.2.2.1, by omega⟩
  · by_cases hb : bs = []
    · subst hb
      have : s.tail = 0 := hr.2.1
      simp [this, hr.2.2.1]
    · have ht := (Repr_tail_ne s bs hr hb).1
      have hh := (hr.2.2.2.1 hb).1
      simp [ht, hh]

/-- The structure of the directory while every byte count stays within
`INTPTR_MAX`: every state reached by such calls has a directory that is
contiguous, strictly increasing in address, doubly linked with `prev` the inverse
of `next`, and terminated by `tail`; `head` is null exactly when `tail` is. -/
theorem directory_structure (s : State) (h : Reachable s) : DirectoryInvariant s := by
  obtain ⟨bs, hr, _, _⟩ := Reachable_Inv s h
  exact DirectoryInvariant_of_Repr s bs hr

theorem append_fields (s : State) (d c : Nat) :
    (append s d c).head = s.head ∧ (append s d c).brk = s.brk ∧
      (append s d c).limit = s.limit ∧ (append s d c).calls = s.calls :=
  ⟨rfl, rfl, rfl, rfl⟩

theorem free_next_fields (s : State) (b : Nat) :
    (free_next s b).head = s.head ∧ (free_next s b).brk = s.brk ∧
      (free_next s b).limit = s.limit ∧ (free_next s b).calls = s.calls := by
  unfold free_next
  split
  · exact append_fields s _ _
  · exact ⟨rfl, rfl, rfl, rfl⟩

theorem free_prev_fields (s : State) (b : Nat) :
    (free_prev s b).head = s.head ∧ (free_prev s b).brk = s.brk ∧
      (free_prev s b).limit = s.limit ∧ (free_prev s b).calls = s.calls := by
  unfold free_prev
  split
  · exact append_fields s _ _
  · exact ⟨rfl, rfl, rfl, rfl⟩

theorem mm_free_fields (s : State) (p : Nat) :
    (mm_free s p).head = s.head ∧ (mm_free s p).brk = s.brk ∧
      (mm_free s p).limit = s.limit ∧ (mm_free s p).calls = s.calls := by
  by_cases hp : p = 0
  · rw [hp, mm_free_null]; exact ⟨rfl, rfl, rfl, rfl⟩
  · rw [mm_free_eq s p hp]
    obtain ⟨a1, a2, a3, a4⟩ := free_prev_fields
      (free_next { s with mem := set_free s.mem (p - BLOCK_SIZE) 1 } (p - BLOCK_SIZE))
      (p - BLOCK_SIZE)
    obtain ⟨b1, b2, b3, b4⟩ := free_next_fields
      { s with mem := set_free s.mem (p - BLOCK_SIZE) 1 } (p - BLOCK_SIZE)
    rw [a1, a2, a3, a4, b1, b2, b3, b4]
    exact ⟨rfl, rfl, rfl, rfl⟩

theorem Inv_footprint (s : State) (hi : Inv s) (hne : s.head ≠ 0) (l : List Nat)
    (hl : Directory s l) : s.head + footprint s l = s.brk := by
  obtain ⟨bs, hr, _, _⟩ := hi
  rw [Repr_footprint s bs l hr hl]
  have hb : bs ≠ [] := fun hb => hne (hr.2.2.1 hb)
  exact (hr.2.2.2.1 hb).2

/-- Field bookkeeping of a request of positive size. -/
theorem malloc_fields (s s1 : State) (fuel n r : Nat) (bs : List Blk) (hr : Repr s bs)
    (hn : n ≠ 0) (h : mm_malloc fuel s n = .ok (s1, r)) :
    s1.limit = s.limit ∧
    (((∃ b ∈ bs, Fits n b) ∧ s1.head = s.head ∧ s1.brk = s.brk ∧ s1.calls = s.calls ∧ r ≠ 0) ∨
     ((∀ b ∈ bs, ¬ Fits n b) ∧ s1.calls = s.calls ++ [(BLOCK_SIZE + n) % WORD] ∧
        (((((BLOCK_SIZE + n) % WORD ≤ INTPTR_MAX ∧ s.brk + (BLOCK_SIZE + n) % WORD ≤ s.limit ∧
              s1.brk = s.brk + (BLOCK_SIZE + n) % WORD) ∨
            (¬ (BLOCK_SIZE + n) % WORD ≤ INTPTR_MAX ∧ WORD - (BLOCK_SIZE + n) % WORD ≤ s.brk ∧
              s1.brk = s.brk - (WORD - (BLOCK_SIZE + n) % WORD))) ∧
            r = s.brk + BLOCK_SIZE ∧
            s1.head = (if s.head = 0 then s.brk else s.head) ∧ s1.tail = s.brk) ∨
         ((sbrk s ((BLOCK_SIZE + n) % WORD)).2 = SBRK_FAIL ∧ r = 0 ∧ s1.brk = s.brk ∧
            s1.head = s.head ∧ s1.tail = s.tail ∧ s1.mem = s.mem)))) := by
  have hB : BLOCK_SIZE = 32 := rfl
  rcases malloc_cases s s1 fuel n r bs hr hn h with ⟨l1, b, l2, e, h1, h2, h3⟩ | ⟨hno, h3⟩
  · have hs1 : s1 = (reuse s (s.head + span l1) n).1 := congrArg Prod.fst h3
    have hp1 : r = (reuse s (s.head + span l1) n).2 := congrArg Prod.snd h3
    obtain ⟨f1, f2, f3, f4, f5⟩ := reuse_fields s (s.head + span l1) n
    rw [← hs1] at f1 f2 f3 f4
    rw [← hp1] at f5
    refine ⟨f3, Or.inl ⟨⟨b, by rw [e]; simp, h2⟩, f1, f2, f4, by omega⟩⟩
  · have hs1 : s1 = (grow s n).1 := congrArg Prod.fst h3
    have hp1 : r = (grow s n).2 := congrArg Prod.snd h3
    have hl := hr.2.2.2.2.2.2
    have hbl := hr.2.2.2.2.2.1
    have hS : SBRK_FAIL = 2 ^ 64 - 1 := rfl
    rcases sbrk_cases s ((BLOCK_SIZE + n) % WORD) with hf | ⟨b, hb, hcase⟩
    · rw [grow_fail_at s n hf] at hs1 hp1
      simp only at hs1 hp1
      subst hs1
      exact ⟨rfl, Or.inr ⟨hno, rfl, Or.inr ⟨by rw [hf], hp1, rfl, rfl, rfl, rfl⟩⟩⟩
    · obtain ⟨f1, f2, f3, f4, f5, f6⟩ := grow_fields_at s n b hb (by omega)
      rw [← hs1] at f1 f2 f3 f4 f5
      rw [← hp1] at f6
      refine ⟨f3, Or.inr ⟨hno, f4, Or.inl ⟨?_, f6, f1, f5⟩⟩⟩
      rcases hcase with ⟨c1, c2, c3⟩ | ⟨c1, c2, c3⟩
      · exact Or.inl ⟨c1, c2, by rw [f2, c3]⟩
      · exact Or.inr ⟨c1, c2, by rw [f2, c3]⟩

theorem mm_malloc_zero (fuel : Nat) (s : State) : mm_malloc fuel s 0 = .ok (s, 0) := by
  unfold mm_malloc
  rw [if_pos rfl]

/-- Size accounting while every byte count stays within `INTPTR_MAX`: in such
a reachable state with a non-empty directory the footprints `BLOCK_SIZE + size`
of the blocks add up to `brk - head`; a request within that bound either leaves
break and sum unchanged (reuse, with or without split, or failed growth) or
grows both by exactly `BLOCK_SIZE + size`; a release leaves both unchanged. -/
theorem size_accounting (s : State) (h : Reachable s) (hne : s.head ≠ 0) :
    ∃ l, Directory s l ∧ footprint s l = s.brk - s.head ∧ s.head ≤ s.brk ∧
      (∀ fuel n s1 r l1, BLOCK_SIZE + n ≤ INTPTR_MAX → mm_malloc fuel s n = .ok (s1, r) →
        Directory s1 l1 → s1.head = s.head ∧
          ((s1.brk = s.brk ∧ footprint s1 l1 = footprint s l) ∨
           (s1.calls = s.calls ++ [BLOCK_SIZE + n] ∧ s1.brk = s.brk + (BLOCK_SIZE + n) ∧
              footprint s1 l1 = footprint s l + (BLOCK_SIZE + n)))) ∧
      (∀ p l1, p = 0 ∨ Live s p → Directory (mm_free s p) l1 →
        (mm_free s p).head = s.head ∧ (mm_free s p).brk = s.brk ∧
          footprint (mm_free s p) l1 = footprint s l) := by
  have hi := Reachable_Inv s h
  obtain ⟨bs, hr, _, _⟩ := hi
  have hl := Repr_directory s bs hr
  have hfp := Inv_footprint s (Reachable_Inv s h) hne _ hl
  refine ⟨_, hl, by omega, by omega, ?_, ?_⟩
  · intro fuel n s1 r l1 hw hm hl1
    have hi1 := Inv_malloc s s1 fuel n r (Reachable_Inv s h) hw hm
    by_cases hn : n = 0
    · rw [hn, mm_malloc_zero] at hm
      simp only [Except.ok.injEq, Prod.mk.injEq] at hm
      rw [← hm.1] at hl1 ⊢
      have := Chain_unique _ _ _ _ hl1 hl
      subst this
      exact ⟨rfl, Or.inl ⟨rfl, rfl⟩⟩
    · have hmod : (BLOCK_SIZE + n) % WORD = BLOCK_SIZE + n :=
        Nat.mod_eq_of_lt (le_INTPTR_MAX_lt _ hw)
      obtain ⟨_, hc⟩ := malloc_fields s s1 fuel n r bs hr hn hm
      rw [hmod] at hc
      rcases hc with ⟨_, c1, c2, c3, _⟩ | ⟨_, c1, ⟨c3, _, c4, _⟩ | ⟨_, _, c3, c4, _⟩⟩
      · have := Inv_footprint s1 hi1 (by rw [c1]; exact hne) l1 hl1
        exact ⟨c1, Or.inl ⟨c2, by omega⟩⟩
      · rw [if_neg hne] at c4
        have := Inv_footprint s1 hi1 (by rw [c4]; exact hne) l1 hl1
        rcases c3 with ⟨_, _, c3⟩ | ⟨c5, _⟩
        · exact ⟨c4, Or.inr ⟨c1, c3, by omega⟩⟩
        · exact absurd hw c5
      · have := Inv_footprint s1 hi1 (by rw [c4]; exact hne) l1 hl1
        exact ⟨c4, Or.inl ⟨c3, by omega⟩⟩
  · intro p l1 hp hl1
    have hi1 := Inv_free s p (Reachable_Inv s h) hp
    obtain ⟨f1, f2, _, _⟩ := mm_free_fields s p
    have := Inv_footprint _ hi1 (by rw [f1]; exact hne) l1 hl1
    exact ⟨f1, f2, by omega⟩

theorem At_cons (a x : Nat) (b c : Blk) (l : List Blk) :
    At a (b :: l) x c ↔ ((x = a ∧ c = b) ∨ At (a + BLOCK_SIZE + b.size) l x c) := Iff.rfl

theorem At_append (l1 l2 : List Blk) : ∀ (a x : Nat) (c : Blk),
    At a (l1 ++ l2) x c ↔ (At a l1 x c ∨ At (a + span l1) l2 x c) := by
  induction l1 with
  | nil => intro a x c; simp [At, span]
  | cons b l ih =>
    intro a x c
    rw [List.cons_append, At_cons, At_cons, ih, span_cons]
    have e : a + BLOCK_SIZE + b.size + span l = a + (BLOCK_SIZE + b.size + span l) := by omega
    rw [e]
    tauto

theorem At_iff (bs : List Blk) (a x : Nat) (c : Blk) :
    At a bs x c ↔ ∃ l1 l2, bs = l1 ++ c :: l2 ∧ x = a + span l1 := by
  induction bs generalizing a with
  | nil => simp [At]
  | cons b l ih =>
    rw [At_cons, ih]
    constructor
    · rintro (⟨h1, h2⟩ | ⟨l1, l2, h1, h2⟩)
      · exact ⟨[], l, by rw [h2]; rfl, by simp [span, h1]⟩
      · exact ⟨b :: l1, l2, by rw [h1]; rfl, by rw [h2, span_cons]; omega⟩
    · rintro ⟨l1, l2, h1, h2⟩
      cases l1 with
      | nil =>
        left
        simp only [List.nil_append, List.cons.injEq] at h1
        exact ⟨by simpa [span] using h2, h1.1.symm⟩
      | cons d l1 =>
        right
        simp only [List.cons_append, List.cons.injEq] at h1
        refine ⟨l1, l2, h1.2, ?_⟩
        rw [h2, span_cons, h1.1]; omega

theorem mem_addrs_At (bs : List Blk) (a x : Nat) : x ∈ addrs a bs ↔ ∃ c, At a bs x c := by
  rw [mem_addrs]
  constructor
  · rintro ⟨l1, b, l2, h1, h2⟩; exact ⟨b, (At_iff bs a x b).2 ⟨l1, l2, h1, h2⟩⟩
  · rintro ⟨c, hc⟩
    obtain ⟨l1, l2, h1, h2⟩ := (At_iff bs a x c).1 hc
    exact ⟨l1, c, l2, h1, h2⟩

/-- A block of the abstract directory determines the header at its address. -/
theorem Repr_At (s : State) (bs : List Blk) (x : Nat) (c : Blk) (hr : Repr s bs)
    (h : At s.head bs x c) : get_size s.mem x = c.size ∧ get_free s.mem x = flag c.free := by
  obtain ⟨l1, l2, h1, h2⟩ := (At_iff bs s.head x c).1 h
  subst h1
  have := (Repr_parts s l1 c l2 hr).2.1
  rw [← h2] at this
  exact ⟨this.1, this.2.1⟩

theorem At_unique (bs : List Blk) : ∀ (a x : Nat) (c d : Blk),
    At a bs x c → At a bs x d → c = d := by
  induction bs with
  | nil => intro a x c d h; exact absurd h (by simp [At])
  | cons b l ih =>
    intro a x c d h1 h2
    have hB : BLOCK_SIZE = 32 := rfl
    rw [At_cons] at h1 h2
    rcases h1 with ⟨e1, e2⟩ | h1 <;> rcases h2 with ⟨e3, e4⟩ | h2
    · rw [e2, e4]
    · have := addrs_ge l _ x ((mem_addrs_At l _ x).2 ⟨d, h2⟩); omega
    · have := addrs_ge l _ x ((mem_addrs_At l _ x).2 ⟨c, h1⟩); omega
    · exact ih _ _ _ _ h1 h2

theorem addrs_append (l1 l2 : List Blk) : ∀ a : Nat,
    addrs a (l1 ++ l2) = addrs a l1 ++ addrs (a + span l1) l2 := by
  induction l1 with
  | nil => intro a; simp [addrs, span]
  | cons b l ih =>
    intro a
    have e : a + BLOCK_SIZE + b.size + span l = a + (BLOCK_SIZE + b.size + span l) := by omega
    show a :: addrs (a + BLOCK_SIZE + b.size) (l ++ l2) = _
    rw [ih, e]
    rfl

theorem addrs_length (bs : List Blk) : ∀ a : Nat, (addrs a bs).length = bs.length := by
  induction bs with
  | nil => intro a; rfl
  | cons b l ih => intro a; simp [addrs, ih]

/-- A decomposition of the address list is a decomposition of the block list. -/
theorem addrs_split (bs : List Blk) : ∀ (a : Nat) (k1 : List Nat) (F : Nat) (k2 : List Nat),
    addrs a bs = k1 ++ F :: k2 →
      ∃ l1 b l2, bs = l1 ++ b :: l2 ∧ k1 = addrs a l1 ∧ F = a + span l1 ∧
        k2 = addrs (a + span l1 + BLOCK_SIZE + b.size) l2 := by
  induction bs with
  | nil => intro a k1 F k2 h; simp [addrs] at h
  | cons b l ih =>
    intro a k1 F k2 h
    cases k1 with
    | nil =>
      simp only [addrs, List.nil_append, List.cons.injEq] at h
      exact ⟨[], b, l, rfl, rfl, by simp [span, h.1], by simp [span, h.2]⟩
    | cons k k1 =>
      simp only [addrs, List.cons_append, List.cons.injEq] at h
      obtain ⟨l1, c, l2, e1, e2, e3, e4⟩ := ih _ k1 F k2 h.2
      refine ⟨b :: l1, c, l2, by rw [e1]; rfl, by simp [addrs, h.1, e2], ?_, ?_⟩
      · rw [e3, span_cons]; omega
      · rw [e4, span_cons]
        congr 1; omega

theorem fits_iff (s : State) (bs : List Blk) (x n : Nat) (c : Blk) (hr : Repr s bs)
    (h : At s.head bs x c) : fits s.mem n x ↔ Fits n c := by
  obtain ⟨h1, h2⟩ := Repr_At s bs x c hr h
  unfold fits is_free Fits
  rw [h1, h2, flag_ne_zero]

theorem reuse_ok (s s1 : State) (p n : Nat) (l1 : List Blk) (b : Blk) (l2 : List Blk)
    (h3 : (s1, p) = reuse s (s.head + span l1) n) (hr : Repr s (l1 ++ b :: l2))
    (hn : n ≤ b.size) :
    Repr s1 (l1 ++ (asplit n b ++ l2)) ∧ s1.head = s.head ∧ s1.brk = s.brk ∧
      s1.limit = s.limit ∧ s1.calls = s.calls ∧ p = s.head + span l1 + BLOCK_SIZE := by
  have hs1 : s1 = (reuse s (s.head + span l1) n).1 := congrArg Prod.fst h3
  have hp1 : p = (reuse s (s.head + span l1) n).2 := congrArg Prod.snd h3
  obtain ⟨f1, f2, f3, f4, f5⟩ := reuse_fields s (s.head + span l1) n
  have g := reuse_repr s l1 b l2 n hr hn
  rw [← hs1] at f1 f2 f3 f4 g
  rw [← hp1] at f5
  exact ⟨g, f1, f2, f3, f4, f5⟩

theorem addrs_mid (l1 : List Blk) (b : Blk) (l2 : List Blk) (a : Nat) :
    addrs a (l1 ++ b :: l2) =
      addrs a l1 ++ (a + span l1) :: addrs (a + span l1 + BLOCK_SIZE + b.size) l2 := by
  rw [addrs_append]; rfl

theorem reuse_nosplit_eq (s : State) (A n sz fr nx pv : Nat) (hh : Hdr s.mem A sz fr nx pv)
    (hle : sz ≤ n + BLOCK_SIZE) (hn : n + BLOCK_SIZE < WORD) :
    reuse s A n = ({ s with mem := set_free s.mem A 0 }, A + BLOCK_SIZE) := by
  unfold reuse
  rw [split_block_id s A n sz fr nx pv hh hle hn]

theorem At_bounds (bs : List Blk) : ∀ (a x : Nat) (c : Blk), At a bs x c →
    a ≤ x ∧ x + BLOCK_SIZE + c.size ≤ a + span bs := by
  induction bs with
  | nil => intro a x c h; exact absurd h (by simp [At])
  | cons b l ih =>
    intro a x c h
    rw [At_cons] at h
    rw [span_cons]
    rcases h with ⟨h1, h2⟩ | h
    · rw [h1, h2]; omega
    · have := ih _ _ _ h; omega

theorem grow_ok (s s1 : State) (r n : Nat) (bs : List Blk) (h3 : (s1, r) = grow s n)
    (hr : Repr s bs) (hw : BLOCK_SIZE + n ≤ INTPTR_MAX) (hf : s.brk + (BLOCK_SIZE + n) ≤ s.limit) :
    Repr s1 (bs ++ [⟨n, false⟩]) ∧ s1.head = (if s.head = 0 then s.brk else s.head) ∧
      s1.brk = s.brk + (BLOCK_SIZE + n) ∧ s1.limit = s.limit ∧
      s1.calls = s.calls ++ [BLOCK_SIZE + n] ∧ s1.tail = s.brk ∧ r = s.brk + BLOCK_SIZE := by
  have hs1 : s1 = (grow s n).1 := congrArg Prod.fst h3
  have hp1 : r = (grow s n).2 := congrArg Prod.snd h3
  have hmod : (BLOCK_SIZE + n) % WORD = BLOCK_SIZE + n :=
    Nat.mod_eq_of_lt (le_INTPTR_MAX_lt _ hw)
  obtain ⟨f1, f2, f3, f4, f5, f6⟩ := grow_fields s n (by rw [hmod]; exact hf) hr.2.2.2.2.2.2
    (mod_le_INTPTR_MAX _ hw)
  have g := grow_repr s bs n hr hw hf
  rw [hmod] at f2 f4
  rw [← hs1] at f1 f2 f3 f4 f5 g
  rw [← hp1] at f6
  exact ⟨g, f1, f2, f3, f4, f5, f6⟩

theorem not_fits_bridge (s : State) (bs : List Blk) (n : Nat) (l : List Nat)
    (hr : Repr s bs) (hl : Directory s l) :
    (∀ c ∈ l, ¬ fits s.mem n c) ↔ ∀ b ∈ bs, ¬ Fits n b := by
  have e := Chain_unique _ _ _ _ hl (Repr_directory s bs hr)
  subst e
  constructor
  · intro h b hb hfb
    obtain ⟨x1, x2, g⟩ := List.append_of_mem hb
    have hat : At s.head bs (s.head + span x1) b := by
      rw [At_iff]; exact ⟨x1, x2, g, rfl⟩
    exact h _ ((mem_addrs_At bs _ _).2 ⟨b, hat⟩) ((fits_iff s bs _ n b hr hat).2 hfb)
  · intro h c hc hfc
    obtain ⟨b, hat⟩ := (mem_addrs_At bs _ _).1 hc
    obtain ⟨x1, x2, g, _⟩ := (At_iff bs _ _ _).1 hat
    exact h b (by rw [g]; simp) ((fits_iff s bs _ n b hr hat).1 hfc)

/-- The growth path for a request whose byte count is at most `INTPTR_MAX`:
grow-heap is called exactly when no block fits, with `BLOCK_SIZE + n`; on
success one used block of size `n` is appended at the previous break and
becomes `tail`. -/
theorem malloc_growth (s : State) (hw : WellFormed s) (n : Nat) (hn : 0 < n)
    (hsz : BLOCK_SIZE + n ≤ INTPTR_MAX) (l : List Nat) (hl : Directory s l) :
    (∃ r, mm_malloc (l.length + 1) s n = .ok r) ∧
    ∀ fuel s1 r, mm_malloc fuel s n = .ok (s1, r) →
      ((s1.calls ≠ s.calls) ↔ ∀ c ∈ l, ¬ fits s.mem n c) ∧
      ((∀ c ∈ l, ¬ fits s.mem n c) →
        s1.calls = s.calls ++ [BLOCK_SIZE + n] ∧
        (s.brk + (BLOCK_SIZE + n) ≤ s.limit →
          r = s.brk + BLOCK_SIZE ∧ Directory s1 (l ++ [s.brk]) ∧
          get_free s1.mem s.brk = 0 ∧ get_size s1.mem s.brk = n ∧
          get_next s1.mem s.brk = 0 ∧ get_prev s1.mem s.brk = s.tail ∧
          (s.tail ≠ 0 → get_next s1.mem s.tail = s.brk) ∧
          s1.tail = s.brk ∧ s1.head = (if s.head = 0 then s.brk else s.head) ∧
          s1.brk = s.brk + (BLOCK_SIZE + n) ∧
          ∀ c ∈ l, get_size s1.mem c = get_size s.mem c ∧
            get_free s1.mem c = get_free s.mem c)) := by
  obtain ⟨bs, hr⟩ := hw
  have hB : BLOCK_SIZE = 32 := rfl
  have hn0 : n ≠ 0 := by omega
  have hmod : (BLOCK_SIZE + n) % WORD = BLOCK_SIZE + n :=
    Nat.mod_eq_of_lt (le_INTPTR_MAX_lt _ hsz)
  have el := Chain_unique _ _ _ _ hl (Repr_directory s bs hr)
  have hlen : l.length = bs.length := by rw [el, addrs_length]
  have hbr := not_fits_bridge s bs n l hr hl
  constructor
  · rcases first_fit_cases n bs with hno | ⟨l1, b, l2, e, h1, h2⟩
    · exact ⟨_, malloc_notfound s n bs hr hno hn0 _ (by omega)⟩
    · subst e
      refine ⟨_, malloc_found s n l1 b l2 hr h1 h2 hn0 _ ?_⟩
      rw [hlen, List.length_append]; simp
  · intro fuel s1 r hm
    obtain ⟨_, hc⟩ := malloc_fields s s1 fuel n r bs hr hn0 hm
    rw [hmod] at hc
    have key : (∀ c ∈ l, ¬ fits s.mem n c) → s1.calls = s.calls ++ [BLOCK_SIZE + n] := by
      intro hno
      rcases hc with ⟨⟨b, hb, hfb⟩, _⟩ | ⟨_, c1, _⟩
      · exact absurd hfb (hbr.1 hno b hb)
      · exact c1
    refine ⟨⟨fun hne => ?_, fun hno => ?_⟩, fun hno => ⟨key hno, fun hf => ?_⟩⟩
    · rcases hc with ⟨_, _, _, c3, _⟩ | ⟨c0, _⟩
      · exact absurd c3 hne
      · exact hbr.2 c0
    · rw [key hno]; simp
    · rcases malloc_cases s s1 fuel n r bs hr hn0 hm with ⟨l1, b, l2, e, _, h2, _⟩ | ⟨_, h3⟩
      · exact absurd h2 (hbr.1 hno b (by rw [e]; simp))
      · obtain ⟨g, f1, f2, _, _, f5, f6⟩ := grow_ok s s1 r n bs h3 hr hsz hf
        obtain ⟨_, q2, _, _, _, _, _⟩ := Repr_parts s1 bs ⟨n, false⟩ [] g
        have ehd : s1.head + span bs = s.brk := by
          rw [f1]
          by_cases hb : bs = []
          · rw [if_pos (hr.2.2.1 hb), hb]; simp [span]
          · rw [if_neg (hr.2.2.2.1 hb).1]; exact (hr.2.2.2.1 hb).2
        have elast : lastAddr 0 s1.head bs = s.tail := by
          rw [hr.2.1]
          by_cases hb : bs = []
          · rw [hb]; rfl
          · rw [f1, if_neg (hr.2.2.2.1 hb).1]
        rw [ehd, elast] at q2
        refine ⟨f6, ?_, q2.2.1, q2.1, q2.2.2.1, q2.2.2.2, ?_, f5, f1, f2, ?_⟩
        · have := Repr_directory s1 _ g
          rw [addrs_append, ehd] at this
          have e2 : addrs s1.head bs = l := by
            rw [el, f1]
            by_cases hb : bs = []
            · rw [hb]; rfl
            · rw [if_neg (hr.2.2.2.1 hb).1]
          rw [e2] at this
          exact this
        · intro ht
          rcases List.eq_nil_or_concat bs with hb | ⟨l0, t, hb⟩
          · rw [hb] at hr; exact absurd hr.2.1 ht
          · rw [List.concat_eq_append] at hb
            subst hb
            have g2 : Repr s1 (l0 ++ t :: [⟨n, false⟩]) := by
              rw [List.append_assoc] at g; exact g
            obtain ⟨_, r2, _, _, _, _, _⟩ := Repr_parts s1 l0 t _ g2
            have e5 : s1.head + span l0 = s.tail := by
              rw [← elast, lastAddr_concat]
            rw [e5] at r2
            rw [r2.2.2.1]
            simp only [nxt]
            rw [← ehd, ← e5, span_append]
            simp only [span]
            omega
        · intro c hc
          rw [el] at hc
          obtain ⟨y, hy⟩ := (mem_addrs_At bs s.head c).1 hc
          have hy1 : At s1.head (bs ++ [⟨n, false⟩]) c y := by
            rw [At_append]; left
            rw [f1]
            by_cases hb : bs = []
            · rw [hb] at hy; exact absurd hy (by simp [At])
            · rw [if_neg (hr.2.2.2.1 hb).1]; exact hy
          obtain ⟨p1, p2⟩ := Repr_At s _ c y hr hy
          obtain ⟨q1, q2⟩ := Repr_At s1 _ c y g hy1
          rw [p1, p2, q1, q2]
          exact ⟨rfl, rfl⟩

theorem Repr_Rep0 (s : State) (bs : List Blk) (h : Repr s bs) : Rep0 s bs :=
  ⟨h.1, h.2.2.1, fun hb => (h.2.2.2.1 hb).1⟩

theorem Rep0_directory (s : State) (bs : List Blk) (h : Rep0 s bs) :
    Directory s (addrs s.head bs) :=
  Lay_chain s.mem bs s.head 0 h.1 h.2.1 h.2.2

theorem Lay_At (m : Mem) (bs : List Blk) (a pv e x : Nat) (c : Blk) (h : Lay m a pv e bs)
    (hat : At a bs x c) : get_size m x = c.size ∧ get_free m x = flag c.free := by
  obtain ⟨l1, l2, h1, h2⟩ := (At_iff bs a x c).1 hat
  subst h1
  have := Lay_hdr m a pv e l1 c l2 h
  rw [← h2] at this
  exact ⟨this.1, this.2.1⟩

theorem Rep0_Live (s : State) (bs : List Blk) (x : Nat) (c : Blk) (h : Rep0 s bs)
    (hat : At s.head bs x c) (hc : c.free = false) : Live s (x + BLOCK_SIZE) := by
  refine ⟨_, Rep0_directory s bs h, x, (mem_addrs_At bs _ x).2 ⟨c, hat⟩, rfl, ?_⟩
  rw [(Lay_At s.mem bs _ _ _ x c h.1 hat).2, hc]; rfl

/-- A live pointer, read on the abstract directory. -/
theorem Live_At (s : State) (bs : List Blk) (p : Nat) (hr : Rep0 s bs) (hp : Live s p) :
    ∃ c, At s.head bs (p - BLOCK_SIZE) c ∧ c.free = false ∧ BLOCK_SIZE ≤ p := by
  obtain ⟨l, hl, a, ha, hpa, hf⟩ := hp
  have := Chain_unique _ _ _ _ hl (Rep0_directory s bs hr)
  subst this
  obtain ⟨c, hc⟩ := (mem_addrs_At bs s.head a).1 ha
  have e : p - BLOCK_SIZE = a := by omega
  rw [e]
  refine ⟨c, hc, ?_, by omega⟩
  have := (Lay_At s.mem bs _ _ _ a c hr.1 hc).2
  rw [hf] at this
  exact (flag_eq_zero _).1 this.symm

/-- Two different positions of a layout are disjoint blocks. -/
theorem At_disjoint (bs : List Blk) : ∀ (a x y : Nat) (c d : Blk),
    At a bs x c → At a bs y d → x ≠ y →
      x + BLOCK_SIZE + c.size ≤ y ∨ y + BLOCK_SIZE + d.size ≤ x := by
  induction bs with
  | nil => intro a x y c d h; exact absurd h (by simp [At])
  | cons b l ih =>
    intro a x y c d h1 h2 hne
    rw [At_cons] at h1 h2
    rcases h1 with ⟨e1, e2⟩ | h1 <;> rcases h2 with ⟨e3, e4⟩ | h2
    · omega
    · have := (At_bounds l _ y d h2).1; left; rw [e1, e2]; omega
    · have := (At_bounds l _ x c h1).1; right; rw [e3, e4]; omega
    · exact ih _ _ _ _ _ h1 h2 hne

/-- What is needed to conclude that a live block is kept. -/
theorem Kept_of (s s1 : State) (bs bs1 : List Blk) (x : Nat) (c : Blk) (hr : Rep0 s bs)
    (hr1 : Rep0 s1 bs1) (hat : At s.head bs x c) (hc : c.free = false)
    (hat1 : At s1.head bs1 x c)
    (hm : ∀ y, x + BLOCK_SIZE ≤ y → y < x + BLOCK_SIZE + c.size → s1.mem y = s.mem y) :
    Kept s s1 (x + BLOCK_SIZE) := by
  have e : x + BLOCK_SIZE - BLOCK_SIZE = x := by omega
  obtain ⟨p1, _⟩ := Lay_At s.mem bs _ _ _ x c hr.1 hat
  obtain ⟨q1, q2⟩ := Lay_At s1.mem bs1 _ _ _ x c hr1.1 hat1
  refine ⟨Rep0_Live s1 bs1 x c hr1 hat1 hc, ?_, ?_, ?_⟩
  · rw [e, p1, q1]
  · rw [e, q2, hc]; rfl
  · rw [e, p1]; intro y h1 h2; exact hm y h1 (by omega)

/-- Bytes outside the headers may change freely. -/
theorem Rep0_payload (s : State) (l1 : List Blk) (b : Blk) (l2 : List Blk) (m1 : Mem)
    (hr : Rep0 s (l1 ++ b :: l2))
    (hm : ∀ x, x < s.head + span l1 + BLOCK_SIZE ∨
      s.head + span l1 + BLOCK_SIZE + b.size ≤ x → m1 x = s.mem x) :
    Rep0 { s with mem := m1 } (l1 ++ b :: l2) := by
  obtain ⟨h1, h2, h3⟩ := hr
  have hB : BLOCK_SIZE = 32 := rfl
  refine ⟨?_, h2, h3⟩
  show Lay m1 s.head 0 0 (l1 ++ b :: l2)
  rw [Lay_append, Lay_cons] at h1 ⊢
  refine ⟨?_, ?_, ?_⟩
  · exact Lay_frame s.mem m1 l1 _ _ _ (fun x _ _ => hm x (by omega)) h1.1
  · exact Hdr_frame s.mem m1 _ _ _ _ _ (fun x _ _ => hm x (by omega)) h1.2.1
  · exact Lay_frame s.mem m1 l2 _ _ _ (fun x _ _ => hm x (by omega)) h1.2.2

/-- The growth branch for any `size_t` request whose `sbrk` call succeeded,
whichever way it moved the break: memory holds
the old directory followed by a used block of size `n` at the old break. -/
theorem grow_lay (s : State) (bs : List Blk) (n : Nat) (hr : Repr s bs) (hn : n < WORD)
    (b : Nat) (hf : sbrk s ((BLOCK_SIZE + n) % WORD) =
      ({ s with brk := b, calls := s.calls ++ [(BLOCK_SIZE + n) % WORD] }, s.brk)) :
    Rep0 (grow s n).1 (bs ++ [⟨n, false⟩]) ∧ (grow s n).1.head + span bs = s.brk ∧
      (bs ≠ [] → (grow s n).1.head = s.head) ∧
      (∀ x, x < s.brk → (x < s.tail + 16 ∨ s.tail + 24 ≤ x) →
        (grow s n).1.mem x = s.mem x) := by
  have hr0 := hr
  obtain ⟨h1, h2, h3, h4, h5, h6, h7⟩ := hr
  have hW : WORD = 2 ^ 64 := rfl
  have hS : SBRK_FAIL = 2 ^ 64 - 1 := rfl
  have hB : BLOCK_SIZE = 32 := rfl
  rcases List.eq_nil_or_concat bs with hbs | ⟨l, t, hbs⟩ <;> try rw [List.concat_eq_append] at hbs
  · subst hbs
    have hh := h3 rfl
    have ht : s.tail = 0 := h2
    rw [grow_empty_at s n b hh ht hf (by omega)]
    refine ⟨⟨?_, by simp, ?_⟩, by simp [span], fun h => absurd rfl h, ?_⟩
    · simp only [List.nil_append, Lay, nxt, and_true]
      apply Hdr_set_next _ _ _ _ _ _ _ (by omega)
      apply Hdr_set_size _ _ _ _ _ _ _ (by omega)
      apply Hdr_set_free _ _ _ _ _ _ _ (by simp [flag])
      apply Hdr_set_prev _ _ _ _ _ _ _ (by omega)
      exact Hdr_exists _ _
    · intro _; dsimp only; omega
    · intro x hx _
      dsimp only
      rw [set_next_out _ _ _ _ (by omega), set_size_out _ _ _ _ (by omega),
        set_free_out _ _ _ _ (by omega), set_prev_out _ _ _ _ (by omega)]
  · have hne : bs ≠ [] := by rw [hbs]; simp
    obtain ⟨hh, hbrk⟩ := h4 hne
    obtain ⟨ht, ht1, ht2⟩ := Repr_tail_ne s bs hr0 hne
    rw [grow_nonempty_at s n b hh ht hf (by omega)]
    subst hbs
    rw [lastAddr_concat] at h2
    rw [span_append] at hbrk
    simp only [span] at hbrk
    rw [Lay_append] at h1
    obtain ⟨h1a, h1b⟩ := h1
    simp only [Lay, nxt, and_true] at h1b
    simp only [nxt] at h1a
    refine ⟨⟨?_, by simp, fun _ => hh⟩, ?_, fun _ => rfl, ?_⟩
    · rw [List.append_assoc, Lay_append]
      simp only [List.singleton_append, Lay, nxt, and_true]
      refine ⟨?_, ?_, ?_⟩
      · apply Lay_set_next_o _ _ _ _ _ _ _ (by omega)
        apply Lay_set_prev_o _ _ _ _ _ _ _ (by omega)
        apply Lay_set_next_o _ _ _ _ _ _ _ (by omega)
        apply Lay_set_size_o _ _ _ _ _ _ _ (by omega)
        apply Lay_set_free_o _ _ _ _ _ _ _ (by omega)
        exact h1a
      · apply Hdr_set_next_o _ _ _ _ _ _ _ _ (by omega)
        apply Hdr_set_prev_o _ _ _ _ _ _ _ _ (by omega)
        have hb : s.head + span l + BLOCK_SIZE + t.size = s.brk := by omega
        rw [hb, ← h2]
        apply Hdr_set_next _ _ _ _ _ _ _ (by omega)
        apply Hdr_set_size_o _ _ _ _ _ _ _ _ (by omega)
        apply Hdr_set_free_o _ _ _ _ _ _ _ _ (by omega)
        rw [h2]
        exact h1b
      · have hb : s.head + span l + BLOCK_SIZE + t.size = s.brk := by omega
        rw [hb, ← h2]
        apply Hdr_set_next _ _ _ _ _ _ _ (by omega)
        apply Hdr_set_prev _ _ _ _ _ _ _ (by omega)
        apply Hdr_set_next_o _ _ _ _ _ _ _ _ (by omega)
        apply Hdr_set_size _ _ _ _ _ _ _ (by omega)
        apply Hdr_set_free _ _ _ _ _ _ _ (by simp [flag])
        exact Hdr_exists _ _
    · dsimp only; rw [span_append]; simp only [span]; omega
    · intro x hx hx2
      dsimp only
      rw [set_next_out _ _ _ _ (by omega), set_prev_out _ _ _ _ (by omega),
        set_next_out _ _ _ _ (by omega), set_size_out _ _ _ _ (by omega),
        set_free_out _ _ _ _ (by omega)]

/-- Bytes changed by the reuse branch lie in the chosen block or in the `prev`
field of the following header. -/
theorem reuse_frame (s : State) (l1 : List Blk) (b : Blk) (l2 : List Blk) (n : Nat)
    (hr : Repr s (l1 ++ b :: l2)) (hn : n ≤ b.size) (x : Nat)
    (hx : x < s.head + span l1 ∨ s.head + span l1 + BLOCK_SIZE + b.size + BLOCK_SIZE ≤ x) :
    (reuse s (s.head + span l1) n).1.mem x = s.mem x := by
  obtain ⟨_, h2, _, _, h5, _, h7, h8⟩ := Repr_parts s l1 b l2 hr
  have hB : BLOCK_SIZE = 32 := rfl
  have hS : SBRK_FAIL = 2 ^ 64 - 1 := rfl
  have hW : WORD = 2 ^ 64 := rfl
  by_cases hgt : n + BLOCK_SIZE < b.size
  · unfold reuse
    rw [split_block_eq s _ n _ _ _ _ h2 hgt (by omega)]
    dsimp only
    rw [set_free_out _ _ _ _ (by omega), set_size_out _ _ _ _ (by omega),
      set_next_out _ _ _ _ (by omega)]
    cases l2 with
    | nil =>
      simp only [nxt, ne_eq, not_true_eq_false, if_false]
      rw [set_prev_out _ _ _ _ (by omega), set_next_out _ _ _ _ (by omega),
        set_size_out _ _ _ _ (by omega), set_free_out _ _ _ _ (by omega)]
    | cons c l2 =>
      simp only [nxt]
      rw [if_pos (by omega)]
      rw [set_prev_out _ _ _ _ (by omega), set_prev_out _ _ _ _ (by omega),
        set_next_out _ _ _ _ (by omega),
        set_size_out _ _ _ _ (by omega), set_free_out _ _ _ _ (by omega)]
  · rw [reuse_nosplit_eq s _ n _ _ _ _ h2 (by omega) (by omega)]
    dsimp only
    rw [set_free_out _ _ _ _ (by omega)]

theorem leftKeep_nil : leftKeep [] = [] := rfl
theorem mergedBlk_nil (b1 : Blk) : mergedBlk [] b1 = b1 := rfl

theorem leftKeep_concat (l0 : List Blk) (p : Blk) :
    leftKeep (l0 ++ [p]) = if p.free then l0 else l0 ++ [p] := by
  simp [leftKeep, List.getLast?_append, List.dropLast_concat]

theorem mergedBlk_concat (l0 : List Blk) (p b1 : Blk) :
    mergedBlk (l0 ++ [p]) b1 =
      if p.free then ⟨p.size + b1.size + BLOCK_SIZE, true⟩ else b1 := by
  simp [mergedBlk, List.getLast?_append]

theorem mergePrev_shape (l1 : List Blk) (b1 : Blk) (r : List Blk) :
    mergePrev l1 b1 r = leftKeep l1 ++ mergedBlk l1 b1 :: r := by
  rcases List.eq_nil_or_concat l1 with hl | ⟨l0, p, hl⟩
  · subst hl; rfl
  · rw [List.concat_eq_append] at hl
    subst hl
    rw [mergePrev_concat, leftKeep_concat, mergedBlk_concat]
    split <;> rfl

theorem merged_span (l1 : List Blk) (b1 : Blk) :
    span (leftKeep l1) + BLOCK_SIZE + (mergedBlk l1 b1).size = span l1 + BLOCK_SIZE + b1.size := by
  rcases List.eq_nil_or_concat l1 with hl | ⟨l0, p, hl⟩
  · subst hl; rfl
  · rw [List.concat_eq_append] at hl
    subst hl
    rw [leftKeep_concat, mergedBlk_concat]
    split
    · rw [span_append]; simp only [span]; omega
    · rfl

theorem mergeNext_span (b : Blk) (l2 : List Blk) :
    (mergeNext b l2).1.size + span (mergeNext b l2).2 = b.size + span l2 := by
  cases l2 with
  | nil => rfl
  | cons c l2 =>
    simp only [mergeNext]
    split
    · simp only [span]; omega
    · rfl

theorem leftKeep_span_le (l1 : List Blk) : span (leftKeep l1) ≤ span l1 := by
  rcases List.eq_nil_or_concat l1 with hl | ⟨l0, p, hl⟩
  · subst hl; exact Nat.le_refl _
  · rw [List.concat_eq_append] at hl
    subst hl
    rw [leftKeep_concat]
    split
    · rw [span_append]; omega
    · exact Nat.le_refl _

theorem mergeNext_size_ge (b : Blk) (l2 : List Blk) : b.size ≤ (mergeNext b l2).1.size := by
  cases l2 with
  | nil => exact Nat.le_refl _
  | cons c l2 =>
    simp only [mergeNext]
    split
    · simp only; omega
    · exact Nat.le_refl _

/-- Used blocks left of the released block keep their place. -/
theorem leftKeep_At (l1 : List Blk) (a x : Nat) (c : Blk) (h : At a l1 x c)
    (hc : c.free = false) : At a (leftKeep l1) x c := by
  rcases List.eq_nil_or_concat l1 with hl | ⟨l0, p, hl⟩
  · subst hl; exact h
  · rw [List.concat_eq_append] at hl
    subst hl
    rw [leftKeep_concat]
    by_cases hp : p.free = true
    · rw [if_pos hp]
      rw [At_append] at h
      rcases h with h | h
      · exact h
      · simp only [At, or_false] at h
        rw [h.2, hp] at hc
        exact absurd hc (by simp)
    · rw [if_neg hp]; exact h

/-- Used blocks right of the released block keep their place. -/
theorem mergeNext_At (b : Blk) (l2 : List Blk) (a x : Nat) (c : Blk)
    (h : At (a + BLOCK_SIZE + b.size) l2 x c) (hc : c.free = false) :
    At (a + BLOCK_SIZE + (mergeNext b l2).1.size) (mergeNext b l2).2 x c := by
  cases l2 with
  | nil => exact absurd h (by simp [At])
  | cons d l2 =>
    simp only [mergeNext]
    by_cases hd : d.free = true
    · rw [if_pos hd]
      rw [At_cons] at h
      rcases h with h | h
      · rw [h.2, hd] at hc
        exact absurd hc (by simp)
      · have e : a + BLOCK_SIZE + (b.size + d.size + BLOCK_SIZE) =
            a + BLOCK_SIZE + b.size + BLOCK_SIZE + d.size := by omega
        simp only [e]
        exact h
    · rw [if_neg hd]; exact h

/-- A used block other than the released one keeps its place in the directory. -/
theorem afree_At (l1 : List Blk) (b : Blk) (l2 : List Blk) (a x : Nat) (c : Blk)
    (h : At a (l1 ++ b :: l2) x c) (hc : c.free = false) (hx : x ≠ a + span l1) :
    At a (afree l1 b l2) x c := by
  unfold afree
  rw [mergePrev_shape, At_append, At_cons]
  rw [At_append, At_cons] at h
  rcases h with h | h | h
  · left; exact leftKeep_At l1 a x c h hc
  · exact absurd h.1 hx
  · right; right
    have := mergeNext_At b l2 (a + span l1) x c h hc
    have e := merged_span l1 (mergeNext b l2).1
    have e2 : a + span (leftKeep l1) + BLOCK_SIZE + (mergedBlk l1 (mergeNext b l2).1).size =
        a + span l1 + BLOCK_SIZE + (mergeNext b l2).1.size := by omega
    rw [e2]
    exact this

/-- Explicit memory after `append` on two neighbouring blocks of a represented
directory. -/
theorem append_mem (s : State) (l1 : List Blk) (d c : Blk) (l2 : List Blk)
    (hr : Repr s (l1 ++ d :: c :: l2)) :
    (append s (s.head + span l1) (s.head + span l1 + BLOCK_SIZE + d.size)).mem =
      memset (set_size
        (if nxt 0 (s.head + span l1 + BLOCK_SIZE + d.size + BLOCK_SIZE + c.size) l2 ≠ 0 then
          set_prev (set_next s.mem (s.head + span l1)
              (nxt 0 (s.head + span l1 + BLOCK_SIZE + d.size + BLOCK_SIZE + c.size) l2))
            (nxt 0 (s.head + span l1 + BLOCK_SIZE + d.size + BLOCK_SIZE + c.size) l2)
            (s.head + span l1)
         else set_next s.mem (s.head + span l1)
              (nxt 0 (s.head + span l1 + BLOCK_SIZE + d.size + BLOCK_SIZE + c.size) l2))
        (s.head + span l1) (d.size + c.size + BLOCK_SIZE))
        (s.head + span l1 + BLOCK_SIZE + d.size) 0 (BLOCK_SIZE + c.size) := by
  obtain ⟨h1, h2, h3, h4, h5, h6, h7, h8⟩ := Repr_parts s l1 d (c :: l2) hr
  have hB : BLOCK_SIZE = 32 := rfl
  have hS : SBRK_FAIL = 2 ^ 64 - 1 := rfl
  have hW : WORD = 2 ^ 64 := rfl
  rw [Lay_cons] at h3
  obtain ⟨h3h, h3l⟩ := h3
  simp only [nxt] at h2
  simp only [span_cons] at h5
  have hnx : nxt 0 (s.head + span l1 + BLOCK_SIZE + d.size + BLOCK_SIZE + c.size) l2 = 0 ∨
      s.head + span l1 + BLOCK_SIZE + d.size + BLOCK_SIZE ≤
        nxt 0 (s.head + span l1 + BLOCK_SIZE + d.size + BLOCK_SIZE + c.size) l2 := by
    cases l2 with
    | nil => left; rfl
    | cons e l2 => right; simp only [nxt]; omega
  rw [append_eq s _ _ _ _ _ _ _ _ h2 h3h (by omega) hnx (by omega)]

/-- Bytes changed by `append` lie in the two blocks or in the `prev` field of
the header that follows them. -/
theorem append_frame (s : State) (l1 : List Blk) (d c : Blk) (l2 : List Blk)
    (hr : Repr s (l1 ++ d :: c :: l2)) (x : Nat)
    (hx : x < s.head + span l1 ∨
      s.head + span l1 + BLOCK_SIZE + d.size + BLOCK_SIZE + c.size + BLOCK_SIZE ≤ x) :
    (append s (s.head + span l1) (s.head + span l1 + BLOCK_SIZE + d.size)).mem x = s.mem x := by
  have hB : BLOCK_SIZE = 32 := rfl
  rw [append_mem s l1 d c l2 hr]
  rw [memset_out _ _ _ _ _ (by omega), set_size_out _ _ _ _ (by omega)]
  cases l2 with
  | nil =>
    simp only [nxt, ne_eq, not_true_eq_false, if_false]
    rw [set_next_out _ _ _ _ (by omega)]
  | cons e l2 =>
    simp only [nxt]
    rw [if_pos (by omega), set_prev_out _ _ _ _ (by omega), set_next_out _ _ _ _ (by omega)]

theorem free_next_frame (s : State) (l1 : List Blk) (b : Blk) (l2 : List Blk)
    (hr : Repr s (l1 ++ b :: l2)) (x : Nat)
    (hx : x < s.head + span l1 ∨
      s.head + span l1 + BLOCK_SIZE + (mergeNext b l2).1.size + BLOCK_SIZE ≤ x) :
    (free_next s (s.head + span l1)).mem x = s.mem x := by
  obtain ⟨h1, h2, h3, h4, h5, h6, h7, h8⟩ := Repr_parts s l1 b l2 hr
  have hB : BLOCK_SIZE = 32 := rfl
  unfold free_next
  rw [h2.2.2.1]
  cases l2 with
  | nil => simp only [nxt, ne_eq, not_true_eq_false, false_and, if_false]
  | cons c l2 =>
    rw [Lay_cons] at h3
    simp only [nxt]
    rw [h3.1.2.1]
    by_cases hc : c.free = true
    · rw [if_pos ⟨by omega, (flag_ne_zero _).2 hc⟩]
      simp only [mergeNext, hc, if_true] at hx
      exact append_frame s l1 b c l2 hr x (by omega)
    · rw [if_neg (fun h => hc ((flag_ne_zero _).1 h.2))]

theorem free_prev_frame (s : State) (l1 : List Blk) (b : Blk) (l2 : List Blk)
    (hr : Repr s (l1 ++ b :: l2)) (x : Nat)
    (hx : x < s.head + span (leftKeep l1) ∨
      s.head + span l1 + BLOCK_SIZE + b.size + BLOCK_SIZE ≤ x) :
    (free_prev s (s.head + span l1)).mem x = s.mem x := by
  obtain ⟨h1, h2, h3, h4, h5, h6, h7, h8⟩ := Repr_parts s l1 b l2 hr
  have hB : BLOCK_SIZE = 32 := rfl
  unfold free_prev
  rw [h2.2.2.2]
  rcases List.eq_nil_or_concat l1 with hl | ⟨l0, p, hl⟩
  · subst hl
    simp only [lastAddr, ne_eq, not_true_eq_false, false_and, if_false]
  · rw [List.concat_eq_append] at hl
    subst hl
    rw [lastAddr_concat]
    have hr1 : Repr s (l0 ++ p :: b :: l2) := by
      rw [List.append_assoc] at hr; exact hr
    obtain ⟨g1, g2, g3, g4, g5, g6, g7, g8⟩ := Repr_parts s l0 p (b :: l2) hr1
    rw [g2.2.1]
    have hsp : s.head + span (l0 ++ [p]) = s.head + span l0 + BLOCK_SIZE + p.size := by
      rw [span_append]; simp only [span]; omega
    by_cases hp : p.free = true
    · rw [if_pos ⟨by omega, (flag_ne_zero _).2 hp⟩]
      rw [leftKeep_concat, if_pos hp] at hx
      rw [hsp] at hx ⊢
      exact append_frame s l0 p b l2 hr1 x (by omega)
    · rw [if_neg (fun h => hp ((flag_ne_zero _).1 h.2))]

/-- Bytes changed by a release lie in the resulting free block or in the `prev`
field of the header that follows it. -/
theorem free_frame (s : State) (l1 : List Blk) (b : Blk) (l2 : List Blk)
    (hr : Repr s (l1 ++ b :: l2)) (x : Nat)
    (hx : x < s.head + span (leftKeep l1) ∨
      s.head + span l1 + BLOCK_SIZE + (mergeNext b l2).1.size + BLOCK_SIZE ≤ x) :
    (mm_free s (s.head + span l1 + BLOCK_SIZE)).mem x = s.mem x := by
  have hB : BLOCK_SIZE = 32 := rfl
  rw [mm_free_eq s _ (by omega)]
  have e : s.head + span l1 + BLOCK_SIZE - BLOCK_SIZE = s.head + span l1 := by omega
  rw [e]
  have k1 := leftKeep_span_le l1
  have k2 := mergeNext_size_ge b l2
  have h1 : Repr { s with mem := set_free s.mem (s.head + span l1) 1 }
      (l1 ++ ⟨b.size, true⟩ :: l2) := mark_repr s l1 b l2 true hr
  have h2 := free_next_repr _ l1 ⟨b.size, true⟩ l2 h1
  simp only [if_true] at h2
  have e2 : mergeNext ⟨b.size, true⟩ l2 = mergeNext b l2 := by
    cases l2 <;> rfl
  rw [e2] at h2
  have f3 := free_prev_frame _ l1 _ _ h2 x
  rw [free_next_head] at f3
  dsimp only at f3
  rw [f3 (by omega)]
  have f2 := free_next_frame _ l1 ⟨b.size, true⟩ l2 h1 x
  rw [e2] at f2
  dsimp only at f2
  rw [f2 (by omega)]
  exact set_free_out _ _ _ _ (by omega)

/-- What a request does to the used blocks of a represented directory, for any
`size_t` request: every used block keeps its place and its payload bytes, and a
non-null result is the payload of a block that was not in use before. -/
theorem malloc_step (s s1 : State) (fuel n r : Nat) (bs : List Blk) (hr : Repr s bs)
    (hn : n < WORD) (h : mm_malloc fuel s n = .ok (s1, r)) :
    ∃ bs1, Rep0 s1 bs1 ∧
      (∀ x c, At s.head bs x c → c.free = false →
        At s1.head bs1 x c ∧
          ∀ y, x + BLOCK_SIZE ≤ y → y < x + BLOCK_SIZE + c.size → s1.mem y = s.mem y) ∧
      (r ≠ 0 → ∃ u, At s1.head bs1 (r - BLOCK_SIZE) u ∧ BLOCK_SIZE ≤ r ∧ n ≤ u.size ∧
        ∀ c, At s.head bs (r - BLOCK_SIZE) c → c.free = true) := by
  have hB : BLOCK_SIZE = 32 := rfl
  by_cases hn0 : n = 0
  · rw [hn0, mm_malloc_zero] at h
    simp only [Except.ok.injEq, Prod.mk.injEq] at h
    rw [← h.1, ← h.2]
    exact ⟨bs, Repr_Rep0 s bs hr, fun x c hat _ => ⟨hat, fun _ _ _ => rfl⟩, fun h0 => absurd rfl h0⟩
  · rcases malloc_cases s s1 fuel n r bs hr hn0 h with ⟨l1, b, l2, e, _, h2, h3⟩ | ⟨hno, h3⟩
    · subst e
      obtain ⟨g, f1, _, _, _, f5⟩ := reuse_ok s s1 r n l1 b l2 h3 hr h2.2
      have hs1 : s1 = (reuse s (s.head + span l1) n).1 := congrArg Prod.fst h3
      obtain ⟨u, rr, a1, _, a3, _, a5⟩ := asplit_head n b h2.2
      refine ⟨_, Repr_Rep0 s1 _ g, ?_, ?_⟩
      · intro x c hat hc
        rw [At_append, At_cons] at hat
        have hsp : span (asplit n b) = BLOCK_SIZE + b.size := by
          rw [a5]; simp only [span]; omega
        rcases hat with hat | hat | hat
        · refine ⟨by rw [f1, At_append]; exact Or.inl hat, fun y hy1 hy2 => ?_⟩
          have := (At_bounds l1 _ x c hat).2
          rw [hs1]
          exact reuse_frame s l1 b l2 n hr h2.2 y (by omega)
        · rw [hat.2, h2.1] at hc; exact absurd hc (by simp)
        · refine ⟨?_, fun y hy1 hy2 => ?_⟩
          · rw [f1, At_append, At_append]; right; right
            rw [hsp]
            have e : s.head + span l1 + (BLOCK_SIZE + b.size) =
                s.head + span l1 + BLOCK_SIZE + b.size := by omega
            rw [e]; exact hat
          · have := (At_bounds l2 _ x c hat).1
            rw [hs1]
            exact reuse_frame s l1 b l2 n hr h2.2 y (by omega)
      · intro _
        have e : r - BLOCK_SIZE = s.head + span l1 := by omega
        rw [e]
        refine ⟨u, ?_, by omega, a3, ?_⟩
        · rw [f1, a1, At_iff]; exact ⟨l1, rr ++ l2, rfl, rfl⟩
        · intro c hc
          have hb : At s.head (l1 ++ b :: l2) (s.head + span l1) b := by
            rw [At_iff]; exact ⟨l1, l2, rfl, rfl⟩
          rw [At_unique _ _ _ _ _ hc hb]; exact h2.1
    · have hs1 : s1 = (grow s n).1 := congrArg Prod.fst h3
      have hp1 : r = (grow s n).2 := congrArg Prod.snd h3
      rcases (sbrk_cases s ((BLOCK_SIZE + n) % WORD)).symm with ⟨b0, hf, hb0⟩ | hf
      · obtain ⟨g, g2, g3, g4⟩ := grow_lay s bs n hr hn b0 hf
        obtain ⟨_, _, _, _, _, f6⟩ := grow_fields_at s n b0 hf (Repr_brk_ne s bs hr)
        rw [← hs1] at g g2 g3 g4
        rw [← hp1] at f6
        refine ⟨_, g, ?_, ?_⟩
        · intro x c hat hc
          have hne : bs ≠ [] := by
            intro hb; rw [hb] at hat; exact absurd hat (by simp [At])
          have hbrk := (hr.2.2.2.1 hne).2
          refine ⟨by rw [g3 hne, At_append]; exact Or.inl hat, fun y h1 h2 => ?_⟩
          have hb := (At_bounds bs _ x c hat).2
          apply g4 y (by omega)
          rcases List.eq_nil_or_concat bs with hb0 | ⟨l0, t, hb0⟩
          · exact absurd hb0 hne
          · rw [List.concat_eq_append] at hb0
            subst hb0
            have ht : s.tail = s.head + span l0 := by rw [hr.2.1, lastAddr_concat]
            rw [At_append] at hat
            rcases hat with hat | hat
            · have := (At_bounds l0 _ x c hat).2
              left; omega
            · simp only [At, or_false] at hat
              right; omega
        · intro _
          have e : r - BLOCK_SIZE = s.brk := by omega
          rw [e]
          refine ⟨⟨n, false⟩, ?_, by omega, Nat.le_refl _, ?_⟩
          · rw [At_append]; right
            rw [g2]; left; exact ⟨rfl, rfl⟩
          · intro c hc
            have hne : bs ≠ [] := by
              intro hb; rw [hb] at hc; exact absurd hc (by simp [At])
            have := (At_bounds bs _ _ c hc).2
            have hbrk := (hr.2.2.2.1 hne).2
            omega
      · rw [grow_fail_at s n hf] at hs1 hp1
        simp only at hs1 hp1
        subst hs1
        exact ⟨bs, Repr_Rep0 _ bs (Repr_calls s bs _ hr),
          fun x c hat _ => ⟨hat, fun _ _ _ => rfl⟩, fun h0 => absurd hp1 h0⟩

/-- What a release does to the other used blocks of a represented directory. -/
theorem free_step (s : State) (l1 : List Blk) (b : Blk) (l2 : List Blk)
    (hr : Repr s (l1 ++ b :: l2)) :
    Repr (mm_free s (s.head + span l1 + BLOCK_SIZE)) (afree l1 b l2) ∧
      ∀ x c, At s.head (l1 ++ b :: l2) x c → c.free = false → x ≠ s.head + span l1 →
        At (mm_free s (s.head + span l1 + BLOCK_SIZE)).head (afree l1 b l2) x c ∧
          ∀ y, x + BLOCK_SIZE ≤ y → y < x + BLOCK_SIZE + c.size →
            (mm_free s (s.head + span l1 + BLOCK_SIZE)).mem y = s.mem y := by
  have hB : BLOCK_SIZE = 32 := rfl
  refine ⟨free_repr s l1 b l2 hr, fun x c hat hc hx => ⟨?_, fun y h1 h2 => ?_⟩⟩
  · rw [(mm_free_fields s _).1]
    exact afree_At l1 b l2 s.head x c hat hc hx
  · apply free_frame s l1 b l2 hr y
    rw [At_append, At_cons] at hat
    rcases hat with hat | hat | hat
    · have := (At_bounds _ _ x c (leftKeep_At l1 s.head x c hat hc)).2
      left; omega
    · exact absurd hat.1 hx
    · have := (At_bounds _ _ x c (mergeNext_At b l2 (s.head + span l1) x c hat hc)).1
      right; omega

theorem Kept_trans (s s1 s2 : State) (p : Nat) (h1 : Kept s s1 p) (h2 : Kept s1 s2 p) :
    Kept s s2 p := by
  obtain ⟨_, a2, _, a4⟩ := h1
  obtain ⟨b1, b2, b3, b4⟩ := h2
  refine ⟨b1, by rw [b2, a2], b3, fun x hx1 hx2 => ?_⟩
  rw [b4 x hx1 (by rw [a2]; exact hx2), a4 x hx1 hx2]

theorem malloc_kept (s s1 : State) (fuel n r pL : Nat) (bs : List Blk) (hr : Repr s bs)
    (hL : Live s pL) (hn : n < WORD) (h : mm_malloc fuel s n = .ok (s1, r)) :
    Kept s s1 pL ∧ r ≠ pL := by
  have hB : BLOCK_SIZE = 32 := rfl
  obtain ⟨c, hat, hc, hp⟩ := Live_At s bs pL (Repr_Rep0 s bs hr) hL
  obtain ⟨bs1, g, g2, g3⟩ := malloc_step s s1 fuel n r bs hr hn h
  obtain ⟨hat1, hfr⟩ := g2 _ c hat hc
  have e : pL - BLOCK_SIZE + BLOCK_SIZE = pL := by omega
  have := Kept_of s s1 bs bs1 _ c (Repr_Rep0 s bs hr) g hat hc hat1 hfr
  rw [e] at this
  refine ⟨this, fun hrp => ?_⟩
  have hr0 : r ≠ 0 := by omega
  obtain ⟨u, _, _, _, hu⟩ := g3 hr0
  rw [hrp] at hu
  have := hu c hat
  rw [hc] at this
  exact absurd this (by simp)

theorem free_kept (s : State) (q pL : Nat) (bs : List Blk) (hr : Repr s bs)
    (hL : Live s pL) (hq : q = 0 ∨ Live s q) (hne : q ≠ pL) :
    Kept s (mm_free s q) pL ∧ ∃ bs1, Repr (mm_free s q) bs1 := by
  have hB : BLOCK_SIZE = 32 := rfl
  obtain ⟨c, hat, hc, hp⟩ := Live_At s bs pL (Repr_Rep0 s bs hr) hL
  have e : pL - BLOCK_SIZE + BLOCK_SIZE = pL := by omega
  rcases hq with hq | hq
  · rw [hq, mm_free_null]
    have := Kept_of s s bs bs _ c (Repr_Rep0 s bs hr) (Repr_Rep0 s bs hr) hat hc hat
      (fun _ _ _ => rfl)
    rw [e] at this
    exact ⟨this, bs, hr⟩
  · obtain ⟨l1, b, l2, e1, e2, _⟩ := Live_block s bs q hr hq
    subst e1
    rw [e2]
    obtain ⟨g1, g2⟩ := free_step s l1 b l2 hr
    obtain ⟨hat1, hfr⟩ := g2 _ c hat hc (by omega)
    have := Kept_of s _ _ _ _ c (Repr_Rep0 s _ hr) (Repr_Rep0 _ _ g1) hat hc hat1 hfr
    rw [e] at this
    exact ⟨this, _, g1⟩

theorem copy_in_payload (res k n usz a x : Nat) (d2 : res - 32 = a) (hu2 : 32 ≤ res)
    (hu3 : n ≤ usz) (hkn : k ≤ n) (hx : x < a + 32 ∨ a + 32 + usz ≤ x) :
    x < res ∨ res + k ≤ x := by omega

theorem copy_off_block (res k n usz xl csz y : Nat) (hu2 : 32 ≤ res) (hu3 : n ≤ usz)
    (hkn : k ≤ n) (hdis : xl + 32 + csz ≤ res - 32 ∨ res - 32 + 32 + usz ≤ xl)
    (hy1 : xl + 32 ≤ y) (hy2 : y < xl + 32 + csz) : y < res ∨ res + k ≤ y := by omega

theorem realloc_kept (s s1 : State) (fuel q n r pL : Nat) (bs : List Blk) (hr : Repr s bs)
    (hL : Live s pL) (hn : n < WORD) (hq : q = 0 ∨ Live s q) (hne : q ≠ pL)
    (h : mm_realloc fuel s q n = .ok (s1, r)) : Kept s s1 pL := by
  have hB : BLOCK_SIZE = 32 := rfl
  unfold mm_realloc at h
  by_cases hq0 : q = 0
  · rw [if_neg (by simp [hq0])] at h
    exact (malloc_kept s s1 fuel n r pL bs hr hL hn h).1
  · rw [if_pos hq0] at h
    obtain ⟨hk1, bsf, hrf⟩ := free_kept s q pL bs hr hL hq hne
    simp only at h
    by_cases hn0 : n = 0
    · rw [if_pos hn0] at h
      simp only [Except.ok.injEq, Prod.mk.injEq] at h
      rw [← h.1]; exact hk1
    · rw [if_neg hn0] at h
      cases hm : mm_malloc fuel (mm_free s q) n with
      | error e => rw [hm] at h; simp at h
      | ok qq =>
        obtain ⟨s2, res⟩ := qq
        rw [hm] at h
        simp only at h
        have hkn : (if n < get_size s.mem (q - BLOCK_SIZE) then n
            else get_size s.mem (q - BLOCK_SIZE)) ≤ n := by split <;> omega
        generalize (if n < get_size s.mem (q - BLOCK_SIZE) then n
            else get_size s.mem (q - BLOCK_SIZE)) = k at h hkn
        by_cases hc0 : res = 0 ∧ 0 < k
        · rw [if_pos hc0] at h; simp at h
        · rw [if_neg hc0] at h
          simp only [Except.ok.injEq, Prod.mk.injEq] at h
          rw [← h.1]
          have hk2 := (malloc_kept _ s2 fuel n res pL bsf hrf hk1.1 hn hm).1
          apply Kept_trans s _ _ pL hk1
          apply Kept_trans _ s2 _ pL hk2
          obtain ⟨c, hat, hc, hp⟩ := Live_At _ bsf pL (Repr_Rep0 _ bsf hrf) hk1.1
          obtain ⟨bs2, g, g2, g3⟩ := malloc_step _ s2 fuel n res bsf hrf hn hm
          obtain ⟨hat2, _⟩ := g2 _ c hat hc
          have e : pL - BLOCK_SIZE + BLOCK_SIZE = pL := by omega
          by_cases hres : res = 0
          · have hk0 : k = 0 := by
              by_contra hk
              exact hc0 ⟨hres, Nat.pos_of_ne_zero hk⟩
            rw [hk0, memcpy_zero]
            have := Kept_of s2 s2 bs2 bs2 _ c g g hat2 hc hat2 (fun _ _ _ => rfl)
            rw [e] at this
            exact this
          · obtain ⟨u, hu1, hu2, hu3, hu4⟩ := g3 hres
            have hxne : pL - BLOCK_SIZE ≠ res - BLOCK_SIZE := by
              intro he
              rw [← he] at hu4
              have := hu4 c hat
              rw [hc] at this
              exact absurd this (by simp)
            have hdis := At_disjoint bs2 _ _ _ c u hat2 hu1 hxne
            obtain ⟨k1, k2, d1, d2⟩ := (At_iff bs2 _ _ u).1 hu1
            subst d1
            have g' := Rep0_payload s2 k1 u k2
              (memcpy s2.mem res (fun i => s.mem (q + i)) k) g
              (fun x hx => memcpy_out s2.mem res (fun i => s.mem (q + i)) k x
                (copy_in_payload res k n u.size _ x d2 hu2 hu3 hkn hx))
            have := Kept_of s2 _ _ _ _ c g g' hat2 hc hat2
              (fun y hy1 hy2 => memcpy_out s2.mem res (fun i => s.mem (q + i)) k y
                (copy_off_block res k n u.size _ c.size y hu2 hu3 hkn hdis hy1 hy2))
            rw [e] at this
            exact this

/-- The frame of one call on a live block, in a state reached while every byte
count stayed within `INTPTR_MAX`: a live block `L` (payload pointer `pL`) is kept
by every returning call `mm_malloc n`, by `mm_free q` and by every returning call
`mm_realloc q n`, for every `size_t` value `n` and every null or live `q` other
than `pL`: `pL` stays live, and the block's size, used status and every payload
byte are unchanged; a pointer returned by `mm_malloc` differs from `pL`. -/
theorem live_block_frame (s : State) (hs : Reachable s) (pL : Nat) (hL : Live s pL) :
    (∀ fuel n s1 r, n < WORD → mm_malloc fuel s n = .ok (s1, r) → Kept s s1 pL ∧ r ≠ pL) ∧
    (∀ q, (q = 0 ∨ Live s q) → q ≠ pL → Kept s (mm_free s q) pL) ∧
    (∀ fuel q n s1 r, n < WORD → (q = 0 ∨ Live s q) → q ≠ pL →
      mm_realloc fuel s q n = .ok (s1, r) → Kept s s1 pL) := by
  obtain ⟨bs, hr, _, _⟩ := Reachable_Inv s hs
  exact ⟨fun fuel n s1 r hn h => malloc_kept s s1 fuel n r pL bs hr hL hn h,
    fun q hq hne => (free_kept s q pL bs hr hL hq hne).1,
    fun fuel q n s1 r hn hq hne h => realloc_kept s s1 fuel q n r pL bs hr hL hn hq hne h⟩

/-- The concrete test `nextFree`, read on the abstract directory. -/
theorem next_facts (s : State) (l1 : List Blk) (b : Blk) (l2 : List Blk)
    (hr : Repr s (l1 ++ b :: l2)) :
    (nextFree s (s.head + span l1) ∧ ∃ c l3, l2 = c :: l3 ∧ c.free = true ∧
        get_next s.mem (s.head + span l1) = s.head + span l1 + BLOCK_SIZE + b.size ∧
        get_size s.mem (get_next s.mem (s.head + span l1)) = c.size ∧
        mergeNext b l2 = (⟨b.size + c.size + BLOCK_SIZE, true⟩, l3)) ∨
    (¬ nextFree s (s.head + span l1) ∧ mergeNext b l2 = (⟨b.size, true⟩, l2)) := by
  obtain ⟨_, h2, h3, _⟩ := Repr_parts s l1 b l2 hr
  have hB : BLOCK_SIZE = 32 := rfl
  cases l2 with
  | nil =>
    right
    refine ⟨fun h => h.1 h2.2.2.1, rfl⟩
  | cons c l3 =>
    rw [Lay_cons] at h3
    have e1 : get_next s.mem (s.head + span l1) = s.head + span l1 + BLOCK_SIZE + b.size :=
      h2.2.2.1
    by_cases hc : c.free = true
    · left
      refine ⟨⟨by rw [e1]; omega, by rw [e1, h3.1.2.1]; exact (flag_ne_zero _).2 hc⟩,
        c, l3, rfl, hc, e1, by rw [e1]; exact h3.1.1, ?_⟩
      simp only [mergeNext, hc, if_true]
    · right
      refine ⟨fun h => hc ((flag_ne_zero _).1 (by
        have h' := h.2; rw [e1, h3.1.2.1] at h'; exact h')), ?_⟩
      simp [mergeNext, hc]

/-- The concrete test `prevFree`, read on the abstract directory. -/
theorem prev_facts (s : State) (l1 : List Blk) (b : Blk) (l2 : List Blk)
    (hr : Repr s (l1 ++ b :: l2)) :
    (prevFree s (s.head + span l1) ∧ ∃ l0 p, l1 = l0 ++ [p] ∧ p.free = true ∧
        get_prev s.mem (s.head + span l1) = s.head + span l0 ∧
        get_size s.mem (get_prev s.mem (s.head + span l1)) = p.size ∧
        leftKeep l1 = l0 ∧ ∀ b1, mergedBlk l1 b1 = ⟨p.size + b1.size + BLOCK_SIZE, true⟩) ∨
    (¬ prevFree s (s.head + span l1) ∧ leftKeep l1 = l1 ∧ ∀ b1, mergedBlk l1 b1 = b1) := by
  obtain ⟨_, h2, _, h4, _⟩ := Repr_parts s l1 b l2 hr
  have hB : BLOCK_SIZE = 32 := rfl
  rcases List.eq_nil_or_concat l1 with hl | ⟨l0, p, hl⟩
  · subst hl
    right
    exact ⟨fun h => h.1 h2.2.2.2, rfl, fun _ => rfl⟩
  · rw [List.concat_eq_append] at hl
    subst hl
    have hr1 : Repr s (l0 ++ p :: b :: l2) := by
      rw [List.append_assoc] at hr; exact hr
    obtain ⟨_, g2, _⟩ := Repr_parts s l0 p (b :: l2) hr1
    have e1 : get_prev s.mem (s.head + span (l0 ++ [p])) = s.head + span l0 := by
      rw [h2.2.2.2, lastAddr_concat]
    by_cases hp : p.free = true
    · left
      refine ⟨⟨by rw [e1]; omega, by rw [e1, g2.2.1]; exact (flag_ne_zero _).2 hp⟩,
        l0, p, rfl, hp, e1, by rw [e1]; exact g2.1, ?_, fun b1 => ?_⟩
      · rw [leftKeep_concat, if_pos hp]
      · rw [mergedBlk_concat, if_pos hp]
    · right
      refine ⟨fun h => hp ((flag_ne_zero _).1 (by
        have h' := h.2; rw [e1, g2.2.1] at h'; exact h')), ?_, fun b1 => ?_⟩
      · rw [leftKeep_concat, if_neg hp]
      · rw [mergedBlk_concat, if_neg hp]

theorem survivor_eq (s : State) (l1 : List Blk) (b : Blk) (l2 : List Blk)
    (hr : Repr s (l1 ++ b :: l2)) :
    survivor s (s.head + span l1) = s.head + span (leftKeep l1) := by
  unfold survivor
  rcases prev_facts s l1 b l2 hr with ⟨h1, l0, p, _, _, e3, _, e5, _⟩ | ⟨h1, e2, _⟩
  · rw [if_pos h1, e3, e5]
  · rw [if_neg h1, e2]

theorem mergedSize_eq (s : State) (l1 : List Blk) (b : Blk) (l2 : List Blk)
    (hr : Repr s (l1 ++ b :: l2)) :
    mergedSize s (s.head + span l1) = (mergedBlk l1 (mergeNext b l2).1).size := by
  unfold mergedSize
  have hsz : get_size s.mem (s.head + span l1) = b.size := (Repr_parts s l1 b l2 hr).2.1.1
  rw [hsz]
  rcases prev_facts s l1 b l2 hr with ⟨h1, l0, p, _, _, _, e4, _, e6⟩ | ⟨h1, _, e3⟩ <;>
  rcases next_facts s l1 b l2 hr with ⟨g1, c, l3, _, _, _, f4, f5⟩ | ⟨g1, f2⟩
  · rw [if_pos h1, if_pos g1, e4, f4, e6, f5]; simp only; omega
  · rw [if_pos h1, if_neg g1, e4, e6, f2]; simp only; omega
  · rw [if_neg h1, if_pos g1, f4, e3, f5]; simp only; omega
  · rw [if_neg h1, if_neg g1, e3, f2]; rfl

theorem mergedBlk_free (l1 : List Blk) (b1 : Blk) (h : b1.free = true) :
    (mergedBlk l1 b1).free = true := by
  rcases List.eq_nil_or_concat l1 with hl | ⟨l0, p, hl⟩
  · subst hl; exact h
  · rw [List.concat_eq_append] at hl
    subst hl
    rw [mergedBlk_concat]
    split
    · rfl
    · exact h

theorem leftKeep_At2 (l1 : List Blk) (a x : Nat) (c : Blk) (h : At a l1 x c)
    (hx : x ≠ a + span (leftKeep l1)) : At a (leftKeep l1) x c := by
  rcases List.eq_nil_or_concat l1 with hl | ⟨l0, p, hl⟩
  · subst hl; exact h
  · rw [List.concat_eq_append] at hl
    subst hl
    rw [leftKeep_concat] at hx ⊢
    by_cases hp : p.free = true
    · rw [if_pos hp] at hx ⊢
      rw [At_append] at h
      rcases h with h | h
      · exact h
      · simp only [At, or_false] at h
        exact absurd h.1 hx
    · rw [if_neg hp]; exact h

theorem mergeNext_At2 (b : Blk) (l2 : List Blk) (a x : Nat) (c : Blk)
    (h : At (a + BLOCK_SIZE + b.size) l2 x c)
    (hx : ∀ d l3, l2 = d :: l3 → d.free = true → x ≠ a + BLOCK_SIZE + b.size) :
    At (a + BLOCK_SIZE + (mergeNext b l2).1.size) (mergeNext b l2).2 x c := by
  cases l2 with
  | nil => exact absurd h (by simp [At])
  | cons d l2 =>
    simp only [mergeNext]
    by_cases hd : d.free = true
    · rw [if_pos hd]
      rw [At_cons] at h
      rcases h with h | h
      · exact absurd h.1 (hx d l2 rfl hd)
      · have e : a + BLOCK_SIZE + (b.size + d.size + BLOCK_SIZE) =
            a + BLOCK_SIZE + b.size + BLOCK_SIZE + d.size := by omega
        simp only [e]
        exact h
    · rw [if_neg hd]; exact h

/-- A block that is neither released, absorbed nor the surviving block keeps
its place in the directory. -/
theorem afree_At2 (l1 : List Blk) (b : Blk) (l2 : List Blk) (a x : Nat) (c : Blk)
    (h : At a (l1 ++ b :: l2) x c) (hx : x ≠ a + span l1)
    (hm : x ≠ a + span (leftKeep l1))
    (hn : ∀ d l3, l2 = d :: l3 → d.free = true → x ≠ a + span l1 + BLOCK_SIZE + b.size) :
    At a (afree l1 b l2) x c := by
  unfold afree
  rw [mergePrev_shape, At_append, At_cons]
  rw [At_append, At_cons] at h
  rcases h with h | h | h
  · left; exact leftKeep_At2 l1 a x c h hm
  · exact absurd h.1 hx
  · right; right
    have := mergeNext_At2 b l2 (a + span l1) x c h hn
    have e := merged_span l1 (mergeNext b l2).1
    have e2 : a + span (leftKeep l1) + BLOCK_SIZE + (mergedBlk l1 (mergeNext b l2).1).size =
        a + span l1 + BLOCK_SIZE + (mergeNext b l2).1.size := by omega
    rw [e2]
    exact this

theorem addrs_concat (l0 : List Blk) (p : Blk) (a : Nat) :
    addrs a (l0 ++ [p]) = addrs a l0 ++ [a + span l0] := by
  rw [addrs_append]; rfl

/-- The chain after a release, in terms of the chain before it. -/
theorem afree_addrs (s : State) (l1 : List Blk) (b : Blk) (l2 : List Blk)
    (hr : Repr s (l1 ++ b :: l2)) :
    addrs s.head (afree l1 b l2) =
      (if prevFree s (s.head + span l1) then addrs s.head l1
        else addrs s.head l1 ++ [s.head + span l1]) ++
      (if nextFree s (s.head + span l1)
        then (addrs (s.head + span l1 + BLOCK_SIZE + b.size) l2).tail
        else addrs (s.head + span l1 + BLOCK_SIZE + b.size) l2) := by
  have hB : BLOCK_SIZE = 32 := rfl
  unfold afree
  rw [mergePrev_shape, addrs_append]
  simp only [addrs]
  have e := merged_span l1 (mergeNext b l2).1
  have e2 : s.head + span (leftKeep l1) + BLOCK_SIZE + (mergedBlk l1 (mergeNext b l2).1).size =
      s.head + span l1 + BLOCK_SIZE + (mergeNext b l2).1.size := by omega
  rw [e2]
  have hright : addrs (s.head + span l1 + BLOCK_SIZE + (mergeNext b l2).1.size)
        (mergeNext b l2).2 =
      (if nextFree s (s.head + span l1)
        then (addrs (s.head + span l1 + BLOCK_SIZE + b.size) l2).tail
        else addrs (s.head + span l1 + BLOCK_SIZE + b.size) l2) := by
    rcases next_facts s l1 b l2 hr with ⟨g1, c, l3, f1, _, _, _, f5⟩ | ⟨g1, f2⟩
    · rw [if_pos g1, f5]
      subst f1
      have e3 : s.head + span l1 + BLOCK_SIZE + (b.size + c.size + BLOCK_SIZE) =
          s.head + span l1 + BLOCK_SIZE + b.size + BLOCK_SIZE + c.size := by omega
      show addrs (s.head + span l1 + BLOCK_SIZE + (b.size + c.size + BLOCK_SIZE)) l3 =
        addrs (s.head + span l1 + BLOCK_SIZE + b.size + BLOCK_SIZE + c.size) l3
      rw [e3]
    · rw [if_neg g1, f2]
  rw [hright]
  generalize (if nextFree s (s.head + span l1)
        then (addrs (s.head + span l1 + BLOCK_SIZE + b.size) l2).tail
        else addrs (s.head + span l1 + BLOCK_SIZE + b.size) l2) = R
  rcases prev_facts s l1 b l2 hr with ⟨h1, l0, p, e1, _, _, _, e5, _⟩ | ⟨h1, e2, _⟩
  · rw [if_pos h1, e5, e1, addrs_concat, List.append_assoc, List.singleton_append]
  · rw [if_neg h1, e2, List.append_assoc, List.singleton_append]

theorem afree_tail (s : State) (l1 : List Blk) (b : Blk) (l2 : List Blk)
    (hr : Repr s (l1 ++ b :: l2)) :
    (mm_free s (s.head + span l1 + BLOCK_SIZE)).tail =
      if absorbed s (s.head + span l1) s.tail then survivor s (s.head + span l1) else s.tail := by
  have hB : BLOCK_SIZE = 32 := rfl
  have hr1 := free_repr s l1 b l2 hr
  have ht1 := hr1.2.1
  rw [(mm_free_fields s _).1] at ht1
  rw [ht1]
  have ht := (Repr_parts s l1 b l2 hr).2.2.2.2.2.1
  have hsv := survivor_eq s l1 b l2 hr
  unfold afree
  rw [mergePrev_shape, lastAddr_append, lastAddr_cons]
  have e := merged_span l1 (mergeNext b l2).1
  have e2 : s.head + span (leftKeep l1) + BLOCK_SIZE + (mergedBlk l1 (mergeNext b l2).1).size =
      s.head + span l1 + BLOCK_SIZE + (mergeNext b l2).1.size := by omega
  rw [e2, hsv]
  generalize hM : s.head + span (leftKeep l1) = M at *
  rcases next_facts s l1 b l2 hr with ⟨g1, c, l3, f1, _, f3, _, f5⟩ | ⟨g1, f2⟩
  · rw [f5]
    subst f1
    simp only [lastAddr_cons] at ht
    have e3 : s.head + span l1 + BLOCK_SIZE + (b.size + c.size + BLOCK_SIZE) =
        s.head + span l1 + BLOCK_SIZE + b.size + BLOCK_SIZE + c.size := by omega
    simp only [e3]
    cases l3 with
    | nil =>
      simp only [lastAddr] at ht ⊢
      rw [if_pos (Or.inr ⟨by rw [ht, f3], g1⟩)]
    | cons d l3 =>
      have hge := (lastAddr_le (d :: l3) (s.head + span l1 + BLOCK_SIZE + b.size)
        (s.head + span l1 + BLOCK_SIZE + b.size + BLOCK_SIZE + c.size) (by simp)).1
      rw [← ht] at hge
      rw [if_neg]
      · rw [ht]; rfl
      · rintro (⟨h1, _⟩ | ⟨h1, _⟩)
        · omega
        · rw [f3] at h1; omega
  · rw [f2]
    simp only
    cases l2 with
    | nil =>
      simp only [lastAddr] at ht ⊢
      rcases prev_facts s l1 b [] hr with ⟨h1, _⟩ | ⟨h1, k2, _⟩
      · rw [if_pos (Or.inl ⟨ht, h1⟩)]
      · rw [if_neg]
        · rw [ht, ← hM, k2]
        · rintro (⟨_, h2⟩ | ⟨_, h2⟩)
          · exact h1 h2
          · exact g1 h2
    | cons d l3 =>
      have hge := (lastAddr_le (d :: l3) (s.head + span l1)
        (s.head + span l1 + BLOCK_SIZE + b.size) (by simp)).1
      rw [← ht] at hge
      rw [if_neg]
      · rw [ht]; rfl
      · rintro (⟨h1, _⟩ | ⟨_, h2⟩)
        · omega
        · exact g1 h2

theorem afree_addrs_k (s : State) (l1 : List Blk) (b : Blk) (l2 : List Blk) (k1 k2 : List Nat)
    (hr : Repr s (l1 ++ b :: l2)) (e2 : k1 = addrs s.head l1)
    (e4 : k2 = addrs (s.head + span l1 + BLOCK_SIZE + b.size) l2) :
    addrs s.head (afree l1 b l2) =
      (if prevFree s (s.head + span l1) then k1 else k1 ++ [s.head + span l1]) ++
      (if nextFree s (s.head + span l1) then k2.tail else k2) := by
  subst e2 e4
  exact afree_addrs s l1 b l2 hr

/-- Coalescing in a state reached while every byte count stayed within
`INTPTR_MAX`: releasing a live pointer `p` in such a state leaves the bytes of
its block `B` inside one free block, the survivor (`B`'s free predecessor when
there is one, else `B`), whose size is `B`'s size plus `size + BLOCK_SIZE` of
each free neighbour; the absorbed blocks are removed from the chain, `tail`
moves to the survivor when an absorbed block was `tail`, and every other block
keeps its size and free flag. -/
theorem coalescing (s : State) (hs : Reachable s) (p : Nat) (hp : Live s p)
    (l k1 k2 : List Nat) (hl : Directory s l) (hd : l = k1 ++ (p - BLOCK_SIZE) :: k2) :
    is_free (mm_free s p).mem (survivor s (p - BLOCK_SIZE)) ∧
    get_size (mm_free s p).mem (survivor s (p - BLOCK_SIZE)) = mergedSize s (p - BLOCK_SIZE) ∧
    survivor s (p - BLOCK_SIZE) ≤ p - BLOCK_SIZE ∧
    p + get_size s.mem (p - BLOCK_SIZE) ≤
      survivor s (p - BLOCK_SIZE) + BLOCK_SIZE + mergedSize s (p - BLOCK_SIZE) ∧
    Directory (mm_free s p)
      ((if prevFree s (p - BLOCK_SIZE) then k1 else k1 ++ [p - BLOCK_SIZE]) ++
        (if nextFree s (p - BLOCK_SIZE) then k2.tail else k2)) ∧
    (mm_free s p).tail =
      (if absorbed s (p - BLOCK_SIZE) s.tail then survivor s (p - BLOCK_SIZE) else s.tail) ∧
    ∀ c ∈ l, ¬ absorbed s (p - BLOCK_SIZE) c → c ≠ survivor s (p - BLOCK_SIZE) →
      get_size (mm_free s p).mem c = get_size s.mem c ∧
        get_free (mm_free s p).mem c = get_free s.mem c := by
  have hB : BLOCK_SIZE = 32 := rfl
  obtain ⟨bs, hr, _, _⟩ := Reachable_Inv s hs
  obtain ⟨_, _, hp32⟩ := Live_At s bs p (Repr_Rep0 s bs hr) hp
  have el := Chain_unique _ _ _ _ hl (Repr_directory s bs hr)
  rw [hd] at el
  obtain ⟨l1, b, l2, e1, e2, e3, e4⟩ := addrs_split bs s.head k1 _ k2 el.symm
  subst e1
  have hpe : p = s.head + span l1 + BLOCK_SIZE := by omega
  rw [e3]
  rw [hpe]
  have hr1 := free_repr s l1 b l2 hr
  have hh1 := (mm_free_fields s (s.head + span l1 + BLOCK_SIZE)).1
  have hsv := survivor_eq s l1 b l2 hr
  have hms := mergedSize_eq s l1 b l2 hr
  have hsz : get_size s.mem (s.head + span l1) = b.size := (Repr_parts s l1 b l2 hr).2.1.1
  have hshape : afree l1 b l2 =
      leftKeep l1 ++ mergedBlk l1 (mergeNext b l2).1 :: (mergeNext b l2).2 := by
    unfold afree; rw [mergePrev_shape]
  have hr2 := hr1
  rw [hshape] at hr2
  obtain ⟨_, q2, _⟩ := Repr_parts _ _ _ _ hr2
  rw [hh1, ← hsv] at q2
  have k1' := leftKeep_span_le l1
  have k2' := mergeNext_size_ge b l2
  have k3 := merged_span l1 (mergeNext b l2).1
  refine And.intro ?_ (And.intro ?_ (And.intro ?_ (And.intro ?_ (And.intro ?_
    (And.intro (afree_tail s l1 b l2 hr) ?_)))))
  · unfold is_free
    rw [q2.2.1, mergedBlk_free l1 _ (mergeNext_free b l2)]
    decide
  · rw [q2.1, hms]
  · rw [hsv]; omega
  · rw [hsv, hms, hsz]; omega
  · have := Repr_directory _ _ hr1
    rewrite [hh1, afree_addrs_k s l1 b l2 k1 k2 hr e2 e4] at this
    exact this
  · intro c hc hab hne
    rw [hd, el] at hc
    obtain ⟨d, hd1⟩ := (mem_addrs_At _ s.head c).1 hc
    have hcB : c ≠ s.head + span l1 := by
      intro he
      rcases prev_facts s l1 b l2 hr with ⟨h1, _⟩ | ⟨_, g2, _⟩
      · exact hab (Or.inl ⟨he, h1⟩)
      · rw [hsv, g2] at hne; exact hne he
    have hcN : ∀ d l3, l2 = d :: l3 → d.free = true →
        c ≠ s.head + span l1 + BLOCK_SIZE + b.size := by
      intro d0 l3 h1 h2 he
      rcases next_facts s l1 b l2 hr with ⟨g1, _, _, _, _, g3, _⟩ | ⟨_, g2⟩
      · exact hab (Or.inr ⟨by rw [g3]; exact he, g1⟩)
      · rw [h1] at g2
        simp [mergeNext, h2] at g2
    have hd2 := afree_At2 l1 b l2 s.head c d hd1 hcB (by rw [← hsv]; exact hne) hcN
    rw [← hh1] at hd2
    obtain ⟨p1, p2⟩ := Repr_At s _ c d hr hd1
    obtain ⟨q1, q2'⟩ := Repr_At _ _ c d hr1 hd2
    rw [p1, p2, q1, q2']
    exact ⟨rfl, rfl⟩

theorem Reachable_WellFormed (s : State) (h : Reachable s) : WellFormed s := by
  obtain ⟨bs, hr, _, _⟩ := Reachable_Inv s h
  exact ⟨bs, hr⟩

/-- No overlap for a request whose byte count is at most `INTPTR_MAX`: the pointer
returned by a successful `mm_malloc n` in a reachable state is the payload of a
used block of size at least `n` inside `[head, brk)`, disjoint from every header
of the directory and from the payload of every other live block. -/
theorem malloc_no_overlap (s : State) (hs : Reachable s) (fuel n : Nat) (s1 : State) (p : Nat)
    (hw : BLOCK_SIZE + n ≤ INTPTR_MAX) (h : mm_malloc fuel s n = .ok (s1, p)) (hp : p ≠ 0) :
    ∃ l, Directory s1 l ∧ BLOCK_SIZE ≤ p ∧ (p - BLOCK_SIZE) ∈ l ∧
      get_free s1.mem (p - BLOCK_SIZE) = 0 ∧ n ≤ get_size s1.mem (p - BLOCK_SIZE) ∧
      s1.head ≤ p - BLOCK_SIZE ∧ p + n ≤ s1.brk ∧
      (∀ c ∈ l, c + BLOCK_SIZE ≤ p ∨ p + n ≤ c) ∧
      (∀ q, Live s1 q → q ≠ p →
        q + get_size s1.mem (q - BLOCK_SIZE) ≤ p - BLOCK_SIZE ∨ p + n ≤ q - BLOCK_SIZE) := by
  have hB : BLOCK_SIZE = 32 := rfl
  have hn : n ≠ 0 := by
    intro h0
    rw [h0, mm_malloc_zero] at h
    simp only [Except.ok.injEq, Prod.mk.injEq] at h
    exact hp h.2.symm
  obtain ⟨l1, b, l2, g, _, _, e1, e2, e3⟩ :=
    malloc_block s s1 fuel n p (Reachable_Inv s hs) hw hn h hp
  obtain ⟨_, q2, _, _, q5, _⟩ := Repr_parts s1 l1 b l2 g
  have e : p - BLOCK_SIZE = s1.head + span l1 := by omega
  have hat : At s1.head (l1 ++ b :: l2) (s1.head + span l1) b := by
    rw [At_iff]; exact ⟨l1, l2, rfl, rfl⟩
  rw [e]
  refine ⟨_, Repr_directory s1 _ g, by omega, ?_, ?_, ?_, by omega, by omega, ?_, ?_⟩
  · rw [mem_addrs]; exact ⟨l1, b, l2, rfl, rfl⟩
  · rw [q2.2.1, e2]; rfl
  · rw [q2.1]; exact e3
  · intro c hc
    obtain ⟨d, hd⟩ := (mem_addrs_At _ _ c).1 hc
    by_cases hcb : c = s1.head + span l1
    · left; omega
    · rcases At_disjoint _ _ _ _ d b hd hat hcb with h1 | h1
      · left; omega
      · right; omega
  · intro q hq hqp
    obtain ⟨d, hd, _, hq32⟩ := Live_At s1 _ q (Repr_Rep0 s1 _ g) hq
    have hsz := (Repr_At s1 _ _ d g hd).1
    rw [hsz]
    have hne : q - BLOCK_SIZE ≠ s1.head + span l1 := by omega
    rcases At_disjoint _ _ _ _ d b hd hat hne with h1 | h1
    · left; omega
    · right; omega

/-! ### Failure of the growth request, null and zero arguments -/

/-- When `sbrk` fails, a request that no block fits returns `NULL` and only the
log of growth requests changes. -/
theorem malloc_oom (s : State) (bs : List Blk) (n : Nat) (hr : Repr s bs) (hn : n ≠ 0)
    (hno : ∀ b ∈ bs, ¬ Fits n b)
    (hf : sbrk s ((BLOCK_SIZE + n) % WORD) =
      ({ s with calls := s.calls ++ [(BLOCK_SIZE + n) % WORD] }, SBRK_FAIL))
    (fuel : Nat) (hfuel : bs.length + 1 ≤ fuel) :
    mm_malloc fuel s n = .ok ({ s with calls := s.calls ++ [(BLOCK_SIZE + n) % WORD] }, 0) := by
  rw [malloc_notfound s n bs hr hno hn fuel hfuel, grow_fail_at s n hf]

/-- When `sbrk` returns its failure sentinel, it has changed nothing but the
log of its calls. -/
theorem sbrk_sentinel (s : State) (bs : List Blk) (inc : Nat) (hr : Repr s bs)
    (h : (sbrk s inc).2 = SBRK_FAIL) :
    sbrk s inc = ({ s with calls := s.calls ++ [inc] }, SBRK_FAIL) := by
  rcases sbrk_cases s inc with hf | ⟨b, hb, _⟩
  · exact hf
  · rw [hb] at h
    exact absurd h (Repr_brk_ne s bs hr)

/-- C11: out of memory in allocate. In every well-formed state, for a request
`n > 0` that no free block of the directory fits, if `sbrk` returns its failure
sentinel then `mm_malloc n` returns `NULL` (given fuel for the scan), and the
memory (hence every header field of every block), `head`, `tail` and the break
are those of the state before the call: only the log of `sbrk` calls grew. -/
theorem C11_malloc_out_of_memory (s : State) (hw : WellFormed s) (n : Nat) (hn : 0 < n)
    (l : List Nat) (hl : Directory s l) (hno : ∀ b ∈ l, ¬ fits s.mem n b)
    (hfail : (sbrk s ((BLOCK_SIZE + n) % WORD)).2 = SBRK_FAIL) :
    (∀ fuel, l.length < fuel →
      mm_malloc fuel s n =
        .ok ({ s with calls := s.calls ++ [(BLOCK_SIZE + n) % WORD] }, 0)) ∧
    ∀ fuel s1 r, mm_malloc fuel s n = .ok (s1, r) →
      r = 0 ∧ s1.mem = s.mem ∧ s1.head = s.head ∧ s1.tail = s.tail ∧ s1.brk = s.brk ∧
        s1.limit = s.limit ∧
        ∀ b ∈ l, get_size s1.mem b = get_size s.mem b ∧ get_free s1.mem b = get_free s.mem b ∧
          get_next s1.mem b = get_next s.mem b ∧ get_prev s1.mem b = get_prev s.mem b := by
  obtain ⟨bs, hr⟩ := hw
  have hno2 := (not_fits_bridge s bs n l hr hl).1 hno
  have hf := sbrk_sentinel s bs _ hr hfail
  have hlen : l.length = bs.length := by
    rw [Chain_unique s.mem l s.head _ hl (Repr_directory s bs hr), addrs_length]
  have key : ∀ fuel, l.length < fuel →
      mm_malloc fuel s n =
        .ok ({ s with calls := s.calls ++ [(BLOCK_SIZE + n) % WORD] }, 0) :=
    fun fuel hfu => malloc_oom s bs n hr (by omega) hno2 hf fuel (by omega)
  refine ⟨key, fun fuel s1 r h => ?_⟩
  have e := malloc_fuel s n fuel (l.length + 1) _ _ h (key _ (Nat.lt_succ_self _))
  have e1 : s1 = _ := congrArg Prod.fst e
  have e2 : r = _ := congrArg Prod.snd e
  subst e1
  exact ⟨e2, rfl, rfl, rfl, rfl, rfl, fun _ _ => ⟨rfl, rfl, rfl, rfl⟩⟩

/-- C15: resize of null is allocate. For every state, every size `n` (zero
included) and every fuel, `mm_realloc NULL n` is `mm_malloc n`: the same
result pointer and the same final state, or the same fault. -/
theorem C15_realloc_null_is_malloc (fuel : Nat) (s : State) (n : Nat) :
    mm_realloc fuel s 0 n = mm_malloc fuel s n := by
  unfold mm_realloc
  simp only [ne_eq, not_true_eq_false, if_false]

/-- A live pointer is not null. -/
theorem Live_ne_zero (s : State) (p : Nat) (hp : Live s p) : p ≠ 0 := by
  have hB : BLOCK_SIZE = 32 := rfl
  obtain ⟨_, _, b, _, e, _⟩ := hp
  omega

/-- With a non-null pointer and size zero, `mm_realloc` is `mm_free`. -/
theorem realloc_zero (fuel : Nat) (s : State) (p : Nat) (hp : p ≠ 0) :
    mm_realloc fuel s p 0 = .ok (mm_free s p, 0) := by
  unfold mm_realloc
  simp only [ne_eq, hp, not_false_eq_true, if_true]

/-- C16: resize to zero is release. For every state and live pointer `p`,
`mm_realloc p 0` returns `NULL` in the state `mm_free p` produces (so `head`,
`tail` and every header are those after `mm_free p`); `sbrk` is not called and
the break does not move. -/
theorem C16_realloc_zero_is_free (s : State) (p : Nat) (hp : Live s p) (fuel : Nat) :
    mm_realloc fuel s p 0 = .ok (mm_free s p, 0) ∧ (mm_free s p).calls = s.calls ∧
      (mm_free s p).brk = s.brk :=
  ⟨realloc_zero fuel s p (Live_ne_zero s p hp), (mm_free_fields s p).2.2.2,
    (mm_free_fields s p).2.1⟩

/-- C20: release of null is a no-op. For every state, `mm_free NULL` returns the
state it was given: memory (every block header), `head`, `tail`, the break and
the log of `sbrk` calls are unchanged. -/
theorem C20_free_null (s : State) : mm_free s 0 = s := by
  unfold mm_free
  simp only [if_true]

/-! ### Resize: the staged bytes arrive in the new block -/

/-- A non-null result of `mm_malloc`, for any `size_t` request, is the payload
of a used block of the new directory that is at least as large as the request. -/
theorem malloc_used (s s1 : State) (fuel n r : Nat) (bs : List Blk) (hr : Repr s bs)
    (hn : n < WORD) (h : mm_malloc fuel s n = .ok (s1, r)) (hr0 : r ≠ 0) :
    ∃ l1 u l2, Rep0 s1 (l1 ++ u :: l2) ∧ r - BLOCK_SIZE = s1.head + span l1 ∧
      u.free = false ∧ BLOCK_SIZE ≤ r ∧ n ≤ u.size := by
  have hB : BLOCK_SIZE = 32 := rfl
  have hn0 : n ≠ 0 := by
    intro h0
    rw [h0, mm_malloc_zero] at h
    simp only [Except.ok.injEq, Prod.mk.injEq] at h
    exact hr0 h.2.symm
  rcases malloc_cases s s1 fuel n r bs hr hn0 h with ⟨l1, b, l2, e, _, h2, h3⟩ | ⟨_, h3⟩
  · subst e
    obtain ⟨g, f1, _, _, _, f5⟩ := reuse_ok s s1 r n l1 b l2 h3 hr h2.2
    obtain ⟨u, rr, a1, a2, a3, _, _⟩ := asplit_head n b h2.2
    refine ⟨l1, u, rr ++ l2, ?_, by omega, a2, by omega, a3⟩
    have := Repr_Rep0 s1 _ g
    rw [a1] at this
    exact this
  · have hs1 : s1 = (grow s n).1 := congrArg Prod.fst h3
    have hp1 : r = (grow s n).2 := congrArg Prod.snd h3
    rcases (sbrk_cases s ((BLOCK_SIZE + n) % WORD)).symm with ⟨b0, hf, hb0⟩ | hf
    · obtain ⟨g, g2, _, _⟩ := grow_lay s bs n hr hn b0 hf
      obtain ⟨_, _, _, _, _, f6⟩ := grow_fields_at s n b0 hf (Repr_brk_ne s bs hr)
      rw [← hs1] at g g2
      rw [← hp1] at f6
      exact ⟨bs, ⟨n, false⟩, [], g, by omega, rfl, by omega, Nat.le_refl _⟩
    · rw [grow_fail_at s n hf] at hp1
      exact absurd hp1 hr0

/-- With fuel for the whole directory, `mm_malloc` returns. -/
theorem malloc_returns (s : State) (bs : List Blk) (n : Nat) (hr : Repr s bs) (fuel : Nat)
    (hf : bs.length + 1 ≤ fuel) : ∃ r, mm_malloc fuel s n = .ok r := by
  by_cases hn : n = 0
  · rw [hn, mm_malloc_zero]; exact ⟨_, rfl⟩
  · rcases first_fit_cases n bs with hno | ⟨l1, b, l2, e, h1, h2⟩
    · exact ⟨_, malloc_notfound s n bs hr hno hn fuel hf⟩
    · subst e
      refine ⟨_, malloc_found s n l1 b l2 hr h1 h2 hn fuel ?_⟩
      simp only [List.length_append, List.length_cons] at hf
      omega

/-- The bytes `memcpy` writes are those of the buffer. -/
theorem memcpy_in (m : Mem) (d : Nat) (buf : Nat → Nat) (k i : Nat) (hi : i < k) :
    memcpy m d buf k (d + i) = buf i := by
  unfold memcpy
  rw [if_pos ⟨by omega, by omega⟩]
  congr 1
  omega

/-- The result of `mm_realloc` on a non-null pointer when the inner request
returned a non-null block. -/
theorem realloc_eq (fuel : Nat) (s s2 : State) (p n r : Nat) (hp : p ≠ 0) (hn : n ≠ 0)
    (h : mm_malloc fuel (mm_free s p) n = .ok (s2, r)) (hr : r ≠ 0) :
    mm_realloc fuel s p n =
      .ok ({ s2 with mem := (memcpy s2.mem r (fun i => s.mem (p + i))
              (if n < get_size s.mem (p - BLOCK_SIZE) then n
                else get_size s.mem (p - BLOCK_SIZE))) }, r) := by
  unfold mm_realloc
  simp only [ne_eq, hp, not_false_eq_true, if_true, hn, if_false, h, hr, false_and]

/-- Resize preserves data in a state reached while every byte count stayed
within `INTPTR_MAX`. In every such state, for a live pointer
`p` and a `size_t` request `n > 0`: the inner request on the state after
`mm_free p` returns when given enough fuel, and whenever it returns a non-null
pointer `r`, `mm_realloc p n` returns `r`, which is live: its block is used and
has size at least `n`, and payload byte `i` of `r` is byte `i` of the old
payload of `p` for every `i < min n old_size`, wherever `r` lies. -/
theorem realloc_preserves_data (s : State) (hs : Reachable s) (p : Nat) (hp : Live s p)
    (n : Nat) (hn : 0 < n) (hw : n < WORD) :
    (∃ fuel0, ∀ fuel, fuel0 ≤ fuel → ∃ s2 r, mm_malloc fuel (mm_free s p) n = .ok (s2, r)) ∧
    ∀ fuel s2 r, mm_malloc fuel (mm_free s p) n = .ok (s2, r) → r ≠ 0 →
      ∃ s3, mm_realloc fuel s p n = .ok (s3, r) ∧ Live s3 r ∧
        get_free s3.mem (r - BLOCK_SIZE) = 0 ∧ n ≤ get_size s3.mem (r - BLOCK_SIZE) ∧
        ∀ i, i < min n (get_size s.mem (p - BLOCK_SIZE)) → s3.mem (r + i) = s.mem (p + i) := by
  have hB : BLOCK_SIZE = 32 := rfl
  obtain ⟨bsf, hrf, _, _⟩ := Inv_free s p (Reachable_Inv s hs) (Or.inr hp)
  refine ⟨⟨bsf.length + 1, fun fuel hf => ?_⟩, fun fuel s2 r h hr0 => ?_⟩
  · obtain ⟨⟨s2, r⟩, h⟩ := malloc_returns _ bsf n hrf fuel hf
    exact ⟨s2, r, h⟩
  · obtain ⟨l1, u, l2, g, e, hu, h32, hnu⟩ := malloc_used _ s2 fuel n r bsf hrf hw h hr0
    have hkn : (if n < get_size s.mem (p - BLOCK_SIZE) then n
        else get_size s.mem (p - BLOCK_SIZE)) ≤ n := by split <;> omega
    have hk : (if n < get_size s.mem (p - BLOCK_SIZE) then n
        else get_size s.mem (p - BLOCK_SIZE)) = min n (get_size s.mem (p - BLOCK_SIZE)) := by
      split <;> omega
    refine ⟨_, realloc_eq fuel s s2 p n r (Live_ne_zero s p hp) (by omega) h hr0, ?_⟩
    generalize (if n < get_size s.mem (p - BLOCK_SIZE) then n
        else get_size s.mem (p - BLOCK_SIZE)) = k at hkn hk
    have g' := Rep0_payload s2 l1 u l2 (memcpy s2.mem r (fun i => s.mem (p + i)) k) g
      (fun x hx => memcpy_out s2.mem r (fun i => s.mem (p + i)) k x (by omega))
    have hat : At s2.head (l1 ++ u :: l2) (r - BLOCK_SIZE) u := by
      rw [At_iff]; exact ⟨l1, l2, rfl, e⟩
    have hlive := Rep0_Live _ _ _ u g' hat hu
    have hfield := Lay_At _ _ _ _ _ _ u g'.1 hat
    have er : r - BLOCK_SIZE + BLOCK_SIZE = r := by omega
    rw [er] at hlive
    refine ⟨hlive, ?_, ?_, fun i hi => ?_⟩
    · rw [hfield.2, hu]; rfl
    · rw [hfield.1]; exact hnu
    · rw [← hk] at hi
      exact memcpy_in s2.mem r (fun i => s.mem (p + i)) k i hi

/-! ### Resize and reuse without growth -/

/-- A returning `mm_realloc` on a non-null pointer with a positive size went
through a returning inner request on the state after the release. -/
theorem realloc_ok_inv (fuel : Nat) (s s1 : State) (p n r : Nat) (hp : p ≠ 0) (hn : n ≠ 0)
    (h : mm_realloc fuel s p n = .ok (s1, r)) :
    ∃ s2, mm_malloc fuel (mm_free s p) n = .ok (s2, r) ∧
      (r = 0 → min n (get_size s.mem (p - BLOCK_SIZE)) = 0) ∧
      s1.calls = s2.calls ∧ s1.brk = s2.brk ∧ s1.head = s2.head ∧ s1.tail = s2.tail ∧
      s1.limit = s2.limit := by
  unfold mm_realloc at h
  simp only [ne_eq, hp, not_false_eq_true, if_true, hn, if_false] at h
  cases hm : mm_malloc fuel (mm_free s p) n with
  | error e => rw [hm] at h; simp at h
  | ok qq =>
    obtain ⟨s2, res⟩ := qq
    rw [hm] at h
    simp only at h
    have hk : (if n < get_size s.mem (p - BLOCK_SIZE) then n
        else get_size s.mem (p - BLOCK_SIZE)) = min n (get_size s.mem (p - BLOCK_SIZE)) := by
      split <;> omega
    generalize (if n < get_size s.mem (p - BLOCK_SIZE) then n
        else get_size s.mem (p - BLOCK_SIZE)) = k at h hk
    by_cases hc0 : res = 0 ∧ 0 < k
    · rw [if_pos hc0] at h; simp at h
    · rw [if_neg hc0] at h
      simp only [Except.ok.injEq, Prod.mk.injEq] at h
      obtain ⟨h1, h2⟩ := h
      subst h1 h2
      refine ⟨s2, rfl, fun h0 => ?_, rfl, rfl, rfl, rfl, rfl⟩
      rw [← hk]
      by_contra hk0
      exact hc0 ⟨h0, Nat.pos_of_ne_zero hk0⟩

/-- An inner request that returns `NULL` makes `mm_realloc` copy through
`NULL` as soon as there is a byte to copy. -/
theorem realloc_null_write (fuel : Nat) (s s2 : State) (p n : Nat) (hp : p ≠ 0) (hn : n ≠ 0)
    (hsz : 0 < get_size s.mem (p - BLOCK_SIZE))
    (h : mm_malloc fuel (mm_free s p) n = .ok (s2, 0)) :
    mm_realloc fuel s p n = .error .nullWrite := by
  unfold mm_realloc
  have hk : 0 < (if n < get_size s.mem (p - BLOCK_SIZE) then n
      else get_size s.mem (p - BLOCK_SIZE)) := by split <;> omega
  simp only [ne_eq, hp, not_false_eq_true, if_true, hn, if_false, h, hk, and_self]

/-- The block behind a live pointer of a state that satisfies the invariant
has a positive size. -/
theorem Live_size_pos (s : State) (hi : Inv s) (p : Nat) (hp : Live s p) :
    0 < get_size s.mem (p - BLOCK_SIZE) := by
  have hB : BLOCK_SIZE = 32 := rfl
  obtain ⟨bs, hr, _, hpos⟩ := hi
  obtain ⟨l1, b, l2, e, hpp, _⟩ := Live_block s bs p hr hp
  subst e
  have e : p - BLOCK_SIZE = s.head + span l1 := by omega
  rw [e, (Repr_parts s l1 b l2 hr).2.1.1]
  exact hpos b (by simp)

/-- Out of memory in resize: when, after the release of `p`, no block fits
the request and `sbrk` fails, `mm_realloc` never returns: with fuel for the
scan it copies the staged bytes through `NULL`. -/
theorem realloc_oom_faults (s : State) (hs : Reachable s) (p : Nat) (hp : Live s p) (n : Nat)
    (hn : 0 < n) (l : List Nat) (hl : Directory (mm_free s p) l)
    (hno : ∀ b ∈ l, ¬ fits (mm_free s p).mem n b)
    (hfail : (sbrk (mm_free s p) ((BLOCK_SIZE + n) % WORD)).2 = SBRK_FAIL) :
    (∀ fuel, l.length < fuel → mm_realloc fuel s p n = .error .nullWrite) ∧
      ∀ fuel s1 r, mm_realloc fuel s p n ≠ .ok (s1, r) := by
  have hi := Reachable_Inv s hs
  have hp0 := Live_ne_zero s p hp
  have hsz := Live_size_pos s hi p hp
  obtain ⟨bsf, hrf, _, _⟩ := Inv_free s p hi (Or.inr hp)
  have hno2 := (not_fits_bridge _ bsf n l hrf hl).1 hno
  have hf := sbrk_sentinel _ bsf _ hrf hfail
  have hlen : l.length = bsf.length := by
    rw [Chain_unique _ l _ _ hl (Repr_directory _ bsf hrf), addrs_length]
  have key := fun fuel (hfu : l.length < fuel) =>
    malloc_oom _ bsf n hrf (by omega) hno2 hf fuel (by omega)
  refine ⟨fun fuel hfu => realloc_null_write fuel s _ p n hp0 (by omega) hsz (key fuel hfu),
    fun fuel s1 r h => ?_⟩
  obtain ⟨s2, h2, h0, _⟩ := realloc_ok_inv fuel s s1 p n r hp0 (by omega) h
  have e := malloc_fuel _ n fuel (l.length + 1) _ _ h2 (key _ (Nat.lt_succ_self _))
  have e2 : r = 0 := congrArg Prod.snd e
  have := h0 e2
  omega

theorem mergedBlk_size_ge (l1 : List Blk) (b1 : Blk) : b1.size ≤ (mergedBlk l1 b1).size := by
  unfold mergedBlk
  split
  · exact Nat.le_refl _
  · split
    · simp only; omega
    · exact Nat.le_refl _

/-- The release of a block leaves a free block at least as large in the
directory: the block itself, merged with its free neighbours. -/
theorem afree_fits (l1 : List Blk) (b : Blk) (l2 : List Blk) (n : Nat)
    (hn : n ≤ (mergedBlk l1 (mergeNext b l2).1).size) : ∃ m ∈ afree l1 b l2, Fits n m := by
  refine ⟨mergedBlk l1 (mergeNext b l2).1, ?_, mergedBlk_free l1 _ (mergeNext_free b l2), hn⟩
  unfold afree
  rw [mergePrev_shape]
  simp

/-- A positive request that some block of the directory fits is served without
a call of `sbrk`, and it returns. -/
theorem malloc_reuses (s : State) (bs : List Blk) (n : Nat) (hr : Repr s bs) (hn : n ≠ 0)
    (hfit : ∃ b ∈ bs, Fits n b) :
    (∀ fuel, bs.length + 1 ≤ fuel → ∃ s1 r, mm_malloc fuel s n = .ok (s1, r)) ∧
      ∀ fuel s1 r, mm_malloc fuel s n = .ok (s1, r) →
        r ≠ 0 ∧ s1.calls = s.calls ∧ s1.brk = s.brk := by
  refine ⟨fun fuel hf => ?_, fun fuel s1 r h => ?_⟩
  · obtain ⟨⟨s1, r⟩, h⟩ := malloc_returns s bs n hr fuel hf
    exact ⟨s1, r, h⟩
  · rcases (malloc_fields s s1 fuel n r bs hr hn h).2 with ⟨_, _, a2, a3, a4⟩ | ⟨hno, _⟩
    · exact ⟨a4, a3, a2⟩
    · obtain ⟨b, hb, hfb⟩ := hfit
      exact absurd hfb (hno b hb)

/-- Reuse, for requests whose byte count is at most `INTPTR_MAX`: in a state
reached by such calls, after a successful `mm_malloc S` (`S > 0`,
`BLOCK_SIZE + S ≤ INTPTR_MAX`) and the release of its result, every request `S' ≤ S` returns (given fuel) without a
call of `sbrk`: the break is the one after the first request, and the result
is non-null when `S' > 0`. -/
theorem malloc_free_malloc_reuse (s : State) (hs : Reachable s) (S S' : Nat) (hS : 0 < S)
    (hw : BLOCK_SIZE + S ≤ INTPTR_MAX) (hle : S' ≤ S) (fuel : Nat) (s1 : State) (p : Nat)
    (h1 : mm_malloc fuel s S = .ok (s1, p)) (hp : p ≠ 0) :
    (∃ fuel0, ∀ k, fuel0 ≤ k → ∃ s3 r, mm_malloc k (mm_free s1 p) S' = .ok (s3, r)) ∧
      ∀ k s3 r, mm_malloc k (mm_free s1 p) S' = .ok (s3, r) →
        s3.calls = s1.calls ∧ s3.brk = s1.brk ∧ (0 < S' → r ≠ 0) := by
  obtain ⟨l1, b, l2, hr1, _, _, hpp, _, hSb⟩ :=
    malloc_block s s1 fuel S p (Reachable_Inv s hs) hw (by omega) h1 hp
  have hrf := free_repr s1 l1 b l2 hr1
  rw [← hpp] at hrf
  have hfit := afree_fits l1 b l2 S' (by
    have := mergedBlk_size_ge l1 (mergeNext b l2).1
    have := mergeNext_size_ge b l2
    omega)
  have hc := (mm_free_fields s1 p).2.2.2
  have hb := (mm_free_fields s1 p).2.1
  by_cases h0 : S' = 0
  · subst h0
    refine ⟨⟨0, fun k _ => ⟨_, _, mm_malloc_zero k _⟩⟩, fun k s3 r h => ?_⟩
    rw [mm_malloc_zero] at h
    simp only [Except.ok.injEq, Prod.mk.injEq] at h
    rw [← h.1]
    exact ⟨hc, hb, fun h => absurd h (by omega)⟩
  · obtain ⟨t1, t2⟩ := malloc_reuses _ _ S' hrf h0 hfit
    refine ⟨⟨_, t1⟩, fun k s3 r h => ?_⟩
    obtain ⟨a1, a2, a3⟩ := t2 k s3 r h
    exact ⟨by rw [a2, hc], by rw [a3, hb], fun _ => a1⟩

/-- Resize into the block the release leaves: in a reachable state, for a live
pointer `p` and a request `n > 0` not larger than `mergedSize` (the size of the
block of `p` merged with its free successor and predecessor), the merged block
is free after `mm_free p` and has that size, `mm_realloc p n` returns given
fuel for the scan, and whenever it returns the result is non-null, `sbrk` has
not been called and the break has not moved. -/
theorem realloc_reuses_neighbours (s : State) (hs : Reachable s) (p : Nat) (hp : Live s p)
    (n : Nat) (hn : 0 < n) (hle : n ≤ mergedSize s (p - BLOCK_SIZE)) :
    is_free (mm_free s p).mem (survivor s (p - BLOCK_SIZE)) ∧
    get_size (mm_free s p).mem (survivor s (p - BLOCK_SIZE)) = mergedSize s (p - BLOCK_SIZE) ∧
    (∃ fuel0, ∀ fuel, fuel0 ≤ fuel → ∃ s1 r, mm_realloc fuel s p n = .ok (s1, r)) ∧
    ∀ fuel s1 r, mm_realloc fuel s p n = .ok (s1, r) →
      r ≠ 0 ∧ s1.calls = s.calls ∧ s1.brk = s.brk := by
  have hB : BLOCK_SIZE = 32 := rfl
  obtain ⟨bs, hr, _, _⟩ := Reachable_Inv s hs
  have hp0 := Live_ne_zero s p hp
  obtain ⟨l1, b, l2, e, hpp, _⟩ := Live_block s bs p hr hp
  subst e
  have e : p - BLOCK_SIZE = s.head + span l1 := by omega
  rw [e] at hle ⊢
  have hrf := free_repr s l1 b l2 hr
  rw [← hpp] at hrf
  have hms := mergedSize_eq s l1 b l2 hr
  have hsv := survivor_eq s l1 b l2 hr
  have hh1 := (mm_free_fields s p).1
  have hc := (mm_free_fields s p).2.2.2
  have hb := (mm_free_fields s p).2.1
  have hshape : afree l1 b l2 =
      leftKeep l1 ++ mergedBlk l1 (mergeNext b l2).1 :: (mergeNext b l2).2 := by
    unfold afree; rw [mergePrev_shape]
  have hr2 := hrf
  rw [hshape] at hr2
  obtain ⟨_, q2, _⟩ := Repr_parts _ _ _ _ hr2
  rw [hh1, ← hsv] at q2
  obtain ⟨t1, t2⟩ := malloc_reuses _ _ n hrf (by omega)
    (afree_fits l1 b l2 n (by rw [← hms]; exact hle))
  refine And.intro ?_ (And.intro ?_ (And.intro ⟨(afree l1 b l2).length + 1, fun fuel hf => ?_⟩
    fun fuel s1 r h => ?_))
  · unfold is_free
    rw [q2.2.1, mergedBlk_free l1 _ (mergeNext_free b l2)]
    decide
  · rw [q2.1, hms]
  · obtain ⟨s2, r, h2⟩ := t1 fuel hf
    exact ⟨_, r, realloc_eq fuel s s2 p n r hp0 (by omega) h2 (t2 fuel s2 r h2).1⟩
  · obtain ⟨s2, h2, _, c1, c2, _⟩ := realloc_ok_inv fuel s s1 p n r hp0 (by omega) h
    obtain ⟨a1, a2, a3⟩ := t2 fuel s2 r h2
    exact ⟨a1, by rw [c1, a2, hc], by rw [c2, a3, hb]⟩

/-! ### The allocation loop of the tests -/

theorem span_replicate (b : Blk) (k : Nat) :
    span (List.replicate k b) = k * (BLOCK_SIZE + b.size) := by
  induction k with
  | zero => simp [span]
  | succ k ih => rw [List.replicate_succ, span_cons, ih]; ring

theorem span_ints (k : Nat) : span (List.replicate k intBlk) = 36 * k := by
  rw [span_replicate]
  have : BLOCK_SIZE + intBlk.size = 36 := rfl
  rw [this]; ring

theorem ints_no_fit (n k : Nat) : ∀ c ∈ List.replicate k intBlk, ¬ Fits n c := by
  intro c hc h
  rw [List.eq_of_mem_replicate hc] at h
  exact absurd h.1 (by decide)

/-- A caller's store of `w` bytes at the start of a block's payload keeps the
directory. -/
theorem Repr_store (s : State) (l1 : List Blk) (b : Blk) (l2 : List Blk) (w v : Nat)
    (hr : Repr s (l1 ++ b :: l2)) (hw : w ≤ b.size) :
    Repr { s with mem := store s.mem (s.head + span l1 + BLOCK_SIZE) w v } (l1 ++ b :: l2) :=
  Repr_payload s l1 b l2 _ hr (fun x hx => store_out s.mem _ w v x (by omega))

/-- One more round of the allocation loop. -/
theorem alloc_ints_succ (fuel i : Nat) (s s1 s2 : State) (arr : Nat → Nat) (p : Nat)
    (h1 : alloc_ints fuel i s = .ok (s1, arr)) (h2 : mm_malloc fuel s1 INT_SIZE = .ok (s2, p))
    (hp : p ≠ 0) :
    alloc_ints fuel (i + 1) s =
      .ok ({ s2 with mem := store s2.mem p INT_SIZE i },
        fun x => if x = i then p else arr x) := by
  simp only [alloc_ints, h1, h2, hp, if_false]

/-- A returning run of `i + 1` rounds went through a returning run of `i`
rounds and a request with a non-null result. -/
theorem alloc_ints_inv (fuel i : Nat) (s s3 : State) (arr3 : Nat → Nat)
    (h : alloc_ints fuel (i + 1) s = .ok (s3, arr3)) :
    ∃ s1 arr s2 p, alloc_ints fuel i s = .ok (s1, arr) ∧
      mm_malloc fuel s1 INT_SIZE = .ok (s2, p) ∧ p ≠ 0 ∧
      s3 = { s2 with mem := store s2.mem p INT_SIZE i } ∧ arr3 = fun x => if x = i then p else arr x := by
  simp only [alloc_ints] at h
  cases h1 : alloc_ints fuel i s with
  | error e => rw [h1] at h; simp at h
  | ok q =>
    obtain ⟨s1, arr⟩ := q
    rw [h1] at h
    simp only at h
    cases h2 : mm_malloc fuel s1 INT_SIZE with
    | error e => rw [h2] at h; simp at h
    | ok q2 =>
      obtain ⟨s2, p⟩ := q2
      rw [h2] at h
      simp only at h
      by_cases hp : p = 0
      · rw [if_pos hp] at h; simp at h
      · rw [if_neg hp] at h
        simp only [Except.ok.injEq, Prod.mk.injEq] at h
        exact ⟨s1, arr, s2, p, rfl, h2, hp, h.1.symm, h.2.symm⟩

/-- A round of the loop on a directory of used integers followed by one free
block that fits: the request is served from that block, the break and the log
of `sbrk` calls stay, and the caller's store keeps the directory. -/
theorem round_reuse (s : State) (k R i fuel : Nat)
    (hr : Repr s (List.replicate k intBlk ++ [⟨R, true⟩])) (hR : INT_SIZE ≤ R)
    (hf : k + 1 ≤ fuel) :
    ∃ s2, mm_malloc fuel s INT_SIZE = .ok (s2, s.head + 36 * k + BLOCK_SIZE) ∧
      Repr { s2 with mem := store s2.mem (s.head + 36 * k + BLOCK_SIZE) INT_SIZE i }
        (List.replicate k intBlk ++ asplit INT_SIZE ⟨R, true⟩) ∧
      s2.head = s.head ∧ s2.brk = s.brk ∧ s2.limit = s.limit ∧ s2.calls = s.calls := by
  have hB : BLOCK_SIZE = 32 := rfl
  have hI : INT_SIZE = 4 := rfl
  have hm := malloc_found s INT_SIZE (List.replicate k intBlk) ⟨R, true⟩ [] hr
    (ints_no_fit _ k) ⟨rfl, hR⟩ (by decide) fuel (by rw [List.length_replicate]; exact hf)
  rw [span_ints] at hm
  obtain ⟨g, f1, f2, f3, f4, f5⟩ := reuse_ok s (reuse s (s.head + span (List.replicate k intBlk))
    INT_SIZE).1 _ INT_SIZE (List.replicate k intBlk) ⟨R, true⟩ [] rfl hr hR
  rw [span_ints] at g f1 f2 f3 f4
  refine ⟨_, by rw [hm]; rfl, ?_, f1, f2, f3, f4⟩
  rw [List.append_nil] at g
  obtain ⟨u, rr, a1, _, a3, _, _⟩ := asplit_head INT_SIZE ⟨R, true⟩ hR
  rw [a1] at g ⊢
  have := Repr_store _ _ u rr INT_SIZE i g a3
  have ea : (reuse s (s.head + 36 * k) INT_SIZE).1.head + span (List.replicate k intBlk) +
      BLOCK_SIZE = s.head + 36 * k + BLOCK_SIZE := by rw [f1, span_ints]
  rw [ea] at this
  exact this

/-- A round of the loop on a directory of used integers only: `sbrk` is
called with 36 bytes; when the break can move, a used integer is appended. -/
theorem round_grow (s s2 : State) (k i fuel p : Nat) (hr : Repr s (List.replicate k intBlk))
    (hf : k + 1 ≤ fuel) (h : mm_malloc fuel s INT_SIZE = .ok (s2, p)) :
    s2.calls = s.calls ++ [36] ∧ s2.limit = s.limit ∧
      ((s.brk + 36 ≤ s.limit ∧ p = s.brk + BLOCK_SIZE ∧ s2.brk = s.brk + 36 ∧
          s2.head = (if s.head = 0 then s.brk else s.head) ∧
          Repr { s2 with mem := store s2.mem p INT_SIZE i } (List.replicate (k + 1) intBlk)) ∨
        (¬ s.brk + 36 ≤ s.limit ∧ p = 0)) := by
  have hB : BLOCK_SIZE = 32 := rfl
  have hI : INT_SIZE = 4 := rfl
  have hW : WORD = 2 ^ 64 := rfl
  have hm := malloc_notfound s INT_SIZE _ hr (ints_no_fit _ k) (by decide) fuel
    (by rw [List.length_replicate]; exact hf)
  rw [hm] at h
  simp only [Except.ok.injEq] at h
  have e36 : (BLOCK_SIZE + INT_SIZE) % WORD = 36 := by decide
  by_cases hlim : s.brk + 36 ≤ s.limit
  · obtain ⟨g, f1, f2, f3, f4, _, f6⟩ := grow_ok s s2 p INT_SIZE _ h.symm hr (by decide)
      (by rw [hB, hI]; omega)
    refine ⟨f4, f3, Or.inl ⟨hlim, f6, f2, f1, ?_⟩⟩
    have e : (List.replicate k intBlk ++ [(⟨INT_SIZE, false⟩ : Blk)]) =
        List.replicate k intBlk ++ intBlk :: [] := rfl
    rw [e] at g
    have := Repr_store s2 _ intBlk [] INT_SIZE i g (Nat.le_refl _)
    rw [List.replicate_succ']
    have hp : p = s2.head + span (List.replicate k intBlk) + BLOCK_SIZE := by
      have hbrk := hr.2.2.2.1
      rw [f6, f1]
      by_cases hk : k = 0
      · have h0 := hr.2.2.1 (by rw [hk]; rfl)
        rw [if_pos h0, hk]; simp [span]
      · have hne : List.replicate k intBlk ≠ [] := by
          intro h0
          have := congrArg List.length h0
          rw [List.length_replicate] at this
          exact hk this
        obtain ⟨b1, b2⟩ := hbrk hne
        rw [if_neg b1, b2]
    rw [← hp] at this
    exact this
  · rw [grow_fail s INT_SIZE (by rw [e36]; exact hlim) (by rw [e36]; decide)] at h
    have h1 : s2 = _ := (congrArg Prod.fst h).symm
    have h2 : p = _ := (congrArg Prod.snd h).symm
    subst h1
    exact ⟨by rw [e36], rfl, Or.inr ⟨hlim, h2⟩⟩

/-! ### The scenario of `mm_malloc_small_reuse` -/

theorem Repr_empty (m : Mem) (brk0 limit : Nat) (cs : List Nat) (h0 : 0 < brk0)
    (h1 : brk0 ≤ limit) (h2 : limit < SBRK_FAIL) : Repr ⟨m, 0, 0, brk0, limit, cs⟩ [] := by
  refine ⟨trivial, rfl, fun _ => rfl, fun h => absurd rfl h, h0, h1, h2⟩

theorem small_reuse_dir_split (k : Nat) (hk : k ≤ 1110) :
    List.replicate k intBlk ++ asplit INT_SIZE ⟨40000 - 36 * k, true⟩ =
      small_reuse_dir (k + 1) := by
  have hB : BLOCK_SIZE = 32 := rfl
  have hI : INT_SIZE = 4 := rfl
  have e1 : asplit INT_SIZE ⟨40000 - 36 * k, true⟩ =
      [intBlk, ⟨40000 - 36 * k - INT_SIZE - BLOCK_SIZE, true⟩] := by
    unfold asplit
    rw [if_pos (by show INT_SIZE + BLOCK_SIZE < 40000 - 36 * k; omega)]
    rfl
  have e2 : small_reuse_dir (k + 1) =
      List.replicate (k + 1) intBlk ++ [⟨40000 - 36 * (k + 1), true⟩] := by
    unfold small_reuse_dir
    rw [if_pos (by omega)]
  have e : 40000 - 36 * k - INT_SIZE - BLOCK_SIZE = 40000 - 36 * (k + 1) := by omega
  rw [e1, e2, e, List.replicate_succ', List.append_assoc]
  rfl

theorem small_reuse_dir_last :
    List.replicate 1111 intBlk ++ asplit INT_SIZE ⟨40000 - 36 * 1111, true⟩ =
      small_reuse_dir (1111 + 1) := by
  have e1 : asplit INT_SIZE ⟨40000 - 36 * 1111, true⟩ = [intBlk] := by decide
  have e2 : small_reuse_dir (1111 + 1) = List.replicate (1111 + 1) intBlk := by
    unfold small_reuse_dir
    rw [if_neg (by omega)]
  rw [e1, e2]
  exact (List.replicate_succ' 1111 intBlk).symm

/-- The state after `k` rounds of the loop, started in a state whose directory
is one free block of 40000 bytes: the first 1112 rounds leave the break and the
log of `sbrk` calls alone, every later round has called `sbrk 36`. -/
theorem small_reuse_rounds (s : State) (hr : Repr s (small_reuse_dir 0)) (fuel : Nat) :
    ∀ k, k ≤ fuel → ∀ sk arr, alloc_ints fuel k s = .ok (sk, arr) →
      Repr sk (small_reuse_dir k) ∧ sk.calls = s.calls ++ List.replicate (k - 1112) 36 ∧
        sk.brk = s.brk + 36 * (k - 1112) ∧ sk.limit = s.limit ∧ sk.head = s.head := by
  have hB : BLOCK_SIZE = 32 := rfl
  have hI : INT_SIZE = 4 := rfl
  intro k
  induction k with
  | zero =>
    intro _ sk arr h
    simp only [alloc_ints, Except.ok.injEq, Prod.mk.injEq] at h
    rw [← h.1]
    exact ⟨hr, by simp, by simp, rfl, rfl⟩
  | succ k ih =>
    intro hk sk arr h
    obtain ⟨s1, arr1, s2, p, h1, h2, hp, e1, _⟩ := alloc_ints_inv fuel k s sk arr h
    obtain ⟨g, c1, c2, c3, c4⟩ := ih (by omega) s1 arr1 h1
    by_cases hlt : k ≤ 1111
    · have g' := g
      unfold small_reuse_dir at g'
      rw [if_pos hlt] at g'
      obtain ⟨s2', m1, m2, m3, m4, m5, m6⟩ :=
        round_reuse s1 k (40000 - 36 * k) k fuel g' (by omega) (by omega)
      rw [m1] at h2
      simp only [Except.ok.injEq, Prod.mk.injEq] at h2
      obtain ⟨e2, e3⟩ := h2
      subst e2 e3
      have e0 : k - 1112 = 0 := by omega
      have e0' : k + 1 - 1112 = 0 := by omega
      rw [e0] at c1 c2
      rw [e0']
      refine ⟨?_, ?_, ?_, ?_, ?_⟩
      · rw [e1]
        by_cases h10 : k ≤ 1110
        · rw [← small_reuse_dir_split k h10]; exact m2
        · have e11 : k = 1111 := by omega
          subst e11
          rw [← small_reuse_dir_last]; exact m2
      · rw [e1]; simp only; rw [m6, c1]
      · rw [e1]; simp only; rw [m4, c2]
      · rw [e1]; simp only; rw [m5, c3]
      · rw [e1]; simp only; rw [m3, c4]
    · have g' := g
      unfold small_reuse_dir at g'
      rw [if_neg hlt] at g'
      obtain ⟨n1, n2, n3⟩ := round_grow s1 s2 k k fuel p g' (by omega) h2
      rcases n3 with ⟨_, _, n5, n6, n7⟩ | ⟨_, n4⟩
      · have hne : s1.head ≠ 0 := by
          have : List.replicate k intBlk ≠ [] := by
            intro h0
            have := congrArg List.length h0
            rw [List.length_replicate] at this
            simp at this
            omega
          exact (g'.2.2.2.1 this).1
        rw [if_neg hne] at n6
        have e2 : k + 1 - 1112 = (k - 1112) + 1 := by omega
        refine ⟨?_, ?_, ?_, ?_, ?_⟩
        · rw [e1]
          unfold small_reuse_dir
          rw [if_neg (by omega)]
          exact n7
        · rw [e1]; simp only
          rw [n1, c1, e2, List.replicate_succ', List.append_assoc]
        · rw [e1]; simp only; rw [n5, c2, e2]; ring
        · rw [e1]; simp only; rw [n2, c3]
        · rw [e1]; simp only; rw [n6, c4]
      · exact absurd n4 hp

/-- The loop returns for as many rounds as the break can follow. -/
theorem small_reuse_returns (s : State) (hr : Repr s (small_reuse_dir 0)) (fuel : Nat) :
    ∀ k, k ≤ fuel → s.brk + 36 * (k - 1112) ≤ s.limit →
      ∃ sk arr, alloc_ints fuel k s = .ok (sk, arr) := by
  have hB : BLOCK_SIZE = 32 := rfl
  have hI : INT_SIZE = 4 := rfl
  intro k
  induction k with
  | zero => intro _ _; exact ⟨s, _, rfl⟩
  | succ k ih =>
    intro hk hlim
    obtain ⟨s1, arr1, h1⟩ := ih (by omega) (by omega)
    obtain ⟨g, c1, c2, c3, c4⟩ := small_reuse_rounds s hr fuel k (by omega) s1 arr1 h1
    by_cases hlt : k ≤ 1111
    · have g' := g
      unfold small_reuse_dir at g'
      rw [if_pos hlt] at g'
      obtain ⟨s2', m1, _⟩ := round_reuse s1 k (40000 - 36 * k) k fuel g' (by omega) (by omega)
      exact ⟨_, _, alloc_ints_succ fuel k s s1 s2' arr1 _ h1 m1 (by omega)⟩
    · have g' := g
      unfold small_reuse_dir at g'
      rw [if_neg hlt] at g'
      obtain ⟨⟨s2, p⟩, h2⟩ := malloc_returns s1 _ INT_SIZE g' fuel
        (by rw [List.length_replicate]; omega)
      obtain ⟨_, _, n3⟩ := round_grow s1 s2 k k fuel p g' (by omega) h2
      rcases n3 with ⟨_, n4, _⟩ | ⟨n4, _⟩
      · exact ⟨_, _, alloc_ints_succ fuel k s s1 s2 arr1 p h1 h2 (by omega)⟩
      · exfalso
        apply n4
        rw [c2, c3]
        have : k + 1 - 1112 = (k - 1112) + 1 := by omega
        rw [this] at hlim
        omega

/-- The first two calls of `mm_malloc_small_reuse` on an empty directory with
room for 40032 bytes: the block of 10000 integers is obtained from `sbrk` and
released, which leaves a directory of one free block of 40000 bytes. -/
theorem small_reuse_start (m : Mem) (brk0 limit : Nat) (h0 : 0 < brk0)
    (h1 : brk0 + 40032 ≤ limit) (h2 : limit < SBRK_FAIL) (fuel : Nat) (hf : 0 < fuel) :
    ∃ s1, mm_malloc fuel ⟨m, 0, 0, brk0, limit, []⟩ (INT_SIZE * 10000 % WORD) =
        .ok (s1, brk0 + BLOCK_SIZE) ∧
      s1.brk = brk0 + 40032 ∧ s1.calls = [40032] ∧ s1.limit = limit ∧
      Repr (mm_free s1 (brk0 + BLOCK_SIZE)) (small_reuse_dir 0) := by
  have hB : BLOCK_SIZE = 32 := rfl
  have e4 : INT_SIZE * 10000 % WORD = 40000 := by decide
  rw [e4]
  have hr0 := Repr_empty m brk0 limit [] h0 (by omega) h2
  have hm := malloc_notfound _ 40000 [] hr0 (fun _ h => absurd h (List.not_mem_nil _))
    (by decide) fuel (by simp only [List.length_nil]; omega)
  obtain ⟨g, f1, f2, f3, f4, _, f6⟩ := grow_ok _ (grow ⟨m, 0, 0, brk0, limit, []⟩ 40000).1
    (grow ⟨m, 0, 0, brk0, limit, []⟩ 40000).2 40000 [] rfl hr0 (by decide)
    (by rw [hB]; exact h1)
  simp only [if_true] at f1
  refine ⟨(grow ⟨m, 0, 0, brk0, limit, []⟩ 40000).1, ?_, f2, f4, f3, ?_⟩
  · rw [hm]
    simp only at f6
    rw [← f6]
  · have := free_repr _ [] ⟨40000, false⟩ [] g
    rw [f1] at this
    simp only [span, Nat.add_zero] at this
    exact this

/-- The scenario of `mm_malloc_small_reuse` on an empty directory whose break
can grow by 40032 bytes: the first 1112 rounds of the allocation loop are served
from the released block of 40000 bytes; every later round calls `sbrk 36`. -/
theorem small_reuse_scenario (m : Mem) (brk0 limit : Nat) (h0 : 0 < brk0)
    (h1 : brk0 + 40032 ≤ limit) (h2 : limit < SBRK_FAIL) (fuel : Nat) (hf : 0 < fuel) :
    ∃ s1, mm_malloc fuel ⟨m, 0, 0, brk0, limit, []⟩ (INT_SIZE * 10000 % WORD) =
        .ok (s1, brk0 + BLOCK_SIZE) ∧
      s1.brk = brk0 + 40032 ∧ s1.calls = [40032] ∧
      mm_malloc_small_reuse fuel 10000 ⟨m, 0, 0, brk0, limit, []⟩ =
        alloc_ints fuel 10000 (mm_free s1 (brk0 + BLOCK_SIZE)) ∧
      (∀ k, k ≤ 1112 → k ≤ fuel →
        ∃ sk arr, alloc_ints fuel k (mm_free s1 (brk0 + BLOCK_SIZE)) = .ok (sk, arr) ∧
          sk.calls = s1.calls ∧ sk.brk = s1.brk) ∧
      (∀ k, k ≤ fuel → ∀ sk arr,
        alloc_ints fuel k (mm_free s1 (brk0 + BLOCK_SIZE)) = .ok (sk, arr) →
          sk.calls = s1.calls ++ List.replicate (k - 1112) 36 ∧
            sk.brk = s1.brk + 36 * (k - 1112)) ∧
      (∀ k, k ≤ fuel → s1.brk + 36 * (k - 1112) ≤ limit →
        ∃ sk arr, alloc_ints fuel k (mm_free s1 (brk0 + BLOCK_SIZE)) = .ok (sk, arr)) := by
  obtain ⟨s1, a1, a2, a3, a4, a5⟩ := small_reuse_start m brk0 limit h0 h1 h2 fuel hf
  have hc := (mm_free_fields s1 (brk0 + BLOCK_SIZE)).2.2.2
  have hb := (mm_free_fields s1 (brk0 + BLOCK_SIZE)).2.1
  have hl := (mm_free_fields s1 (brk0 + BLOCK_SIZE)).2.2.1
  have facts := small_reuse_rounds _ a5 fuel
  have rets := small_reuse_returns _ a5 fuel
  rw [hc, hb] at facts
  rw [hb, hl, a4] at rets
  refine ⟨s1, a1, a2, a3, ?_, fun k hk hkf => ?_, fun k hkf sk arr h => ?_, rets⟩
  · unfold mm_malloc_small_reuse
    rw [a1]
  · have e0 : k - 1112 = 0 := by omega
    obtain ⟨sk, arr, h⟩ := rets k hkf (by rw [e0]; omega)
    obtain ⟨_, c1, c2, _⟩ := facts k hkf sk arr h
    rw [e0] at c1 c2
    exact ⟨sk, arr, h, by simpa using c1, by simpa using c2⟩
  · obtain ⟨_, c1, c2, _⟩ := facts k hkf sk arr h
    exact ⟨c1, c2⟩

/-- C19 (amended): the large-block scenario. On every empty directory whose
break can grow by 40032 bytes, the block of 10000 integers is obtained by one
call `sbrk 40032` and released; then, in the allocation loop of
`mm_malloc_small_reuse`, each of the first 1112 requests for one integer is
served from the released block, without a call of `sbrk` and with the break
where the first allocation left it; every later round has called `sbrk 36`
once more, so after `k` rounds that returned the log holds `k - 1112` such calls
and the break has moved by `36 * (k - 1112)`; and the loop returns for as many
rounds as the limit of the break allows. -/
theorem C19_large_block_scenario (m : Mem) (brk0 limit : Nat) (h0 : 0 < brk0)
    (h1 : brk0 + 40032 ≤ limit) (h2 : limit < SBRK_FAIL) (fuel : Nat) (hf : 0 < fuel) :
    ∃ s1, mm_malloc fuel ⟨m, 0, 0, brk0, limit, []⟩ (INT_SIZE * 10000 % WORD) =
        .ok (s1, brk0 + BLOCK_SIZE) ∧
      s1.brk = brk0 + 40032 ∧ s1.calls = [40032] ∧
      mm_malloc_small_reuse fuel 10000 ⟨m, 0, 0, brk0, limit, []⟩ =
        alloc_ints fuel 10000 (mm_free s1 (brk0 + BLOCK_SIZE)) ∧
      (∀ k, k ≤ 1112 → k ≤ fuel →
        ∃ sk arr, alloc_ints fuel k (mm_free s1 (brk0 + BLOCK_SIZE)) = .ok (sk, arr) ∧
          sk.calls = s1.calls ∧ sk.brk = s1.brk) ∧
      (∀ k, k ≤ fuel → ∀ sk arr,
        alloc_ints fuel k (mm_free s1 (brk0 + BLOCK_SIZE)) = .ok (sk, arr) →
          sk.calls = s1.calls ++ List.replicate (k - 1112) 36 ∧
            sk.brk = s1.brk + 36 * (k - 1112)) ∧
      (∀ k, k ≤ fuel → s1.brk + 36 * (k - 1112) ≤ limit →
        ∃ sk arr, alloc_ints fuel k (mm_free s1 (brk0 + BLOCK_SIZE)) = .ok (sk, arr)) :=
  small_reuse_scenario m brk0 limit h0 h1 h2 fuel hf

/-! ### Directories made of equal chunks -/

theorem chunksFrom_add (f : Nat → List Blk) (n m : Nat) : ∀ i,
    chunksFrom f i (n + m) = chunksFrom f i n ++ chunksFrom f (i + n) m := by
  induction n with
  | zero => intro i; simp [chunksFrom]
  | succ n ih =>
    intro i
    have e : n + 1 + m = (n + m) + 1 := by omega
    rw [e]
    simp only [chunksFrom]
    rw [ih (i + 1), List.append_assoc]
    have e2 : i + 1 + n = i + (n + 1) := by omega
    rw [e2]

theorem chunksFrom_congr (f g : Nat → List Blk) (n : Nat) : ∀ i,
    (∀ t, i ≤ t → t < i + n → f t = g t) → chunksFrom f i n = chunksFrom g i n := by
  induction n with
  | zero => intro i _; rfl
  | succ n ih =>
    intro i h
    simp only [chunksFrom]
    rw [h i (Nat.le_refl _) (by omega), ih (i + 1) (fun t h1 h2 => h t (by omega) (by omega))]

theorem chunksFrom_split (f : Nat → List Blk) (j M : Nat) (hj : j < M) :
    chunksFrom f 0 M = chunksFrom f 0 j ++ (f j ++ chunksFrom f (j + 1) (M - j - 1)) := by
  have e : M = j + ((M - j - 1) + 1) := by omega
  rw [e, chunksFrom_add]
  simp only [chunksFrom, Nat.zero_add]
  have e2 : j + (M - j - 1 + 1) - j - 1 = M - j - 1 := by omega
  rw [e2]

theorem span_chunksFrom (f : Nat → List Blk) (w n : Nat) (hw : ∀ t, span (f t) = w) : ∀ i,
    span (chunksFrom f i n) = w * n := by
  induction n with
  | zero => intro i; rfl
  | succ n ih =>
    intro i
    simp only [chunksFrom]
    rw [span_append, hw, ih]
    ring

/-- Replacing chunk `j`. -/
theorem chunksFrom_update (f g : Nat → List Blk) (j M : Nat) (hj : j < M)
    (h : ∀ t, t ≠ j → g t = f t) :
    chunksFrom g 0 M = chunksFrom f 0 j ++ (g j ++ chunksFrom f (j + 1) (M - j - 1)) := by
  rw [chunksFrom_split g j M hj,
    chunksFrom_congr g f j 0 (fun t _ h2 => h t (by omega)),
    chunksFrom_congr g f (M - j - 1) (j + 1) (fun t h1 _ => h t (by omega))]

/-- The first block of chunk `t` sits `w * t` bytes after the first block of
the directory. -/
theorem At_chunk (f : Nat → List Blk) (w M t : Nat) (c : Blk) (rest : List Blk) (a : Nat)
    (hw : ∀ i, span (f i) = w) (ht : t < M) (hf : f t = c :: rest) :
    At a (chunksFrom f 0 M) (a + w * t) c := by
  rw [At_iff]
  refine ⟨chunksFrom f 0 t, rest ++ chunksFrom f (t + 1) (M - t - 1), ?_, ?_⟩
  · rw [chunksFrom_split f t M ht, hf]
    rfl
  · rw [span_chunksFrom f w t hw]

theorem At_replicate (b : Blk) (k i a : Nat) (hi : i < k) :
    At a (List.replicate k b) (a + (BLOCK_SIZE + b.size) * i) b := by
  rw [At_iff]
  refine ⟨List.replicate i b, List.replicate (k - i - 1) b, ?_, ?_⟩
  · have e : k = i + ((k - i - 1) + 1) := by omega
    conv => lhs; rw [e]
    rw [List.replicate_add, List.replicate_succ]
  · rw [span_replicate]; ring

theorem chunksFrom_ints (n : Nat) : ∀ i,
    chunksFrom (released_dir 0) i n = List.replicate (2 * n) intBlk := by
  induction n with
  | zero => intro i; rfl
  | succ n ih =>
    intro i
    simp only [chunksFrom]
    rw [ih (i + 1)]
    have e : 2 * (n + 1) = (2 * n + 1) + 1 := by omega
    rw [e, List.replicate_succ, List.replicate_succ]
    rfl

theorem chunksFrom_pairs (j n : Nat) : ∀ i, i + n ≤ j →
    chunksFrom (resized_dir j) i n = List.replicate n pairBlk := by
  induction n with
  | zero => intro i _; rfl
  | succ n ih =>
    intro i h
    simp only [chunksFrom]
    rw [ih (i + 1) (by omega), List.replicate_succ]
    unfold resized_dir
    rw [if_pos (by omega)]
    rfl

theorem span_released (j t : Nat) : span (released_dir j t) = 72 := by
  unfold released_dir
  split <;> rfl

theorem span_resized (j t : Nat) : span (resized_dir j t) = 72 := by
  unfold resized_dir
  split <;> rfl

/-! ### The scenario of `mm_realloc_small_reuse`: the allocation loop -/

/-- A returning request keeps the integer stored in a used block. -/
theorem malloc_keeps_int (s s1 : State) (fuel n r : Nat) (bs : List Blk) (x : Nat) (c : Blk)
    (hr : Repr s bs) (hn : n < WORD) (h : mm_malloc fuel s n = .ok (s1, r))
    (hat : At s.head bs x c) (hc : c.free = false) (hsz : INT_SIZE ≤ c.size) :
    load s1.mem (x + BLOCK_SIZE) INT_SIZE = load s.mem (x + BLOCK_SIZE) INT_SIZE := by
  obtain ⟨_, _, g, _⟩ := malloc_step s s1 fuel n r bs hr hn h
  exact load_congr _ _ _ _ (fun y h1 h2 => (g x c hat hc).2 y h1 (by omega))

/-- The allocation loop on an empty directory with room for `N` integers: after
`k ≤ N` rounds the directory holds `k` used integers laid out 36 bytes apart
from the first break, `arrays[i]` points to the payload of block `i`, which
holds the integer `i`, and `sbrk 36` has been called once a round. -/
theorem alloc_rounds (m : Mem) (brk0 limit N : Nat) (h0 : 0 < brk0)
    (h1 : brk0 + 36 * N ≤ limit) (h2 : limit < SBRK_FAIL) (hN : N ≤ 2 ^ 32) (fuel : Nat)
    (hf : N ≤ fuel) :
    ∀ k, k ≤ N → ∃ sk arr, alloc_ints fuel k ⟨m, 0, 0, brk0, limit, []⟩ = .ok (sk, arr) ∧
      Repr sk (List.replicate k intBlk) ∧ sk.brk = brk0 + 36 * k ∧
      sk.calls = List.replicate k 36 ∧ sk.limit = limit ∧ (0 < k → sk.head = brk0) ∧
      (∀ i, i < k → arr i = brk0 + 36 * i + BLOCK_SIZE) ∧
      ∀ i, i < k → load sk.mem (brk0 + 36 * i + BLOCK_SIZE) INT_SIZE = i := by
  have hB : BLOCK_SIZE = 32 := rfl
  have hI : INT_SIZE = 4 := rfl
  have hW : WORD = 2 ^ 64 := rfl
  intro k
  induction k with
  | zero =>
    intro _
    exact ⟨_, _, rfl, Repr_empty m brk0 limit [] h0 (by omega) h2, rfl, rfl, rfl,
      fun h => absurd h (by omega), fun i h => absurd h (by omega),
      fun i h => absurd h (by omega)⟩
  | succ k ih =>
    intro hk
    obtain ⟨s1, arr, a1, g, a3, a4, a5, a6, a7, a8⟩ := ih (by omega)
    obtain ⟨⟨s2, p⟩, hm⟩ := malloc_returns s1 _ INT_SIZE g fuel
      (by rw [List.length_replicate]; omega)
    obtain ⟨n1, n2, n3⟩ := round_grow s1 s2 k k fuel p g (by omega) hm
    rcases n3 with ⟨_, n4, n5, n6, n7⟩ | ⟨n4, _⟩
    · have hp : p ≠ 0 := by omega
      have hhead : s2.head = brk0 := by
        rw [n6]
        by_cases hk0 : k = 0
        · have := g.2.2.1 (by rw [hk0]; rfl)
          rw [if_pos this, a3, hk0]; rfl
        · have := a6 (by omega)
          rw [if_neg (by omega), this]
      refine ⟨_, _, alloc_ints_succ fuel k _ s1 s2 arr p a1 hm hp, n7, ?_, ?_, ?_, ?_, ?_, ?_⟩
      · show s2.brk = _
        rw [n5, a3]; ring
      · show s2.calls = _
        rw [n1, a4, List.replicate_succ']
      · show s2.limit = _
        rw [n2, a5]
      · intro _; exact hhead
      · intro i hi
        by_cases hik : i = k
        · rw [if_pos hik, n4, a3, hik]
        · rw [if_neg hik]; exact a7 i (by omega)
      · intro i hi
        show load (store s2.mem p INT_SIZE k) _ _ = i
        by_cases hik : i = k
        · have e : brk0 + 36 * i + BLOCK_SIZE = p := by rw [n4, a3, hik]
          rw [e, load_store_same, hik]
          apply Nat.mod_eq_of_lt
          have : (256 : Nat) ^ INT_SIZE = 2 ^ 32 := by decide
          omega
        · have hi' : i < k := by omega
          rw [load_store_disj _ _ _ _ _ _ (by omega)]
          have hat := At_replicate intBlk k i s1.head hi'
          have e36 : (BLOCK_SIZE + intBlk.size) * i = 36 * i := rfl
          rw [e36, a6 (by omega)] at hat
          rw [malloc_keeps_int s1 s2 fuel INT_SIZE p _ _ intBlk g (by decide) hm
            (by rw [a6 (by omega)]; exact hat) rfl (Nat.le_refl _)]
          exact a8 i hi'
    · exfalso; apply n4; rw [a3, a5]; omega

/-! ### The scenario of `mm_realloc_small_reuse`: the release loop -/

/-- A release keeps the integer stored in another used block. -/
theorem free_keeps_int (s : State) (l1 : List Blk) (b : Blk) (l2 : List Blk) (x : Nat) (c : Blk)
    (hr : Repr s (l1 ++ b :: l2)) (hat : At s.head (l1 ++ b :: l2) x c) (hc : c.free = false)
    (hx : x ≠ s.head + span l1) (hsz : INT_SIZE ≤ c.size) :
    load (mm_free s (s.head + span l1 + BLOCK_SIZE)).mem (x + BLOCK_SIZE) INT_SIZE =
      load s.mem (x + BLOCK_SIZE) INT_SIZE :=
  load_congr _ _ _ _ (fun y h1 h2 =>
    ((free_step s l1 b l2 hr).2 x c hat hc hx).2 y h1 (by omega))

theorem mergeNext_released (b : Blk) (j n : Nat) :
    mergeNext b (chunksFrom (released_dir j) (j + 1) n) =
      (⟨b.size, true⟩, chunksFrom (released_dir j) (j + 1) n) := by
  cases n with
  | zero => rfl
  | succ n =>
    have e : released_dir j (j + 1) = [intBlk, intBlk] := by
      unfold released_dir
      rw [if_neg (by omega)]
    simp only [chunksFrom, e]
    rfl

/-- The release of the second block of pair `j`, between used neighbours. -/
theorem afree_released (j M : Nat) :
    afree (chunksFrom (released_dir j) 0 j ++ [intBlk]) intBlk
        (chunksFrom (released_dir j) (j + 1) (M - j - 1)) =
      chunksFrom (released_dir j) 0 j ++
        ([intBlk, intFree] ++ chunksFrom (released_dir j) (j + 1) (M - j - 1)) := by
  unfold afree
  rw [mergeNext_released, mergePrev_concat]
  simp only [List.append_assoc]
  rfl

/-- The release loop on a directory of `M` pairs of used integers: after `j`
rounds the second block of each of the first `j` pairs is free, nothing else
has changed in the directory, and the first block of every pair still holds
its integer. -/
theorem release_rounds (s : State) (arr : Nat → Nat) (M : Nat)
    (hr : Repr s (chunksFrom (released_dir 0) 0 M))
    (harr : ∀ j, j < M → arr (2 * j + 1) = s.head + 72 * j + 36 + BLOCK_SIZE) :
    ∀ j, j ≤ M → Repr (free_odd arr j s) (chunksFrom (released_dir j) 0 M) ∧
      (free_odd arr j s).head = s.head ∧ (free_odd arr j s).brk = s.brk ∧
      (free_odd arr j s).calls = s.calls ∧ (free_odd arr j s).limit = s.limit ∧
      ∀ i, i < M → load (free_odd arr j s).mem (s.head + 72 * i + BLOCK_SIZE) INT_SIZE =
        load s.mem (s.head + 72 * i + BLOCK_SIZE) INT_SIZE := by
  have hB : BLOCK_SIZE = 32 := rfl
  have hI : INT_SIZE = 4 := rfl
  intro j
  induction j with
  | zero => intro _; exact ⟨hr, rfl, rfl, rfl, rfl, fun _ _ => rfl⟩
  | succ j ih =>
    intro hj
    obtain ⟨g, c1, c2, c3, c4, c5⟩ := ih (by omega)
    have hstep : free_odd arr (j + 1) s = mm_free (free_odd arr j s) (arr (2 * j + 1)) := rfl
    have hff := mm_free_fields (free_odd arr j s) (arr (2 * j + 1))
    have hjj : released_dir j j = [intBlk, intBlk] := by
      unfold released_dir
      rw [if_neg (by omega)]
    have hsplit : chunksFrom (released_dir j) 0 M =
        (chunksFrom (released_dir j) 0 j ++ [intBlk]) ++
          intBlk :: chunksFrom (released_dir j) (j + 1) (M - j - 1) := by
      rw [chunksFrom_split _ j M (by omega), hjj]
      simp only [List.append_assoc]
      rfl
    have hspan : span (chunksFrom (released_dir j) 0 j ++ [intBlk]) = 72 * j + 36 := by
      rw [span_append, span_chunksFrom _ 72 j (span_released j)]
      rfl
    have g2 := g
    rw [hsplit] at g2
    have hp : arr (2 * j + 1) = (free_odd arr j s).head +
        span (chunksFrom (released_dir j) 0 j ++ [intBlk]) + BLOCK_SIZE := by
      rw [harr j (by omega), c1, hspan]; omega
    rw [hstep, hp]
    refine ⟨?_, ?_, ?_, ?_, ?_, fun i hi => ?_⟩
    · have := (free_step _ _ _ _ g2).1
      rw [afree_released] at this
      rw [chunksFrom_update (released_dir j) (released_dir (j + 1)) j M (by omega)
        (fun t ht => by
          unfold released_dir
          by_cases h : t < j
          · rw [if_pos h, if_pos (by omega)]
          · rw [if_neg h, if_neg (by omega)])]
      have e : released_dir (j + 1) j = [intBlk, intFree] := by
        unfold released_dir
        rw [if_pos (by omega)]
      rw [e]
      exact this
    · rw [(mm_free_fields _ _).1, c1]
    · rw [(mm_free_fields _ _).2.1, c2]
    · rw [(mm_free_fields _ _).2.2.2, c3]
    · rw [(mm_free_fields _ _).2.2.1, c4]
    · rw [← c5 i hi]
      obtain ⟨rest, hrest⟩ : ∃ rest, released_dir j i = intBlk :: rest := by
        unfold released_dir
        split
        · exact ⟨_, rfl⟩
        · exact ⟨_, rfl⟩
      have hat := At_chunk (released_dir j) 72 M i intBlk rest (free_odd arr j s).head
        (span_released j) hi hrest
      rw [hsplit] at hat
      have := free_keeps_int _ _ _ _ _ intBlk g2 hat rfl (by rw [hspan]; omega)
        (Nat.le_refl _)
      rw [c1] at this ⊢
      exact this

/-! ### The scenario of `mm_realloc_small_reuse`: the resize loop -/

theorem pairs_no_fit (n k : Nat) : ∀ c ∈ List.replicate k pairBlk, ¬ Fits n c := by
  intro c hc h
  rw [List.eq_of_mem_replicate hc] at h
  exact absurd h.1 (by decide)

/-- The release of the first block of pair `j`: it absorbs its free successor,
and its predecessor, if any, is a used block. -/
theorem afree_resized (j : Nat) (l2 : List Blk) :
    afree (List.replicate j pairBlk) intBlk (intFree :: l2) =
      List.replicate j pairBlk ++ ⟨INT_SIZE + INT_SIZE + BLOCK_SIZE, true⟩ :: l2 := by
  unfold afree
  have e : mergeNext intBlk (intFree :: l2) = (⟨INT_SIZE + INT_SIZE + BLOCK_SIZE, true⟩, l2) := rfl
  rw [e]
  cases j with
  | zero => rfl
  | succ j =>
    rw [List.replicate_succ', mergePrev_concat]
    rfl

/-- Every pair of the resize loop starts with a used block that holds at least
one integer. -/
theorem resized_first (j i : Nat) :
    ∃ c rest, resized_dir j i = c :: rest ∧ c.free = false ∧ INT_SIZE ≤ c.size := by
  unfold resized_dir
  split
  · exact ⟨pairBlk, [], rfl, rfl, by decide⟩
  · exact ⟨intBlk, [intFree], rfl, rfl, by decide⟩

/-- One round of the resize loop: the first block of pair `j` is resized to two
integers. Its release merges it with its free successor, the inner request
takes the merged block whole at the same address, and the staged integer is
copied back; no `sbrk` call is made, and the first block of every pair holds
the integer it held before. -/
theorem resize_round (t : State) (j M fuel : Nat) (hj : j < M) (hf : j + 1 ≤ fuel)
    (hr : Repr t (chunksFrom (resized_dir j) 0 M)) :
    ∃ s3, mm_realloc fuel t (t.head + 72 * j + BLOCK_SIZE) (2 * INT_SIZE) =
        .ok (s3, t.head + 72 * j + BLOCK_SIZE) ∧
      Repr s3 (chunksFrom (resized_dir (j + 1)) 0 M) ∧
      s3.head = t.head ∧ s3.brk = t.brk ∧ s3.calls = t.calls ∧ s3.limit = t.limit ∧
      ∀ i, i < M → load s3.mem (t.head + 72 * i + BLOCK_SIZE) INT_SIZE =
        load t.mem (t.head + 72 * i + BLOCK_SIZE) INT_SIZE := by
  have hB : BLOCK_SIZE = 32 := rfl
  have hI : INT_SIZE = 4 := rfl
  have hW : WORD = 2 ^ 64 := rfl
  have hjj : resized_dir j j = [intBlk, intFree] := by
    unfold resized_dir
    rw [if_neg (by omega)]
  have hL1 := chunksFrom_pairs j j 0 (by omega)
  have hsplit : chunksFrom (resized_dir j) 0 M =
      List.replicate j pairBlk ++
        intBlk :: intFree :: chunksFrom (resized_dir j) (j + 1) (M - j - 1) := by
    rw [chunksFrom_split _ j M hj, hjj, hL1]
    rfl
  have hnew : chunksFrom (resized_dir (j + 1)) 0 M =
      List.replicate j pairBlk ++
        pairBlk :: chunksFrom (resized_dir j) (j + 1) (M - j - 1) := by
    rw [chunksFrom_update (resized_dir j) (resized_dir (j + 1)) j M hj
      (fun t ht => by
        unfold resized_dir
        by_cases h : t < j
        · rw [if_pos h, if_pos (by omega)]
        · rw [if_neg h, if_neg (by omega)]), hL1]
    have e : resized_dir (j + 1) j = [pairBlk] := by
      unfold resized_dir
      rw [if_pos (by omega)]
    rw [e]
    rfl
  have hspan : span (List.replicate j pairBlk) = 72 * j := by
    rw [span_replicate]
    have : BLOCK_SIZE + pairBlk.size = 72 := rfl
    rw [this]; ring
  generalize chunksFrom (resized_dir j) (j + 1) (M - j - 1) = L2 at hsplit hnew
  have g := hr
  rw [hsplit] at g
  have hp : t.head + 72 * j + BLOCK_SIZE =
      t.head + span (List.replicate j pairBlk) + BLOCK_SIZE := by rw [hspan]
  have hsz : get_size t.mem (t.head + 72 * j + BLOCK_SIZE - BLOCK_SIZE) = INT_SIZE := by
    have := (Repr_parts t _ _ _ g).2.1.1
    rw [hspan] at this
    have e : t.head + 72 * j + BLOCK_SIZE - BLOCK_SIZE = t.head + 72 * j := by omega
    rw [e, this]
    rfl
  -- the release
  have gf := (free_step t _ _ _ g).1
  rw [afree_resized, ← hp] at gf
  have ff := mm_free_fields t (t.head + 72 * j + BLOCK_SIZE)
  -- the inner request
  have hm := malloc_found _ (2 * INT_SIZE) _ _ _ gf (pairs_no_fit _ j) ⟨rfl, by decide⟩
    (by decide) fuel (by rw [List.length_replicate]; exact hf)
  obtain ⟨g2, f1, f2, f3, f4, _⟩ := reuse_ok _ (reuse (mm_free t (t.head + 72 * j + BLOCK_SIZE))
    ((mm_free t (t.head + 72 * j + BLOCK_SIZE)).head + span (List.replicate j pairBlk))
    (2 * INT_SIZE)).1 _ (2 * INT_SIZE) _ _ _ rfl gf (by decide)
  have e40 : asplit (2 * INT_SIZE) ⟨INT_SIZE + INT_SIZE + BLOCK_SIZE, true⟩ = [pairBlk] := by
    decide
  rw [e40] at g2
  rw [hspan, ff.1] at hm
  generalize hs2 : (reuse (mm_free t (t.head + 72 * j + BLOCK_SIZE))
    ((mm_free t (t.head + 72 * j + BLOCK_SIZE)).head + span (List.replicate j pairBlk))
    (2 * INT_SIZE)).1 = s2 at g2 f1 f2 f3 f4
  have hm2 : mm_malloc fuel (mm_free t (t.head + 72 * j + BLOCK_SIZE)) (2 * INT_SIZE) =
      .ok (s2, t.head + 72 * j + BLOCK_SIZE) := by
    rw [hm, ← hs2, hspan, ff.1]
    rfl
  have hre := realloc_eq fuel t s2 (t.head + 72 * j + BLOCK_SIZE) (2 * INT_SIZE)
    (t.head + 72 * j + BLOCK_SIZE) (by omega) (by decide) hm2 (by omega)
  rw [hsz] at hre
  have ek : (if 2 * INT_SIZE < INT_SIZE then 2 * INT_SIZE else INT_SIZE) = INT_SIZE := by
    decide
  rw [ek] at hre
  have hh2 : s2.head = t.head := by rw [f1, ff.1]
  have g3 := Repr_payload s2 _ pairBlk L2
    (memcpy s2.mem (t.head + 72 * j + BLOCK_SIZE)
      (fun i => t.mem (t.head + 72 * j + BLOCK_SIZE + i)) INT_SIZE) g2
    (fun x hx => memcpy_out _ _ _ _ x (by
      rw [hspan, hh2] at hx
      have : pairBlk.size = 40 := rfl
      omega))
  refine ⟨_, hre, by rw [hnew]; exact g3, hh2, by rw [← ff.2.1, ← f2],
    by rw [← ff.2.2.2, ← f4], by rw [← ff.2.2.1, ← f3], fun i hi => ?_⟩
  by_cases hij : i = j
  · subst hij
    apply load_congr
    intro x hx1 hx2
    dsimp only
    have e : x = t.head + 72 * i + BLOCK_SIZE + (x - (t.head + 72 * i + BLOCK_SIZE)) := by
      omega
    rw [e, memcpy_in _ _ _ _ _ (by omega), ← e]
  · obtain ⟨c, rest, hc1, hc2, hc3⟩ := resized_first j i
    have hat := At_chunk (resized_dir j) 72 M i c rest t.head (span_resized j) hi hc1
    obtain ⟨c', _, hc1', hc2', _⟩ := resized_first j j
    have hatj := At_chunk (resized_dir j) 72 M j c' _ t.head (span_resized j) hj hc1'
    have hL := Rep0_Live t _ _ c (Repr_Rep0 t _ hr) hat hc2
    have hLj := Rep0_Live t _ _ c' (Repr_Rep0 t _ hr) hatj hc2'
    have hk := realloc_kept t _ fuel _ _ _ (t.head + 72 * i + BLOCK_SIZE) _ hr hL
      (by decide) (Or.inr hLj) (by omega) hre
    have hsi := (Repr_At t _ _ c hr hat).1
    apply load_congr
    intro x hx1 hx2
    apply hk.2.2.2 x hx1
    have e : t.head + 72 * i + BLOCK_SIZE - BLOCK_SIZE = t.head + 72 * i := by omega
    rw [e, hsi]
    omega

/-- The resize loop on a directory of `M` pairs (used integer, free integer):
after `j` rounds the first `j` pairs are one used block each, the pointers in
`arrays` are the same, `sbrk` has not been called, and the first block of every
pair holds the integer it held before the loop. -/
theorem resize_rounds (s : State) (arr : Nat → Nat) (M fuel : Nat) (hf : M ≤ fuel)
    (hr : Repr s (chunksFrom (resized_dir 0) 0 M))
    (harr : ∀ j, j < M → arr (2 * j) = s.head + 72 * j + BLOCK_SIZE) :
    ∀ j, j ≤ M → ∃ sj arrj, realloc_even fuel j s arr = .ok (sj, arrj) ∧
      Repr sj (chunksFrom (resized_dir j) 0 M) ∧
      sj.head = s.head ∧ sj.brk = s.brk ∧ sj.calls = s.calls ∧ sj.limit = s.limit ∧
      (∀ i, arrj i = arr i) ∧
      ∀ i, i < M → load sj.mem (s.head + 72 * i + BLOCK_SIZE) INT_SIZE =
        load s.mem (s.head + 72 * i + BLOCK_SIZE) INT_SIZE := by
  intro j
  induction j with
  | zero => intro _; exact ⟨s, arr, rfl, hr, rfl, rfl, rfl, rfl, fun _ => rfl, fun _ _ => rfl⟩
  | succ j ih =>
    intro hj
    obtain ⟨sj, arrj, a1, g, c1, c2, c3, c4, c5, c6⟩ := ih (by omega)
    obtain ⟨s3, b1, b2, b3, b4, b5, b6, b7⟩ := resize_round sj j M fuel (by omega) (by omega) g
    have hp : arrj (2 * j) = sj.head + 72 * j + BLOCK_SIZE := by
      rw [c5, harr j (by omega), c1]
    refine ⟨s3, fun x => if x = 2 * j then sj.head + 72 * j + BLOCK_SIZE else arrj x, ?_, b2,
      by rw [b3, c1], by rw [b4, c2], by rw [b5, c3], by rw [b6, c4], fun i => ?_,
      fun i hi => ?_⟩
    · simp only [realloc_even, a1, hp, b1]
    · dsimp only
      by_cases h : i = 2 * j
      · rw [if_pos h, h, ← hp, c5]
      · rw [if_neg h, c5]
    · rw [← c6 i hi, ← c1]
      exact b7 i hi

/-- The scenario of `mm_realloc_small_reuse` for `2 * M` integers on an empty
directory with room for them: the allocation loop returns, the whole test
returns (its assertion on the break holds), the break and the log of `sbrk`
calls after the resizes are those after the allocation loop, and the block
behind every even-indexed pointer holds its index. -/
theorem realloc_small_reuse_scenario (m : Mem) (brk0 limit M fuel : Nat) (h0 : 0 < brk0)
    (h1 : brk0 + 72 * M ≤ limit) (h2 : limit < SBRK_FAIL) (hN : 2 * M ≤ 2 ^ 32)
    (hf : 2 * M ≤ fuel) :
    ∃ s1 arr1 s3 arr3, alloc_ints fuel (2 * M) ⟨m, 0, 0, brk0, limit, []⟩ = .ok (s1, arr1) ∧
      mm_realloc_small_reuse fuel (2 * M) ⟨m, 0, 0, brk0, limit, []⟩ = .ok (s3, arr3) ∧
      s3.brk = s1.brk ∧ s3.calls = s1.calls ∧
      ∀ i, i < M → load s3.mem (arr3 (2 * i)) INT_SIZE = 2 * i := by
  have hB : BLOCK_SIZE = 32 := rfl
  obtain ⟨s1, arr1, a1, g1, a3, _, _, a6, a7, a8⟩ :=
    alloc_rounds m brk0 limit (2 * M) h0 (by omega) h2 hN fuel hf (2 * M) (Nat.le_refl _)
  by_cases hM : M = 0
  · subst hM
    refine ⟨s1, arr1, s1, arr1, a1, ?_, rfl, rfl, fun i hi => absurd hi (by omega)⟩
    simp only [mm_realloc_small_reuse, a1, Nat.mul_zero, Nat.zero_add, Nat.zero_div,
      Nat.reduceDiv, free_odd, realloc_even, if_true]
  · have hh := a6 (by omega)
    rw [← chunksFrom_ints M 0] at g1
    obtain ⟨g2, d1, d2, d3, _, d5⟩ := release_rounds s1 arr1 M g1
      (fun j hj => by rw [a7 (2 * j + 1) (by omega), hh]; omega) M (Nat.le_refl _)
    rw [chunksFrom_congr (released_dir M) (resized_dir 0) M 0 (fun t _ ht => by
      unfold released_dir resized_dir
      rw [if_pos (by omega), if_neg (by omega)])] at g2
    obtain ⟨s3, arr3, e1, _, _, e3, e4, _, e6, e7⟩ := resize_rounds _ arr1 M fuel (by omega) g2
      (fun j hj => by rw [a7 (2 * j) (by omega), d1, hh]; omega) M (Nat.le_refl _)
    refine ⟨s1, arr1, s3, arr3, a1, ?_, by rw [e3, d2], by rw [e4, d3], fun i hi => ?_⟩
    · have x1 : 2 * M / 2 = M := by omega
      have x2 : (2 * M + 1) / 2 = M := by omega
      simp only [mm_realloc_small_reuse, a1, x1, x2, e1, e3, d2, if_true]
    · rw [e6, a7 (2 * i) (by omega)]
      have e : brk0 + 36 * (2 * i) + BLOCK_SIZE = s1.head + 72 * i + BLOCK_SIZE := by
        rw [hh]; omega
      have := e7 i hi
      rw [d1] at this
      rw [e, this, d5 i hi, ← e]
      exact a8 (2 * i) (by omega)

/-- Resize reuses freed neighbours. First part: in every state reached while
every byte count stayed within `INTPTR_MAX`, for a live pointer `p` and a request `n > 0` not larger than the size of the
free block that `mm_free p` leaves (the block of `p` merged with its free
successor and predecessor, of size `mergedSize`), that block is free after the
release and has that size, `mm_realloc p n` returns given fuel for the scan,
and whenever it returns the result is non-null, `sbrk` has not been called and
the break has not moved. Second part, the test `mm_realloc_small_reuse` with
10000 integers on an empty directory with room for them: the allocation loop
returns, the whole test returns (so its assertion on the break holds), the
break and the log of `sbrk` calls after the resizes are those before the
releases, and `arrays[i][0] == i` for every even `i`. -/
theorem realloc_reuses_freed :
    (∀ (s : State), Reachable s → ∀ p, Live s p → ∀ n, 0 < n →
      n ≤ mergedSize s (p - BLOCK_SIZE) →
        is_free (mm_free s p).mem (survivor s (p - BLOCK_SIZE)) ∧
        get_size (mm_free s p).mem (survivor s (p - BLOCK_SIZE)) =
          mergedSize s (p - BLOCK_SIZE) ∧
        (∃ fuel0, ∀ fuel, fuel0 ≤ fuel → ∃ s1 r, mm_realloc fuel s p n = .ok (s1, r)) ∧
        ∀ fuel s1 r, mm_realloc fuel s p n = .ok (s1, r) →
          r ≠ 0 ∧ s1.calls = s.calls ∧ s1.brk = s.brk) ∧
    (∀ (m : Mem) (brk0 limit fuel : Nat), 0 < brk0 → brk0 + 36 * 10000 ≤ limit →
      limit < SBRK_FAIL → 10000 ≤ fuel →
        ∃ s1 arr1 s3 arr3,
          alloc_ints fuel 10000 ⟨m, 0, 0, brk0, limit, []⟩ = .ok (s1, arr1) ∧
          mm_realloc_small_reuse fuel 10000 ⟨m, 0, 0, brk0, limit, []⟩ = .ok (s3, arr3) ∧
          s3.brk = s1.brk ∧ s3.calls = s1.calls ∧
          ∀ i, i < 10000 → i % 2 = 0 → load s3.mem (arr3 i) INT_SIZE = i) := by
  refine ⟨fun s hs p hp n hn hle => realloc_reuses_neighbours s hs p hp n hn hle,
    fun m brk0 limit fuel h0 h1 h2 hf => ?_⟩
  obtain ⟨s1, arr1, s3, arr3, a1, a2, a3, a4, a5⟩ :=
    realloc_small_reuse_scenario m brk0 limit 5000 fuel h0 (by omega) h2 (by decide)
      (by omega)
  refine ⟨s1, arr1, s3, arr3, a1, a2, a3, a4, fun i hi he => ?_⟩
  have e : i = 2 * (i / 2) := by omega
  rw [e]
  exact a5 (i / 2) (by omega)

/-! ### Full coalescing and the absence of empty blocks -/

/-- A directory without two free neighbours in which every block is free has
at most one block. -/
theorem NoAdj_all_free (bs : List Blk) (ha : NoAdj bs) (hf : ∀ b ∈ bs, b.free = true) :
    bs.length ≤ 1 := by
  match bs, ha, hf with
  | [], _, _ => simp
  | [_], _, _ => simp
  | b :: c :: l, ha, hf =>
    exfalso
    exact ha.1 ⟨hf b (by simp), hf c (by simp)⟩

/-- Full coalescing while every byte count stays within `INTPTR_MAX`. In every
state reached by such calls whose directory is not
empty and in which no pointer is live, the directory is the single block at
`head`, `tail` is `head`, the block is free, and its size is the break minus
`head` minus the size of a header. -/
theorem full_coalescing (s : State) (hs : Reachable s) (l : List Nat)
    (hl : Directory s l) (hne : l ≠ []) (hno : ∀ p, ¬ Live s p) :
    l = [s.head] ∧ s.tail = s.head ∧ is_free s.mem s.head ∧ s.head + BLOCK_SIZE ≤ s.brk ∧
      get_size s.mem s.head = s.brk - s.head - BLOCK_SIZE := by
  have hB : BLOCK_SIZE = 32 := rfl
  obtain ⟨bs, hr, ha, _⟩ := Reachable_Inv s hs
  have el := Chain_unique _ _ _ _ hl (Repr_directory s bs hr)
  have hfree : ∀ b ∈ bs, b.free = true := by
    intro b hb
    by_contra hbf
    obtain ⟨l1, l2, e⟩ := List.append_of_mem hb
    subst e
    exact hno _ (block_Live s l1 b l2 hr (by simpa using hbf))
  have hlen := NoAdj_all_free bs ha hfree
  match bs, hr, hfree, hlen, el with
  | [], _, _, _, el => exact absurd el hne
  | [b], hr, hfree, _, el =>
    obtain ⟨_, h2, _, _, h5, h6, _⟩ := Repr_parts s [] b [] hr
    simp only [span, Nat.add_zero, lastAddr] at h2 h5 h6
    refine ⟨el, h6, ?_, by omega, by rw [h2.1]; omega⟩
    unfold is_free
    rw [h2.2.1, hfree b (by simp)]
    decide
  | _ :: _ :: _, _, _, hlen, _ => simp at hlen

/-! ### The block behind a returned pointer -/

/-- The two ways a positive `size_t` request returns a non-null pointer from a
represented directory: growth (the log of `sbrk` calls is extended and the new
block, of exactly the requested size, sits at the old break), or reuse of the
first fitting block (the log is unchanged and the block is split or taken
whole as `asplit` says). -/
theorem malloc_outcome (s s1 : State) (fuel n r : Nat) (bs : List Blk) (hr : Repr s bs)
    (hn : n ≠ 0) (hw : n < WORD) (h : mm_malloc fuel s n = .ok (s1, r)) (hr0 : r ≠ 0) :
    (s1.calls = s.calls ++ [(BLOCK_SIZE + n) % WORD] ∧ (∀ c ∈ bs, ¬ Fits n c) ∧
        r = s.brk + BLOCK_SIZE ∧ s1.brk = (sbrk s ((BLOCK_SIZE + n) % WORD)).1.brk ∧
        get_size s1.mem (r - BLOCK_SIZE) = n ∧ get_free s1.mem (r - BLOCK_SIZE) = 0) ∨
      (s1.calls = s.calls ∧ s1.brk = s.brk ∧ s1.head = s.head ∧
        ∃ l1 b l2, bs = l1 ++ b :: l2 ∧ r - BLOCK_SIZE = s.head + span l1 ∧ BLOCK_SIZE ≤ r ∧
          (∀ c ∈ l1, ¬ Fits n c) ∧ Fits n b ∧ get_size s.mem (r - BLOCK_SIZE) = b.size ∧
          Repr s1 (l1 ++ (asplit n b ++ l2))) := by
  have hB : BLOCK_SIZE = 32 := rfl
  rcases malloc_cases s s1 fuel n r bs hr hn h with ⟨l1, b, l2, e, h1, h2, h3⟩ | ⟨hno, h3⟩
  · right
    subst e
    obtain ⟨g, f1, f2, _, f4, f5⟩ := reuse_ok s s1 r n l1 b l2 h3 hr h2.2
    have e : r - BLOCK_SIZE = s.head + span l1 := by omega
    refine ⟨f4, f2, f1, l1, b, l2, rfl, e, by omega, h1, h2, ?_, g⟩
    rw [e]
    exact (Repr_parts s l1 b l2 hr).2.1.1
  · left
    have hs1 : s1 = (grow s n).1 := congrArg Prod.fst h3
    have hp1 : r = (grow s n).2 := congrArg Prod.snd h3
    rcases (sbrk_cases s ((BLOCK_SIZE + n) % WORD)).symm with ⟨b0, hf, hb0⟩ | hf
    · obtain ⟨g, g2, _, _⟩ := grow_lay s bs n hr hw b0 hf
      obtain ⟨_, f2, _, f4, _, f6⟩ := grow_fields_at s n b0 hf (Repr_brk_ne s bs hr)
      rw [← hs1] at g g2 f2 f4
      rw [← hp1] at f6
      have hat : At s1.head (bs ++ [⟨n, false⟩]) (r - BLOCK_SIZE) ⟨n, false⟩ := by
        rw [At_iff]
        exact ⟨bs, [], rfl, by omega⟩
      have hfield := Lay_At _ _ _ _ _ _ _ g.1 hat
      exact ⟨f4, hno, f6, by rw [f2, hf], hfield.1, hfield.2⟩
    · rw [grow_fail_at s n hf] at hp1
      exact absurd hp1 hr0

theorem asplit_split (n : Nat) (b : Blk) (h : n + BLOCK_SIZE < b.size) :
    asplit n b = [⟨n, false⟩, ⟨b.size - n - BLOCK_SIZE, true⟩] := by
  unfold asplit
  rw [if_pos h]

theorem asplit_whole (n : Nat) (b : Blk) (h : b.size ≤ n + BLOCK_SIZE) :
    asplit n b = [⟨b.size, false⟩] := by
  unfold asplit
  rw [if_neg (by omega)]

/-- The header fields of the block a reuse hands out, and of the remainder when
the block is split. -/
theorem reuse_outcome (s1 : State) (n a : Nat) (l1 : List Blk) (b : Blk) (l2 : List Blk)
    (ha : a = s1.head + span l1) (g : Repr s1 (l1 ++ (asplit n b ++ l2))) :
    get_free s1.mem a = 0 ∧
      (n + BLOCK_SIZE < b.size → get_size s1.mem a = n ∧
        get_free s1.mem (a + BLOCK_SIZE + n) = 1 ∧
        get_size s1.mem (a + BLOCK_SIZE + n) = b.size - n - BLOCK_SIZE) ∧
      (b.size ≤ n + BLOCK_SIZE → get_size s1.mem a = b.size) := by
  have hB : BLOCK_SIZE = 32 := rfl
  subst ha
  by_cases hsp : n + BLOCK_SIZE < b.size
  · rw [asplit_split n b hsp] at g
    have g' : Repr s1 ((l1 ++ [⟨n, false⟩]) ++ ⟨b.size - n - BLOCK_SIZE, true⟩ :: l2) := by
      simpa using g
    have p1 := (Repr_parts s1 l1 ⟨n, false⟩ _ g).2.1
    have p2 := (Repr_parts s1 _ _ _ g').2.1
    rw [span_append] at p2
    simp only [span, Nat.add_zero] at p2
    have e : s1.head + (span l1 + (BLOCK_SIZE + n)) = s1.head + span l1 + BLOCK_SIZE + n := by
      omega
    rw [e] at p2
    exact ⟨p1.2.1, fun _ => ⟨p1.1, p2.2.1, p2.1⟩, fun h => absurd hsp (by omega)⟩
  · rw [asplit_whole n b (by omega)] at g
    have p1 := (Repr_parts s1 l1 ⟨b.size, false⟩ _ g).2.1
    exact ⟨p1.2.1, fun h => absurd h hsp, fun _ => p1.1⟩

/-- In a state that satisfies the invariant every block of the directory has a
positive size. -/
theorem Inv_sizes (s : State) (hi : Inv s) (l : List Nat) (hl : Directory s l) :
    ∀ b ∈ l, 1 ≤ get_size s.mem b := by
  obtain ⟨bs, hr, _, hpos⟩ := hi
  intro b hb
  rw [Chain_unique _ _ _ _ hl (Repr_directory s bs hr)] at hb
  obtain ⟨c, hc⟩ := (mem_addrs_At bs s.head b).1 hb
  rw [(Repr_At s bs b c hr hc).1]
  obtain ⟨l1, l2, e, _⟩ := (At_iff bs s.head b c).1 hc
  exact hpos c (by rw [e]; simp)

/-- No empty blocks while every byte count stays within `INTPTR_MAX`. In
every state reached by such calls every block of the
directory, used or free, has size at least 1. When a returning request `n > 0`
is served by a split (no `sbrk` call, and the size of the chosen block exceeds
`n + BLOCK_SIZE`, the guard of `split_block`), the chosen block keeps `n` bytes
and the remainder, a block of the new directory at `r + n`, is free and has the
positive size `old_size - n - BLOCK_SIZE`; when the guard fails the directory
keeps its blocks. -/
theorem no_empty_blocks (s : State) (hs : Reachable s) :
    (∀ l, Directory s l → ∀ b ∈ l, 1 ≤ get_size s.mem b) ∧
    ∀ fuel n s1 r, 0 < n → n < WORD → mm_malloc fuel s n = .ok (s1, r) → r ≠ 0 →
      s1.calls = s.calls →
        (n + BLOCK_SIZE < get_size s.mem (r - BLOCK_SIZE) →
          get_size s1.mem (r - BLOCK_SIZE) = n ∧ is_free s1.mem (r + n) ∧
          get_size s1.mem (r + n) = get_size s.mem (r - BLOCK_SIZE) - n - BLOCK_SIZE ∧
          1 ≤ get_size s1.mem (r + n) ∧ ∃ l1, Directory s1 l1 ∧ r + n ∈ l1) ∧
        (get_size s.mem (r - BLOCK_SIZE) ≤ n + BLOCK_SIZE →
          ∀ l, Directory s l → Directory s1 l) := by
  have hB : BLOCK_SIZE = 32 := rfl
  have hi := Reachable_Inv s hs
  refine ⟨Inv_sizes s hi, fun fuel n s1 r hn hw h hr0 hc => ?_⟩
  obtain ⟨bs, hr, _, _⟩ := hi
  rcases malloc_outcome s s1 fuel n r bs hr (by omega) hw h hr0 with
    ⟨c1, _⟩ | ⟨_, _, d3, l1, b, l2, e, d5, d6, _, _, d9, g⟩
  · rw [hc] at c1
    have := congrArg List.length c1
    simp at this
  · have ha : r - BLOCK_SIZE = s1.head + span l1 := by rw [d3]; exact d5
    obtain ⟨_, o2, _⟩ := reuse_outcome s1 n (r - BLOCK_SIZE) l1 b l2 ha g
    have ea : r - BLOCK_SIZE + BLOCK_SIZE + n = r + n := by omega
    rw [d9]
    refine ⟨fun hsp => ?_, fun hws l hl => ?_⟩
    · obtain ⟨q1, q2, q3⟩ := o2 hsp
      rw [ea] at q2 q3
      refine ⟨q1, by unfold is_free; rw [q2]; decide, q3, by rw [q3]; omega,
        addrs s1.head (l1 ++ (asplit n b ++ l2)), Repr_directory s1 _ g, ?_⟩
      rw [asplit_split n b hsp, mem_addrs_At]
      refine ⟨⟨b.size - n - BLOCK_SIZE, true⟩, ?_⟩
      rw [At_iff]
      refine ⟨l1 ++ [⟨n, false⟩], l2, by simp, ?_⟩
      rw [span_append]
      simp only [span, Nat.add_zero]
      omega
    · rw [asplit_whole n b hws] at g
      have := Repr_directory s1 _ g
      subst e
      rw [Chain_unique _ _ _ _ hl (Repr_directory s _ hr)]
      rw [d3] at this
      have e2 : l1 ++ ([(⟨b.size, false⟩ : Blk)] ++ l2) = l1 ++ ⟨b.size, false⟩ :: l2 := rfl
      rw [e2, addrs_mid] at this
      rw [addrs_mid]
      exact this

/-- The size of the block behind a returned pointer. In a state that holds a
well-formed directory a positive `size_t` request returns given fuel; the block behind a
non-null result is used and its size lies between `n` and `n + BLOCK_SIZE`. The
size is `n` after growth and after a split; a block taken whole keeps the size
it had, so the size is `n` exactly after growth, after a split, or when a free
block of size `n` is taken whole. -/
theorem malloc_block_size (s : State) (hs : WellFormed s) (n : Nat) (hn : 0 < n)
    (hw : n < WORD) :
    (∃ fuel0, ∀ fuel, fuel0 ≤ fuel → ∃ s1 r, mm_malloc fuel s n = .ok (s1, r)) ∧
    ∀ fuel s1 r, mm_malloc fuel s n = .ok (s1, r) → r ≠ 0 →
      get_free s1.mem (r - BLOCK_SIZE) = 0 ∧ n ≤ get_size s1.mem (r - BLOCK_SIZE) ∧
      get_size s1.mem (r - BLOCK_SIZE) ≤ n + BLOCK_SIZE ∧
      (s1.calls ≠ s.calls → get_size s1.mem (r - BLOCK_SIZE) = n) ∧
      (s1.calls = s.calls → n + BLOCK_SIZE < get_size s.mem (r - BLOCK_SIZE) →
        get_size s1.mem (r - BLOCK_SIZE) = n) ∧
      (s1.calls = s.calls → get_size s.mem (r - BLOCK_SIZE) ≤ n + BLOCK_SIZE →
        get_size s1.mem (r - BLOCK_SIZE) = get_size s.mem (r - BLOCK_SIZE)) ∧
      (get_size s1.mem (r - BLOCK_SIZE) = n ↔
        (s1.calls ≠ s.calls ∨
          (s1.calls = s.calls ∧ n + BLOCK_SIZE < get_size s.mem (r - BLOCK_SIZE)) ∨
          (s1.calls = s.calls ∧ get_size s.mem (r - BLOCK_SIZE) = n))) := by
  have hB : BLOCK_SIZE = 32 := rfl
  obtain ⟨bs, hr⟩ := hs
  refine ⟨⟨bs.length + 1, fun fuel hf => ?_⟩, fun fuel s1 r h hr0 => ?_⟩
  · obtain ⟨⟨s1, r⟩, h⟩ := malloc_returns s bs n hr fuel hf
    exact ⟨s1, r, h⟩
  · rcases malloc_outcome s s1 fuel n r bs hr (by omega) hw h hr0 with
      ⟨c1, _, _, _, c5, c6⟩ | ⟨d1, _, d3, l1, b, l2, _, d5, _, _, d8, d9, g⟩
    · have hne : s1.calls ≠ s.calls := by
        intro he
        rw [he] at c1
        have := congrArg List.length c1
        simp at this
      exact ⟨c6, by omega, by omega, fun _ => c5, fun he => absurd he hne,
        fun he => absurd he hne, ⟨fun _ => Or.inl hne, fun _ => c5⟩⟩
    · have ha : r - BLOCK_SIZE = s1.head + span l1 := by rw [d3]; exact d5
      obtain ⟨o1, o2, o3⟩ := reuse_outcome s1 n (r - BLOCK_SIZE) l1 b l2 ha g
      have hnb : n ≤ b.size := d8.2
      rw [d9]
      by_cases hsp : n + BLOCK_SIZE < b.size
      · have q := (o2 hsp).1
        exact ⟨o1, by omega, by omega, fun _ => q, fun _ _ => q,
          fun _ hle => absurd hsp (by omega),
          ⟨fun _ => Or.inr (Or.inl ⟨d1, hsp⟩), fun _ => q⟩⟩
      · have q := o3 (by omega)
        refine ⟨o1, by omega, by omega, fun hne => absurd d1 hne,
          fun _ h2 => absurd h2 hsp, fun _ _ => q,
          ⟨fun he => Or.inr (Or.inr ⟨d1, by omega⟩), fun hd => ?_⟩⟩
        rcases hd with hd | hd | hd
        · exact absurd d1 hd
        · exact absurd hd.2 hsp
        · omega

/-! ### Bytes of absorbed blocks -/

/-- After `append`, every byte of the absorbed block, header and payload, is
zero. -/
theorem append_zero (s : State) (l1 : List Blk) (d c : Blk) (l2 : List Blk)
    (hr : Repr s (l1 ++ d :: c :: l2)) (x : Nat)
    (h1 : s.head + span l1 + BLOCK_SIZE + d.size ≤ x)
    (h2 : x < s.head + span l1 + BLOCK_SIZE + d.size + BLOCK_SIZE + c.size) :
    (append s (s.head + span l1) (s.head + span l1 + BLOCK_SIZE + d.size)).mem x = 0 := by
  rw [append_mem s l1 d c l2 hr]
  unfold memset
  rw [if_pos ⟨h1, by omega⟩]

/-- The payload of the absorbing block is not touched by `append`. -/
theorem append_dest_payload (s : State) (l1 : List Blk) (d c : Blk) (l2 : List Blk)
    (hr : Repr s (l1 ++ d :: c :: l2)) (x : Nat) (h1 : s.head + span l1 + BLOCK_SIZE ≤ x)
    (h2 : x < s.head + span l1 + BLOCK_SIZE + d.size) :
    (append s (s.head + span l1) (s.head + span l1 + BLOCK_SIZE + d.size)).mem x = s.mem x := by
  have hB : BLOCK_SIZE = 32 := rfl
  rw [append_mem s l1 d c l2 hr]
  rw [memset_out _ _ _ _ _ (by omega), set_size_out _ _ _ _ (by omega)]
  cases l2 with
  | nil =>
    simp only [nxt, ne_eq, not_true_eq_false, if_false]
    rw [set_next_out _ _ _ _ (by omega)]
  | cons e l2 =>
    simp only [nxt]
    rw [if_pos (by omega), set_prev_out _ _ _ _ (by omega), set_next_out _ _ _ _ (by omega)]

/-- The first coalescing step, when the successor is free. -/
theorem free_next_eq (s : State) (l1 : List Blk) (b c : Blk) (l3 : List Blk)
    (hr : Repr s (l1 ++ b :: c :: l3)) (hc : c.free = true) :
    free_next s (s.head + span l1) =
      append s (s.head + span l1) (s.head + span l1 + BLOCK_SIZE + b.size) := by
  obtain ⟨_, h2, h3, _⟩ := Repr_parts s l1 b (c :: l3) hr
  have hB : BLOCK_SIZE = 32 := rfl
  unfold free_next
  rw [h2.2.2.1]
  rw [Lay_cons] at h3
  simp only [nxt]
  rw [h3.1.2.1, if_pos ⟨by omega, (flag_ne_zero _).2 hc⟩]

/-- The first coalescing step, when there is no free successor. -/
theorem free_next_id (s : State) (l1 : List Blk) (b : Blk) (l2 : List Blk)
    (hr : Repr s (l1 ++ b :: l2)) (h : ∀ c l3, l2 = c :: l3 → c.free = false) :
    free_next s (s.head + span l1) = s := by
  obtain ⟨_, h2, h3, _⟩ := Repr_parts s l1 b l2 hr
  unfold free_next
  rw [h2.2.2.1]
  cases l2 with
  | nil => simp only [nxt, ne_eq, not_true_eq_false, false_and, if_false]
  | cons c l3 =>
    rw [Lay_cons] at h3
    simp only [nxt]
    rw [h3.1.2.1, if_neg]
    intro hh
    have := (flag_ne_zero _).1 hh.2
    rw [h c l3 rfl] at this
    exact absurd this (by decide)

/-- The second coalescing step, when the predecessor is free. -/
theorem free_prev_eq (s : State) (l0 : List Blk) (p b : Blk) (l2 : List Blk)
    (hr : Repr s (l0 ++ p :: b :: l2)) (hp : p.free = true) :
    free_prev s (s.head + span l0 + BLOCK_SIZE + p.size) =
      append s (s.head + span l0) (s.head + span l0 + BLOCK_SIZE + p.size) := by
  obtain ⟨_, g2, g3, _⟩ := Repr_parts s l0 p (b :: l2) hr
  have hB : BLOCK_SIZE = 32 := rfl
  rw [Lay_cons] at g3
  unfold free_prev
  rw [g3.1.2.2.2, g2.2.1, if_pos ⟨by have := g2; omega, (flag_ne_zero _).2 hp⟩]

/-- The second coalescing step, when there is no free predecessor. -/
theorem free_prev_id (s : State) (l1 : List Blk) (b : Blk) (l2 : List Blk)
    (hr : Repr s (l1 ++ b :: l2)) (h : ∀ l0 p, l1 = l0 ++ [p] → p.free = false) :
    free_prev s (s.head + span l1) = s := by
  obtain ⟨_, h2, _⟩ := Repr_parts s l1 b l2 hr
  unfold free_prev
  rw [h2.2.2.2]
  rcases List.eq_nil_or_concat l1 with hl | ⟨l0, p, hl⟩
  · subst hl
    simp only [lastAddr, ne_eq, not_true_eq_false, false_and, if_false]
  · rw [List.concat_eq_append] at hl
    subst hl
    rw [lastAddr_concat]
    have hr1 : Repr s (l0 ++ p :: b :: l2) := by
      rw [List.append_assoc] at hr; exact hr
    obtain ⟨_, g2, _⟩ := Repr_parts s l0 p (b :: l2) hr1
    rw [g2.2.1, if_neg]
    intro hh
    have := (flag_ne_zero _).1 hh.2
    rw [h l0 p rfl] at this
    exact absurd this (by decide)

theorem mm_free_step1_head (s : State) (p : Nat) : (mm_free_step1 s p).head = s.head := by
  unfold mm_free_step1
  rw [free_next_head]

/-- A release is its first coalescing step followed by the second. -/
theorem mm_free_steps (s : State) (p : Nat) (hp : p ≠ 0) :
    mm_free s p = free_prev (mm_free_step1 s p) (p - BLOCK_SIZE) := by
  rw [mm_free_eq s p hp]
  rfl

/-- The first coalescing step on a represented directory: the directory it
leaves, the cleared bytes of an absorbed successor, and the untouched payload of
the released block. -/
theorem step1_bytes (s : State) (l1 : List Blk) (b : Blk) (l2 : List Blk)
    (hr : Repr s (l1 ++ b :: l2)) :
    Repr (mm_free_step1 s (s.head + span l1 + BLOCK_SIZE))
        (l1 ++ (mergeNext b l2).1 :: (mergeNext b l2).2) ∧
      (∀ c l3, l2 = c :: l3 → c.free = true → ∀ x,
        s.head + span l1 + BLOCK_SIZE + b.size ≤ x →
        x < s.head + span l1 + BLOCK_SIZE + b.size + BLOCK_SIZE + c.size →
          (mm_free_step1 s (s.head + span l1 + BLOCK_SIZE)).mem x = 0) ∧
      ∀ x, s.head + span l1 + BLOCK_SIZE ≤ x → x < s.head + span l1 + BLOCK_SIZE + b.size →
        (mm_free_step1 s (s.head + span l1 + BLOCK_SIZE)).mem x = s.mem x := by
  have hB : BLOCK_SIZE = 32 := rfl
  unfold mm_free_step1
  have e : s.head + span l1 + BLOCK_SIZE - BLOCK_SIZE = s.head + span l1 := by omega
  rw [e]
  have h1 : Repr { s with mem := set_free s.mem (s.head + span l1) 1 }
      (l1 ++ ⟨b.size, true⟩ :: l2) := mark_repr s l1 b l2 true hr
  have h2 := free_next_repr _ l1 ⟨b.size, true⟩ l2 h1
  simp only [if_true] at h2
  have e2 : mergeNext ⟨b.size, true⟩ l2 = mergeNext b l2 := by
    cases l2 <;> rfl
  rw [e2] at h2
  refine ⟨h2, fun c l3 hl hc x hx1 hx2 => ?_, fun x hx1 hx2 => ?_⟩
  · subst hl
    have := free_next_eq _ l1 ⟨b.size, true⟩ c l3 h1 hc
    dsimp only at this
    rw [this]
    exact append_zero _ l1 ⟨b.size, true⟩ c l3 h1 x hx1 hx2
  · by_cases hc : ∃ c l3, l2 = c :: l3 ∧ c.free = true
    · obtain ⟨c, l3, hl, hc⟩ := hc
      subst hl
      have := free_next_eq _ l1 ⟨b.size, true⟩ c l3 h1 hc
      dsimp only at this
      rw [this, append_dest_payload _ l1 ⟨b.size, true⟩ c l3 h1 x hx1 hx2]
      exact set_free_out _ _ _ _ (by omega)
    · have := free_next_id _ l1 ⟨b.size, true⟩ l2 h1 (fun c l3 hl => by
        by_contra hcf
        exact hc ⟨c, l3, hl, by simpa using hcf⟩)
      dsimp only at this
      rw [this]
      exact set_free_out _ _ _ _ (by omega)

/-- The second coalescing step on the directory the first step leaves: without
a free predecessor nothing changes; a free predecessor absorbs the block, whose
header and whole payload are cleared. -/
theorem step2_bytes (s : State) (l1 : List Blk) (b : Blk) (l2 : List Blk)
    (hr : Repr s (l1 ++ b :: l2)) :
    ((∀ l0 p, l1 = l0 ++ [p] → p.free = false) →
        mm_free s (s.head + span l1 + BLOCK_SIZE) =
          mm_free_step1 s (s.head + span l1 + BLOCK_SIZE)) ∧
      ∀ l0 p, l1 = l0 ++ [p] → p.free = true →
        (∀ x, s.head + span l1 ≤ x →
          x < s.head + span l1 + BLOCK_SIZE + (mergeNext b l2).1.size →
            (mm_free s (s.head + span l1 + BLOCK_SIZE)).mem x = 0) ∧
        get_size (mm_free s (s.head + span l1 + BLOCK_SIZE)).mem (s.head + span l0) =
          p.size + (mergeNext b l2).1.size + BLOCK_SIZE := by
  have hB : BLOCK_SIZE = 32 := rfl
  obtain ⟨g, _, _⟩ := step1_bytes s l1 b l2 hr
  have hh := mm_free_step1_head s (s.head + span l1 + BLOCK_SIZE)
  have e : s.head + span l1 + BLOCK_SIZE - BLOCK_SIZE = s.head + span l1 := by omega
  rw [mm_free_steps s _ (by omega), e]
  refine ⟨fun h => ?_, fun l0 p hl hp => ?_⟩
  · have := free_prev_id _ l1 _ _ g h
    rw [hh] at this
    exact this
  · subst hl
    have g1 : Repr (mm_free_step1 s (s.head + span (l0 ++ [p]) + BLOCK_SIZE))
        (l0 ++ p :: (mergeNext b l2).1 :: (mergeNext b l2).2) := by
      rw [List.append_assoc] at g; exact g
    have hsp : s.head + span (l0 ++ [p]) = s.head + span l0 + BLOCK_SIZE + p.size := by
      rw [span_append]; simp only [span]; omega
    have hq := free_prev_eq _ l0 p _ _ g1 hp
    rw [hh] at hq
    rw [hsp] at hq ⊢
    rw [hq]
    refine ⟨fun x hx1 hx2 => ?_, ?_⟩
    · have := append_zero _ l0 p _ _ g1 x
      rw [hh, hsp] at this
      exact this hx1 (by omega)
    · have := append_repr _ l0 p _ _ g1
      rw [hh, hsp] at this
      have q := (Repr_parts _ l0 _ _ this).2.1.1
      rw [(append_fields _ _ _).1, mm_free_step1_head] at q
      exact q

/-- Absorbed blocks are cleared in a state reached while every byte count
stayed within `INTPTR_MAX`. In every such state, for the
release of a live pointer `p` with block `B = p - BLOCK_SIZE`:
when the successor of `B` is free, the first coalescing step merges it into
`B`: right after that step the header of `B` holds the enlarged size, and all
`BLOCK_SIZE + size` bytes of the successor, header and payload, are zero, then
and after `mm_free`; without a free predecessor `mm_free` ends with that step,
so `B` keeps the enlarged size and the payload bytes of `B` are unchanged; with a
free predecessor the second step merges `B` into it: all
`BLOCK_SIZE + size` bytes of `B`, with the size `B` has at that time, are zero
after `mm_free`, and the header of the predecessor holds the enlarged size. -/
theorem absorbed_blocks_cleared (s : State) (hs : Reachable s) (p : Nat) (hp : Live s p) :
    (nextFree s (p - BLOCK_SIZE) →
      get_size (mm_free_step1 s p).mem (p - BLOCK_SIZE) =
        get_size s.mem (p - BLOCK_SIZE) +
          get_size s.mem (get_next s.mem (p - BLOCK_SIZE)) + BLOCK_SIZE ∧
      ∀ x, get_next s.mem (p - BLOCK_SIZE) ≤ x →
        x < get_next s.mem (p - BLOCK_SIZE) + BLOCK_SIZE +
          get_size s.mem (get_next s.mem (p - BLOCK_SIZE)) →
          (mm_free_step1 s p).mem x = 0 ∧ (mm_free s p).mem x = 0) ∧
    (¬ nextFree s (p - BLOCK_SIZE) →
      get_size (mm_free_step1 s p).mem (p - BLOCK_SIZE) = get_size s.mem (p - BLOCK_SIZE)) ∧
    (¬ prevFree s (p - BLOCK_SIZE) →
      mm_free s p = mm_free_step1 s p ∧
      ∀ x, p ≤ x → x < p + get_size s.mem (p - BLOCK_SIZE) → (mm_free s p).mem x = s.mem x) ∧
    (prevFree s (p - BLOCK_SIZE) →
      (∀ x, p - BLOCK_SIZE ≤ x →
        x < p - BLOCK_SIZE + BLOCK_SIZE + get_size (mm_free_step1 s p).mem (p - BLOCK_SIZE) →
          (mm_free s p).mem x = 0) ∧
      get_size (mm_free s p).mem (get_prev s.mem (p - BLOCK_SIZE)) =
        get_size s.mem (get_prev s.mem (p - BLOCK_SIZE)) +
          get_size (mm_free_step1 s p).mem (p - BLOCK_SIZE) + BLOCK_SIZE) := by
  have hB : BLOCK_SIZE = 32 := rfl
  obtain ⟨bs, hr, _, _⟩ := Reachable_Inv s hs
  obtain ⟨l1, b, l2, e, hpp, _⟩ := Live_block s bs p hr hp
  subst e
  have eB : p - BLOCK_SIZE = s.head + span l1 := by omega
  rw [eB, hpp]
  obtain ⟨g, z1, z2⟩ := step1_bytes s l1 b l2 hr
  obtain ⟨t1, t2⟩ := step2_bytes s l1 b l2 hr
  have hsz : get_size s.mem (s.head + span l1) = b.size := (Repr_parts s l1 b l2 hr).2.1.1
  have hs1 : get_size (mm_free_step1 s (s.head + span l1 + BLOCK_SIZE)).mem (s.head + span l1) =
      (mergeNext b l2).1.size := by
    have := (Repr_parts _ l1 _ _ g).2.1.1
    rw [mm_free_step1_head] at this
    exact this
  have hms := mergeNext_size_ge b l2
  have hnoprev : ¬ prevFree s (s.head + span l1) → ∀ l0 q, l1 = l0 ++ [q] → q.free = false := by
    intro hnp l0 q hl
    rcases prev_facts s l1 b l2 hr with ⟨h1, _⟩ | ⟨_, h2, _⟩
    · exact absurd h1 hnp
    · rw [hl, leftKeep_concat] at h2
      by_contra hq
      rw [if_pos (by simpa using hq)] at h2
      have := congrArg List.length h2
      simp at this
  rw [hs1, hsz]
  refine ⟨fun hn => ?_, fun hn => ?_, fun hnp => ?_, fun hpf => ?_⟩
  · rcases next_facts s l1 b l2 hr with ⟨_, c, l3, hl, hc, n1, n2, n3⟩ | ⟨h1, _⟩
    · rw [n2, n1, n3]
      refine ⟨rfl, fun x hx1 hx2 => ?_⟩
      have hz := z1 c l3 hl hc x hx1 hx2
      refine ⟨hz, ?_⟩
      by_cases hpf : prevFree s (s.head + span l1)
      · rcases prev_facts s l1 b l2 hr with ⟨_, l0, q, hl1, hq, _⟩ | ⟨h1, _⟩
        · apply (t2 l0 q hl1 hq).1 x (by omega)
          rw [n3]
          simp only
          omega
        · exact absurd hpf h1
      · rw [t1 (hnoprev hpf)]
        exact hz
    · exact absurd hn h1
  · rcases next_facts s l1 b l2 hr with ⟨h1, _⟩ | ⟨_, n3⟩
    · exact absurd h1 hn
    · rw [n3]
  · rw [t1 (hnoprev hnp)]
    exact ⟨rfl, fun x hx1 hx2 => z2 x hx1 hx2⟩
  · rcases prev_facts s l1 b l2 hr with ⟨_, l0, q, hl1, hq, q1, q2, _⟩ | ⟨h1, _⟩
    · obtain ⟨u1, u2⟩ := t2 l0 q hl1 hq
      rw [q1] at q2 ⊢
      rw [q2, u2]
      exact ⟨fun x hx1 hx2 => u1 x hx1 hx2, rfl⟩
    · exact absurd hpf h1

/-! ### Resize in place -/

/-- No block of a prefix of the directory fits when none of its addresses
does. -/
theorem prefix_no_fit (s : State) (l1 : List Blk) (b : Blk) (l2 : List Blk) (n : Nat)
    (hr : Repr s (l1 ++ b :: l2)) (h : ∀ c ∈ addrs s.head l1, ¬ fits s.mem n c) :
    ∀ c ∈ l1, ¬ Fits n c := by
  intro c hc
  obtain ⟨m1, m2, e⟩ := List.append_of_mem hc
  subst e
  have hx : s.head + span m1 ∈ addrs s.head (m1 ++ c :: m2) := by
    rw [mem_addrs]; exact ⟨m1, c, m2, rfl, rfl⟩
  have hat : At s.head ((m1 ++ c :: m2) ++ b :: l2) (s.head + span m1) c := by
    rw [At_iff]; exact ⟨m1, m2 ++ b :: l2, by simp, rfl⟩
  rw [← fits_iff s _ _ n c hr hat]
  exact h _ hx

/-- In-place resize in a state reached while every byte count stayed within
`INTPTR_MAX`. In every such state, for a live pointer `p`
whose block `B = p - BLOCK_SIZE` has size `old_size`, and `0 < n ≤ old_size`:
if the predecessor of `B` is absent or used and no block before `B` in the
directory is free with size at least `n`, then `mm_realloc p n` returns given
fuel for the scan, and whenever it returns, the result is `p` itself, `p` is
live, the first `n` payload bytes are those before the call, and `sbrk` has not
been called. -/
theorem in_place_resize (s : State) (hs : Reachable s) (p : Nat) (hp : Live s p)
    (l k1 k2 : List Nat) (hl : Directory s l) (hd : l = k1 ++ (p - BLOCK_SIZE) :: k2)
    (n : Nat) (hn : 0 < n) (hle : n ≤ get_size s.mem (p - BLOCK_SIZE))
    (hprev : ¬ prevFree s (p - BLOCK_SIZE)) (hfirst : ∀ c ∈ k1, ¬ fits s.mem n c) :
    (∀ fuel, k1.length + 1 ≤ fuel → ∃ s1, mm_realloc fuel s p n = .ok (s1, p)) ∧
    ∀ fuel s1 r, mm_realloc fuel s p n = .ok (s1, r) →
      r = p ∧ Live s1 p ∧ (∀ i, i < n → s1.mem (p + i) = s.mem (p + i)) ∧
        s1.calls = s.calls ∧ s1.brk = s.brk := by
  have hB : BLOCK_SIZE = 32 := rfl
  obtain ⟨bs, hr, _, _⟩ := Reachable_Inv s hs
  obtain ⟨_, _, hp32⟩ := Live_At s bs p (Repr_Rep0 s bs hr) hp
  have hp0 := Live_ne_zero s p hp
  have el := Chain_unique _ _ _ _ hl (Repr_directory s bs hr)
  rw [hd] at el
  obtain ⟨l1, b, l2, e1, e2, e3, _⟩ := addrs_split bs s.head k1 _ k2 el.symm
  subst e1
  have hpe : p = s.head + span l1 + BLOCK_SIZE := by omega
  have hsz : get_size s.mem (p - BLOCK_SIZE) = b.size := by
    rw [e3]; exact (Repr_parts s l1 b l2 hr).2.1.1
  rw [hsz] at hle
  have hno := prefix_no_fit s l1 b l2 n hr (by rw [← e2]; exact hfirst)
  have hlen : k1.length = l1.length := by rw [e2, addrs_length]
  -- the directory after the release
  have hkeep : leftKeep l1 = l1 ∧ ∀ b1, mergedBlk l1 b1 = b1 := by
    rcases prev_facts s l1 b l2 hr with ⟨h1, _⟩ | ⟨_, h2⟩
    · rw [e3] at hprev; exact absurd h1 hprev
    · exact h2
  have hrf := free_repr s l1 b l2 hr
  have hshape : afree l1 b l2 = l1 ++ (mergeNext b l2).1 :: (mergeNext b l2).2 := by
    unfold afree
    rw [mergePrev_shape, hkeep.1, hkeep.2]
  rw [hshape, ← hpe] at hrf
  have hh := (mm_free_fields s p).1
  have hc := (mm_free_fields s p).2.2.2
  have hb := (mm_free_fields s p).2.1
  have hfit : Fits n (mergeNext b l2).1 :=
    ⟨mergeNext_free b l2, by have := mergeNext_size_ge b l2; omega⟩
  -- the inner request
  have hfound := fun fuel (hf : l1.length + 1 ≤ fuel) =>
    malloc_found _ n l1 _ _ hrf hno hfit (by omega) fuel hf
  obtain ⟨g2, f1, f2, _, f4, _⟩ := reuse_ok _ (reuse (mm_free s p)
    ((mm_free s p).head + span l1) n).1 _ n l1 _ _ rfl hrf hfit.2
  have hres : (reuse (mm_free s p) ((mm_free s p).head + span l1) n) =
      ((reuse (mm_free s p) ((mm_free s p).head + span l1) n).1, p) := by
    apply Prod.ext
    · rfl
    · show (reuse _ _ _).2 = p
      rw [(reuse_fields _ _ _).2.2.2.2, hh]
      omega
  generalize hs2 : (reuse (mm_free s p) ((mm_free s p).head + span l1) n).1 = s2
    at g2 f1 f2 f4 hres
  have hk : (if n < get_size s.mem (p - BLOCK_SIZE) then n
      else get_size s.mem (p - BLOCK_SIZE)) = n := by
    rw [hsz]; split <;> omega
  have hre := fun fuel (hf : l1.length + 1 ≤ fuel) =>
    realloc_eq fuel s s2 p n p hp0 (by omega) (by rw [hfound fuel hf, hres]) hp0
  simp only [hk] at hre
  -- the state after the copy
  obtain ⟨u, rr, a1, a2, a3, _, _⟩ := asplit_head n (mergeNext b l2).1 hfit.2
  rw [a1] at g2
  have hpe2 : p = s2.head + span l1 + BLOCK_SIZE := by rw [f1, hh]; exact hpe
  have g3 := Repr_payload s2 l1 u (rr ++ (mergeNext b l2).2) (memcpy s2.mem p (fun i => s.mem (p + i)) n) g2
    (fun x hx => memcpy_out _ _ _ _ x (by omega))
  have hlive := block_Live _ l1 u (rr ++ (mergeNext b l2).2) g3 a2
  have hfinal : ∀ fuel s1 r, mm_realloc fuel s p n = .ok (s1, r) →
      s1 = { s2 with mem := memcpy s2.mem p (fun i => s.mem (p + i)) n } ∧ r = p := by
    intro fuel s1 r h
    obtain ⟨s2', h2, _⟩ := realloc_ok_inv fuel s s1 p n r hp0 (by omega) h
    have e := malloc_fuel _ n fuel (l1.length + 1) _ _ h2 (hfound _ (Nat.le_refl _))
    rw [hres] at e
    have er : r = p := congrArg Prod.snd e
    have es : s2' = s2 := congrArg Prod.fst e
    subst er es
    have := realloc_eq fuel s s2' r n r hp0 (by omega) h2 hp0
    simp only [hk] at this
    rw [this] at h
    simp only [Except.ok.injEq, Prod.mk.injEq, and_true] at h
    exact ⟨h.symm, rfl⟩
  refine ⟨fun fuel hf => ⟨_, hre fuel (by omega)⟩, fun fuel s1 r h => ?_⟩
  obtain ⟨es, er⟩ := hfinal fuel s1 r h
  subst es er
  refine ⟨rfl, ?_, fun i hi => by dsimp only; exact memcpy_in _ _ _ _ i hi, by rw [← hc, ← f4], by rw [← hb, ← f2]⟩
  have := hlive
  dsimp only at this
  rw [← hpe2] at this
  exact this

/-! ### The global `head` -/

/-- What `mm_malloc` does to `head` in a represented state: it leaves it
alone, and then a null `head` comes with a null result and an unmoved break; or
`head` was null and is set to the address a successful `sbrk` returned. -/
theorem malloc_head (fuel : Nat) (s s1 : State) (n r : Nat) (bs : List Blk) (hr : Repr s bs)
    (h : mm_malloc fuel s n = .ok (s1, r)) :
    (s1.head = s.head ∧ (s.head = 0 → r = 0 ∧ s1.brk = s.brk)) ∨
      (s.head = 0 ∧ (sbrk s ((BLOCK_SIZE + n) % WORD)).2 ≠ SBRK_FAIL ∧
        s1.head = (sbrk s ((BLOCK_SIZE + n) % WORD)).2 ∧ s1.head = s.brk ∧
        r = s1.head + BLOCK_SIZE ∧ s1.calls = s.calls ++ [(BLOCK_SIZE + n) % WORD] ∧
        s1.brk = (sbrk s ((BLOCK_SIZE + n) % WORD)).1.brk) := by
  have hS : SBRK_FAIL = 2 ^ 64 - 1 := rfl
  by_cases hn : n = 0
  · rw [hn, mm_malloc_zero] at h
    simp only [Except.ok.injEq, Prod.mk.injEq] at h
    rw [← h.1, ← h.2]
    exact Or.inl ⟨rfl, fun _ => ⟨rfl, rfl⟩⟩
  · rcases (malloc_fields s s1 fuel n r bs hr hn h).2 with
      ⟨⟨b, hb, _⟩, a1, _⟩ | ⟨_, a1, ⟨hf, a2, a4, _⟩ | ⟨_, a2, a3, a4, _⟩⟩
    · refine Or.inl ⟨a1, fun h0 => ?_⟩
      have hne : bs ≠ [] := by intro he; rw [he] at hb; exact absurd hb (List.not_mem_nil _)
      exact absurd h0 (hr.2.2.2.1 hne).1
    · by_cases hh : s.head = 0
      · right
        rw [if_pos hh] at a4
        have hsb : (sbrk s ((BLOCK_SIZE + n) % WORD)).2 = s.brk ∧
            s1.brk = (sbrk s ((BLOCK_SIZE + n) % WORD)).1.brk := by
          rcases hf with ⟨c1, c2, c3⟩ | ⟨c1, c2, c3⟩
          · rw [sbrk_ok s _ c2 c1]; exact ⟨rfl, c3⟩
          · rw [sbrk_lower s _ c1 c2]; exact ⟨rfl, c3⟩
        have h1 := hr.2.2.2.2.2.1
        have h2 := hr.2.2.2.2.2.2
        exact ⟨hh, by rw [hsb.1]; omega, by rw [hsb.1, a4], a4, by rw [a4, a2], a1, hsb.2⟩
      · rw [if_neg hh] at a4
        exact Or.inl ⟨a4, fun h0 => absurd h0 hh⟩
    · exact Or.inl ⟨a4, fun _ => ⟨a2, a3⟩⟩

/-- A returning `mm_realloc` with a null or live pointer leaves a non-null
`head` alone. -/
theorem realloc_head (fuel : Nat) (s s1 : State) (p n r : Nat) (hi : Inv s) (hh : s.head ≠ 0)
    (hp : p = 0 ∨ Live s p) (h : mm_realloc fuel s p n = .ok (s1, r)) : s1.head = s.head := by
  have keep : ∀ (t t1 : State) (x : Nat), Inv t → t.head ≠ 0 →
      mm_malloc fuel t n = .ok (t1, x) → t1.head = t.head := by
    intro t t1 x hit ht hm
    obtain ⟨bs, hr, _⟩ := hit
    rcases malloc_head fuel t t1 n x bs hr hm with ⟨a, _⟩ | ⟨a, _⟩
    · exact a
    · exact absurd a ht
  by_cases hp0 : p = 0
  · subst hp0
    unfold mm_realloc at h
    simp only [ne_eq, not_true_eq_false, if_false] at h
    exact keep s s1 r hi hh h
  · by_cases hn : n = 0
    · subst hn
      rw [realloc_zero fuel s p hp0] at h
      simp only [Except.ok.injEq, Prod.mk.injEq] at h
      rw [← h.1]
      exact (mm_free_fields s p).1
    · obtain ⟨s2, h2, _, _, _, c3, _⟩ := realloc_ok_inv fuel s s1 p n r hp0 hn h
      rw [c3, keep _ s2 r (Inv_free s p hi hp) (by rw [(mm_free_fields s p).1]; exact hh) h2]
      exact (mm_free_fields s p).1

theorem Directory_head (s : State) (l : List Nat) (hl : Directory s l) (hh : s.head ≠ 0) :
    ∃ t, l = s.head :: t := by
  cases l with
  | nil => exact absurd hl hh
  | cons b t => exact ⟨t, by rw [hl.2.1]⟩

/-- The block at `head` is not absorbed by a release. -/
theorem head_not_absorbed (s : State) (bs : List Blk) (p : Nat) (hr : Repr s bs)
    (hp : Live s p) : ¬ absorbed s (p - BLOCK_SIZE) s.head := by
  have hB : BLOCK_SIZE = 32 := rfl
  obtain ⟨l1, b, l2, e, hpp, _⟩ := Live_block s bs p hr hp
  subst e
  have eB : p - BLOCK_SIZE = s.head + span l1 := by omega
  rw [eB]
  intro hab
  rcases hab with ⟨h1, h2⟩ | ⟨h1, h2⟩
  · rcases prev_facts s l1 b l2 hr with ⟨_, l0, q, hl, _⟩ | ⟨h3, _⟩
    · rw [hl, span_append] at h1
      simp only [span] at h1
      omega
    · exact h3 h2
  · rcases next_facts s l1 b l2 hr with ⟨_, _, _, _, _, n1, _⟩ | ⟨h3, _⟩
    · rw [n1] at h1
      omega
    · exact h3 h2

theorem Live_head (s : State) (p : Nat) (hp : Live s p) : s.head ≠ 0 := by
  obtain ⟨l, hl, b, hb, _⟩ := hp
  cases l with
  | nil => exact absurd hb (List.not_mem_nil _)
  | cons c t => exact hl.1

/-- The global `head` is set exactly once while every byte count stays within
`INTPTR_MAX`. In every state reached by such calls:
while `head` is null, `mm_free` leaves it null, and a returning `mm_malloc` or
`mm_realloc` either leaves it null, with a null result and the break unmoved,
or has called `sbrk` successfully and set `head` to the address `sbrk`
returned, the old break, which is not null;
once `head` is not null, no returning `mm_malloc`, no `mm_free` and no returning
`mm_realloc` changes it, the block at `head` is never a block absorbed by the
release of a live pointer, and it is still the first block of the directory
after a release and after a request, split or not. -/
theorem head_set_once (s : State) (hs : Reachable s) :
    (s.head = 0 →
      (∀ p, (mm_free s p).head = 0) ∧
      ∀ fuel p n s1 r, (p = 0 ∨ Live s p) →
        (mm_malloc fuel s n = .ok (s1, r) ∨ mm_realloc fuel s p n = .ok (s1, r)) →
          (s1.head = 0 ∧ r = 0 ∧ s1.brk = s.brk) ∨
          ((sbrk s ((BLOCK_SIZE + n) % WORD)).2 ≠ SBRK_FAIL ∧
            s1.head = (sbrk s ((BLOCK_SIZE + n) % WORD)).2 ∧ s1.head = s.brk ∧ s1.head ≠ 0 ∧
            r = s1.head + BLOCK_SIZE ∧ s1.calls = s.calls ++ [(BLOCK_SIZE + n) % WORD] ∧
            s1.brk = (sbrk s ((BLOCK_SIZE + n) % WORD)).1.brk)) ∧
    (s.head ≠ 0 →
      (∀ fuel n s1 r, mm_malloc fuel s n = .ok (s1, r) → s1.head = s.head) ∧
      (∀ p, (mm_free s p).head = s.head) ∧
      (∀ fuel p n s1 r, (p = 0 ∨ Live s p) → mm_realloc fuel s p n = .ok (s1, r) →
        s1.head = s.head) ∧
      (∀ p, Live s p → ¬ absorbed s (p - BLOCK_SIZE) s.head ∧
        ∃ t, Directory (mm_free s p) (s.head :: t)) ∧
      ∀ fuel n s1 r, n < WORD → mm_malloc fuel s n = .ok (s1, r) →
        ∃ t, Directory s1 (s.head :: t)) := by
  have hi := Reachable_Inv s hs
  obtain ⟨bs, hr, _, _⟩ := hi
  refine ⟨fun h0 => ⟨fun p => by rw [(mm_free_fields s p).1, h0], ?_⟩, fun hh => ?_⟩
  · intro fuel p n s1 r hp h
    have hm : mm_malloc fuel s n = .ok (s1, r) := by
      rcases h with h | h
      · exact h
      · rcases hp with hp | hp
        · subst hp
          unfold mm_realloc at h
          simp only [ne_eq, not_true_eq_false, if_false] at h
          exact h
        · exact absurd h0 (Live_head s p hp)
    rcases malloc_head fuel s s1 n r bs hr hm with ⟨a1, a2⟩ | ⟨_, b1, b2, b3, b4, b5, b6⟩
    · exact Or.inl ⟨by rw [a1, h0], (a2 h0).1, (a2 h0).2⟩
    · have := hr.2.2.2.2.1
      exact Or.inr ⟨b1, b2, b3, by omega, b4, b5, b6⟩
  · have keep : ∀ fuel n s1 r, mm_malloc fuel s n = .ok (s1, r) → s1.head = s.head := by
      intro fuel n s1 r h
      rcases malloc_head fuel s s1 n r bs hr h with ⟨a, _⟩ | ⟨a, _⟩
      · exact a
      · exact absurd a hh
    refine ⟨keep, fun p => (mm_free_fields s p).1,
      fun fuel p n s1 r hp h => realloc_head fuel s s1 p n r (Reachable_Inv s hs) hh hp h,
      fun p hp => ⟨head_not_absorbed s bs p hr hp, ?_⟩, fun fuel n s1 r hw h => ?_⟩
    · obtain ⟨bsf, hrf, _⟩ := Inv_free s p (Reachable_Inv s hs) (Or.inr hp)
      have hd := Repr_directory _ bsf hrf
      have hf := (mm_free_fields s p).1
      obtain ⟨t, ht⟩ := Directory_head _ _ hd (by rw [hf]; exact hh)
      rw [ht, hf] at hd
      exact ⟨t, hd⟩
    · obtain ⟨bs1, g, _⟩ := malloc_step s s1 fuel n r bs hr hw h
      have hd := Rep0_directory s1 bs1 g
      have hk := keep fuel n s1 r h
      obtain ⟨t, ht⟩ := Directory_head _ _ hd (by rw [hk]; exact hh)
      rw [ht, hk] at hd
      exact ⟨t, hd⟩

/-- C23 (amended): bounded internal fragmentation. In every state that holds
a well-formed directory (blocks laid out contiguously from `head` up to the
break, doubly linked, `tail` last) a `size_t` request `n > 0` returns given
fuel, and the block behind a non-null result is used and has a size `s` with
`n ≤ s ≤ n + BLOCK_SIZE`. After growth
(the log of `sbrk` calls changed) and after a split (the chosen block was
larger than `n + BLOCK_SIZE`) `s = n`; a block taken whole keeps the size it
had. So `s = n` exactly after growth, after a split, or when a free block of
exactly `n` bytes is taken whole. -/
theorem C23_bounded_fragmentation (s : State) (hs : WellFormed s) (n : Nat) (hn : 0 < n)
    (hw : n < WORD) :
    (∃ fuel0, ∀ fuel, fuel0 ≤ fuel → ∃ s1 r, mm_malloc fuel s n = .ok (s1, r)) ∧
    ∀ fuel s1 r, mm_malloc fuel s n = .ok (s1, r) → r ≠ 0 →
      get_free s1.mem (r - BLOCK_SIZE) = 0 ∧ n ≤ get_size s1.mem (r - BLOCK_SIZE) ∧
      get_size s1.mem (r - BLOCK_SIZE) ≤ n + BLOCK_SIZE ∧
      (s1.calls ≠ s.calls → get_size s1.mem (r - BLOCK_SIZE) = n) ∧
      (s1.calls = s.calls → n + BLOCK_SIZE < get_size s.mem (r - BLOCK_SIZE) →
        get_size s1.mem (r - BLOCK_SIZE) = n) ∧
      (s1.calls = s.calls → get_size s.mem (r - BLOCK_SIZE) ≤ n + BLOCK_SIZE →
        get_size s1.mem (r - BLOCK_SIZE) = get_size s.mem (r - BLOCK_SIZE)) ∧
      (get_size s1.mem (r - BLOCK_SIZE) = n ↔
        (s1.calls ≠ s.calls ∨
          (s1.calls = s.calls ∧ n + BLOCK_SIZE < get_size s.mem (r - BLOCK_SIZE)) ∨
          (s1.calls = s.calls ∧ get_size s.mem (r - BLOCK_SIZE) = n))) :=
  malloc_block_size s hs n hn hw

/-! ### Concrete runs

The definitions are evaluated on concrete states; `with_unfolding_all` lets
the evaluation see through `load`. -/

theorem w1_ok : mm_malloc 1 w0 100 = .ok (w1, 4128) := (by with_unfolding_all rfl)
theorem w2_ok : mm_malloc 2 w1 50 = .ok (w2, 4260) := (by with_unfolding_all rfl)
theorem w4_ok : mm_malloc 2 w3 16 = .ok (w4, 4128) := (by with_unfolding_all rfl)

theorem w0_reach : Reachable w0 :=
  Reachable.init _ 4096 65536 (by with_unfolding_all decide) (by with_unfolding_all decide)
    (by with_unfolding_all decide)
theorem w1_reach : Reachable w1 :=
  Reachable.malloc w0 w1 1 100 4128 w0_reach (by with_unfolding_all decide) w1_ok
theorem w2_reach : Reachable w2 :=
  Reachable.malloc w1 w2 2 50 4260 w1_reach (by with_unfolding_all decide) w2_ok
theorem w2_dir : Directory w2 [4096, 4228] := by with_unfolding_all decide
theorem w2_live : Live w2 4128 :=
  ⟨[4096, 4228], w2_dir, 4096, by with_unfolding_all decide, (by with_unfolding_all rfl), by with_unfolding_all decide⟩
theorem w2_live2 : Live w2 4260 :=
  ⟨[4096, 4228], w2_dir, 4228, by with_unfolding_all decide, (by with_unfolding_all rfl), by with_unfolding_all decide⟩
theorem w3_reach : Reachable w3 := Reachable.free w2 4128 w2_reach (Or.inr w2_live)
theorem w3_dir : Directory w3 [4096, 4228] := by with_unfolding_all decide
theorem w3_live2 : Live w3 4260 :=
  ⟨[4096, 4228], w3_dir, 4228, by with_unfolding_all decide, (by with_unfolding_all rfl), by with_unfolding_all decide⟩
theorem w4_reach : Reachable w4 :=
  Reachable.malloc w3 w4 2 16 4128 w3_reach (by with_unfolding_all decide) w4_ok
theorem no_adjacent_free_example :
    Reachable w4 ∧ (∃ l, Directory w4 l) ∧ NoAdjacentFree w4 :=
  ⟨w4_reach, no_adjacent_free w4 w4_reach⟩

theorem live_block_frame_example :
    Reachable w2 ∧ Live w2 4128 ∧ Kept w2 (mm_free w2 4260) 4128 :=
  ⟨w2_reach, w2_live,
    (live_block_frame w2 w2_reach 4128 w2_live).2.1 4260 (Or.inr w2_live2) (by with_unfolding_all decide)⟩

theorem directory_structure_example : Reachable w4 ∧ DirectoryInvariant w4 :=
  ⟨w4_reach, directory_structure w4 w4_reach⟩

theorem size_accounting_example :
    Reachable w4 ∧ w4.head ≠ 0 ∧
      ∃ l, Directory w4 l ∧ footprint w4 l = w4.brk - w4.head ∧ w4.head ≤ w4.brk :=
  ⟨w4_reach, by with_unfolding_all decide,
    (size_accounting w4 w4_reach (by with_unfolding_all decide)).imp
      fun _ h => ⟨h.1, h.2.1, h.2.2.1⟩⟩

theorem coalescing_example :
    Reachable w3 ∧ Live w3 4260 ∧ prevFree w3 (4260 - BLOCK_SIZE) ∧
      get_size (mm_free w3 4260).mem (survivor w3 (4260 - BLOCK_SIZE)) =
        mergedSize w3 (4260 - BLOCK_SIZE) ∧
      Directory (mm_free w3 4260)
        ((if prevFree w3 (4260 - BLOCK_SIZE) then [4096] else [4096] ++ [4260 - BLOCK_SIZE]) ++
          (if nextFree w3 (4260 - BLOCK_SIZE) then ([] : List Nat).tail else [])) :=
  have h := coalescing w3 w3_reach 4260 w3_live2 [4096, 4228] [4096] [] w3_dir (by with_unfolding_all rfl)
  ⟨w3_reach, w3_live2, by with_unfolding_all decide, h.2.1, h.2.2.2.2.1⟩

/-- C3, evaluated at the failing input: on the empty directory `w0` (break
4096) the request `mm_malloc (2 ^ 64 - 1)` succeeds and returns 4128, having
obtained only `(32 + (2 ^ 64 - 1)) mod 2 ^ 64 = 31` bytes from grow-heap: the
recorded block has size `2 ^ 64 - 1` and the returned payload starts beyond the
new break 4127, so it does not lie inside the heap. -/
theorem C3_wrapped_request_escapes_heap :
    Reachable w0 ∧ mm_malloc 1 w0 (2 ^ 64 - 1) = .ok (wmax, 4128) ∧
      wmax.head = 4096 ∧ wmax.brk = 4127 ∧ get_size wmax.mem 4096 = 2 ^ 64 - 1 ∧
      get_free wmax.mem 4096 = 0 ∧ ¬ (4128 + (2 ^ 64 - 1) ≤ wmax.brk) :=
  ⟨Reachable.init _ 4096 65536 (by with_unfolding_all decide) (by with_unfolding_all decide)
    (by with_unfolding_all decide),
    (by with_unfolding_all rfl), by with_unfolding_all decide, by with_unfolding_all decide, by with_unfolding_all decide,
    by with_unfolding_all decide, by with_unfolding_all decide⟩

/-- C8, evaluated at the failing input: on the empty directory `w0` no block
fits, and `mm_malloc (2 ^ 64 - 1)` asks grow-heap for 31 bytes, not for
`BLOCK_SIZE + (2 ^ 64 - 1)`, yet records a block of size `2 ^ 64 - 1` at the
previous break. -/
theorem C8_growth_request_wraps :
    mm_malloc 1 w0 (2 ^ 64 - 1) = .ok (wmax, 4128) ∧ w0.calls = [] ∧ wmax.calls = [31] ∧
      wmax.calls ≠ w0.calls ++ [BLOCK_SIZE + (2 ^ 64 - 1)] ∧
      wmax.brk = w0.brk + 31 ∧ get_size wmax.mem w0.brk = 2 ^ 64 - 1 :=
  ⟨(by with_unfolding_all rfl), by with_unfolding_all decide, by with_unfolding_all decide, by with_unfolding_all decide, by with_unfolding_all decide,
    by with_unfolding_all decide⟩

theorem wlim_reach : Reachable wlim :=
  Reachable.init _ 4096 4228 (by with_unfolding_all decide) (by with_unfolding_all decide)
    (by with_unfolding_all decide)
theorem wlim1_ok : mm_malloc 1 wlim 100 = .ok (wlim1, 4128) := by with_unfolding_all rfl
theorem wlim1_reach : Reachable wlim1 :=
  Reachable.malloc wlim wlim1 1 100 4128 wlim_reach (by with_unfolding_all decide) wlim1_ok
theorem wlim1_dir : Directory wlim1 [4096] := by with_unfolding_all decide
theorem wlim1_live : Live wlim1 4128 :=
  ⟨[4096], wlim1_dir, 4096, by with_unfolding_all decide, by with_unfolding_all rfl,
    by with_unfolding_all decide⟩
theorem w1_live : Live w1 4128 :=
  ⟨[4096], by with_unfolding_all decide, 4096, by with_unfolding_all decide,
    by with_unfolding_all rfl, by with_unfolding_all decide⟩
theorem wr1_reach : Reachable wr1 := Reachable.free w1 4128 w1_reach (Or.inr w1_live)
theorem w6_reach : Reachable w6 :=
  Reachable.write w2 4128 4130 7 w2_reach w2_live (by with_unfolding_all decide)
    (by with_unfolding_all decide)
theorem w6_live : Live w6 4128 :=
  ⟨[4096, 4228], by with_unfolding_all decide, 4096, by with_unfolding_all decide,
    by with_unfolding_all rfl, by with_unfolding_all decide⟩

theorem C11_malloc_out_of_memory_witness :
    WellFormed wlim1 ∧ Directory wlim1 [4096] ∧ ¬ fits wlim1.mem 50 4096 ∧
      (sbrk wlim1 ((BLOCK_SIZE + 50) % WORD)).2 = SBRK_FAIL ∧
      mm_malloc 2 wlim1 50 = .ok ({ wlim1 with calls := wlim1.calls ++ [82] }, 0) :=
  ⟨Reachable_WellFormed wlim1 wlim1_reach, wlim1_dir,
    fun h => absurd h.1 (by with_unfolding_all decide), by with_unfolding_all decide,
    (C11_malloc_out_of_memory wlim1 (Reachable_WellFormed wlim1 wlim1_reach) 50
      (by with_unfolding_all decide) [4096] wlim1_dir
      (fun c hc h => by
        rw [List.mem_singleton] at hc
        subst hc
        exact absurd h.1 (by with_unfolding_all decide))
      (by with_unfolding_all decide)).1 2 (by with_unfolding_all decide)⟩

/-- C12, evaluated at the failing input: on the empty directory `w0` the
request `mm_malloc (2 ^ 64 - 1)`, the value of `-1` in `size_t`, does not fail.
It returns the non-null pointer 4128 and changes the state: `sbrk` is called
with the wrapped byte count `(BLOCK_SIZE + (2 ^ 64 - 1)) mod 2 ^ 64 = 31`,
`head` and `tail` are set, and the recorded block has size `2 ^ 64 - 1`, more
than the 31 bytes obtained. -/
theorem C12_negative_request_allocates :
    mm_malloc 1 w0 (2 ^ 64 - 1) = .ok (wmax, 4128) ∧ (4128 : Nat) ≠ 0 ∧
      wmax.calls = w0.calls ++ [(BLOCK_SIZE + (2 ^ 64 - 1)) % WORD] ∧
      (BLOCK_SIZE + (2 ^ 64 - 1)) % WORD = 31 ∧
      w0.head = 0 ∧ wmax.head = 4096 ∧ w0.tail = 0 ∧ wmax.tail = 4096 ∧
      wmax.brk - w0.brk = 31 ∧ 31 < get_size wmax.mem 4096 ∧ wmax.mem ≠ w0.mem :=
  ⟨by with_unfolding_all rfl, by decide, by with_unfolding_all decide,
    by with_unfolding_all decide, by with_unfolding_all decide, by with_unfolding_all decide,
    by with_unfolding_all decide, by with_unfolding_all decide, by with_unfolding_all decide,
    by with_unfolding_all decide,
    fun h => absurd (congrFun h 4096) (by with_unfolding_all decide)⟩

theorem realloc_preserves_data_example :
    Reachable w6 ∧ Live w6 4128 ∧ w6.mem 4130 = 7 ∧
      ∃ s3, mm_realloc 2 w6 4128 16 = .ok (s3, 4128) ∧ Live s3 4128 ∧
        get_free s3.mem (4128 - BLOCK_SIZE) = 0 ∧ 16 ≤ get_size s3.mem (4128 - BLOCK_SIZE) ∧
        s3.mem (4128 + 2) = 7 := by
  obtain ⟨s3, h1, h2, h3, h4, h5⟩ :=
    (realloc_preserves_data w6 w6_reach 4128 w6_live 16 (by with_unfolding_all decide)
      (by with_unfolding_all decide)).2 2 (reuse (mm_free w6 4128) 4096 16).1 4128
      (by with_unfolding_all rfl) (by with_unfolding_all decide)
  have h6 : w6.mem (4128 + 2) = 7 := by with_unfolding_all decide
  exact ⟨w6_reach, w6_live, h6, s3, h1, h2, h3, h4,
    (h5 2 (by with_unfolding_all decide)).trans h6⟩

/-- C14, evaluated at the failing input: in the reachable state `wlim1` (one
used block of 100 bytes at 4096, break at its limit 4228) the pointer 4128 is
live; after its release the only block, of 100 bytes, does not fit 200 bytes and
`sbrk (32 + 200)` fails, so the inner request returns `NULL`. `mm_realloc` then
copies the 100 staged bytes through that `NULL`: the run faults, and for no fuel
does it return. -/
theorem C14_realloc_failure_writes_through_null :
    Reachable wlim1 ∧ Live wlim1 4128 ∧ Directory (mm_free wlim1 4128) [4096] ∧
      ¬ fits (mm_free wlim1 4128).mem 200 4096 ∧
      (sbrk (mm_free wlim1 4128) ((BLOCK_SIZE + 200) % WORD)).2 = SBRK_FAIL ∧
      (∃ s2, mm_malloc 2 (mm_free wlim1 4128) 200 = .ok (s2, 0)) ∧
      mm_realloc 2 wlim1 4128 200 = .error .nullWrite ∧
      ∀ fuel s1 r, mm_realloc fuel wlim1 4128 200 ≠ .ok (s1, r) :=
  ⟨wlim1_reach, wlim1_live, by with_unfolding_all decide,
    fun h => absurd h.2 (by with_unfolding_all decide), by with_unfolding_all decide,
    ⟨_, by with_unfolding_all rfl⟩, by with_unfolding_all rfl,
    (realloc_oom_faults wlim1 wlim1_reach 4128 wlim1_live 200 (by with_unfolding_all decide)
      [4096] (by with_unfolding_all decide)
      (fun c hc h => by
        rw [List.mem_singleton] at hc
        subst hc
        exact absurd h.2 (by with_unfolding_all decide))
      (by with_unfolding_all decide)).2⟩

theorem C16_realloc_zero_is_free_witness :
    Live w2 4128 ∧ mm_realloc 0 w2 4128 0 = .ok (w3, 0) ∧ w3.calls = w2.calls ∧
      w3.brk = w2.brk :=
  ⟨w2_live, C16_realloc_zero_is_free w2 4128 w2_live 0⟩

/-- C17, evaluated at the failing input: in the reachable state `wr1` (one
free block of 100 bytes, break 4228) the request `S = 2 ^ 64 - 1` succeeds with
the pointer 4260 after `sbrk 31`; after `mm_free 4260` the request
`S' = 1000 ≤ S` finds only a free block of 131 bytes and calls `sbrk 1032`: the
break moves from 4259 to 5291. -/
theorem C17_reuse_fails_after_wrapped_request :
    Reachable wr1 ∧ mm_malloc 2 wr1 (2 ^ 64 - 1) = .ok (wr2, 4260) ∧ (4260 : Nat) ≠ 0 ∧
      1000 ≤ 2 ^ 64 - 1 ∧ wr2.calls = [132, 31] ∧ wr2.brk = 4259 ∧
      Directory (mm_free wr2 4260) [4096] ∧ get_size (mm_free wr2 4260).mem 4096 = 131 ∧
      mm_malloc 2 (mm_free wr2 4260) 1000 = .ok (wr4, 4291) ∧
      wr4.calls = wr2.calls ++ [1032] ∧ wr4.brk = 5291 :=
  ⟨wr1_reach, by with_unfolding_all rfl, by decide, by decide, by with_unfolding_all decide,
    by with_unfolding_all decide, by with_unfolding_all decide, by with_unfolding_all decide,
    by with_unfolding_all rfl, by with_unfolding_all decide, by with_unfolding_all decide⟩

theorem realloc_reuses_freed_example :
    (Reachable w3 ∧ Live w3 4260 ∧ prevFree w3 (4260 - BLOCK_SIZE) ∧
      mergedSize w3 (4260 - BLOCK_SIZE) = 182 ∧
      (∃ s1, mm_realloc 2 w3 4260 150 = .ok (s1, 4128)) ∧
      ∀ fuel s1 r, mm_realloc fuel w3 4260 150 = .ok (s1, r) →
        r ≠ 0 ∧ s1.calls = w3.calls ∧ s1.brk = w3.brk) ∧
    ∃ s1 arr1 s3 arr3, alloc_ints 10000 10000 wbig = .ok (s1, arr1) ∧
      mm_realloc_small_reuse 10000 10000 wbig = .ok (s3, arr3) ∧
      s3.brk = s1.brk ∧ s3.calls = s1.calls ∧ load s3.mem (arr3 9998) INT_SIZE = 9998 :=
  ⟨⟨w3_reach, w3_live2, by with_unfolding_all decide, by with_unfolding_all decide,
    ⟨_, by with_unfolding_all rfl⟩,
    (realloc_reuses_freed.1 w3 w3_reach 4260 w3_live2 150
      (by with_unfolding_all decide) (by with_unfolding_all decide)).2.2.2⟩,
    (realloc_reuses_freed.2 (fun _ => 0) 4096 (2 ^ 32) 10000 (by decide) (by decide)
      (by decide) (by decide)).imp fun _ h1 => h1.imp fun _ h2 => h2.imp fun _ h3 =>
        h3.imp fun _ h => ⟨h.1, h.2.1, h.2.2.1, h.2.2.2.1,
          h.2.2.2.2 9998 (by decide) (by decide)⟩⟩

/-- C19 as stated fails: on the empty directory `wbig` (break 4096, limit
`2 ^ 32`) the first allocation of `mm_malloc_small_reuse` leaves the break at
44128; the test's 10000 allocations of one integer all return, but 8888 of them
have called `sbrk 36`, and the break ends at `44128 + 36 * 8888`, not at 44128. -/
theorem C19_scenario_grows_heap :
    ∃ s1 s arr, mm_malloc 10000 wbig (INT_SIZE * 10000 % WORD) = .ok (s1, 4128) ∧
      s1.brk = 44128 ∧ mm_malloc_small_reuse 10000 10000 wbig = .ok (s, arr) ∧
      s.calls = [40032] ++ List.replicate (10000 - 1112) 36 ∧
      s.brk = 44128 + 36 * (10000 - 1112) ∧ s.brk ≠ s1.brk := by
  obtain ⟨s1, a1, a2, a3, a4, _, a6, a7⟩ :=
    small_reuse_scenario (fun _ => 0) 4096 (2 ^ 32) (by decide) (by decide) (by decide) 10000
      (by decide)
  obtain ⟨s, arr, h⟩ := a7 10000 (Nat.le_refl _) (by rw [a2]; decide)
  obtain ⟨c1, c2⟩ := a6 10000 (Nat.le_refl _) s arr h
  rw [a3] at c1
  rw [a2] at c2
  exact ⟨s1, s, arr, a1, a2, a4.trans h, c1, c2, by rw [c2, a2]; decide⟩

theorem C19_large_block_scenario_witness :
    ∃ s1, mm_malloc 2000 w0 (INT_SIZE * 10000 % WORD) = .ok (s1, 4096 + BLOCK_SIZE) ∧
      s1.brk = 4096 + 40032 ∧
      (∃ sk arr, alloc_ints 2000 1112 (mm_free s1 (4096 + BLOCK_SIZE)) = .ok (sk, arr) ∧
        sk.calls = s1.calls ∧ sk.brk = s1.brk) ∧
      ∃ sk arr, alloc_ints 2000 1113 (mm_free s1 (4096 + BLOCK_SIZE)) = .ok (sk, arr) ∧
        sk.calls = s1.calls ++ [36] ∧ sk.brk = s1.brk + 36 := by
  obtain ⟨s1, a1, a2, _, _, a5, a6, a7⟩ :=
    C19_large_block_scenario (fun _ => 0) 4096 65536 (by decide) (by decide) (by decide) 2000
      (by decide)
  obtain ⟨sk, arr, h⟩ := a7 1113 (by decide) (by rw [a2]; decide)
  exact ⟨s1, a1, a2, a5 1112 (by decide) (by decide), sk, arr, h, a6 1113 (by decide) sk arr h⟩

theorem w8_reach : Reachable w8 := Reachable.free w3 4260 w3_reach (Or.inr w3_live2)
theorem w8_dir : Directory w8 [4096] := by with_unfolding_all decide
theorem w10_reach : Reachable w10 :=
  Reachable.write w3 4260 4262 9 w3_reach w3_live2 (by with_unfolding_all decide)
    (by with_unfolding_all decide)
theorem w10_live : Live w10 4260 :=
  ⟨[4096, 4228], by with_unfolding_all decide, 4228, by with_unfolding_all decide,
    by with_unfolding_all rfl, by with_unfolding_all decide⟩

theorem head_set_once_example :
    Reachable w3 ∧ w3.head ≠ 0 ∧ Live w3 4260 ∧ prevFree w3 (4260 - BLOCK_SIZE) ∧
      get_prev w3.mem (4260 - BLOCK_SIZE) = w3.head ∧
      (mm_free w3 4260).head = w3.head ∧ ¬ absorbed w3 (4260 - BLOCK_SIZE) w3.head ∧
      ∃ t, Directory (mm_free w3 4260) (w3.head :: t) :=
  have h := (head_set_once w3 w3_reach).2 (by with_unfolding_all decide)
  ⟨w3_reach, by with_unfolding_all decide, w3_live2, by with_unfolding_all decide,
    by with_unfolding_all decide, h.2.1 4260, (h.2.2.2.1 4260 w3_live2).1,
    (h.2.2.2.1 4260 w3_live2).2⟩

theorem absorbed_blocks_cleared_example :
    Reachable w10 ∧ Live w10 4260 ∧ prevFree w10 (4260 - BLOCK_SIZE) ∧ w10.mem 4262 = 9 ∧
      (mm_free w10 4260).mem 4262 = 0 ∧
      get_size (mm_free w10 4260).mem (get_prev w10.mem (4260 - BLOCK_SIZE)) =
        get_size w10.mem (get_prev w10.mem (4260 - BLOCK_SIZE)) +
          get_size (mm_free_step1 w10 4260).mem (4260 - BLOCK_SIZE) + BLOCK_SIZE :=
  have h := (absorbed_blocks_cleared w10 w10_reach 4260 w10_live).2.2.2
    (by with_unfolding_all decide)
  ⟨w10_reach, w10_live, by with_unfolding_all decide, by with_unfolding_all decide,
    h.1 4262 (by with_unfolding_all decide) (by with_unfolding_all decide), h.2⟩

/-- C23 as stated fails, at two inputs. First, by the design of `split_block`:
in the state `w8`, whose directory is one free block of 182 bytes (two released
blocks merged), `mm_malloc 182` returns 4128 and the block behind it has size
`182 = n`; yet `sbrk` was not called and the block was not split: it is the
same single block, taken whole. Second, in a state whose directory is not well
formed: after `mm_malloc(2 ^ 64 - 16)` on the empty directory `w0`, for which
`sbrk` receives the wrapped count 16, `tail` is 4096 and the break is 4112;
`mm_malloc 10` then grows the heap, returns 4144, and the write
`tail->next = new_block` lands on the size field of the new block: the block
behind 4144 has size 4112, more than `10 + BLOCK_SIZE`. -/
theorem C23_exact_fit_and_clobbered_size :
    (Reachable w8 ∧ Directory w8 [4096] ∧ get_size w8.mem 4096 = 182 ∧
      mm_malloc 1 w8 182 = .ok (w9, 4128) ∧ get_size w9.mem (4128 - BLOCK_SIZE) = 182 ∧
      get_free w9.mem (4128 - BLOCK_SIZE) = 0 ∧ w9.calls = w8.calls ∧ w9.brk = w8.brk ∧
      ¬ (182 + BLOCK_SIZE < get_size w8.mem (4128 - BLOCK_SIZE)) ∧ Directory w9 [4096]) ∧
    (mm_malloc 1 w0 (2 ^ 64 - 16) = .ok (wclob1, 4128) ∧ wclob1.calls = [16] ∧
      wclob1.head = 4096 ∧ wclob1.tail = 4096 ∧ wclob1.brk = 4112 ∧ ¬ WellFormed wclob1 ∧
      mm_malloc 2 wclob1 10 = .ok (wclob2, 4144) ∧ (4144 : Nat) ≠ 0 ∧
      wclob2.calls = wclob1.calls ++ [42] ∧ get_free wclob2.mem (4144 - BLOCK_SIZE) = 0 ∧
      get_size wclob2.mem (4144 - BLOCK_SIZE) = 4112 ∧
      ¬ (get_size wclob2.mem (4144 - BLOCK_SIZE) ≤ 10 + BLOCK_SIZE)) :=
  ⟨⟨w8_reach, w8_dir, by with_unfolding_all decide, by with_unfolding_all rfl,
      by with_unfolding_all decide, by with_unfolding_all decide, by with_unfolding_all decide,
      by with_unfolding_all decide, by with_unfolding_all decide,
      by with_unfolding_all decide⟩,
    ⟨by with_unfolding_all rfl, by with_unfolding_all decide, by with_unfolding_all decide,
      by with_unfolding_all decide, by with_unfolding_all decide,
      fun ⟨bs, hr⟩ => by
        have hB : BLOCK_SIZE = 32 := rfl
        have hh : wclob1.head = 4096 := by with_unfolding_all decide
        have hb : wclob1.brk = 4112 := by with_unfolding_all decide
        cases bs with
        | nil => exact absurd (hr.2.2.1 rfl) (by rw [hh]; decide)
        | cons b l =>
          have h := (hr.2.2.2.1 (List.cons_ne_nil b l)).2
          rw [hh, hb] at h
          simp only [span] at h
          omega,
      by with_unfolding_all rfl, by decide, by with_unfolding_all decide,
      by with_unfolding_all decide, by with_unfolding_all decide,
      by with_unfolding_all decide⟩⟩

theorem C23_bounded_fragmentation_witness :
    WellFormed w3 ∧ mm_malloc 2 w3 16 = .ok (w4, 4128) ∧ w4.calls = w3.calls ∧
      16 + BLOCK_SIZE < get_size w3.mem (4128 - BLOCK_SIZE) ∧
      get_free w4.mem (4128 - BLOCK_SIZE) = 0 ∧ get_size w4.mem (4128 - BLOCK_SIZE) = 16 :=
  have h := (C23_bounded_fragmentation w3 (Reachable_WellFormed w3 w3_reach) 16
    (by with_unfolding_all decide)
    (by with_unfolding_all decide)).2 2 w4 4128 w4_ok (by with_unfolding_all decide)
  ⟨Reachable_WellFormed w3 w3_reach, w4_ok, by with_unfolding_all decide,
    by with_unfolding_all decide, h.1,
    h.2.2.2.2.1 (by with_unfolding_all decide) (by with_unfolding_all decide)⟩

theorem full_coalescing_example :
    Reachable w8 ∧ Directory w8 [4096] ∧ (∀ p, ¬ Live w8 p) ∧ w8.tail = w8.head ∧
      is_free w8.mem w8.head ∧ get_size w8.mem w8.head = w8.brk - w8.head - BLOCK_SIZE :=
  have hno : ∀ p, ¬ Live w8 p := fun p hp => by
    obtain ⟨l, hl, b, hb, _, hf⟩ := hp
    rw [Chain_unique _ _ _ _ hl w8_dir, List.mem_singleton] at hb
    subst hb
    exact absurd hf (by with_unfolding_all decide)
  have h := full_coalescing w8 w8_reach [4096] w8_dir (by simp) hno
  ⟨w8_reach, w8_dir, hno, h.2.1, h.2.2.1, h.2.2.2.2⟩

theorem no_empty_blocks_example :
    Reachable w3 ∧ (∀ b ∈ [4096, 4228], 1 ≤ get_size w3.mem b) ∧
      mm_malloc 2 w3 16 = .ok (w4, 4128) ∧ is_free w4.mem (4128 + 16) ∧
      get_size w4.mem (4128 + 16) = get_size w3.mem (4128 - BLOCK_SIZE) - 16 - BLOCK_SIZE ∧
      1 ≤ get_size w4.mem (4128 + 16) :=
  have h := no_empty_blocks w3 w3_reach
  have h2 := (h.2 2 16 w4 4128 (by with_unfolding_all decide) (by with_unfolding_all decide)
    w4_ok (by with_unfolding_all decide) (by with_unfolding_all decide)).1
    (by with_unfolding_all decide)
  ⟨w3_reach, h.1 [4096, 4228] w3_dir, w4_ok, h2.2.1, h2.2.2.1, h2.2.2.2.1⟩

theorem in_place_resize_example :
    Reachable w6 ∧ Live w6 4128 ∧ ¬ prevFree w6 (4128 - BLOCK_SIZE) ∧
      16 ≤ get_size w6.mem (4128 - BLOCK_SIZE) ∧ w6.mem (4128 + 2) = 7 ∧
      ∃ s1, mm_realloc 1 w6 4128 16 = .ok (s1, 4128) ∧ Live s1 4128 ∧ s1.mem (4128 + 2) = 7 := by
  have h := in_place_resize w6 w6_reach 4128 w6_live [4096, 4228] [] [4228]
    (by with_unfolding_all decide) (by with_unfolding_all rfl) 16
    (by with_unfolding_all decide) (by with_unfolding_all decide)
    (fun hp => absurd hp.1 (by with_unfolding_all decide))
    (fun c hc => absurd hc (List.not_mem_nil c))
  obtain ⟨s1, h1⟩ := h.1 1 (by with_unfolding_all decide)
  have h6 : w6.mem (4128 + 2) = 7 := by with_unfolding_all decide
  obtain ⟨_, a2, a3, _⟩ := h.2 1 s1 4128 h1
  exact ⟨w6_reach, w6_live, fun hp => absurd hp.1 (by with_unfolding_all decide),
    by with_unfolding_all decide, h6, s1, h1, a2,
    (a3 2 (by with_unfolding_all decide)).trans h6⟩

/-! ### Runs through a request whose byte count exceeds `INTPTR_MAX`

`mm_malloc` accepts every non-zero `size_t` and hands `BLOCK_SIZE + size` to
`sbrk` unchecked. From `2 ^ 63 - 32` on the byte count is a negative `intptr_t`
and `sbrk` lowers the break; from `2 ^ 64 - 32` on it has wrapped to less than
`BLOCK_SIZE`. Either way the block recorded at the old break is not backed by
the heap, and the next growth places a header over earlier blocks. -/

theorem wneg1_ok : mm_malloc 3 w2 (2 ^ 64 - 100) = .ok (wneg1, 4342) := by
  with_unfolding_all rfl
theorem wneg2_ok : mm_malloc 4 wneg1 10 = .ok (wneg2, 4274) := by with_unfolding_all rfl
theorem wneg2_dir : Directory wneg2 [4096, 4228] := by with_unfolding_all decide
theorem wneg5_ok : mm_realloc 3 wneg2 4342 5 = .ok (wneg5, 4316) := by with_unfolding_all rfl
theorem wr2_ok : mm_malloc 2 wr1 (2 ^ 64 - 1) = .ok (wr2, 4260) := by with_unfolding_all rfl

/-- C2, evaluated at the failing input: in the state `wneg1`, reached from the
empty directory by `mm_malloc(100)`, `mm_malloc(50)`, `mm_malloc(2 ^ 64 - 100)`,
the pointer 4260 is live and its block of 50 bytes has the payload
`[4260, 4310)`. The break is at 4242, so `mm_malloc(10)` places its block there
and returns 4274, a pointer inside that payload: the payload bytes 4266 and
4267 change from 0 to 214 and 16 (the new header's `prev` field), and the `next`
field of the live block changes from 4310 to 0. The live block is not kept. -/
theorem C2_growth_overwrites_live_payload :
    mm_malloc 1 w0 100 = .ok (w1, 4128) ∧ mm_malloc 2 w1 50 = .ok (w2, 4260) ∧
      mm_malloc 3 w2 (2 ^ 64 - 100) = .ok (wneg1, 4342) ∧ wneg1.brk = 4242 ∧
      Live wneg1 4260 ∧ get_size wneg1.mem (4260 - BLOCK_SIZE) = 50 ∧
      mm_malloc 4 wneg1 10 = .ok (wneg2, 4274) ∧ 4260 ≤ 4274 ∧ 4274 < 4260 + 50 ∧
      wneg1.mem 4266 = 0 ∧ wneg2.mem 4266 = 214 ∧ wneg1.mem 4267 = 0 ∧ wneg2.mem 4267 = 16 ∧
      get_next wneg1.mem (4260 - BLOCK_SIZE) = 4310 ∧
      get_next wneg2.mem (4260 - BLOCK_SIZE) = 0 ∧ ¬ Kept wneg1 wneg2 4260 :=
  ⟨w1_ok, w2_ok, wneg1_ok, by with_unfolding_all decide,
    ⟨[4096, 4228, 4310], by with_unfolding_all decide, 4228, by with_unfolding_all decide,
      by with_unfolding_all rfl, by with_unfolding_all decide⟩,
    by with_unfolding_all decide, wneg2_ok, by decide, by decide,
    by with_unfolding_all decide, by with_unfolding_all decide, by with_unfolding_all decide,
    by with_unfolding_all decide, by with_unfolding_all decide, by with_unfolding_all decide,
    fun h => absurd (h.2.2.2 4266 (by decide) (by with_unfolding_all decide))
      (by with_unfolding_all decide)⟩

/-- C4, evaluated at the failing input: from the empty directory,
`mm_malloc(2 ^ 64 - 1)` and `mm_malloc(10)` call `sbrk 31` and `sbrk 42`; each
call returns the previous break and extends it by exactly the count it
received. The first block, at `head = 4096`, is recorded with size
`2 ^ 64 - 1`; the second lies at 4127, inside the 32 bytes of the first header,
not at `4096 + BLOCK_SIZE + (2 ^ 64 - 1)`, and its size field has overwritten
the last byte of `head->prev`, which is no longer null. The structure
invariant does not hold. -/
theorem C4_header_overlaps_head :
    mm_malloc 1 w0 (2 ^ 64 - 1) = .ok (wmax, 4128) ∧
      (sbrk w0 ((BLOCK_SIZE + (2 ^ 64 - 1)) % WORD)).2 = w0.brk ∧ wmax.calls = [31] ∧
      wmax.brk = w0.brk + 31 ∧ get_prev wmax.mem wmax.head = 0 ∧
      mm_malloc 2 wmax 10 = .ok (wmax2, 4159) ∧
      (sbrk wmax ((BLOCK_SIZE + 10) % WORD)).2 = wmax.brk ∧ wmax2.calls = [31, 42] ∧
      wmax2.brk = wmax.brk + 42 ∧
      wmax2.head = 4096 ∧ wmax2.tail = 4127 ∧ Directory wmax2 [4096, 4127] ∧
      get_size wmax2.mem 4096 = 2 ^ 64 - 1 ∧ get_next wmax2.mem 4096 = 4127 ∧
      get_next wmax2.mem 4096 ≠ 4096 + BLOCK_SIZE + get_size wmax2.mem 4096 ∧
      get_next wmax2.mem 4096 < 4096 + BLOCK_SIZE ∧
      get_prev wmax2.mem wmax2.head = 10 * 2 ^ 56 ∧ get_prev wmax2.mem wmax2.head ≠ 0 ∧
      ¬ DirectoryInvariant wmax2 :=
  ⟨by with_unfolding_all rfl, by with_unfolding_all decide, by with_unfolding_all decide,
    by with_unfolding_all decide, by with_unfolding_all decide, by with_unfolding_all rfl,
    by with_unfolding_all decide, by with_unfolding_all decide, by with_unfolding_all decide,
    by with_unfolding_all decide, by with_unfolding_all decide, by with_unfolding_all decide,
    by with_unfolding_all decide, by with_unfolding_all decide, by with_unfolding_all decide,
    by with_unfolding_all decide, by with_unfolding_all decide, by with_unfolding_all decide,
    fun ⟨_, _, _, _, hprev, _⟩ =>
      absurd (hprev (by with_unfolding_all decide)) (by with_unfolding_all decide)⟩

/-- C5, evaluated at the failing input: no byte count wraps in the calls
`mm_malloc(100)`, `mm_malloc(50)`, `mm_malloc(2 ^ 64 - 100)`, `mm_malloc(10)`
made from the empty directory. The third is served by growth: it adds
`BLOCK_SIZE + size = 2 ^ 64 - 68` to the sum of the footprints, which becomes
`2 ^ 64 + 146`, and lowers the break by 68, from 4310 to 4242, so that
`brk - head` is 146. After the fourth the directory is `[4096, 4228]` with
footprints `132 + 82 = 214`, and `brk - head` is 188. -/
theorem C5_footprint_differs_from_heap_extent :
    mm_malloc 1 w0 100 = .ok (w1, 4128) ∧ mm_malloc 2 w1 50 = .ok (w2, 4260) ∧
      BLOCK_SIZE + (2 ^ 64 - 100) < WORD ∧
      Directory w2 [4096, 4228] ∧ footprint w2 [4096, 4228] = 214 ∧ w2.brk - w2.head = 214 ∧
      mm_malloc 3 w2 (2 ^ 64 - 100) = .ok (wneg1, 4342) ∧
      wneg1.calls = w2.calls ++ [BLOCK_SIZE + (2 ^ 64 - 100)] ∧
      Directory wneg1 [4096, 4228, 4310] ∧
      footprint wneg1 [4096, 4228, 4310] = 214 + (BLOCK_SIZE + (2 ^ 64 - 100)) ∧
      w2.brk = 4310 ∧ wneg1.brk = 4242 ∧ wneg1.brk - wneg1.head = 146 ∧
      mm_malloc 4 wneg1 10 = .ok (wneg2, 4274) ∧ Directory wneg2 [4096, 4228] ∧
      footprint wneg2 [4096, 4228] = 214 ∧ wneg2.brk - wneg2.head = 188 :=
  ⟨w1_ok, w2_ok, by with_unfolding_all decide, w2_dir, by with_unfolding_all decide,
    by with_unfolding_all decide, wneg1_ok, by with_unfolding_all decide,
    by with_unfolding_all decide, by with_unfolding_all decide, by with_unfolding_all decide,
    by with_unfolding_all decide, by with_unfolding_all decide, wneg2_ok, wneg2_dir,
    by with_unfolding_all decide, by with_unfolding_all decide⟩

/-- C9, evaluated at the failing input: in the state `wr2`, reached from the
empty directory by `mm_malloc(100)`, `mm_free(4128)`, `mm_malloc(2 ^ 64 - 1)`,
the pointer 4260 is live; its block at 4228 has size `s = 2 ^ 64 - 1`, no next
and the free predecessor at 4096 of 100 bytes. After `mm_free(4260)` the
surviving block at 4096 has size 131, not `s + 100 + BLOCK_SIZE`: the sum
wrapped. The survivor ends at 4259, below the released payload at 4260, so the
bytes of the released block do not lie in it. -/
theorem C9_merged_size_wraps :
    mm_malloc 1 w0 100 = .ok (w1, 4128) ∧ wr1 = mm_free w1 4128 ∧
      mm_malloc 2 wr1 (2 ^ 64 - 1) = .ok (wr2, 4260) ∧ Live wr2 4260 ∧
      get_size wr2.mem (4260 - BLOCK_SIZE) = 2 ^ 64 - 1 ∧
      ¬ nextFree wr2 (4260 - BLOCK_SIZE) ∧ prevFree wr2 (4260 - BLOCK_SIZE) ∧
      survivor wr2 (4260 - BLOCK_SIZE) = 4096 ∧ get_size wr2.mem 4096 = 100 ∧
      mergedSize wr2 (4260 - BLOCK_SIZE) = (2 ^ 64 - 1) + (100 + BLOCK_SIZE) ∧
      Directory (mm_free wr2 4260) [4096] ∧ is_free (mm_free wr2 4260).mem 4096 ∧
      get_size (mm_free wr2 4260).mem 4096 = 131 ∧
      get_size (mm_free wr2 4260).mem (survivor wr2 (4260 - BLOCK_SIZE)) ≠
        mergedSize wr2 (4260 - BLOCK_SIZE) ∧
      4096 + BLOCK_SIZE + get_size (mm_free wr2 4260).mem 4096 ≤ 4260 :=
  ⟨w1_ok, rfl, wr2_ok,
    ⟨[4096, 4228], by with_unfolding_all decide, 4228, by with_unfolding_all decide,
      by with_unfolding_all rfl, by with_unfolding_all decide⟩,
    by with_unfolding_all decide, by with_unfolding_all decide, by with_unfolding_all decide,
    by with_unfolding_all decide, by with_unfolding_all decide, by with_unfolding_all decide,
    by with_unfolding_all decide, by with_unfolding_all decide, by with_unfolding_all decide,
    by with_unfolding_all decide, by with_unfolding_all decide⟩

/-- C13, evaluated at the failing input: in the state `wcopy2`, reached from
the empty directory by `mm_malloc(8)` and `mm_malloc(2 ^ 64 - 24)` (for which
`sbrk` receives the wrapped count 8 and leaves the break at 4144, 8 bytes above
the new `tail` at 4136), the pointer 4128 is live with a block of 8 bytes. The
inner request of `mm_realloc(4128, 20)` succeeds by growth with a block at 4144,
and the write `tail->next = new_block` lands on the `free` field of that block.
`mm_realloc` returns 4176, but the block behind it is marked free
(`free = 4144`), not used. -/
theorem C13_resized_block_marked_free :
    mm_malloc 1 w0 8 = .ok (wcopy1, 4128) ∧
      mm_malloc 2 wcopy1 (2 ^ 64 - 24) = .ok (wcopy2, 4168) ∧
      wcopy2.calls = [40, 8] ∧ wcopy2.tail = 4136 ∧ wcopy2.brk = 4144 ∧
      Live wcopy2 4128 ∧ get_size wcopy2.mem (4128 - BLOCK_SIZE) = 8 ∧
      (∃ s2, mm_malloc 3 (mm_free wcopy2 4128) 20 = .ok (s2, 4176)) ∧ (4176 : Nat) ≠ 0 ∧
      mm_realloc 3 wcopy2 4128 20 = .ok (wcopy3, 4176) ∧
      get_free wcopy3.mem (4176 - BLOCK_SIZE) = 4144 ∧ is_free wcopy3.mem (4176 - BLOCK_SIZE) ∧
      ¬ Live wcopy3 4176 :=
  ⟨by with_unfolding_all rfl, by with_unfolding_all rfl, by with_unfolding_all decide,
    by with_unfolding_all decide, by with_unfolding_all decide,
    ⟨[4096, 4136], by with_unfolding_all decide, 4096, by with_unfolding_all decide,
      by with_unfolding_all rfl, by with_unfolding_all decide⟩,
    by with_unfolding_all decide, ⟨_, by with_unfolding_all rfl⟩, by decide,
    by with_unfolding_all rfl, by with_unfolding_all decide, by with_unfolding_all decide,
    fun ⟨_, _, b, _, e, hf⟩ => by
      have hB : BLOCK_SIZE = 32 := rfl
      have eb : b = 4144 := by omega
      subst eb
      exact absurd hf (by with_unfolding_all decide)⟩

/-- C18, evaluated at the failing input: in the state `wneg2`, reached from the
empty directory by `mm_malloc(100)`, `mm_malloc(50)`, `mm_malloc(2 ^ 64 - 100)`
and `mm_malloc(10)`, the pointer 4342 returned by the third call has not been
released. `mm_free(4342)` leaves its block at 4310 free with `2 ^ 64 - 100`
bytes, without a free neighbour to merge. The request `new_size = 5` is not
larger, yet `mm_realloc(4342, 5)` calls `sbrk 37` and the break moves from 4284
to 4321: the chain from `head` ends at 4228, so the scan never reaches the
released block. -/
theorem C18_realloc_grows_despite_free_block :
    mm_malloc 1 w0 100 = .ok (w1, 4128) ∧ mm_malloc 2 w1 50 = .ok (w2, 4260) ∧
      mm_malloc 3 w2 (2 ^ 64 - 100) = .ok (wneg1, 4342) ∧
      mm_malloc 4 wneg1 10 = .ok (wneg2, 4274) ∧
      get_free wneg2.mem (4342 - BLOCK_SIZE) = 0 ∧
      ¬ nextFree wneg2 (4342 - BLOCK_SIZE) ∧ ¬ prevFree wneg2 (4342 - BLOCK_SIZE) ∧
      mergedSize wneg2 (4342 - BLOCK_SIZE) = 2 ^ 64 - 100 ∧
      is_free (mm_free wneg2 4342).mem (4342 - BLOCK_SIZE) ∧
      get_size (mm_free wneg2 4342).mem (4342 - BLOCK_SIZE) = 2 ^ 64 - 100 ∧
      5 ≤ 2 ^ 64 - 100 ∧ Directory (mm_free wneg2 4342) [4096, 4228] ∧
      mm_realloc 3 wneg2 4342 5 = .ok (wneg5, 4316) ∧
      wneg5.calls = wneg2.calls ++ [37] ∧ wneg2.brk = 4284 ∧ wneg5.brk = 4321 :=
  ⟨w1_ok, w2_ok, wneg1_ok, wneg2_ok, by with_unfolding_all decide,
    by with_unfolding_all decide, by with_unfolding_all decide, by with_unfolding_all decide,
    by with_unfolding_all decide, by with_unfolding_all decide, by decide,
    by with_unfolding_all decide, wneg5_ok, by with_unfolding_all decide,
    by with_unfolding_all decide, by with_unfolding_all decide⟩

/-- C22, evaluated at the failing input: in the state `wpay`, reached from the
empty directory by `mm_malloc(100)`, `mm_free(4128)`, `mm_malloc(2 ^ 64 - 1)`
and the caller's write of the byte 7 at the returned pointer 4260, the block at
4228 has size `2 ^ 64 - 1` and a free predecessor at 4096 of 100 bytes.
`mm_free(4260)` merges it into that predecessor, `append(4096, 4228)`, and
clears `(BLOCK_SIZE + size) mod 2 ^ 64 = 31` bytes from 4228 on: the payload
byte at 4260 is still 7, and the last byte of the header, at 4259, was not
written. The predecessor's size is 131, not `100 + (2 ^ 64 - 1) + BLOCK_SIZE`. -/
theorem C22_absorbed_payload_not_cleared :
    mm_malloc 1 w0 100 = .ok (w1, 4128) ∧ wr1 = mm_free w1 4128 ∧
      mm_malloc 2 wr1 (2 ^ 64 - 1) = .ok (wr2, 4260) ∧ wpay = poke wr2 4260 7 ∧
      Live wpay 4260 ∧
      get_size wpay.mem (4260 - BLOCK_SIZE) = 2 ^ 64 - 1 ∧ wpay.mem 4260 = 7 ∧
      ¬ nextFree wpay (4260 - BLOCK_SIZE) ∧ prevFree wpay (4260 - BLOCK_SIZE) ∧
      get_prev wpay.mem (4260 - BLOCK_SIZE) = 4096 ∧ get_size wpay.mem 4096 = 100 ∧
      mm_free wpay 4260 = append (mm_free_step1 wpay 4260) 4096 (4260 - BLOCK_SIZE) ∧
      (BLOCK_SIZE + get_size (mm_free_step1 wpay 4260).mem (4260 - BLOCK_SIZE)) % WORD = 31 ∧
      (mm_free wpay 4260).mem 4260 = 7 ∧ 4260 - BLOCK_SIZE ≤ 4260 ∧
      4260 < 4260 - BLOCK_SIZE + BLOCK_SIZE +
        get_size (mm_free_step1 wpay 4260).mem (4260 - BLOCK_SIZE) ∧
      get_size (mm_free wpay 4260).mem 4096 = 131 ∧
      get_size (mm_free wpay 4260).mem 4096 ≠
        get_size wpay.mem 4096 +
          get_size (mm_free_step1 wpay 4260).mem (4260 - BLOCK_SIZE) + BLOCK_SIZE :=
  ⟨w1_ok, rfl, wr2_ok, rfl,
    ⟨[4096, 4228], by with_unfolding_all decide, 4228, by with_unfolding_all decide,
      by with_unfolding_all rfl, by with_unfolding_all decide⟩,
    by with_unfolding_all decide, by with_unfolding_all decide,
    by with_unfolding_all decide, by with_unfolding_all decide, by with_unfolding_all decide,
    by with_unfolding_all decide, by with_unfolding_all rfl, by with_unfolding_all decide,
    by with_unfolding_all decide, by with_unfolding_all decide, by with_unfolding_all decide,
    by with_unfolding_all decide, by with_unfolding_all decide⟩

/-- C24, evaluated at two failing inputs. First: from the empty directory,
after `mm_malloc(2 ^ 64 - 1)` and `mm_free(4128)` no pointer is live and the
directory is the single free block at `head = tail = 4096`; its size is
`2 ^ 64 - 1`, while the break is 4127, so that `brk - head - BLOCK_SIZE` is
negative: the header does not even end below the break. Second: from the empty
directory, after `mm_malloc(2 ^ 64 - 16)`, `mm_malloc(10)`, `mm_free(4144)` and
`mm_free(4128)` no pointer is live and the directory is the single free block at
4096; its size is 16, while the break is 4154 and `brk - head - BLOCK_SIZE` is
26. -/
theorem C24_single_block_size_mismatch :
    (mm_malloc 1 w0 (2 ^ 64 - 1) = .ok (wmax, 4128) ∧ wmaxf = mm_free wmax 4128 ∧
      Directory wmaxf [4096] ∧ (∀ p, ¬ Live wmaxf p) ∧ wmaxf.head = 4096 ∧
      wmaxf.tail = wmaxf.head ∧ is_free wmaxf.mem wmaxf.head ∧
      get_size wmaxf.mem wmaxf.head = 2 ^ 64 - 1 ∧ wmaxf.brk = 4127 ∧
      ¬ (wmaxf.head + BLOCK_SIZE ≤ wmaxf.brk) ∧
      get_size wmaxf.mem wmaxf.head ≠ wmaxf.brk - wmaxf.head - BLOCK_SIZE) ∧
    (mm_malloc 1 w0 (2 ^ 64 - 16) = .ok (wclob1, 4128) ∧
      mm_malloc 2 wclob1 10 = .ok (wclob2, 4144) ∧
      wclob3 = mm_free (mm_free wclob2 4144) 4128 ∧
      Directory wclob3 [4096] ∧ (∀ p, ¬ Live wclob3 p) ∧ wclob3.head = 4096 ∧
      wclob3.tail = wclob3.head ∧ is_free wclob3.mem wclob3.head ∧
      get_size wclob3.mem wclob3.head = 16 ∧ wclob3.brk = 4154 ∧
      wclob3.brk - wclob3.head - BLOCK_SIZE = 26) :=
  have d1 : Directory wmaxf [4096] := by with_unfolding_all decide
  have d2 : Directory wclob3 [4096] := by with_unfolding_all decide
  ⟨⟨by with_unfolding_all rfl, rfl, d1,
      fun p ⟨l, hl, b, hb, _, hf⟩ => by
        rw [Chain_unique _ _ _ _ hl d1, List.mem_singleton] at hb
        subst hb
        exact absurd hf (by with_unfolding_all decide),
      by with_unfolding_all decide, by with_unfolding_all decide, by with_unfolding_all decide,
      by with_unfolding_all decide, by with_unfolding_all decide, by with_unfolding_all decide,
      by with_unfolding_all decide⟩,
    ⟨by with_unfolding_all rfl, by with_unfolding_all rfl, rfl, d2,
      fun p ⟨l, hl, b, hb, _, hf⟩ => by
        rw [Chain_unique _ _ _ _ hl d2, List.mem_singleton] at hb
        subst hb
        exact absurd hf (by with_unfolding_all decide),
      by with_unfolding_all decide, by with_unfolding_all decide, by with_unfolding_all decide,
      by with_unfolding_all decide, by with_unfolding_all decide,
      by with_unfolding_all decide⟩⟩

/-- C25, evaluated at the failing input: from the empty directory, after
`mm_malloc(100)`, `mm_malloc(50)` and `mm_malloc(2 ^ 64 - 130)`, which hands
`-98` to `sbrk`, the break is at 4212. `mm_malloc(10)` writes its header at
`[4212, 4244)`: its `next` field, `NULL`, is the size field of the block at
4228. The directory is then `[4096, 4228, 4310, 4212]` and its block at 4228,
of 50 bytes before the call, has size 0. -/
theorem C25_empty_block_in_directory :
    mm_malloc 1 w0 100 = .ok (w1, 4128) ∧ mm_malloc 2 w1 50 = .ok (w2, 4260) ∧
      BLOCK_SIZE + (2 ^ 64 - 130) < WORD ∧
      mm_malloc 3 w2 (2 ^ 64 - 130) = .ok (wzero1, 4342) ∧
      wzero1.calls = w2.calls ++ [2 ^ 64 - 98] ∧ wzero1.brk = 4212 ∧
      get_size wzero1.mem 4228 = 50 ∧
      mm_malloc 4 wzero1 10 = .ok (wzero2, 4244) ∧
      Directory wzero2 [4096, 4228, 4310, 4212] ∧ get_size wzero2.mem 4228 = 0 ∧
      ¬ (∀ l, Directory wzero2 l → ∀ b ∈ l, 1 ≤ get_size wzero2.mem b) :=
  have d : Directory wzero2 [4096, 4228, 4310, 4212] := by with_unfolding_all decide
  ⟨w1_ok, w2_ok, by with_unfolding_all decide, by with_unfolding_all rfl,
    by with_unfolding_all decide, by with_unfolding_all decide, by with_unfolding_all decide,
    by with_unfolding_all rfl, d, by with_unfolding_all decide,
    fun h => absurd (h _ d 4228 (by simp)) (by with_unfolding_all decide)⟩

/-- C26, evaluated at the failing input: in the state `wneg2`, reached from the
empty directory by `mm_malloc(100)`, `mm_malloc(50)`, `mm_malloc(2 ^ 64 - 100)`
and `mm_malloc(10)`, the pointer 4342 returned by the third call has not been
released; its block `B` at 4310 has `old_size = 2 ^ 64 - 100`, its `prev` is the
used block at 4228, and the blocks at the lower addresses 4096, 4228 and 4242
are all in use. With `0 < 5 ≤ old_size`, `mm_realloc(4342, 5)` returns 4316, not
4342: the released block is never found by the scan, and the data is moved to
a new block obtained from `sbrk`. -/
theorem C26_realloc_moves_block :
    mm_malloc 1 w0 100 = .ok (w1, 4128) ∧ mm_malloc 2 w1 50 = .ok (w2, 4260) ∧
      mm_malloc 3 w2 (2 ^ 64 - 100) = .ok (wneg1, 4342) ∧
      mm_malloc 4 wneg1 10 = .ok (wneg2, 4274) ∧
      get_free wneg2.mem (4342 - BLOCK_SIZE) = 0 ∧
      get_size wneg2.mem (4342 - BLOCK_SIZE) = 2 ^ 64 - 100 ∧ 0 < 5 ∧
      5 ≤ get_size wneg2.mem (4342 - BLOCK_SIZE) ∧
      get_prev wneg2.mem (4342 - BLOCK_SIZE) = 4228 ∧ ¬ prevFree wneg2 (4342 - BLOCK_SIZE) ∧
      (∀ c ∈ [4096, 4228, 4242], ¬ fits wneg2.mem 5 c) ∧
      mm_realloc 3 wneg2 4342 5 = .ok (wneg5, 4316) ∧ (4316 : Nat) ≠ 4342 ∧
      wneg5.calls ≠ wneg2.calls :=
  ⟨w1_ok, w2_ok, wneg1_ok, wneg2_ok, by with_unfolding_all decide,
    by with_unfolding_all decide, by decide, by with_unfolding_all decide,
    by with_unfolding_all decide, by with_unfolding_all decide,
    by with_unfolding_all decide, wneg5_ok, by decide, by with_unfolding_all decide⟩

end MM
